import Mathlib

/-!
# rlite B-tree (src/src/btree.c): shallow embedding

Nodes live in an accessor table and are addressed by integer ids.  A C node
pointer is represented by the id under which the accessor holds the node, a
NULL pointer by `none`.  Scores and values are `long` payloads (`Int`): a slot
of `scores` or `values` is identified with the payload it points to, and the
payloads that `rl_btree_node_destroy` hands to `free` are recorded in the tree.
Arrays (`scores`, `values`, `children`, the path vectors) are index functions;
a `memmove` copies an index range.  Every `malloc` is taken to succeed.
-/

namespace Rlite

/-! ## Return codes, type descriptors, nodes, trees -/

/-- Return codes of rlite.h.  The header is not part of the sources, so the
codes are kept symbolic; `literal n` is a numeric literal assigned to `retval`
in the code (`retval = 1`). -/
inductive rl_retval where
  | RL_OK
  | RL_FOUND
  | RL_NOT_FOUND
  | RL_OUT_OF_MEMORY
  | RL_INVALID_PARAMETERS
  | RL_INVALID_STATE
  | RL_MALFORMED
  | literal (n : Int)
deriving DecidableEq, Repr

open rl_retval

/-- The two sizes of a type descriptor (`rl_btree_type`); the comparator of
both provided descriptors is `long_cmp`. -/
structure rl_btree_type where
  score_size : Nat
  value_size : Nat
deriving DecidableEq, Repr

/-- `init_long_set`: 8-byte scores, no values. -/
def long_set : rl_btree_type := { score_size := 8, value_size := 0 }

/-- `init_long_hash`: 8-byte scores, pointer-sized values. -/
def long_hash : rl_btree_type := { score_size := 8, value_size := 8 }

/-- `long_cmp`: 0 when equal, 1 when the first is larger, -1 otherwise. -/
def long_cmp (a b : Int) : Int :=
  if a = b then 0 else if a > b then 1 else -1

/-- `rl_btree_node`: `values` and `children` are `none` when the C pointer is NULL. -/
structure rl_btree_node where
  size : Nat
  scores : Nat → Int
  values : Option (Nat → Int)
  children : Option (Nat → Nat)

/-- `rl_btree` together with the table of its memory accessor and with
`freed`, the payloads that `rl_btree_node_destroy` has handed to `free` so far,
in the order of the calls.  A slot of a live node that holds one of them is a
dangling pointer. -/
structure rl_btree where
  type : rl_btree_type
  max_node_size : Nat
  height : Nat
  root : Nat
  accessor : List (Option rl_btree_node)
  freed : List Int := []

/-! ## Arrays -/

/-- Assignment `a[i] = v`. -/
def aset {α : Type} (a : Nat → α) (i : Nat) (v : α) : Nat → α :=
  fun j => if j = i then v else a j

/-- `memmove_dbg(&dest[d], &src[s], n elements)`.  util.h is not part of the
sources; the call is taken as `memmove`: the `n` slots of `dest` from `d` receive
the slots of `src` from `s`, as they were before the call. -/
def memmove_dbg {α : Type} (dest : Nat → α) (d : Nat) (src : Nat → α) (s : Nat) (n : Nat) :
    Nat → α :=
  fun j => if d ≤ j ∧ j < d + n then src (j - d + s) else dest j

/-- The first `n` slots of an array, as a list. -/
def live {α : Type} (a : Nat → α) (n : Nat) : List α :=
  (List.range n).map a

/-! ## Memory accessor -/

/-- Modelled from the spec: the memory accessor of section 4.3, whose code is not
part of the sources.  It keeps a table from ids to nodes and hands out ids
monotonically; slot 0 stays unused because id 0 is reserved. -/
def memory_accessor : List (Option rl_btree_node) := [none]

/-- Modelled from the spec: `accessor->select`, the live node registered under
`id`, or `none` when no node is registered under it. -/
def select (bt : rl_btree) (id : Nat) : Option rl_btree_node :=
  (bt.accessor.get? id).join

/-- Modelled from the spec: `accessor->insert`, which registers a node under a
newly minted id and reports that id. -/
def insert (bt : rl_btree) (node : rl_btree_node) : Nat × rl_btree :=
  (bt.accessor.length, { bt with accessor := bt.accessor ++ [some node] })

/-- Modelled from the spec: `accessor->remove`, which unregisters the node. -/
def remove (bt : rl_btree) (id : Nat) : rl_btree :=
  { bt with accessor := bt.accessor.set id none }

/-- A write through a node pointer: the node registered under `id` takes the
new contents. -/
def store (bt : rl_btree) (id : Nat) (node : rl_btree_node) : rl_btree :=
  { bt with accessor := bt.accessor.set id (some node) }

/-- `rl_btree_node_destroy` (lines 230-250) for a node with `size` keys: `free`
is called on the payloads `scores[i]` and `values[i]`, `i < size`, of each of the
two arrays that is not NULL, then on the arrays and the node.  The payloads are
recorded in `freed`. -/
def rl_btree_node_destroy (bt : rl_btree) (size : Nat)
    (scores values : Option (Nat → Int)) : rl_btree :=
  { bt with
    freed := bt.freed ++
      (match scores with
       | some s => live s size
       | none => []) ++
      (match values with
       | some v => live v size
       | none => []) }

/-! ## Creation -/

/-- `rl_btree_node_create`: an empty node; `values` is allocated exactly when
the type has a value size; `children` is NULL. -/
def rl_btree_node_create (bt : rl_btree) : rl_btree_node :=
  { size := 0
    scores := fun _ => 0
    values := if bt.type.value_size ≠ 0 then some (fun _ => 0) else none
    children := none }

/-- `rl_btree_create`: height 1 and a root that is a fresh empty node
registered through `accessor->insert`. -/
def rl_btree_create (type : rl_btree_type) (max_node_size : Nat)
    (accessor : List (Option rl_btree_node)) : rl_btree :=
  let btree : rl_btree :=
    { type := type, max_node_size := max_node_size, height := 1, root := 0,
      accessor := accessor }
  let root := { rl_btree_node_create btree with size := 0 }
  let r := insert btree root
  { r.2 with root := r.1 }

/-! ## Search -/

/-- How the bisection loop of `rl_btree_find_score` ends: on a key that compares
equal (`hit`), or by leaving the loop with the final `pos` and `max` (`miss`). -/
inductive bisect_result where
  | hit (pos : Nat)
  | miss (pos : Int) (max : Int)
deriving DecidableEq, Repr

/-- The `while (min <= max)` loop of `rl_btree_find_score` (lines 322-356); the
first argument bounds the number of iterations, `none` when it is exhausted. -/
def bisect (score : Int) (scores : Nat → Int) :
    Nat → Int → Int → Int → Option bisect_result
  | 0, pos, min, max => if min ≤ max then none else some (bisect_result.miss pos max)
  | fuel + 1, pos, min, max =>
    if min ≤ max then
      let pos1 := (max - min) / 2 + min
      let cmp := long_cmp score (scores pos1.toNat)
      if cmp = 0 then some (bisect_result.hit pos1.toNat)
      else if cmp > 0 then
        if max = pos1 then some (bisect_result.miss (pos1 + 1) max)
        else if min = pos1 then bisect score scores fuel pos1 (min + 1) max
        else bisect score scores fuel pos1 pos1 max
      else
        if max = pos1 then some (bisect_result.miss pos1 max)
        else bisect score scores fuel pos1 min pos1
    else some (bisect_result.miss pos max)

/-- What `rl_btree_find_score` hands back: the return code, the value written
through `value` (`none` when nothing was written), and the two path vectors. -/
structure find_result where
  retval : rl_retval
  value : Option Int
  nodes : Option (Nat → Option Nat)
  positions : Option (Nat → Nat)

/-- The `for (i = 0; i < btree->height; i++)` loop of `rl_btree_find_score`,
with `n` levels still to visit, the current level `i` and the current node. -/
def find_levels (bt : rl_btree) (score : Int) (want_value : Bool) :
    Nat → Nat → Nat → Option (Nat → Option Nat) → Option (Nat → Nat) → Option find_result
  | 0, _, _, nodes, positions =>
    some { retval := RL_NOT_FOUND, value := none, nodes := nodes, positions := positions }
  | n + 1, i, node, nodes, positions =>
    match select bt node with
    | none => none
    | some nd =>
      let nodes1 := nodes.map (fun a => aset a i (some node))
      match bisect score nd.scores (nd.size + 1) 0 0 ((nd.size : Int) - 1) with
      | none => none
      | some (bisect_result.hit pos) =>
        some { retval := RL_FOUND
               value := if want_value then nd.values.map (fun v => v pos) else none
               nodes := nodes1.map (fun a => fun j => if i < j ∧ j < bt.height then none else a j)
               positions := if nodes.isSome then positions.map (fun a => aset a i pos)
                            else positions }
      | some (bisect_result.miss pos max) =>
        let pos1 := if positions.isSome ∧ pos = max ∧ long_cmp score (nd.scores pos.toNat) = 1
                    then pos + 1 else pos
        let positions1 := positions.map (fun a => aset a i pos1.toNat)
        let node1 := match nd.children with
                     | some ch => ch pos1.toNat
                     | none => node
        find_levels bt score want_value n (i + 1) node1 nodes1 positions1

/-- `rl_btree_find_score`.  `nodes` and `positions` are the caller's path
vectors (`none` for a NULL argument), `want_value` says whether `value` is
non-NULL. -/
def rl_btree_find_score (bt : rl_btree) (score : Int) (want_value : Bool)
    (nodes : Option (Nat → Option Nat)) (positions : Option (Nat → Nat)) :
    Option find_result :=
  if (nodes.isNone ∧ positions.isSome) ∨ (nodes.isSome ∧ positions.isNone) then
    some { retval := RL_INVALID_PARAMETERS, value := none, nodes := nodes,
           positions := positions }
  else find_levels bt score want_value bt.height 0 bt.root nodes positions

/-! ## Flatten -/

/-- `rl_flatten_btree_node`: the scores appended for the node with id `id`, in
order.  The recursion follows child ids; `fuel` bounds its depth and the result
is `none` when the bound is reached or a child id selects no node. -/
def rl_flatten_btree_node (bt : rl_btree) : Nat → Nat → Option (List Int)
  | 0, id =>
    match select bt id with
    | none => none
    | some node =>
      match node.children with
      | none => some (live node.scores node.size)
      | some _ => none
  | fuel + 1, id =>
    match select bt id with
    | none => none
    | some node =>
      match node.children with
      | none => some (live node.scores node.size)
      | some ch =>
        match rl_flatten_btree_node bt fuel (ch 0) with
        | none => none
        | some first =>
          match (List.range node.size).mapM (fun i =>
              (rl_flatten_btree_node bt fuel (ch (i + 1))).map
                (fun sub => node.scores i :: sub)) with
          | none => none
          | some rest => some (first ++ rest.flatten)

/-- `rl_flatten_btree`: flatten from the root. -/
def rl_flatten_btree (fuel : Nat) (bt : rl_btree) : Option (List Int) :=
  rl_flatten_btree_node bt fuel bt.root

/-! ## Insertion -/

/-- Lines 397-414 of `rl_btree_add_element`: the node has room.  Scores, values
and children from the position on shift right by one and the incoming triple
is stored.  `none` when a child is to be stored into a NULL `children`. -/
def add_into_node (node : rl_btree_node) (pos : Nat) (score value : Int)
    (child : Option Nat) : Option rl_btree_node :=
  let scores1 := memmove_dbg node.scores (pos + 1) node.scores pos (node.size - pos)
  let values1 := node.values.map (fun v => memmove_dbg v (pos + 1) v pos (node.size - pos))
  let children1 :=
    node.children.map (fun c => memmove_dbg c (pos + 2) c (pos + 1) (node.size - pos))
  let scores2 := aset scores1 pos score
  let values2 := values1.map (fun v => aset v pos value)
  match child with
  | none =>
    some { size := node.size + 1, scores := scores2, values := values2, children := children1 }
  | some c =>
    match children1 with
    | none => none
    | some ch =>
      some { size := node.size + 1, scores := scores2, values := values2,
             children := some (aset ch (pos + 1) c) }

/-- The three positional cases of the split (lines 434-484) on one key-like
array (`scores`, and `values` in the same way): `a` is the array of the full
node, `r` the array of the new right sibling, `x` the incoming entry.  Returns
the two arrays and the entry carried up.  The byte count
`sizeof(void *) * max_node_size / 2` is `max_node_size / 2` slots. -/
def split_keys {α : Type} (m pos : Nat) (a r : Nat → α) (x : α) :
    (Nat → α) × (Nat → α) × α :=
  if pos < m / 2 then
    let tmp := a (m / 2 - 1)
    let a1 := memmove_dbg a (pos + 1) a pos (m / 2 - 1 - pos)
    let a2 := aset a1 pos x
    (a2, memmove_dbg r 0 a2 (m / 2) (m / 2), tmp)
  else if pos = m / 2 then
    (a, memmove_dbg r 0 a (m / 2) (m / 2), x)
  else
    let tmp := a (m / 2)
    let r1 := memmove_dbg r 0 a (m / 2 + 1) (pos - m / 2 - 1)
    let r2 := aset r1 (pos - m / 2 - 1) x
    (a, memmove_dbg r2 (pos - m / 2) a pos (m - pos), tmp)

/-- The three positional cases of the split on the `children` arrays, run when
`child != -1`: `a` belongs to the full node, `r` to the new right sibling. -/
def split_children (m pos : Nat) (a r : Nat → Nat) (child : Nat) :
    (Nat → Nat) × (Nat → Nat) :=
  if pos < m / 2 then
    let r1 := memmove_dbg r 0 a (m / 2) (m / 2 + 1)
    let a1 := memmove_dbg a (pos + 2) a (pos + 1) (m / 2 - 1 - pos)
    (aset a1 (pos + 1) child, r1)
  else if pos = m / 2 then
    let r1 := memmove_dbg r 1 a (m / 2 + 1) (m / 2)
    (a, aset r1 0 child)
  else
    let r1 := memmove_dbg r 0 a (m / 2 + 1) (pos - m / 2)
    let r2 := aset r1 (pos - m / 2) child
    (a, memmove_dbg r2 (pos - m / 2 + 1) a (pos + 1) (m - pos))

/-- Lines 419-486: split of a full node.  `right` is the node just created.
Returns the shrunken node, the right sibling, and the score and value carried
up.  `none` where the code would read or write through a NULL array. -/
def add_split (m : Nat) (node right : rl_btree_node) (pos : Nat) (score value : Int)
    (child : Option Nat) : Option (rl_btree_node × rl_btree_node × Int × Int) :=
  let ch : Option (Option (Nat → Nat) × Option (Nat → Nat)) :=
    match child with
    | none => some (node.children, right.children)
    | some c =>
      match node.children, right.children with
      | some nc, some rc =>
        some (some (split_children m pos nc rc c).1, some (split_children m pos nc rc c).2)
      | _, _ => none
  let sc := split_keys m pos node.scores right.scores score
  let vl : Option (Option (Nat → Int) × Option (Nat → Int) × Int) :=
    match node.values with
    | none => some (none, right.values, value)
    | some nv =>
      match right.values with
      | none => none
      | some rv =>
        some (some (split_keys m pos nv rv value).1, some (split_keys m pos nv rv value).2.1,
              (split_keys m pos nv rv value).2.2)
  match ch, vl with
  | some (nc1, rc1), some (nv1, rv1, value1) =>
    some ({ size := m / 2, scores := sc.1, values := nv1, children := nc1 },
          { size := m / 2, scores := sc.2.1, values := rv1, children := rc1 },
          sc.2.2, value1)
  | _, _ => none

/-- The local variables of `rl_btree_add_element` that its main loop changes:
the tree, `score` (with `placed` set once the code assigns `score = NULL`),
`value`, `child` (`none` for -1) and `node`. -/
structure add_state where
  bt : rl_btree
  placed : Bool
  score : Int
  value : Int
  child : Option Nat
  node : Option Nat

/-- One iteration of the main loop of `rl_btree_add_element` (lines 395-488),
at level `i`. -/
def add_level (nodes : Nat → Option Nat) (positions : Nat → Nat) (i : Nat)
    (st : add_state) : Option add_state :=
  match nodes i with
  | none => none
  | some id =>
    match select st.bt id with
    | none => none
    | some node =>
      if node.size < st.bt.max_node_size then
        match add_into_node node (positions i) st.score st.value st.child with
        | none => none
        | some node1 =>
          some { st with bt := store st.bt id node1, placed := true, node := some id }
      else
        let right0 := rl_btree_node_create st.bt
        let right := { right0 with
          children := if st.child.isSome then some (fun _ => 0) else none }
        match add_split st.bt.max_node_size node right (positions i) st.score st.value
            st.child with
        | none => none
        | some (left, right1, score1, value1) =>
          let r := insert (store st.bt id left) right1
          some { bt := r.2, placed := false, score := score1, value := value1,
                 child := some r.1, node := some id }

/-- The main loop `for (i = btree->height - 1; i >= 0; i--)` of
`rl_btree_add_element`, over the levels `lo + n - 1` down to `lo`; it stops at
the `break`.  The code runs it with `lo = 0` and `n = height`. -/
def add_levels (nodes : Nat → Option Nat) (positions : Nat → Nat) (lo : Nat) :
    Nat → add_state → Option add_state
  | 0, st => some st
  | n + 1, st =>
    match add_level nodes positions (lo + n) st with
    | none => none
    | some st1 => if st1.placed then some st1 else add_levels nodes positions lo n st1

/-- The `long` -1, the initial value of `child`, as a `children` slot holds it:
read as an unsigned 64-bit word.  It is the id of no node. -/
def minus_one : Nat := 18446744073709551615

/-- Modelled from the spec: the id that `accessor->update(btree, &id, node)`
stores through its second argument, which section 4.3 gives as the id of the
registered node.  A NULL node has no id; the reserved id 0 is taken for it. -/
def update_id (node : Option Nat) : Nat :=
  node.getD 0

/-- Lines 490-509: `score` is still to be placed after the main loop; a new root
with one key and two children is created.  `old_root` is the last node the loop
has visited, NULL when the loop has not run (a tree of height 0), and `child`
is the right half of the last split, -1 when there was none.
`accessor->update(btree, &node->children[0], old_root)` stores the id of the
old root in slot 0, then `node->children[1] = child`. -/
def add_new_root (st : add_state) : rl_btree :=
  let node0 := rl_btree_node_create st.bt
  let node : rl_btree_node :=
    { size := 1
      scores := aset node0.scores 0 st.score
      values := node0.values.map (fun v => aset v 0 st.value)
      children := some (aset (aset (fun _ => 0) 0 (update_id st.node)) 1
        (st.child.getD minus_one)) }
  let r := insert st.bt node
  { r.2 with root := r.1, height := st.bt.height + 1 }

/-- `rl_btree_add_element`: the return code and the tree after the call; `none`
when the code dereferences a NULL pointer. -/
def rl_btree_add_element (bt : rl_btree) (score value : Int) :
    Option (rl_retval × rl_btree) :=
  match rl_btree_find_score bt score false (some (fun _ => none)) (some (fun _ => 0)) with
  | none => none
  | some r =>
    if r.retval ≠ RL_NOT_FOUND then some (r.retval, bt)
    else
      match r.nodes, r.positions with
      | some nodes, some positions =>
        match add_levels nodes positions 0 bt.height
            { bt := bt, placed := false, score := score, value := value, child := none,
              node := none } with
        | none => none
        | some st =>
          if st.placed then some (RL_OK, st.bt)
          else some (RL_OK, add_new_root st)
      | _, _ => none

/-! ## Removal -/

/-- The first loop of `rl_btree_remove_element` skips the NULL entries of
`nodes` from level `n - 1` downwards: the deepest level below `n` that holds a
node, with the node. -/
def last_node (nodes : Nat → Option Nat) : Nat → Option (Nat × Nat)
  | 0 => none
  | n + 1 =>
    match nodes n with
    | some id => some (n, id)
    | none => last_node nodes n

/-- Lines 552-556: the descent `for (; i < btree->height - 1; i++)` below an
internal node, with `n` levels to go; it records each node reached and its size
in the path vectors.  Returns the last node reached and the vectors. -/
def descend (bt : rl_btree) :
    Nat → Nat → Nat → (Nat → Option Nat) → (Nat → Nat) →
      Option (Nat × (Nat → Option Nat) × (Nat → Nat))
  | 0, _, child_node, nodes, positions => some (child_node, nodes, positions)
  | n + 1, i, child_node, nodes, positions =>
    match select bt child_node with
    | none => none
    | some cn =>
      match cn.children with
      | none => none
      | some ch =>
        match select bt (ch (positions i)) with
        | none => none
        | some next =>
          descend bt n (i + 1) (ch (positions i)) (aset nodes (i + 1) (some (ch (positions i))))
            (aset positions (i + 1) next.size)

/-- Lines 575-582: a key is deleted from a leaf.  The scores shift moves
`size - pos - 1` slots, the values shift `size - pos` slots. -/
def remove_from_leaf (node : rl_btree_node) (pos : Nat) : rl_btree_node :=
  { node with
    scores := memmove_dbg node.scores pos node.scores (pos + 1) (node.size - pos - 1)
    values := node.values.map (fun v => memmove_dbg v pos v (pos + 1) (node.size - pos))
    size := node.size - 1 }

/-- Lines 623-642: borrow from the left sibling.  Returns the new contents of
the node, the parent and the sibling; `none` where a NULL array would be
dereferenced. -/
def borrow_left (node parent sibling : rl_btree_node) (ppos : Nat) :
    Option (rl_btree_node × rl_btree_node × rl_btree_node) :=
  let ns1 := memmove_dbg node.scores 1 node.scores 0 node.size
  let nv1 := node.values.map (fun v => memmove_dbg v 1 v 0 node.size)
  let nc : Option (Option (Nat → Nat)) :=
    match node.children with
    | none => some none
    | some c =>
      match sibling.children with
      | none => none
      | some sc => some (some (aset (memmove_dbg c 1 c 0 (node.size + 1)) 0 (sc sibling.size)))
  let ns2 := aset ns1 0 (parent.scores (ppos - 1))
  let nv : Option (Option (Nat → Int)) :=
    match nv1 with
    | none => some none
    | some v =>
      match parent.values with
      | none => none
      | some pv => some (some (aset v 0 (pv (ppos - 1))))
  let ps1 := aset parent.scores (ppos - 1) (sibling.scores (sibling.size - 1))
  let pv : Option (Option (Nat → Int)) :=
    match parent.values with
    | none => some none
    | some v =>
      match sibling.values with
      | none => none
      | some sv => some (some (aset v 0 (sv (sibling.size - 1))))
  match nc, nv, pv with
  | some nc2, some nv2, some pv1 =>
    some ({ size := node.size + 1, scores := ns2, values := nv2, children := nc2 },
          { parent with scores := ps1, values := pv1 },
          { sibling with size := sibling.size - 1 })
  | _, _, _ => none

/-- Lines 651-671: borrow from the right sibling. -/
def borrow_right (node parent sibling : rl_btree_node) (ppos : Nat) :
    Option (rl_btree_node × rl_btree_node × rl_btree_node) :=
  let ns1 := aset node.scores node.size (parent.scores ppos)
  let nv : Option (Option (Nat → Int)) :=
    match node.values with
    | none => some none
    | some v =>
      match parent.values with
      | none => none
      | some pv => some (some (aset v node.size (pv ppos)))
  let ps1 := aset parent.scores ppos (sibling.scores 0)
  let pv : Option (Option (Nat → Int)) :=
    match parent.values with
    | none => some none
    | some v =>
      match sibling.values with
      | none => none
      | some sv => some (some (aset v ppos (sv 0)))
  let ss1 := memmove_dbg sibling.scores 0 sibling.scores 1 (sibling.size - 1)
  let sv : Option (Option (Nat → Int)) :=
    match node.values with
    | none => some sibling.values
    | some _ =>
      match sibling.values with
      | none => none
      | some v => some (some (memmove_dbg v 0 v 1 (sibling.size - 1)))
  let cs : Option (Option (Nat → Nat) × Option (Nat → Nat)) :=
    match node.children with
    | none => some (none, sibling.children)
    | some c =>
      match sibling.children with
      | none => none
      | some sc =>
        some (some (aset c (node.size + 1) (sc 0)), some (memmove_dbg sc 0 sc 1 sibling.size))
  match nv, pv, sv, cs with
  | some nv1, some pv1, some sv1, some (nc1, sc1) =>
    some ({ size := node.size + 1, scores := ns1, values := nv1, children := nc1 },
          { parent with scores := ps1, values := pv1 },
          { size := sibling.size - 1, scores := ss1, values := sv1, children := sc1 })
  | _, _, _, _ => none

/-- Lines 682-702: the array moves of the merge into the left sibling.  `pch` is
the parent's `children` array.  Returns the new contents of the parent and of
the sibling.  The node itself is removed and destroyed by lines 705-708, which
`rebalance_level` runs: `rl_btree_node_destroy` then frees the payloads of the
values that were just moved into the sibling. -/
def merge_left (node parent sibling : rl_btree_node) (pch : Nat → Nat) (ppos : Nat) :
    Option (rl_btree_node × rl_btree_node) :=
  let ss1 := aset sibling.scores sibling.size (parent.scores (ppos - 1))
  let sv1 : Option (Option (Nat → Int)) :=
    match parent.values with
    | none => some sibling.values
    | some pv =>
      match sibling.values with
      | none => none
      | some v => some (some (aset v sibling.size (pv (ppos - 1))))
  let ss2 := memmove_dbg ss1 (sibling.size + 1) node.scores 0 node.size
  let sv2 : Option (Option (Nat → Int)) :=
    match sv1 with
    | none => none
    | some none => some none
    | some (some v) =>
      match node.values with
      | none => none
      | some nv => some (some (memmove_dbg v (sibling.size + 1) nv 0 node.size))
  let sc1 : Option (Option (Nat → Nat)) :=
    match sibling.children with
    | none => some none
    | some c =>
      match node.children with
      | none => none
      | some nc => some (some (memmove_dbg c (sibling.size + 1) nc 0 (node.size + 1)))
  let parent1 : rl_btree_node :=
    if ppos < parent.size then
      { size := parent.size - 1
        scores := memmove_dbg parent.scores (ppos - 1) parent.scores ppos (parent.size - ppos)
        values := parent.values.map
          (fun v => memmove_dbg v (ppos - 1) v ppos (parent.size - ppos))
        children := some (memmove_dbg pch ppos pch (ppos + 1) (parent.size - ppos)) }
    else { parent with size := parent.size - 1 }
  match sv2, sc1 with
  | some sv3, some sc2 =>
    some (parent1,
          { size := sibling.size + (1 + node.size), scores := ss2, values := sv3,
            children := sc2 })
  | _, _ => none

/-- Lines 716-736: the array moves of the merge of the right sibling into the
node.  `pch` is the parent's `children` array.  Returns the new contents of the
node and of the parent.  The sibling is removed and destroyed by lines 740-743,
which `rebalance_level` runs: `rl_btree_node_destroy` then frees the payloads of
the values that were just moved into the node. -/
def merge_right (node parent sibling : rl_btree_node) (pch : Nat → Nat) (ppos : Nat) :
    Option (rl_btree_node × rl_btree_node) :=
  let ns1 := aset node.scores node.size (parent.scores ppos)
  let nv1 : Option (Option (Nat → Int)) :=
    match parent.values with
    | none => some node.values
    | some pv =>
      match node.values with
      | none => none
      | some v => some (some (aset v node.size (pv ppos)))
  let ns2 := memmove_dbg ns1 (node.size + 1) sibling.scores 0 sibling.size
  let nv2 : Option (Option (Nat → Int)) :=
    match nv1 with
    | none => none
    | some none => some none
    | some (some v) =>
      match sibling.values with
      | none => none
      | some sv => some (some (memmove_dbg v (node.size + 1) sv 0 sibling.size))
  let nc1 : Option (Option (Nat → Nat)) :=
    match node.children with
    | none => some none
    | some c =>
      match sibling.children with
      | none => none
      | some sc => some (some (memmove_dbg c (node.size + 1) sc 0 (sibling.size + 1)))
  match nv2, nc1 with
  | some nv3, some nc2 =>
    some ({ size := node.size + (1 + sibling.size), scores := ns2, values := nv3,
            children := nc2 },
          { size := parent.size - 1
            scores := memmove_dbg parent.scores ppos parent.scores (ppos + 1)
              (parent.size - ppos - 1)
            values := parent.values.map
              (fun v => memmove_dbg v ppos v (ppos + 1) (parent.size - ppos - 1))
            children := some (memmove_dbg pch (ppos + 1) pch (ppos + 2)
              (parent.size - ppos - 1)) })
  | _, _ => none

/-- How one iteration of the rebalance loop ends: the loop is left with a return
code (`break` or `goto cleanup`), or it goes on to the level above
(`continue`). -/
inductive rebalance_result where
  | stop (retval : rl_retval) (bt : rl_btree)
  | next (bt : rl_btree)

/-- One iteration of the rebalance loop of `rl_btree_remove_element` (lines
600-754), at level `i`.  The node, its parent and the sibling are three
distinct live nodes; each is read once and written back once.  After a merge
the node that was merged away is removed from the accessor and destroyed; the
code frees its `scores` array and sets the pointer to NULL before the call of
`rl_btree_node_destroy` (lines 706-707, 740-741), its `values` array it leaves
in place. -/
def rebalance_level (nodes : Nat → Option Nat) (positions : Nat → Nat) (i : Nat)
    (bt : rl_btree) : Option rebalance_result :=
  match nodes i with
  | none => none
  | some id =>
    match select bt id with
    | none => none
    | some node =>
      if i = 0 then
        if node.size = 0 then
          some (rebalance_result.stop RL_OK
            { bt with
              height := bt.height - 1
              root := match node.children with
                      | some ch => ch 0
                      | none => bt.root })
        else some (rebalance_result.stop RL_OK bt)
      else if node.size ≥ bt.max_node_size / 2 ∨ i = 0 then
        some (rebalance_result.stop RL_OK bt)
      else
        match nodes (i - 1) with
        | none => none
        | some pid =>
          match select bt pid with
          | none => none
          | some parent =>
            if parent.size = 0 then some (rebalance_result.stop (literal 1) bt)
            else
              let ppos := positions (i - 1)
              match parent.children with
              | none => none
              | some pch =>
                let left : Option (Option rl_btree_node) :=
                  if ppos > 0 then (select bt (pch (ppos - 1))).map some else some none
                let right : Option (Option rl_btree_node) :=
                  if ppos < parent.size then (select bt (pch (ppos + 1))).map some
                  else some none
                match left with
                | none => none
                | some (some sibling) =>
                  if sibling.size > bt.max_node_size / 2 then
                    match borrow_left node parent sibling ppos with
                    | none => none
                    | some (node1, parent1, sibling1) =>
                      some (rebalance_result.stop RL_OK
                        (store (store (store bt (pch (ppos - 1)) sibling1) pid parent1)
                          id node1))
                  else
                    match right with
                    | none => none
                    | some (some rsibling) =>
                      if rsibling.size > bt.max_node_size / 2 then
                        match borrow_right node parent rsibling ppos with
                        | none => none
                        | some (node1, parent1, sibling1) =>
                          some (rebalance_result.stop RL_OK
                            (store (store (store bt (pch (ppos + 1)) sibling1) pid parent1)
                              id node1))
                      else
                        match merge_left node parent sibling pch ppos with
                        | none => none
                        | some (parent1, sibling1) =>
                          some (rebalance_result.next
                            (rl_btree_node_destroy
                              (remove (store (store bt (pch (ppos - 1)) sibling1) pid parent1)
                                id)
                              node.size none node.values))
                    | some none =>
                      match merge_left node parent sibling pch ppos with
                      | none => none
                      | some (parent1, sibling1) =>
                        some (rebalance_result.next
                          (rl_btree_node_destroy
                            (remove (store (store bt (pch (ppos - 1)) sibling1) pid parent1)
                              id)
                            node.size none node.values))
                | some none =>
                  match right with
                  | none => none
                  | some (some rsibling) =>
                    if rsibling.size > bt.max_node_size / 2 then
                      match borrow_right node parent rsibling ppos with
                      | none => none
                      | some (node1, parent1, sibling1) =>
                        some (rebalance_result.stop RL_OK
                          (store (store (store bt (pch (ppos + 1)) sibling1) pid parent1)
                            id node1))
                    else
                      match merge_right node parent rsibling pch ppos with
                      | none => none
                      | some (node1, parent1) =>
                        some (rebalance_result.next
                          (rl_btree_node_destroy
                            (remove (store (store bt id node1) pid parent1) (pch (ppos + 1)))
                            rsibling.size none rsibling.values))
                  | some none => some (rebalance_result.stop RL_INVALID_STATE bt)

/-- The rebalance loop `for (; i >= 0; i--)` of `rl_btree_remove_element`, over
the levels `lo + n - 1` down to `lo`.  The code runs it with `lo = 0`.  When the
levels are used up without a `break` the loop is left to the caller
(`rebalance_result.next`). -/
def rebalance (nodes : Nat → Option Nat) (positions : Nat → Nat) (lo : Nat) :
    Nat → rl_btree → Option rebalance_result
  | 0, bt => some (rebalance_result.next bt)
  | n + 1, bt =>
    match rebalance_level nodes positions (lo + n) bt with
    | none => none
    | some (rebalance_result.stop rv bt1) => some (rebalance_result.stop rv bt1)
    | some (rebalance_result.next bt1) => rebalance nodes positions lo n bt1

/-- How the first loop of `rl_btree_remove_element` (lines 542-597) ends at the
deepest node of the path: with `goto cleanup` and a return code (`exit`), or
with `break`, which leaves the tree, the path vectors and the level `i` to the
rebalance loop (`done`). -/
inductive delete_result where
  | exit (retval : rl_retval) (bt : rl_btree)
  | done (bt : rl_btree) (nodes : Nat → Option Nat) (positions : Nat → Nat) (i : Nat)

/-- Lines 544-596: the body of the first loop of `rl_btree_remove_element` for
the node `id` found at level `i`.  A key of an internal node is overwritten by
the last key of the leaf reached by the descent, and that leaf loses its last
slot; a key of a leaf is deleted in place.  `none` when the code dereferences a
NULL pointer or indexes below an array. -/
def delete_key (bt : rl_btree) (nodes : Nat → Option Nat) (positions : Nat → Nat)
    (i id : Nat) : Option delete_result :=
  match select bt id with
  | none => none
  | some node =>
    match node.children with
    | some _ =>
      match descend bt (bt.height - 1 - i) i id nodes positions with
      | none => none
      | some (cid, nodes1, positions1) =>
        match select bt cid with
        | none => none
        | some child_node =>
          if child_node.children.isSome then some (delete_result.exit (literal 1) bt)
          else if child_node.size = 0 then none
          else
            let child1 := { child_node with size := child_node.size - 1 }
            let bt1 := store bt cid child1
            match select bt1 id with
            | none => none
            | some node1 =>
              let vals : Option (Option (Nat → Int)) :=
                match node1.values with
                | none => some none
                | some v =>
                  match child1.values with
                  | none => none
                  | some cv => some (some (aset v (positions1 i) (cv child1.size)))
              match vals with
              | none => none
              | some v1 =>
                let node2 := { node1 with
                  scores := aset node1.scores (positions1 i) (child1.scores child1.size)
                  values := v1 }
                some (delete_result.done (store bt1 id node2) nodes1 positions1
                  (i + (bt.height - 1 - i)))
    | none =>
      some (delete_result.done (store bt id (remove_from_leaf node (positions i)))
        nodes positions i)

/-- `rl_btree_remove_element`: the return code and the tree after the call;
`none` when the code dereferences a NULL pointer or indexes below an array. -/
def rl_btree_remove_element (bt : rl_btree) (score : Int) : Option (rl_retval × rl_btree) :=
  match rl_btree_find_score bt score false (some (fun _ => none)) (some (fun _ => 0)) with
  | none => none
  | some r =>
    if r.retval ≠ RL_FOUND then some (r.retval, bt)
    else
      match r.nodes, r.positions with
      | some nodes, some positions =>
        match last_node nodes bt.height with
        | none => some (RL_OK, bt)
        | some (i, id) =>
          match delete_key bt nodes positions i id with
          | none => none
          | some (delete_result.exit rv bt1) => some (rv, bt1)
          | some (delete_result.done bt1 nodes1 positions1 i1) =>
            match rebalance nodes1 positions1 0 (i1 + 1) bt1 with
            | none => none
            | some (rebalance_result.stop rv bt2) => some (rv, bt2)
            | some (rebalance_result.next bt2) => some (RL_OK, bt2)
      | _, _ => none

/-! ## Well-formed trees

The notions the statements below are phrased in: the keys of a subtree in
in-order, the node ids of a subtree, and the shape conditions of a B-tree. -/

/-- In-order interleaving of the key lists of `size + 1` subtrees with the
`size` keys of their parent. -/
def inter : List (List Int) → List Int → List Int
  | [], _ => []
  | c :: _, [] => c
  | c :: cs, k :: ks => c ++ k :: inter cs ks

/-- The keys, in in-order, of the subtree of `lv` levels rooted at node `id`. -/
def keys (bt : rl_btree) : Nat → Nat → List Int
  | 0, _ => []
  | lv + 1, id =>
    match select bt id with
    | none => []
    | some nd =>
      match nd.children with
      | none => live nd.scores nd.size
      | some ch => inter ((live ch (nd.size + 1)).map (keys bt lv)) (live nd.scores nd.size)

/-- The ids of the nodes of the subtree of `lv` levels rooted at node `id`. -/
def ids (bt : rl_btree) : Nat → Nat → List Nat
  | 0, _ => []
  | lv + 1, id =>
    id :: match select bt id with
      | none => []
      | some nd =>
        match nd.children with
        | none => []
        | some ch => ((live ch (nd.size + 1)).map (ids bt lv)).flatten

/-- The subtree rooted at `id` has exactly `lv` levels: every node on the way is
live, the nodes of the last level are leaves (NULL `children`), and every node
above has `size + 1` children. -/
def linked (bt : rl_btree) : Nat → Nat → Bool
  | 0, _ => false
  | lv + 1, id =>
    match select bt id with
    | none => false
    | some nd =>
      match nd.children with
      | none => decide (lv = 0)
      | some ch => decide (lv ≠ 0) && (live ch (nd.size + 1)).all (linked bt lv)

/-- The subtree rooted at `id` has exactly `lv` levels (as in `linked`), its top
node holds between `lo` and `max_node_size` keys, every node below holds between
`max_node_size / 2` and `max_node_size` keys, and every node has a `values`
array exactly when the type has a value size. -/
def shape (bt : rl_btree) : Nat → Nat → Nat → Bool
  | 0, _, _ => false
  | lv + 1, lo, id =>
    match select bt id with
    | none => false
    | some nd =>
      decide (lo ≤ nd.size) && decide (nd.size ≤ bt.max_node_size) &&
      (nd.values.isSome == decide (bt.type.value_size ≠ 0)) &&
      match nd.children with
      | none => decide (lv = 0)
      | some ch =>
        decide (lv ≠ 0) && (live ch (nd.size + 1)).all (shape bt lv (bt.max_node_size / 2))

/-- Strictly ascending. -/
def ascending (l : List Int) : Bool :=
  decide (l.Pairwise (fun a b => a < b))

/-- The output of `rl_flatten_btree` is defined and strictly ascending. -/
def flatten_ascending (bt : rl_btree) : Bool :=
  match rl_flatten_btree bt.height bt with
  | none => false
  | some l => ascending l

/-- Well-formed search tree: all leaves at depth `height - 1`, internal nodes
with `size + 1` children, in-order keys strictly ascending. -/
def well_linked (bt : rl_btree) : Bool :=
  linked bt bt.height bt.root && flatten_ascending bt

/-- Well-formed B-tree: even `m >= 4`, all leaves at depth `height - 1` with
`height >= 1`, every non-root node with between `m / 2` and `m` keys, the root
with at most `m`, internal nodes with `size + 1` children, in-order keys
strictly ascending. -/
def well_formed (bt : rl_btree) : Bool :=
  decide (bt.max_node_size % 2 = 0) && decide (4 ≤ bt.max_node_size) &&
  decide (1 ≤ bt.height) && shape bt bt.height 0 bt.root && flatten_ascending bt

/-- The part of an interleaving that lies before a child: each earlier child
followed by its separator key. -/
def interL : List (List Int) → List Int → List Int
  | c :: cs, k :: ks => c ++ k :: interL cs ks
  | _, _ => []

/-- The part of an interleaving that lies after a child: each later separator
key followed by its child. -/
def interR : List Int → List (List Int) → List Int
  | k :: ks, c :: cs => k :: (c ++ interR ks cs)
  | _, _ => []

/-- Position `p` is the insertion position of the absent key `k` in the node: the
keys before `p` are smaller, the keys from `p` on are larger. -/
def ins_pos (nd : rl_btree_node) (k : Int) (p : Nat) : Prop :=
  p ≤ nd.size ∧ (∀ j, j < p → nd.scores j < k) ∧ (∀ j, p ≤ j → j < nd.size → k < nd.scores j)

/-- The path vectors describe the search path of an absent key `k` through the
subtree of `lv` levels rooted at `id`, whose top node is at level `d`: at each
level the node visited and the insertion position, which is the index of the
child followed. -/
def miss_path (bt : rl_btree) (nodes : Nat → Option Nat) (positions : Nat → Nat) (k : Int) :
    Nat → Nat → Nat → Prop
  | 0, _, _ => True
  | lv + 1, d, id =>
    nodes d = some id ∧
    ∃ nd, select bt id = some nd ∧ ins_pos nd k (positions d) ∧
      ∀ ch, nd.children = some ch →
        miss_path bt nodes positions k lv (d + 1) (ch (positions d))

/-- The path vectors describe the search path of a key `k` that is found in the
subtree of `lv` levels rooted at `id`: down to the level of the hit as in
`miss_path`, at the hit the index of the key, and NULL in every later slot of
`nodes` below `height`. -/
def hit_path (bt : rl_btree) (height : Nat) (nodes : Nat → Option Nat)
    (positions : Nat → Nat) (k : Int) : Nat → Nat → Nat → Prop
  | 0, _, _ => False
  | lv + 1, d, id =>
    nodes d = some id ∧
    ∃ nd, select bt id = some nd ∧
      ((positions d < nd.size ∧ nd.scores (positions d) = k ∧
          ∀ j, d < j → j < height → nodes j = none) ∨
       (ins_pos nd k (positions d) ∧
          ∃ ch, nd.children = some ch ∧
            hit_path bt height nodes positions k lv (d + 1) (ch (positions d))))

/-- The list `l1` is the list `l` with `k` put in at its sorted position: the
entries before it are smaller and the entries after it are larger. -/
def inserted (k : Int) (l l1 : List Int) : Prop :=
  ∃ a b, l = a ++ b ∧ l1 = a ++ k :: b ∧ (∀ x ∈ a, x < k) ∧ (∀ x ∈ b, k < x)

/-- The list `l1` is the list `l` without its entry `k`. -/
def deleted (k : Int) (l l1 : List Int) : Prop :=
  ∃ a b, l = a ++ k :: b ∧ l1 = a ++ b

/-- What the main loop of `rl_btree_add_element` has achieved when it leaves the
subtree of `lv` levels rooted at `id`: outside the subtree nothing changed, and
either the key was placed and the subtree holds the old keys and `k`, or the top
node was split into itself and a new right sibling `c`, which together with the
score carried up hold the old keys and `k`. -/
def add_post (k : Int) (bt : rl_btree) (lv lo id : Nat) (st : add_state) : Prop :=
  st.bt.max_node_size = bt.max_node_size ∧ st.bt.type = bt.type ∧
  st.bt.height = bt.height ∧ st.bt.root = bt.root ∧
  bt.accessor.length ≤ st.bt.accessor.length ∧
  (∀ x, x < bt.accessor.length → x ∉ ids bt lv id → select st.bt x = select bt x) ∧
  ((st.placed = true ∧ shape st.bt lv lo id = true ∧
      inserted k (keys bt lv id) (keys st.bt lv id) ∧
      (∀ x ∈ ids st.bt lv id, x ∈ ids bt lv id ∨ bt.accessor.length ≤ x)) ∨
   (st.placed = false ∧ st.node = some id ∧ ∃ c, st.child = some c ∧
      shape st.bt lv (bt.max_node_size / 2) id = true ∧
      shape st.bt lv (bt.max_node_size / 2) c = true ∧
      inserted k (keys bt lv id) (keys st.bt lv id ++ st.score :: keys st.bt lv c) ∧
      (∀ x ∈ ids st.bt lv id ++ ids st.bt lv c, x ∈ ids bt lv id ∨ bt.accessor.length ≤ x)))

/-- The in-order keys below a node, given the key lists `K` of the subtrees of
its children. -/
def node_keys (K : Nat → List Int) (nd : rl_btree_node) : List Int :=
  match nd.children with
  | none => live nd.scores nd.size
  | some ch => inter ((live ch (nd.size + 1)).map K) (live nd.scores nd.size)

/-- The children of a node, as a list (empty for a leaf). -/
def node_kids (nd : rl_btree_node) : List Nat :=
  match nd.children with
  | none => []
  | some ch => live ch (nd.size + 1)

/-- The state of the subtree of `lv` levels rooted at `id` when the rebalance
loop of `rl_btree_remove_element` starts: `id` is the node recorded for level
`d`; a leaf may be one key short of `lo`; the child on the path of an internal
node is in this state again, and its other children are sound subtrees. -/
def slack_path (bt : rl_btree) (nodes : Nat → Option Nat) (positions : Nat → Nat) :
    Nat → Nat → Nat → Nat → Prop
  | 0, _, _, _ => False
  | lv + 1, d, lo, id =>
    nodes d = some id ∧
    ∃ nd, select bt id = some nd ∧ nd.size ≤ bt.max_node_size ∧
      nd.values.isSome = decide (bt.type.value_size ≠ 0) ∧
      ((lv = 0 ∧ nd.children = none ∧ lo ≤ nd.size + 1) ∨
       (lv ≠ 0 ∧ lo ≤ nd.size ∧ positions d ≤ nd.size ∧
          ∃ ch, nd.children = some ch ∧
            slack_path bt nodes positions lv (d + 1) (bt.max_node_size / 2)
              (ch (positions d)) ∧
            ∀ j, j ≤ nd.size → j ≠ positions d →
              shape bt lv (bt.max_node_size / 2) (ch j) = true))

/-- The node `id` does not occur in the subtrees of its children. -/
def top_fresh (bt : rl_btree) (lv id : Nat) : Prop :=
  ∀ nd ch, select bt id = some nd → nd.children = some ch →
    ∀ j, j ≤ nd.size → id ∉ ids bt (lv - 1) (ch j)

/-- The tree `b` relates to the tree `bt` as the rebalance loop leaves things:
same parameters, the subtree of `lv` levels at `id` has the same keys and no new
nodes, and nothing outside that subtree changed. -/
def rebalance_same (bt b : rl_btree) (lv id : Nat) : Prop :=
  b.max_node_size = bt.max_node_size ∧ b.type = bt.type ∧ b.height = bt.height ∧
  b.root = bt.root ∧
  keys b lv id = keys bt lv id ∧
  (∀ x, x ∉ ids bt lv id → select b x = select bt x) ∧
  (∀ x ∈ ids b lv id, x ∈ ids bt lv id) ∧
  top_fresh b lv id

/-- What the rebalance loop has achieved when it leaves the subtree of `lv` levels
rooted at `id`: it stopped with `RL_OK` and the subtree is sound, or it stopped
with the code 1 of the empty-parent exit, which takes a top node without keys,
or it goes on and the top node of the subtree may be one key short of `lo`. -/
def rebalance_post (bt : rl_btree) (lv lo id : Nat) (res : rebalance_result) : Prop :=
  match res with
  | rebalance_result.stop rv b =>
    ((rv = RL_OK ∧ shape b lv lo id = true) ∨ (rv = literal 1 ∧ lo = 0)) ∧
    rebalance_same bt b lv id
  | rebalance_result.next b =>
    shape b lv (lo - 1) id = true ∧ rebalance_same bt b lv id

/-- The children recorded for the node `id` (none for a leaf or a missing node). -/
def kids_of (bt : rl_btree) (id : Nat) : List Nat :=
  match select bt id with
  | none => []
  | some nd => node_kids nd

/-- What the first loop of `rl_btree_remove_element` has achieved, seen from the
subtree of `lv` levels rooted at `id` (top at level `d`) that holds the key `k`:
the loop ends with `break` at the last level, the path vectors are as before down
to level `d`, nothing outside the subtree changed, no node changed its children,
the subtree is in the state `slack_path`, and its keys are the old ones without
`k`. -/
def delete_post (bt : rl_btree) (nodes : Nat → Option Nat) (positions : Nat → Nat) (k : Int)
    (lv d lo id : Nat) : Prop :=
  ∃ i nid bt1 nodes1 positions1, last_node nodes bt.height = some (i, nid) ∧
    delete_key bt nodes positions i nid =
      some (delete_result.done bt1 nodes1 positions1 (bt.height - 1)) ∧
    bt1.max_node_size = bt.max_node_size ∧ bt1.type = bt.type ∧ bt1.height = bt.height ∧
    bt1.root = bt.root ∧
    (∀ j, j ≤ d → nodes1 j = nodes j ∧ positions1 j = positions j) ∧
    (∀ x, x ∉ ids bt lv id → select bt1 x = select bt x) ∧
    (∀ x, kids_of bt1 x = kids_of bt x) ∧
    slack_path bt1 nodes1 positions1 lv d lo id ∧
    deleted k (keys bt lv id) (keys bt1 lv id)

/-- The surroundings of one step of the rebalance loop: the internal node `id`
with contents `nd` and children `ch`, holding between `lo` and `max_node_size`
keys, whose children `q` and `q + 1` are about to be rebalanced against each
other.  The node occurs in none of its subtrees, the subtrees of its children
share no node, none of its children occurs below itself, and the children other
than `q` and `q + 1` are sound subtrees of `lv + 1` levels. -/
def pair_ctx (b1 : rl_btree) (lv id : Nat) (nd : rl_btree_node) (ch : Nat → Nat)
    (q lo : Nat) : Prop :=
  select b1 id = some nd ∧ nd.children = some ch ∧ q < nd.size ∧ lo ≤ nd.size ∧
  nd.size ≤ b1.max_node_size ∧ nd.values.isSome = decide (b1.type.value_size ≠ 0) ∧
  (∀ j, j ≤ nd.size → id ∉ ids b1 (lv + 1) (ch j)) ∧
  (∀ i j, i ≤ nd.size → j ≤ nd.size → i ≠ j →
    ∀ x ∈ ids b1 (lv + 1) (ch i), x ∉ ids b1 (lv + 1) (ch j)) ∧
  (∀ j, j ≤ nd.size → top_fresh b1 (lv + 1) (ch j)) ∧
  (∀ j, j ≤ nd.size → j ≠ q → j ≠ q + 1 →
    shape b1 (lv + 1) (b1.max_node_size / 2) (ch j) = true)

/-! ## Calls and the trees they leave -/

/-- The tree after a call of `rl_btree_add_element`; the tree itself when the
call does not return. -/
def after_add (bt : rl_btree) (score value : Int) : rl_btree :=
  match rl_btree_add_element bt score value with
  | some (_, bt1) => bt1
  | none => bt

/-- The tree after a call of `rl_btree_remove_element`; the tree itself when the
call does not return. -/
def after_remove (bt : rl_btree) (score : Int) : rl_btree :=
  match rl_btree_remove_element bt score with
  | some (_, bt1) => bt1
  | none => bt

/-- The trees reachable from a freshly created tree of the given type and
`max_node_size` by calls of `rl_btree_add_element` and `rl_btree_remove_element`
that return. -/
inductive reachable (type : rl_btree_type) (m : Nat) : rl_btree → Prop where
  | create : reachable type m (rl_btree_create type m memory_accessor)
  | add (bt bt1 : rl_btree) (score value : Int) (rv : rl_retval) :
      reachable type m bt → rl_btree_add_element bt score value = some (rv, bt1) →
      reachable type m bt1
  | remove (bt bt1 : rl_btree) (score : Int) (rv : rl_retval) :
      reachable type m bt → rl_btree_remove_element bt score = some (rv, bt1) →
      reachable type m bt1

/-- An internal root holds at least one key. -/
def root_has_key (bt : rl_btree) : Bool :=
  match select bt bt.root with
  | none => true
  | some nd => nd.children.isNone || decide (1 ≤ nd.size)

/-- Every non-root node of the tree holds at least `ceil(max_node_size / 2)`
keys. -/
def min_fill (bt : rl_btree) : Bool :=
  (ids bt bt.height bt.root).tail.all (fun x =>
    match select bt x with
    | none => false
    | some nd => decide ((bt.max_node_size + 1) / 2 ≤ nd.size))

/-- Every node of the tree, root included, holds at most `n` keys. -/
def max_fill (bt : rl_btree) (n : Nat) : Bool :=
  (bt.root :: ids bt bt.height bt.root).all (fun x =>
    match select bt x with
    | none => false
    | some nd => decide (nd.size ≤ n))

/-! ## Example trees -/

/-- A freshly created `long_set` tree with `max_node_size = 4`. -/
def fresh_set : rl_btree := rl_btree_create long_set 4 memory_accessor

/-- A freshly created `long_hash` tree with `max_node_size = 4`. -/
def fresh_hash : rl_btree := rl_btree_create long_hash 4 memory_accessor

/-- The keys of a list added in turn, each with ten times the key as its value. -/
def add_all (bt : rl_btree) : List Int → rl_btree
  | [] => bt
  | k :: ks => add_all (after_add bt k (10 * k)) ks

/-- The set tree holding 1, 2, 3, 4: a root leaf that is full. -/
def set_1234 : rl_btree := add_all fresh_set [1, 2, 3, 4]

/-- The set tree holding 1 to 5: the root holds 3 over the leaves 1, 2 and 4, 5. -/
def set_12345 : rl_btree := add_all fresh_set [1, 2, 3, 4, 5]

/-- The hash tree holding 10 to 80 and 45: the root holds 30 and 60 over the
leaves 10, 20 and 40, 45, 50 and 70, 80. -/
def hash_9 : rl_btree := add_all fresh_hash [10, 20, 30, 40, 50, 60, 70, 80, 45]

/-! ## Node serialisation -/

/-- Modelled from the spec: `put_4bytes` of util.h, which is not part of the
sources.  It stores the low 32 bits of `v` in the four bytes of `data` from
`pos`, most significant byte first. -/
def put_4bytes (data : Nat → Nat) (pos : Nat) (v : Int) : Nat → Nat :=
  fun j =>
    if j = pos then (v % 4294967296).toNat / 16777216 % 256
    else if j = pos + 1 then (v % 4294967296).toNat / 65536 % 256
    else if j = pos + 2 then (v % 4294967296).toNat / 256 % 256
    else if j = pos + 3 then (v % 4294967296).toNat % 256
    else data j

/-- Modelled from the spec: `get_4bytes` of util.h, which is not part of the
sources.  It reads the four bytes of `data` from `pos` as an unsigned word, most
significant byte first. -/
def get_4bytes (data : Nat → Nat) (pos : Nat) : Nat :=
  data pos % 256 * 16777216 + data (pos + 1) % 256 * 65536 + data (pos + 2) % 256 * 256 +
    data (pos + 3) % 256

/-- The word written for child `i` of a node: `node->children ? node->children[i] : 0`. -/
def child_word (node : rl_btree_node) (i : Nat) : Int :=
  match node.children with
  | some ch => (ch i : Int)
  | none => 0

/-- The `for` loop of `long_set_btree_node_serialize` (lines 29-33), run for the
keys below `n`: key `i` is written at `pos = 4 + 8 * i`. -/
def long_set_serialize_keys (node : rl_btree_node) : Nat → (Nat → Nat) → (Nat → Nat)
  | 0, data => data
  | i + 1, data =>
    let data1 := long_set_serialize_keys node i data
    let data2 := put_4bytes data1 (4 + 8 * i) (node.scores i)
    put_4bytes data2 (4 + 8 * i + 4) (child_word node i)

/-- `long_set_btree_node_serialize`: the return code, the buffer and
`data_size`.  The buffer is the one obtained from `malloc`, whose size plays no
part here; bytes that the code does not write read as 0. -/
def long_set_btree_node_serialize (node : rl_btree_node) : rl_retval × (Nat → Nat) × Nat :=
  let data0 := put_4bytes (fun _ => 0) 0 node.size
  let data1 := long_set_serialize_keys node node.size data0
  let pos := 4 + 8 * node.size
  let data2 := put_4bytes data1 pos (child_word node node.size)
  (RL_OK, data2, pos + 4)

/-- The `for` loop of `long_set_btree_node_deserialize` (lines 52-73), run for
the keys below `n`: the `scores` and `children` arrays of the node so far.
`children` is allocated at the first child id that is not 0. -/
def long_set_deserialize_keys (data : Nat → Nat) :
    Nat → (Nat → Int) × Option (Nat → Nat) → (Nat → Int) × Option (Nat → Nat)
  | 0, st => st
  | i + 1, st =>
    let st1 := long_set_deserialize_keys data i st
    let scores1 := aset st1.1 i (get_4bytes data (4 + 8 * i) : Int)
    let child := get_4bytes data (4 + 8 * i + 4)
    if child ≠ 0 then (scores1, some (aset (st1.2.getD (fun _ => 0)) i child))
    else (scores1, st1.2)

/-- `long_set_btree_node_deserialize`: the return code and the node; `none`
when the trailing child id is stored through a NULL `children`.  The code has no
bound on the size word and no length of the buffer. -/
def long_set_btree_node_deserialize (bt : rl_btree) (data : Nat → Nat) :
    Option (rl_retval × rl_btree_node) :=
  let node := rl_btree_node_create bt
  let size := get_4bytes data 0
  let st := long_set_deserialize_keys data size (node.scores, node.children)
  let child := get_4bytes data (4 + 8 * size)
  if child ≠ 0 then
    match st.2 with
    | none => none
    | some ch =>
      some (RL_OK, { size := size, scores := st.1, values := node.values,
                     children := some (aset ch size child) })
  else
    some (RL_OK, { size := size, scores := st.1, values := node.values, children := st.2 })

/-- The `for` loop of `long_hash_btree_node_serialize` (lines 97-102), run for
the keys below `n`: key `i` is written at `pos = 4 + 12 * i`. -/
def long_hash_serialize_keys (node : rl_btree_node) (values : Nat → Int) :
    Nat → (Nat → Nat) → (Nat → Nat)
  | 0, data => data
  | i + 1, data =>
    let data1 := long_hash_serialize_keys node values i data
    let data2 := put_4bytes data1 (4 + 12 * i) (node.scores i)
    let data3 := put_4bytes data2 (4 + 12 * i + 4) (child_word node i)
    put_4bytes data3 (4 + 12 * i + 8) (values i)

/-- `long_hash_btree_node_serialize`: the return code, the buffer and
`data_size`; `none` when a key is to be written and `values` is NULL. -/
def long_hash_btree_node_serialize (node : rl_btree_node) :
    Option (rl_retval × (Nat → Nat) × Nat) :=
  if node.values.isNone ∧ 0 < node.size then none
  else
    let data0 := put_4bytes (fun _ => 0) 0 node.size
    let data1 := long_hash_serialize_keys node (node.values.getD (fun _ => 0)) node.size data0
    let pos := 4 + 12 * node.size
    let data2 := put_4bytes data1 pos (child_word node node.size)
    some (RL_OK, data2, pos + 4)

/-- The `for` loop of `long_hash_btree_node_deserialize` (lines 121-151), run
for the keys below `n`: the `scores`, `children` and `values` arrays so far. -/
def long_hash_deserialize_keys (data : Nat → Nat) :
    Nat → (Nat → Int) × Option (Nat → Nat) × (Nat → Int) →
      (Nat → Int) × Option (Nat → Nat) × (Nat → Int)
  | 0, st => st
  | i + 1, st =>
    let st1 := long_hash_deserialize_keys data i st
    let scores1 := aset st1.1 i (get_4bytes data (4 + 12 * i) : Int)
    let child := get_4bytes data (4 + 12 * i + 4)
    let values1 := aset st1.2.2 i (get_4bytes data (4 + 12 * i + 8) : Int)
    if child ≠ 0 then (scores1, some (aset (st1.2.1.getD (fun _ => 0)) i child), values1)
    else (scores1, st1.2.1, values1)

/-- `long_hash_btree_node_deserialize`: the return code and the node; `none`
when a value is stored through a NULL `values` or the trailing child id through
a NULL `children`. -/
def long_hash_btree_node_deserialize (bt : rl_btree) (data : Nat → Nat) :
    Option (rl_retval × rl_btree_node) :=
  let node := rl_btree_node_create bt
  let size := get_4bytes data 0
  if node.values.isNone ∧ 0 < size then none
  else
    let st := long_hash_deserialize_keys data size
      (node.scores, node.children, node.values.getD (fun _ => 0))
    let child := get_4bytes data (4 + 12 * size)
    if child ≠ 0 then
      match st.2.1 with
      | none => none
      | some ch =>
        some (RL_OK, { size := size, scores := st.1, values := node.values.map (fun _ => st.2.2),
                       children := some (aset ch size child) })
    else
      some (RL_OK, { size := size, scores := st.1, values := node.values.map (fun _ => st.2.2),
                     children := st.2.1 })

/-- The four bytes of the word holding the low 32 bits of `v`, most significant
byte first. -/
def be32 (v : Int) : List Nat :=
  [(v % 4294967296).toNat / 16777216 % 256, (v % 4294967296).toNat / 65536 % 256,
   (v % 4294967296).toNat / 256 % 256, (v % 4294967296).toNat % 256]

/-- The byte layout of a node without values: the size word; for each key a
4-byte score and the 4-byte child id; the trailing child id. -/
def wire_set (node : rl_btree_node) : List Nat :=
  be32 node.size ++
    ((List.range node.size).map (fun i => be32 (node.scores i) ++ be32 (child_word node i))).flatten
    ++ be32 (child_word node node.size)

/-- The byte layout of a node with the values `values`: the size word; for each
key a 4-byte score, the 4-byte child id and a 4-byte value; the trailing child
id. -/
def wire_hash (node : rl_btree_node) (values : Nat → Int) : List Nat :=
  be32 node.size ++
    ((List.range node.size).map (fun i =>
      be32 (node.scores i) ++ be32 (child_word node i) ++ be32 (values i))).flatten
    ++ be32 (child_word node node.size)

/-- The fields that the round trip of a node is judged by: size, key sequence,
value sequence and child-id sequence. -/
def node_fields (node : rl_btree_node) :
    Nat × List Int × Option (List Int) × Option (List Nat) :=
  (node.size, live node.scores node.size, node.values.map (fun v => live v node.size),
   node.children.map (fun c => live c (node.size + 1)))

/-- The node can be written in 4-byte words and read back: its size, keys,
values and child ids lie in the range of an unsigned 32-bit word, and when it has
children it holds at least one key and no child id is 0. -/
def word_sized (node : rl_btree_node) : Bool :=
  decide (node.size < 4294967296) &&
  (List.range node.size).all
    (fun i => decide (0 ≤ node.scores i) && decide (node.scores i < 4294967296)) &&
  (match node.values with
   | none => true
   | some v => (List.range node.size).all (fun i => decide (0 ≤ v i) && decide (v i < 4294967296))) &&
  (match node.children with
   | none => true
   | some ch =>
     decide (1 ≤ node.size) &&
     (List.range (node.size + 1)).all (fun i => decide (0 < ch i) && decide (ch i < 4294967296)))

/-! ## Balance check -/

/-- What a call of the balance check hands back: a return code, or the value of
the local `retval` that was never assigned. -/
inductive balance_result where
  | code (retval : rl_retval)
  | uninitialised
deriving DecidableEq, Repr

/-- The `for (i = 0; i < node->size + 1; i++)` loop of
`rl_btree_node_is_balanced` (lines 771-778) over an internal node, with `n`
iterations to go from child `i`; `check` is the recursive call on a child id.
A loop that runs no iteration leaves `retval` unassigned. -/
def balanced_children (check : Nat → Option balance_result) (ch : Nat → Nat) :
    Nat → Nat → Option balance_result
  | 0, _ => some balance_result.uninitialised
  | n + 1, i =>
    match check (ch i) with
    | none => none
    | some balance_result.uninitialised => some balance_result.uninitialised
    | some (balance_result.code rv) =>
      if rv ≠ RL_OK then some (balance_result.code rv)
      else if n = 0 then some (balance_result.code rv)
      else balanced_children check ch n (i + 1)

/-- `rl_btree_node_is_balanced` for the node with id `id`.  A node that is not
the root and holds fewer than `max_node_size / 2` keys returns `RL_OK` at once;
a leaf that passes this test runs the loop without assigning `retval` and
returns it.  `fuel` bounds the depth of the recursion; `none` when the bound is
reached or a child id selects no node. -/
def rl_btree_node_is_balanced (bt : rl_btree) : Nat → Nat → Bool → Option balance_result
  | 0, id, is_root =>
    match select bt id with
    | none => none
    | some node =>
      if is_root = false ∧ node.size < bt.max_node_size / 2 then
        some (balance_result.code RL_OK)
      else
        match node.children with
        | none => some balance_result.uninitialised
        | some _ => none
  | fuel + 1, id, is_root =>
    match select bt id with
    | none => none
    | some node =>
      if is_root = false ∧ node.size < bt.max_node_size / 2 then
        some (balance_result.code RL_OK)
      else
        match node.children with
        | none => some balance_result.uninitialised
        | some ch =>
          balanced_children (fun c => rl_btree_node_is_balanced bt fuel c false) ch
            (node.size + 1) 0

/-- The double loop of `rl_btree_is_balanced` (lines 797-804): some two entries
of the flattened scores compare equal. -/
def has_equal_pair : List Int → Bool
  | [] => false
  | x :: xs => xs.any (fun y => decide (long_cmp x y = 0)) || has_equal_pair xs

/-- `rl_btree_is_balanced`.  The scratch array is taken to be large enough for
the flattened scores. -/
def rl_btree_is_balanced (fuel : Nat) (bt : rl_btree) : Option balance_result :=
  match rl_btree_node_is_balanced bt fuel bt.root true with
  | none => none
  | some balance_result.uninitialised => some balance_result.uninitialised
  | some (balance_result.code rv) =>
    if rv ≠ RL_OK then some (balance_result.code rv)
    else
      match rl_flatten_btree fuel bt with
      | none => none
      | some scores =>
        if has_equal_pair scores then some (balance_result.code RL_INVALID_STATE)
        else some (balance_result.code rv)

/-! ## Leaf depths -/

/-- The depths of the leaves below the node `id`, which lies at depth `d`, from
left to right.  `fuel` bounds the depth of the recursion; `none` when the bound
is reached or a child id selects no node. -/
def leaf_depths (bt : rl_btree) : Nat → Nat → Nat → Option (List Nat)
  | 0, d, id =>
    match select bt id with
    | none => none
    | some node =>
      match node.children with
      | none => some [d]
      | some _ => none
  | fuel + 1, d, id =>
    match select bt id with
    | none => none
    | some node =>
      match node.children with
      | none => some [d]
      | some ch =>
        ((live ch (node.size + 1)).mapM (leaf_depths bt fuel (d + 1))).map List.flatten

/-- All leaves of the tree lie at the same depth. -/
def uniform_depth (fuel : Nat) (bt : rl_btree) : Bool :=
  match leaf_depths bt fuel 0 bt.root with
  | none => false
  | some l => l.all (fun x => decide (x = l.headD 0))

/-- The number of leaves of the subtree of `lv` levels rooted at `id`. -/
def leaf_count (bt : rl_btree) : Nat → Nat → Nat
  | 0, _ => 0
  | lv + 1, id =>
    match select bt id with
    | none => 0
    | some node =>
      match node.children with
      | none => 1
      | some ch => ((live ch (node.size + 1)).map (leaf_count bt lv)).sum

/-! ## More example data -/

/-- The node of size 3 with the keys 10, 20, 30 and the children 7, 8, 9, 11. -/
def node_3 : rl_btree_node :=
  { size := 3
    scores := fun i => if i = 0 then 10 else if i = 1 then 20 else 30
    values := none
    children := some (fun i => if i = 0 then 7 else if i = 1 then 8 else if i = 2 then 9 else 11) }

/-- The node `node_3` with the values 100, 200, 300. -/
def node_3_hash : rl_btree_node :=
  { node_3 with values := some (fun i => if i = 0 then 100 else if i = 1 then 200 else 300) }

/-- A leaf with the single key 2^32. -/
def big_key_leaf : rl_btree_node :=
  { size := 1, scores := fun _ => 4294967296, values := none, children := none }

/-- A buffer whose size word is 5 and whose other bytes are 0. -/
def size_5_buffer : Nat → Nat := put_4bytes (fun _ => 0) 0 5

/-- A set tree with `max_node_size = 4` whose root holds 5 over the leaves
holding 1 and holding 9: both leaves are below the minimum fill of 2. -/
def thin_leaves_tree : rl_btree :=
  { type := long_set
    max_node_size := 4
    height := 2
    root := 1
    accessor :=
      [none,
       some { size := 1, scores := fun _ => 5, values := none,
              children := some (fun i => if i = 0 then 2 else 3) },
       some { size := 1, scores := fun _ => 1, values := none, children := none },
       some { size := 1, scores := fun _ => 9, values := none, children := none }] }

/-- The tree `thin_leaves_tree` with the two leaves exchanged: its in-order keys
9, 5, 1 are descending. -/
def descending_tree : rl_btree :=
  { thin_leaves_tree with
    accessor :=
      [none,
       some { size := 1, scores := fun _ => 5, values := none,
              children := some (fun i => if i = 0 then 3 else 2) },
       some { size := 1, scores := fun _ => 1, values := none, children := none },
       some { size := 1, scores := fun _ => 9, values := none, children := none }] }

/-- The set tree built by adding 8, 7, 6, 5, 4, 3, 2, 1 in turn. -/
def set_87654321 : rl_btree := add_all fresh_set [8, 7, 6, 5, 4, 3, 2, 1]

/-! ## Further example trees and path notions -/

/-- The set tree built by adding 1, 2, ..., 8 in this order. -/
def set_12345678 : rl_btree := add_all fresh_set [1, 2, 3, 4, 5, 6, 7, 8]

/-- The path vectors describe a descent along the last child of every node
through the subtree of `lv` levels rooted at `id`, whose top node is at level
`d`: each level records the node reached and, as its position, the size of that
node. -/
def rightmost_path (bt : rl_btree) (nodes : Nat → Option Nat) (positions : Nat → Nat) :
    Nat → Nat → Nat → Prop
  | 0, _, _ => True
  | lv + 1, d, id =>
    nodes d = some id ∧
    ∃ nd, select bt id = some nd ∧ positions d = nd.size ∧
      ∀ ch, nd.children = some ch → rightmost_path bt nodes positions lv (d + 1) (ch nd.size)

/-- A full node for `max_node_size = 4`: the keys 10, 20, 30, 40 with the values
100, 200, 300, 400 over the children 5, 6, 7, 8, 9. -/
def full_node : rl_btree_node :=
  { size := 4
    scores := fun i => if i = 0 then 10 else if i = 1 then 20 else if i = 2 then 30 else 40
    values := some (fun i =>
      if i = 0 then 100 else if i = 1 then 200 else if i = 2 then 300 else 400)
    children := some (fun i =>
      if i = 0 then 5 else if i = 1 then 6 else if i = 2 then 7 else if i = 3 then 8 else 9) }

/-- The right sibling that the split of an internal node of a hash tree starts
from: a fresh node with a `children` array. -/
def fresh_right : rl_btree_node :=
  { rl_btree_node_create fresh_hash with children := some (fun _ => 0) }

/-- The set tree with `max_node_size = 4` whose root holds 4 over the leaves
1, 2, 3 and 5, 6. -/
def spec_borrow_tree : rl_btree :=
  { type := long_set
    max_node_size := 4
    height := 2
    root := 1
    accessor :=
      [none,
       some { size := 1, scores := fun _ => 4, values := none,
              children := some (fun i => if i = 0 then 2 else 3) },
       some { size := 3, scores := fun i => if i = 0 then 1 else if i = 1 then 2 else 3,
              values := none, children := none },
       some { size := 2, scores := fun i => if i = 0 then 5 else 6, values := none,
              children := none }] }

/-- The root of `lend_right_tree`: the keys 30 and 60 with the values 300 and
600 over the children 2, 3 and 4. -/
def lend_root : rl_btree_node :=
  { size := 2
    scores := fun i => if i = 0 then 30 else 60
    values := some (fun i => if i = 0 then 300 else 600)
    children := some (fun i => if i = 0 then 2 else if i = 1 then 3 else 4) }

/-- The first leaf of `lend_right_tree`, which holds 10 and 20. -/
def lend_left : rl_btree_node :=
  { size := 2
    scores := fun i => if i = 0 then 10 else 20
    values := some (fun i => if i = 0 then 100 else 200)
    children := none }

/-- The middle leaf of `lend_right_tree`, which holds the single key 50. -/
def lend_node : rl_btree_node :=
  { size := 1, scores := fun _ => 50, values := some (fun _ => 500), children := none }

/-- The last leaf of `lend_right_tree`, which holds 70, 80 and 90. -/
def lend_sibling : rl_btree_node :=
  { size := 3
    scores := fun i => if i = 0 then 70 else if i = 1 then 80 else 90
    values := some (fun i => if i = 0 then 700 else if i = 1 then 800 else 900)
    children := none }

/-- A hash tree with `max_node_size = 4` as the first loop of a removal of 40
leaves it: the root holds 30 and 60 over the leaves 10, 20 and 50 and
70, 80, 90; the middle leaf is one key short. -/
def lend_right_tree : rl_btree :=
  { type := long_hash
    max_node_size := 4
    height := 2
    root := 1
    accessor :=
      [none,
       some lend_root,
       some lend_left,
       some lend_node,
       some lend_sibling] }

/-- The path vector `nodes` of the removal of 40 from `lend_right_tree`: the
root, then the middle leaf. -/
def lend_nodes : Nat → Option Nat :=
  fun i => if i = 0 then some 1 else some 3

/-- The path vector `positions` of the removal of 40 from `lend_right_tree`:
child 1 of the root, then index 0 of the leaf. -/
def lend_positions : Nat → Nat :=
  fun i => if i = 0 then 1 else 0

/-! ## hirlite.c: replies, the reply queue, command dispatch

Strings are `String`s together with the lengths the caller passes; pointers to
replies are `reply_ptr`s.  Every `malloc`, `calloc` and `realloc` is taken to
succeed. -/

/-- Status codes of hirlite.h.  The header is not part of the sources, so the
codes are kept symbolic. -/
inductive rlite_status where
  | RLITE_OK
  | RLITE_ERR
deriving DecidableEq, Repr

/-- Reply types of hirlite.h that hirlite.c stores into a reply. -/
inductive reply_type where
  | RLITE_REPLY_STRING
  | RLITE_REPLY_ARRAY
  | RLITE_REPLY_INTEGER
  | RLITE_REPLY_STATUS
  | RLITE_REPLY_ERROR
deriving DecidableEq, Repr

/-- `rliteReply` with the fields that string, error and integer replies use.
`str` is `none` for a NULL pointer; the `element` array of array replies is left
out. -/
structure rliteReply where
  type : reply_type
  integer : Int
  len : Nat
  str : Option String
  elements : Nat
deriving DecidableEq, Repr

/-- A `rliteReply *`: NULL, a slot of allocated memory that was never written, or
a reply object. -/
inductive reply_ptr where
  | null
  | uninitialised
  | object (r : rliteReply)
deriving DecidableEq, Repr

/-- `rliteContext` with the fields hirlite.c uses.  `db` stands for the handle
that `rl_open` returns; the database library is not part of the sources. -/
structure rliteContext where
  err : Int
  errstr : String
  db : Nat
  replies : Nat → reply_ptr
  replyPosition : Nat
  replyLength : Nat
  replyAlloc : Nat

/-- `rliteClient`: the context, the arguments of the command and the reply the
handler leaves. -/
structure rliteClient where
  context : rliteContext
  argc : Int
  argv : Nat → String
  argvlen : Nat → Nat
  reply : reply_ptr

/-- `createReplyObject`: `calloc` leaves every field but `type` zero. -/
def createReplyObject (type : reply_type) : rliteReply :=
  { type := type, integer := 0, len := 0, str := none, elements := 0 }

/-- `createStringTypeObject`: the first `len` bytes of `str` are copied. -/
def createStringTypeObject (type : reply_type) (str : String) (len : Nat) : rliteReply :=
  { createReplyObject type with str := some (String.mk (str.toList.take len)), len := len }

/-- `createStringObject`. -/
def createStringObject (str : String) (len : Nat) : rliteReply :=
  createStringTypeObject reply_type.RLITE_REPLY_STRING str len

/-- `createErrorObject`: the length is `strlen(str)`. -/
def createErrorObject (str : String) : rliteReply :=
  createStringTypeObject reply_type.RLITE_REPLY_ERROR str str.length

/-- `addReply` (lines 118-133).  The array is grown when `replyPosition` equals
`replyAlloc`; the reply is stored at index `replyPosition` and `replyLength` is
incremented.  `none` when the store falls outside the allocated array. -/
def addReply (c : rliteContext) (reply : reply_ptr) : Option (rlite_status × rliteContext) :=
  let c1 := if c.replyPosition = c.replyAlloc then { c with replyAlloc := c.replyAlloc * 2 }
            else c
  if c1.replyPosition < c1.replyAlloc then
    some (rlite_status.RLITE_OK,
      { c1 with replies := aset c1.replies c1.replyPosition reply
                replyLength := c1.replyLength + 1 })
  else none

/-- The output of `vsnprintf` for a format whose only conversion is one `%s`,
before truncation: the format with the argument in the place of `%s`. -/
def format_s (arg : List Char) : List Char → List Char
  | [] => []
  | c :: rest =>
    if c = '%' ∧ rest.head? = some 's' then arg ++ rest.tail else c :: format_s arg rest

/-- `addReplyErrorFormat` (lines 135-156) for a format with one `%s`: the buffer
holds `strlen(fmt) * 2` bytes, so the message is cut after one byte less; the
error reply keeps `len = 0`; the result of `addReply` is dropped. -/
def addReplyErrorFormat (c : rliteContext) (fmt arg : String) :
    Option (rlite_status × rliteContext) :=
  let maxlen := fmt.length * 2
  let str := String.mk ((format_s arg.toList fmt.toList).take (maxlen - 1))
  let reply := { createReplyObject reply_type.RLITE_REPLY_ERROR with str := some str }
  match addReply c (reply_ptr.object reply) with
  | none => none
  | some r => some (rlite_status.RLITE_OK, r.2)

/-- `_rliteConnect` (lines 283-305): an array of `DEFAULT_REPLIES_SIZE = 16`
slots that nothing has written yet, and an empty queue.  `db` is the handle
`rl_open` has returned. -/
def _rliteConnect (db : Nat) : rliteContext :=
  { err := 0, errstr := "", db := db, replies := fun _ => reply_ptr.uninitialised,
    replyPosition := 0, replyLength := 0, replyAlloc := 16 }

/-- `_popReply` (lines 367-379): the slot at `replyPosition` while it is below
`replyLength`, NULL otherwise; both counters return to 0 when they meet.  `none`
when the slot read lies outside the allocated array. -/
def _popReply (c : rliteContext) : Option (reply_ptr × rliteContext) :=
  if c.replyPosition < c.replyLength then
    if c.replyPosition < c.replyAlloc then
      let ret := c.replies c.replyPosition
      let c1 := { c with replyPosition := c.replyPosition + 1 }
      if c1.replyPosition = c1.replyLength then
        some (ret, { c1 with replyPosition := 0, replyLength := 0 })
      else some (ret, c1)
    else none
  else some (reply_ptr.null, c)

/-- `rliteGetReply`: the status, the pointer stored through `reply`, and the
context. -/
def rliteGetReply (c : rliteContext) : Option (rlite_status × reply_ptr × rliteContext) :=
  (_popReply c).map (fun r => (rlite_status.RLITE_OK, r.1, r.2))

/-- The handlers that `rliteCommandTable` names. -/
inductive command_proc where
  | zaddCommand
  | zincrbyCommand
  | zremCommand
  | zremrangebyscoreCommand
  | zremrangebyrankCommand
  | zremrangebylexCommand
  | zrangeCommand
  | zrevrangeCommand
  | pingCommand
  | echoCommand
deriving DecidableEq, Repr

/-- `struct rliteCommand` with the three fields hirlite.c reads. -/
structure rliteCommand where
  name : String
  proc : command_proc
  arity : Int
deriving DecidableEq, Repr

/-- `rliteCommandTable` (lines 638-802): the entries that are not commented
out, in their order. -/
def rliteCommandTable : List rliteCommand :=
  [{ name := "zadd", proc := command_proc.zaddCommand, arity := -4 },
   { name := "zincrby", proc := command_proc.zincrbyCommand, arity := 4 },
   { name := "zrem", proc := command_proc.zremCommand, arity := -3 },
   { name := "zremrangebyscore", proc := command_proc.zremrangebyscoreCommand, arity := 4 },
   { name := "zremrangebyrank", proc := command_proc.zremrangebyrankCommand, arity := 4 },
   { name := "zremrangebylex", proc := command_proc.zremrangebylexCommand, arity := 4 },
   { name := "zrange", proc := command_proc.zrangeCommand, arity := -4 },
   { name := "zrevrange", proc := command_proc.zrevrangeCommand, arity := -4 },
   { name := "ping", proc := command_proc.pingCommand, arity := -1 },
   { name := "echo", proc := command_proc.echoCommand, arity := 2 }]

/-- The libc function `strcasecmp` as far as the code uses it: the result is 0
exactly when the two strings agree once the letters A to Z are mapped to lower
case. -/
def strcasecmp (a b : String) : Int :=
  if a.toList.map Char.toLower = b.toList.map Char.toLower then 0 else 1

/-- `lookupCommand` (lines 804-816): the first entry of the table whose name
compares equal to `name`; the length argument is unused. -/
def lookupCommand (name : String) : Option rliteCommand :=
  rliteCommandTable.find? (fun c => decide (strcasecmp c.name name = 0))

/-- `echoCommand`. -/
def echoCommand (c : rliteClient) : rliteClient :=
  { c with reply := reply_ptr.object (createStringObject (c.argv 1) (c.argvlen 1)) }

/-- `pingCommand`. -/
def pingCommand (c : rliteClient) : rliteClient :=
  { c with reply := reply_ptr.object (createStringObject "PONG" 4) }

/-- The call `command->proc(&client)`.  The sorted-set handlers work through the
database library, which is not part of the sources; what they do to the client
and its context is the parameter `zset`. -/
def call_proc (zset : command_proc → rliteClient → rliteClient) :
    command_proc → rliteClient → rliteClient
  | command_proc.pingCommand, c => pingCommand c
  | command_proc.echoCommand, c => echoCommand c
  | p, c => zset p c

/-- `__rliteAppendCommandArgv` (lines 386-409). -/
def __rliteAppendCommandArgv (zset : command_proc → rliteClient → rliteClient)
    (c : rliteContext) (argc : Int) (argv : Nat → String) (argvlen : Nat → Nat) :
    Option (rlite_status × rliteContext) :=
  if argc = 0 then some (rlite_status.RLITE_ERR, c)
  else
    let client : rliteClient :=
      { context := c, argc := argc, argv := argv, argvlen := argvlen,
        reply := reply_ptr.uninitialised }
    match lookupCommand (argv 0) with
    | none => addReplyErrorFormat c "unknown command \x27%s\x27" (argv 0)
    | some command =>
      if (command.arity > 0 ∧ command.arity ≠ argc) ∨ argc < -command.arity then
        addReplyErrorFormat c "wrong number of arguments for \x27%s\x27 command" command.name
      else
        let client1 := call_proc zset command.proc client
        addReply client1.context client1.reply

/-- The handler that the call `command->proc(&client)` of line 405 runs in
`__rliteAppendCommandArgv`, under the branch conditions of lines 387-404; `none`
when the call is not reached. -/
def called_handler (argc : Int) (argv : Nat → String) : Option command_proc :=
  if argc = 0 then none
  else
    match lookupCommand (argv 0) with
    | none => none
    | some command =>
      if (command.arity > 0 ∧ command.arity ≠ argc) ∨ argc < -command.arity then none
      else some command.proc

/-- `rliteAppendCommandArgv`. -/
def rliteAppendCommandArgv (zset : command_proc → rliteClient → rliteClient)
    (c : rliteContext) (argc : Int) (argv : Nat → String) (argvlen : Nat → Nat) :
    Option (rlite_status × rliteContext) :=
  __rliteAppendCommandArgv zset c argc argv argvlen

/-- The arguments of a command given as a list: `argv` and `argvlen`, with
`argc` the length of the list. -/
def argv_of (args : List String) : Nat → String :=
  fun i => args.getD i ""

/-- The lengths `argvlen` of the arguments of a list. -/
def argvlen_of (args : List String) : Nat → Nat :=
  fun i => (args.getD i "").length

/-- The commands of a list appended in turn with `rliteAppendCommandArgv`; `none`
when a call does not return `RLITE_OK`. -/
def append_all (zset : command_proc → rliteClient → rliteClient) (c : rliteContext) :
    List (List String) → Option rliteContext
  | [] => some c
  | args :: more =>
    match rliteAppendCommandArgv zset c args.length (argv_of args) (argvlen_of args) with
    | some (rlite_status.RLITE_OK, c1) => append_all zset c1 more
    | _ => none

/-- The pointers that `n` calls of `rliteGetReply` store, in the order of the
calls. -/
def get_replies : Nat → rliteContext → Option (List reply_ptr)
  | 0, _ => some []
  | n + 1, c =>
    match rliteGetReply c with
    | none => none
    | some (_, r, c1) => (get_replies n c1).map (fun rs => r :: rs)

/-- The reply a handler computes for a command on a context: what a first-in
first-out queue hands back for it. -/
def reply_for (zset : command_proc → rliteClient → rliteClient) (c : rliteContext)
    (args : List String) : Option reply_ptr :=
  (lookupCommand (argv_of args 0)).map (fun command =>
    (call_proc zset command.proc
      { context := c, argc := args.length, argv := argv_of args, argvlen := argvlen_of args,
        reply := reply_ptr.uninitialised }).reply)

/-! ## Calls of the accessor

Which nodes a call hands to `accessor->update` or `accessor->insert`, read off
the lines that hold these calls. -/

/-- The ids that the main loop of `rl_btree_add_element` hands to the accessor,
in the order of the calls: `accessor->insert` for the right sibling of every
split (line 487).  The loop holds no call of `accessor->update`. -/
def add_levels_calls (nodes : Nat → Option Nat) (positions : Nat → Nat) (lo : Nat) :
    Nat → add_state → Option (List Nat)
  | 0, _ => some []
  | n + 1, st =>
    match add_level nodes positions (lo + n) st with
    | none => none
    | some st1 =>
      if st1.placed then some []
      else
        match st1.child, add_levels_calls nodes positions lo n st1 with
        | some c, some rest => some (c :: rest)
        | _, _ => none

/-- The ids that a call of `rl_btree_add_element` hands to `accessor->update` or
`accessor->insert`: those of the main loop and, when a new root is made, the old
root (`update`, line 506; the reserved id 0 when the old root is NULL) and the
new root (`insert`, line 508). -/
def add_element_calls (bt : rl_btree) (score value : Int) : Option (List Nat) :=
  match rl_btree_find_score bt score false (some (fun _ => none)) (some (fun _ => 0)) with
  | none => none
  | some r =>
    if r.retval ≠ RL_NOT_FOUND then some []
    else
      match r.nodes, r.positions with
      | some nodes, some positions =>
        match add_levels nodes positions 0 bt.height
            { bt := bt, placed := false, score := score, value := value, child := none,
              node := none },
          add_levels_calls nodes positions 0 bt.height
            { bt := bt, placed := false, score := score, value := value, child := none,
              node := none } with
        | some st, some calls =>
          if st.placed then some calls
          else some (calls ++ [update_id st.node, (add_new_root st).root])
        | _, _ => none
      | _, _ => none

/-- The ids that the body of the first loop of `rl_btree_remove_element` hands to
`accessor->update`: the node and the leaf reached for a key of an internal node
(lines 570-571); the leaf for a key of a leaf that keeps a key (line 581), and
nothing for a leaf that becomes empty. -/
def delete_key_calls (bt : rl_btree) (nodes : Nat → Option Nat) (positions : Nat → Nat)
    (i id : Nat) : Option (List Nat) :=
  match select bt id with
  | none => none
  | some node =>
    match node.children with
    | some _ =>
      match descend bt (bt.height - 1 - i) i id nodes positions with
      | none => none
      | some (cid, _, _) =>
        match select bt cid with
        | none => none
        | some child_node =>
          if child_node.children.isSome then some []
          else if child_node.size = 0 then none
          else some [id, cid]
    | none => if node.size - 1 > 0 then some [id] else some []

/-- The ids that one iteration of the rebalance loop of
`rl_btree_remove_element` hands to `accessor->update`: sibling and node for a
borrow (lines 643-644, 672-673), sibling and parent for a merge into the left
sibling (lines 703-704), node and parent for a merge of the right sibling (lines
737-738), nothing at the root and on the exits. -/
def rebalance_level_calls (nodes : Nat → Option Nat) (positions : Nat → Nat) (i : Nat)
    (bt : rl_btree) : Option (List Nat) :=
  match nodes i with
  | none => none
  | some id =>
    match select bt id with
    | none => none
    | some node =>
      if i = 0 then some []
      else if node.size ≥ bt.max_node_size / 2 ∨ i = 0 then some []
      else
        match nodes (i - 1) with
        | none => none
        | some pid =>
          match select bt pid with
          | none => none
          | some parent =>
            if parent.size = 0 then some []
            else
              let ppos := positions (i - 1)
              match parent.children with
              | none => none
              | some pch =>
                let lends : Nat → Bool := fun x =>
                  match select bt x with
                  | none => false
                  | some sibling => decide (sibling.size > bt.max_node_size / 2)
                if ppos > 0 ∧ lends (pch (ppos - 1)) = true then some [pch (ppos - 1), id]
                else if ppos < parent.size ∧ lends (pch (ppos + 1)) = true then
                  some [pch (ppos + 1), id]
                else if ppos > 0 then some [pch (ppos - 1), pid]
                else if ppos < parent.size then some [id, pid]
                else some []

/-- The ids that the rebalance loop hands to `accessor->update`, over the levels
`lo + n - 1` down to `lo`, in the order of the calls. -/
def rebalance_calls (nodes : Nat → Option Nat) (positions : Nat → Nat) (lo : Nat) :
    Nat → rl_btree → Option (List Nat)
  | 0, _ => some []
  | n + 1, bt =>
    match rebalance_level nodes positions (lo + n) bt,
      rebalance_level_calls nodes positions (lo + n) bt with
    | some (rebalance_result.stop _ _), some calls => some calls
    | some (rebalance_result.next bt1), some calls =>
      (rebalance_calls nodes positions lo n bt1).map (fun rest => calls ++ rest)
    | _, _ => none

/-- The ids that a call of `rl_btree_remove_element` hands to `accessor->update`.
The call registers no node with `accessor->insert`. -/
def remove_element_calls (bt : rl_btree) (score : Int) : Option (List Nat) :=
  match rl_btree_find_score bt score false (some (fun _ => none)) (some (fun _ => 0)) with
  | none => none
  | some r =>
    if r.retval ≠ RL_FOUND then some []
    else
      match r.nodes, r.positions with
      | some nodes, some positions =>
        match last_node nodes bt.height with
        | none => some []
        | some (i, id) =>
          match delete_key bt nodes positions i id, delete_key_calls bt nodes positions i id with
          | some (delete_result.exit _ _), some calls => some calls
          | some (delete_result.done bt1 nodes1 positions1 i1), some calls =>
            (rebalance_calls nodes1 positions1 0 (i1 + 1) bt1).map (fun rest => calls ++ rest)
          | _, _ => none
      | _, _ => none

/-- The ids under which the tree `b` holds a node whose size, keys, values or
children differ from what the tree `bt` holds under the id. -/
def changed_nodes (bt b : rl_btree) : List Nat :=
  (List.range b.accessor.length).filter
    (fun x => decide ((select b x).map node_fields ≠ (select bt x).map node_fields))

/-! ## Keys and values as 4-byte words -/

/-- The node with every key and value replaced by its low 32 bits, read as an
unsigned word. -/
def wrap_node (node : rl_btree_node) : rl_btree_node :=
  { node with
    scores := fun i => node.scores i % 4294967296
    values := node.values.map (fun v => fun i => v i % 4294967296) }

/-- A leaf of size 2^32 whose keys are all 0. -/
def huge_leaf : rl_btree_node :=
  { size := 4294967296, scores := fun _ => 0, values := none, children := none }

/-- A freshly created `long_set` tree with `max_node_size = 2^32`. -/
def huge_set : rl_btree := rl_btree_create long_set 4294967296 memory_accessor

/-- A hash leaf with the keys -1 and 2^32 + 5 and the values 7 and -2. -/
def wide_leaf : rl_btree_node :=
  { size := 2
    scores := fun i => if i = 0 then -1 else 4294967301
    values := some (fun i => if i = 0 then 7 else -2)
    children := none }

/-! ## The capacity of the arrays

`rl_btree_node_create` allocates `max_node_size` slots for `scores` and for
`values`; a `children` array has `max_node_size + 1` slots.  The arrays of the
model have a slot for every index; a slot past the capacity that keeps its
content was not written. -/

/-- Slot `j` of the `values` array of a node, 0 when the array is NULL. -/
def values_slot (node : rl_btree_node) (j : Nat) : Int :=
  match node.values with
  | some v => v j
  | none => 0

/-- Slot `j` of the `children` array of a node, 0 when the array is NULL. -/
def children_slot (node : rl_btree_node) (j : Nat) : Nat :=
  match node.children with
  | some c => c j
  | none => 0

/-- A node as `malloc` leaves it in the model: every slot reads 0. -/
def blank_node : rl_btree_node :=
  { size := 0, scores := fun _ => 0, values := none, children := none }

/-- The slots of `new` past the capacity are those of `old`: the slots of
`scores` and `values` from index `m` on and the slots of `children` from index
`m + 1` on. -/
def beyond_kept (m : Nat) (old new : rl_btree_node) : Prop :=
  ∀ j, m ≤ j →
    new.scores j = old.scores j ∧ values_slot new j = values_slot old j ∧
    children_slot new (j + 1) = children_slot old (j + 1)

/-- No node of the tree `b` differs past the capacity `m` from the node that the
tree `a` holds under the same id (from a blank node, when `a` holds none). -/
def capacity_kept (m : Nat) (a b : rl_btree) : Prop :=
  ∀ x nd1, select b x = some nd1 → beyond_kept m ((select a x).getD blank_node) nd1

/-- The relation of `capacity_kept` for a step that keeps every node
registered. -/
def grow_kept (m : Nat) (a b : rl_btree) : Prop :=
  (∀ x nd, select a x = some nd → ∃ nd1, select b x = some nd1 ∧ beyond_kept m nd nd1) ∧
  (∀ x nd1, select a x = none → select b x = some nd1 → beyond_kept m blank_node nd1)

/-- The relation of `capacity_kept` for a step that registers no node. -/
def shrink_kept (m : Nat) (a b : rl_btree) : Prop :=
  ∀ x nd1, select b x = some nd1 → ∃ nd, select a x = some nd ∧ beyond_kept m nd nd1

/-- The tree that an iteration of the rebalance loop leaves. -/
def result_tree : rebalance_result → rl_btree
  | rebalance_result.stop _ bt => bt
  | rebalance_result.next bt => bt

/-! ## Example trees for removals -/

/-- The set tree with `max_node_size = 4` whose root holds 2 over the leaves
holding 1 and holding 3. -/
def collapse_tree : rl_btree :=
  { type := long_set
    max_node_size := 4
    height := 2
    root := 1
    accessor :=
      [none,
       some { size := 1, scores := fun _ => 2, values := none,
              children := some (fun i => if i = 0 then 2 else 3) },
       some { size := 1, scores := fun _ => 1, values := none, children := none },
       some { size := 1, scores := fun _ => 3, values := none, children := none }] }

/-- The hash tree holding 10, 20, 30, 40: a root leaf that is full. -/
def hash_1234 : rl_btree := add_all fresh_hash [10, 20, 30, 40]

/-- The set tree built by adding 1 to 7: the root holds 3 over the leaves 1, 2
and 4, 5, 6, 7. -/
def set_1234567 : rl_btree := add_all fresh_set [1, 2, 3, 4, 5, 6, 7]

/-- The last leaf of `merge_tree`, which holds 70 and 80. -/
def merge_sibling : rl_btree_node :=
  { size := 2
    scores := fun i => if i = 0 then 70 else 80
    values := some (fun i => if i = 0 then 700 else 800)
    children := none }

/-- A hash tree with `max_node_size = 4` as the first loop of a removal of 40
leaves it: the root holds 30 and 60 over the leaves 10, 20 and 50 and 70, 80;
the middle leaf is one key short and no sibling holds more than 2 keys. -/
def merge_tree : rl_btree :=
  { type := long_hash
    max_node_size := 4
    height := 2
    root := 1
    accessor := [none, some lend_root, some lend_left, some lend_node, some merge_sibling] }

/-- The path vector `positions` of a removal from the first leaf of
`merge_tree`: child 0 of the root, then index 0 of the leaf. -/
def first_positions : Nat → Nat :=
  fun _ => 0

/-- The path vector `nodes` of a removal from the first leaf of `merge_tree`:
the root, then the first leaf. -/
def first_nodes : Nat → Option Nat :=
  fun i => if i = 0 then some 1 else some 2

/-- A first leaf that is one key short: it holds 20. -/
def short_first : rl_btree_node :=
  { size := 1, scores := fun _ => 20, values := some (fun _ => 200), children := none }

/-- A middle leaf that holds 40 and 50. -/
def merge_middle : rl_btree_node :=
  { size := 2
    scores := fun i => if i = 0 then 40 else 50
    values := some (fun i => if i = 0 then 400 else 500)
    children := none }

/-- The tree `merge_tree` with its first leaf one key short (it holds 20) and
its middle leaf holding 40 and 50. -/
def merge_first_tree : rl_btree :=
  { merge_tree with
    accessor := [none, some lend_root, some short_first, some merge_middle,
      some merge_sibling] }

/-- The hash tree holding 10 to 50: the root holds 30 over the leaves 10, 20 and
40, 50. -/
def hash_12345 : rl_btree := add_all fresh_hash [10, 20, 30, 40, 50]

/-! ## Trees after the last key has been removed -/

/-- The set tree with `max_node_size = 4` that the calls add 1, remove 1, add 2
leave from a freshly created tree. -/
def drained_add : rl_btree := after_add (after_remove (after_add fresh_set 1 0) 1) 2 0

/-- The tree `drained_add` with the id `u` in slot 0 of the `children` of its
root, the slot through which `accessor->update` reports an id for the NULL old
root. -/
def drained_add_at (u : Nat) : rl_btree :=
  match select drained_add drained_add.root with
  | none => drained_add
  | some nd =>
    store drained_add drained_add.root
      { nd with children := nd.children.map (fun c => aset c 0 u) }

/-- Every node registered with the accessor holds at most `n` keys. -/
def sizes_within (bt : rl_btree) (n : Nat) : Prop :=
  ∀ x nd, select bt x = some nd → nd.size ≤ n

/-! ## Arrays and lists -/

@[simp] theorem live_length {α : Type} (a : Nat → α) (n : Nat) : (live a n).length = n := by
  simp [live]

@[simp] theorem live_getElem {α : Type} (a : Nat → α) (n i : Nat) (h : i < (live a n).length) :
    (live a n)[i] = a i := by
  simp [live]

theorem live_getElem? {α : Type} (a : Nat → α) (n i : Nat) :
    (live a n)[i]? = if i < n then some (a i) else none := by
  simp only [live, List.getElem?_map]
  split_ifs with h
  · simp [List.getElem?_range h]
  · rw [List.getElem?_eq_none (by simpa using h)]
    rfl

@[simp] theorem live_zero {α : Type} (a : Nat → α) : live a 0 = [] := rfl

theorem live_succ {α : Type} (a : Nat → α) (n : Nat) : live a (n + 1) = live a n ++ [a n] := by
  simp [live, List.range_succ]

theorem live_cons {α : Type} (a : Nat → α) (n : Nat) :
    live a (n + 1) = a 0 :: live (fun i => a (i + 1)) n := by
  simp [live, List.range_succ_eq_map, Function.comp_def]

theorem live_congr {α : Type} (a b : Nat → α) (n : Nat) (h : ∀ i, i < n → a i = b i) :
    live a n = live b n := by
  simp only [live]
  apply List.map_congr_left
  intro i hi
  exact h i (by simpa using hi)

theorem mem_live {α : Type} (a : Nat → α) (n : Nat) (x : α) :
    x ∈ live a n ↔ ∃ i, i < n ∧ a i = x := by
  simp [live]

theorem live_eq_iff {α : Type} (a : Nat → α) (n : Nat) (l : List α) :
    live a n = l ↔ l.length = n ∧ ∀ i (h : i < l.length), l[i] = a i := by
  constructor
  · rintro rfl
    simp
  · rintro ⟨h1, h2⟩
    apply List.ext_getElem
    · simp [h1]
    · intro i hi hi2
      simp [h2 i hi2]

theorem live_take {α : Type} (a : Nat → α) (n k : Nat) (h : k ≤ n) :
    (live a n).take k = live a k := by
  symm
  rw [live_eq_iff]
  refine ⟨by simp [h], ?_⟩
  intro i hi
  simp

theorem live_drop {α : Type} (a : Nat → α) (n k : Nat) :
    (live a n).drop k = live (fun i => a (i + k)) (n - k) := by
  symm
  rw [live_eq_iff]
  refine ⟨by simp, ?_⟩
  intro i hi
  simp [Nat.add_comm]

/-! ## The bisection -/

theorem long_cmp_eq_zero (a b : Int) : long_cmp a b = 0 ↔ a = b := by
  unfold long_cmp
  split_ifs <;> simp_all

theorem long_cmp_pos (a b : Int) : long_cmp a b > 0 ↔ b < a := by
  unfold long_cmp
  split_ifs with h1 h2 <;> simp_all

theorem long_cmp_eq_one (a b : Int) : long_cmp a b = 1 ↔ b < a := by
  unfold long_cmp
  split_ifs with h1 h2 <;> simp_all

/-- The loop invariant of the bisection on an ascending array: entries below `min` are
smaller than the score, entries above `max` are larger. -/
theorem bisect_inv (score : Int) (scores : Nat → Int) (size : Nat)
    (hs : ∀ i j, i < j → j < size → scores i < scores j) :
    ∀ (fuel : Nat) (pos min max : Int), 0 ≤ min → min ≤ max → max < size →
      max - min < fuel →
      (∀ j : Nat, (j : Int) < min → scores j < score) →
      (∀ j : Nat, max < (j : Int) → j < size → score < scores j) →
      (∃ p, bisect score scores fuel pos min max = some (bisect_result.hit p) ∧
          p < size ∧ scores p = score) ∨
      (∃ (p : Nat) (mx : Int),
          bisect score scores fuel pos min max = some (bisect_result.miss p mx) ∧
          p ≤ size ∧ (∀ j, j < p → scores j < score) ∧
          (∀ j, p ≤ j → j < size → score < scores j) ∧
          ¬ ((p : Int) = mx ∧ long_cmp score (scores p) = 1)) := by
  intro fuel
  induction fuel with
  | zero => intro pos min max h0 h1 h2 h3; omega
  | succ fuel ih =>
    intro pos min max h0 h1 h2 h3 hlo hhi
    obtain ⟨q, hq⟩ : ∃ q : Nat, ((max - min) / 2 + min) = (q : Int) :=
      ⟨((max - min) / 2 + min).toNat, by omega⟩
    have hq1 : min ≤ (q : Int) := by omega
    have hq2 : (q : Int) ≤ max := by omega
    have hqs : q < size := by omega
    have hmono : ∀ i j, i ≤ j → j < size → scores i ≤ scores j := by
      intro i j hij hj
      rcases Nat.eq_or_lt_of_le hij with h | h
      · subst h; exact le_refl _
      · exact le_of_lt (hs i j h hj)
    rw [bisect]
    simp only [h1, if_true, hq, Int.toNat_ofNat, long_cmp_eq_zero, long_cmp_pos]
    by_cases hc0 : score = scores q
    · left
      exact ⟨q, by simp [hc0], hqs, hc0.symm⟩
    · simp only [hc0, if_false]
      by_cases hc1 : scores q < score
      · simp only [hc1, if_true]
        by_cases hm : max = (q : Int)
        · right
          refine ⟨q + 1, max, by simp [hm], by omega, ?_, ?_, ?_⟩
          · intro j hj
            exact lt_of_le_of_lt (hmono j q (by omega) hqs) hc1
          · intro j hj hjs
            exact hhi j (by omega) hjs
          · intro ⟨h, _⟩
            push_cast at h
            omega
        · simp only [hm, if_false]
          by_cases hn : min = (q : Int)
          · simp only [hn, if_true]
            apply ih
            · omega
            · omega
            · exact h2
            · omega
            · intro j hj
              exact lt_of_le_of_lt (hmono j q (by omega) hqs) hc1
            · exact hhi
          · simp only [hn, if_false]
            apply ih
            · omega
            · omega
            · exact h2
            · omega
            · intro j hj
              exact lt_of_le_of_lt (hmono j q (by omega) hqs) hc1
            · exact hhi
      · simp only [hc1, if_false]
        have hlt : score < scores q := lt_of_le_of_ne (not_lt.mp hc1) hc0
        by_cases hm : max = (q : Int)
        · right
          refine ⟨q, max, by simp [hm], by omega, ?_, ?_, ?_⟩
          · intro j hj
            exact hlo j (by omega)
          · intro j hj hjs
            exact lt_of_lt_of_le hlt (hmono q j hj hjs)
          · intro ⟨_, h⟩
            rw [long_cmp_eq_one] at h
            omega
        · simp only [hm, if_false]
          apply ih
          · exact h0
          · omega
          · omega
          · omega
          · exact hlo
          · intro j hj hjs
            exact lt_of_lt_of_le hlt (hmono q j (by omega) hjs)

/-- The bisection as `rl_btree_find_score` starts it, on an ascending node: it ends
on the key, or at the insertion position, where the later adjustment does not apply. -/
theorem bisect_node (score : Int) (scores : Nat → Int) (size : Nat)
    (hs : ∀ i j, i < j → j < size → scores i < scores j) :
    (∃ p, bisect score scores (size + 1) 0 0 ((size : Int) - 1) = some (bisect_result.hit p) ∧
        p < size ∧ scores p = score) ∨
    (∃ (p : Nat) (mx : Int),
        bisect score scores (size + 1) 0 0 ((size : Int) - 1) =
          some (bisect_result.miss p mx) ∧
        p ≤ size ∧ (∀ j, j < p → scores j < score) ∧
        (∀ j, p ≤ j → j < size → score < scores j) ∧
        ¬ ((p : Int) = mx ∧ long_cmp score (scores p) = 1)) := by
  by_cases h : size = 0
  · subst h
    right
    refine ⟨0, -1, by simp [bisect], le_refl _, ?_, ?_, ?_⟩
    · intro j hj; omega
    · intro j _ hj; omega
    · intro ⟨h, _⟩; simp at h
  · apply bisect_inv score scores size hs (size + 1) 0 0 ((size : Int) - 1)
    · omega
    · omega
    · omega
    · push_cast; omega
    · intro j hj; omega
    · intro j hj hjs; omega

/-! ## Interleavings -/

@[simp] theorem inter_nil (ks : List Int) : inter [] ks = [] := by
  cases ks <;> rfl

@[simp] theorem inter_single (c : List Int) (ks : List Int) : inter [c] ks = c ++ ks.take 1 := by
  cases ks <;> simp [inter]

@[simp] theorem interL_nil_left (ks : List Int) : interL [] ks = [] := by
  cases ks <;> rfl

@[simp] theorem interL_nil_right (cs : List (List Int)) : interL cs [] = [] := by
  cases cs <;> rfl

@[simp] theorem interR_nil_left (cs : List (List Int)) : interR [] cs = [] := by
  cases cs <;> rfl

@[simp] theorem interR_nil_right (ks : List Int) : interR ks [] = [] := by
  cases ks <;> rfl

theorem inter_append_left (cs1 : List (List Int)) :
    ∀ (ks1 : List Int) (cs2 : List (List Int)) (ks2 : List Int),
      cs1.length = ks1.length →
      inter (cs1 ++ cs2) (ks1 ++ ks2) = interL cs1 ks1 ++ inter cs2 ks2 := by
  induction cs1 with
  | nil =>
    intro ks1 cs2 ks2 h
    cases ks1 with
    | nil => simp
    | cons k ks => simp at h
  | cons c cs ih =>
    intro ks1 cs2 ks2 h
    cases ks1 with
    | nil => simp at h
    | cons k ks =>
      simp only [List.length_cons, add_left_inj] at h
      simp [inter, interL, ih ks cs2 ks2 h]

theorem inter_cons_eq (c : List Int) (cs : List (List Int)) :
    ∀ (ks : List Int), cs.length = ks.length → inter (c :: cs) ks = c ++ interR ks cs := by
  induction cs generalizing c with
  | nil =>
    intro ks h
    cases ks with
    | nil => simp
    | cons k ks => simp at h
  | cons c1 cs ih =>
    intro ks h
    cases ks with
    | nil => simp at h
    | cons k ks =>
      simp only [List.length_cons, add_left_inj] at h
      simp [inter, interR, ih c1 ks h]

theorem inter_append_right (m : List (List Int)) :
    ∀ (mk : List Int) (cs2 : List (List Int)) (ks2 : List Int),
      m.length = mk.length + 1 → cs2.length = ks2.length →
      inter (m ++ cs2) (mk ++ ks2) = inter m mk ++ interR ks2 cs2 := by
  induction m with
  | nil => intro mk cs2 ks2 h; simp at h
  | cons c cs ih =>
    intro mk cs2 ks2 h h2
    cases mk with
    | nil =>
      simp only [List.length_cons, List.length_nil, zero_add, add_left_eq_self,
        List.length_eq_zero] at h
      subst h
      simp [inter_cons_eq c cs2 ks2 h2]
    | cons k ks =>
      simp only [List.length_cons, add_left_inj] at h
      simp [inter, ih ks cs2 ks2 h h2]

/-- Replacing a run of children and the keys between them inside an interleaving. -/
theorem inter_splice (cs1 : List (List Int)) (ks1 : List Int) (m : List (List Int))
    (mk : List Int) (cs2 : List (List Int)) (ks2 : List Int)
    (h1 : cs1.length = ks1.length) (hm : m.length = mk.length + 1)
    (h2 : cs2.length = ks2.length) :
    inter (cs1 ++ (m ++ cs2)) (ks1 ++ (mk ++ ks2)) =
      interL cs1 ks1 ++ (inter m mk ++ interR ks2 cs2) := by
  rw [inter_append_left cs1 ks1 _ _ h1, inter_append_right m mk cs2 ks2 hm h2]

theorem inter_split_at (cs1 : List (List Int)) :
    ∀ (ks1 : List Int) (k : Int) (cs2 : List (List Int)) (ks2 : List Int),
      cs1.length = ks1.length + 1 →
      inter (cs1 ++ cs2) (ks1 ++ k :: ks2) = inter cs1 ks1 ++ k :: inter cs2 ks2 := by
  induction cs1 with
  | nil => intro ks1 k cs2 ks2 h; simp at h
  | cons c cs ih =>
    intro ks1 k cs2 ks2 h
    cases ks1 with
    | nil =>
      simp only [List.length_cons, List.length_nil, zero_add, add_left_eq_self,
        List.length_eq_zero] at h
      subst h
      simp [inter]
    | cons k1 ks =>
      simp only [List.length_cons, add_left_inj] at h
      simp [inter, ih ks k cs2 ks2 h]

theorem interL_snoc (cs : List (List Int)) :
    ∀ (ks : List Int) (c : List Int) (k : Int), cs.length = ks.length →
      interL (cs ++ [c]) (ks ++ [k]) = interL cs ks ++ (c ++ [k]) := by
  induction cs with
  | nil =>
    intro ks c k h
    cases ks with
    | nil => simp [interL]
    | cons k ks => simp at h
  | cons c1 cs ih =>
    intro ks c k h
    cases ks with
    | nil => simp at h
    | cons k1 ks =>
      simp only [List.length_cons, add_left_inj] at h
      simp [interL, ih ks c k h]

theorem keys_sublist_inter (cs : List (List Int)) :
    ∀ (ks : List Int), cs.length = ks.length + 1 → ks.Sublist (inter cs ks) := by
  induction cs with
  | nil => intro ks h; simp at h
  | cons c cs ih =>
    intro ks h
    cases ks with
    | nil => simp
    | cons k ks =>
      simp only [List.length_cons, add_left_inj] at h
      simp only [inter]
      exact List.Sublist.trans ((ih ks h).cons₂ k) (List.sublist_append_right _ _)

theorem interL_lt (k : Int) (cs1 : List (List Int)) (ks1 : List Int)
    (hlen : cs1.length = ks1.length)
    (hs : (interL cs1 ks1).Pairwise (fun a b => a < b))
    (hk : ∀ y ∈ ks1, y < k) : ∀ x ∈ interL cs1 ks1, x < k := by
  rcases List.eq_nil_or_concat cs1 with h | ⟨cs, c, h⟩
  · subst h; simp
  · rcases List.eq_nil_or_concat ks1 with h2 | ⟨ks, k1, h2⟩
    · subst h2; simp
    · subst h; subst h2
      simp only [List.concat_eq_append, List.length_append, List.length_singleton,
        add_left_inj] at hlen
      simp only [List.concat_eq_append] at hs hk ⊢
      rw [interL_snoc cs ks c k1 hlen] at hs ⊢
      have hk1 : k1 < k := hk k1 (by simp)
      rw [← List.append_assoc] at hs ⊢
      rw [List.pairwise_append] at hs
      intro x hx
      rw [List.mem_append] at hx
      rcases hx with hx | hx
      · exact lt_trans (hs.2.2 x hx k1 (by simp)) hk1
      · simp only [List.mem_singleton] at hx
        subst hx; exact hk1

theorem interR_gt (k : Int) (ks2 : List Int) (cs2 : List (List Int))
    (hs : (interR ks2 cs2).Pairwise (fun a b => a < b))
    (hk : ∀ y ∈ ks2, k < y) : ∀ x ∈ interR ks2 cs2, k < x := by
  cases ks2 with
  | nil => simp
  | cons k1 ks =>
    cases cs2 with
    | nil => simp
    | cons c cs =>
      simp only [interR, List.pairwise_cons] at hs ⊢
      have hk1 : k < k1 := hk k1 (by simp)
      intro x hx
      rcases List.mem_cons.mp hx with hx | hx
      · subst hx; exact hk1
      · exact lt_trans hk1 (hs.1 x hx)

/-- An interleaving seen from position `p`: what lies before child `p`, the child,
and what lies after. -/
theorem inter_at (cs : List (List Int)) (ks : List Int) (p : Nat)
    (hlen : cs.length = ks.length + 1) (hp : p ≤ ks.length) (m : List (List Int))
    (mk : List Int) (hm : m.length = mk.length + 1) :
    inter (cs.take p ++ (m ++ cs.drop (p + 1))) (ks.take p ++ (mk ++ ks.drop p)) =
      interL (cs.take p) (ks.take p) ++ (inter m mk ++ interR (ks.drop p) (cs.drop (p + 1))) := by
  apply inter_splice
  · simp; omega
  · exact hm
  · simp; omega

theorem list_split_at {α : Type} (l : List α) (p : Nat) (h : p < l.length) :
    l = l.take p ++ ([l[p]] ++ l.drop (p + 1)) := by
  simp

theorem inter_at_self (cs : List (List Int)) (ks : List Int) (p : Nat)
    (hlen : cs.length = ks.length + 1) (hp : p ≤ ks.length) (hpc : p < cs.length) :
    inter cs ks =
      interL (cs.take p) (ks.take p) ++ (cs[p] ++ interR (ks.drop p) (cs.drop (p + 1))) := by
  have h := inter_at cs ks p hlen hp [cs[p]] [] (by simp)
  simp only [List.nil_append, List.take_append_drop, inter_single, List.take_nil,
    List.append_nil] at h
  rw [← h]
  congr 1
  exact list_split_at cs p (by omega)

/-- Bounds around position `p` of a strictly ascending interleaving, for a key that
lies between the separators `p - 1` and `p`. -/
theorem inter_bounds (cs : List (List Int)) (ks : List Int) (p : Nat) (k : Int)
    (hlen : cs.length = ks.length + 1) (hp : p ≤ ks.length)
    (hs : (inter cs ks).Pairwise (fun a b => a < b))
    (hlo : ∀ j (h : j < ks.length), j < p → ks[j] < k)
    (hhi : ∀ j (h : j < ks.length), p ≤ j → k < ks[j]) :
    (∀ x ∈ interL (cs.take p) (ks.take p), x < k) ∧
    (∀ x ∈ interR (ks.drop p) (cs.drop (p + 1)), k < x) := by
  rw [inter_at_self cs ks p hlen hp (by omega), List.pairwise_append, List.pairwise_append] at hs
  constructor
  · apply interL_lt k _ _ (by simp; omega) hs.1
    intro y hy
    obtain ⟨j, hj, rfl⟩ := List.getElem_of_mem hy
    simp only [List.length_take, lt_min_iff] at hj
    simp only [List.getElem_take]
    exact hlo j hj.2 hj.1
  · apply interR_gt k _ _ hs.2.1.2.1
    intro y hy
    obtain ⟨j, hj, rfl⟩ := List.getElem_of_mem hy
    simp only [List.length_drop] at hj
    simp only [List.getElem_drop]
    exact hhi (p + j) (by omega) (by omega)

/-! ## The accessor table -/

theorem select_lt {bt : rl_btree} {id : Nat} {nd : rl_btree_node}
    (h : select bt id = some nd) : id < bt.accessor.length := by
  unfold select at h
  by_contra hc
  rw [List.get?_eq_none.mpr (by omega)] at h
  simp at h

theorem select_store (bt : rl_btree) (id : Nat) (nd : rl_btree_node) (x : Nat) :
    select (store bt id nd) x =
      if x = id then (if id < bt.accessor.length then some nd else none) else select bt x := by
  unfold select store
  simp only [List.get?_eq_getElem?, List.getElem?_set]
  split_ifs with h1 h2 h3 <;> simp_all

theorem select_store_same {bt : rl_btree} {id : Nat} {nd0 : rl_btree_node}
    (h : select bt id = some nd0) (nd : rl_btree_node) :
    select (store bt id nd) id = some nd := by
  rw [select_store]
  simp [select_lt h]

theorem select_store_ne (bt : rl_btree) (id : Nat) (nd : rl_btree_node) (x : Nat)
    (h : x ≠ id) : select (store bt id nd) x = select bt x := by
  rw [select_store]
  simp [h]

theorem select_insert (bt : rl_btree) (nd : rl_btree_node) (x : Nat) :
    select (insert bt nd).2 x = if x = bt.accessor.length then some nd else select bt x := by
  unfold select insert
  simp only [List.get?_eq_getElem?, List.getElem?_append]
  split_ifs with h1 h2 h3
  · omega
  · rfl
  · subst h3
    simp
  · rw [List.getElem?_eq_none (by simp; omega), List.getElem?_eq_none (by omega)]

theorem select_remove (bt : rl_btree) (id : Nat) (x : Nat) :
    select (remove bt id) x = if x = id then none else select bt x := by
  unfold select remove
  simp only [List.get?_eq_getElem?, List.getElem?_set]
  split_ifs with h1 h2 h3 <;> simp_all

@[simp] theorem store_max (bt : rl_btree) (id : Nat) (nd : rl_btree_node) :
    (store bt id nd).max_node_size = bt.max_node_size := rfl
@[simp] theorem store_type (bt : rl_btree) (id : Nat) (nd : rl_btree_node) :
    (store bt id nd).type = bt.type := rfl
@[simp] theorem store_height (bt : rl_btree) (id : Nat) (nd : rl_btree_node) :
    (store bt id nd).height = bt.height := rfl
@[simp] theorem store_root (bt : rl_btree) (id : Nat) (nd : rl_btree_node) :
    (store bt id nd).root = bt.root := rfl
@[simp] theorem store_length (bt : rl_btree) (id : Nat) (nd : rl_btree_node) :
    (store bt id nd).accessor.length = bt.accessor.length := by simp [store]
@[simp] theorem insert_max (bt : rl_btree) (nd : rl_btree_node) :
    (insert bt nd).2.max_node_size = bt.max_node_size := rfl
@[simp] theorem insert_type (bt : rl_btree) (nd : rl_btree_node) :
    (insert bt nd).2.type = bt.type := rfl
@[simp] theorem insert_height (bt : rl_btree) (nd : rl_btree_node) :
    (insert bt nd).2.height = bt.height := rfl
@[simp] theorem insert_root (bt : rl_btree) (nd : rl_btree_node) :
    (insert bt nd).2.root = bt.root := rfl
@[simp] theorem insert_length (bt : rl_btree) (nd : rl_btree_node) :
    (insert bt nd).2.accessor.length = bt.accessor.length + 1 := by simp [insert]
@[simp] theorem insert_id (bt : rl_btree) (nd : rl_btree_node) :
    (insert bt nd).1 = bt.accessor.length := rfl
@[simp] theorem remove_max (bt : rl_btree) (id : Nat) :
    (remove bt id).max_node_size = bt.max_node_size := rfl
@[simp] theorem remove_type (bt : rl_btree) (id : Nat) :
    (remove bt id).type = bt.type := rfl
@[simp] theorem remove_height (bt : rl_btree) (id : Nat) :
    (remove bt id).height = bt.height := rfl
@[simp] theorem remove_root (bt : rl_btree) (id : Nat) :
    (remove bt id).root = bt.root := rfl
@[simp] theorem remove_length (bt : rl_btree) (id : Nat) :
    (remove bt id).accessor.length = bt.accessor.length := by simp [remove]

/-! ## Shape of subtrees -/

theorem linked_succ (bt : rl_btree) (lv id : Nat) :
    linked bt (lv + 1) id = true ↔
      ∃ nd, select bt id = some nd ∧
        ((nd.children = none ∧ lv = 0) ∨
         (∃ ch, nd.children = some ch ∧ lv ≠ 0 ∧
            ∀ j, j ≤ nd.size → linked bt lv (ch j) = true)) := by
  rw [linked]
  cases hs : select bt id with
  | none => simp
  | some nd =>
    cases hc : nd.children with
    | none => simp [hc]
    | some ch =>
      simp only [hc, Bool.and_eq_true, decide_eq_true_eq, List.all_eq_true, mem_live,
        forall_exists_index, and_imp, Option.some.injEq, exists_eq_left', false_and, false_or,
        exists_eq_left, and_congr_right_iff]
      constructor
      · rintro ⟨h0, h⟩
        exact Or.inr ⟨h0, fun j hj => h (ch j) j (by omega) rfl⟩
      · rintro (⟨h, _⟩ | ⟨h0, h⟩)
        · simp at h
        · refine ⟨h0, ?_⟩
          intro x j hj hx
          subst hx
          exact h j (by omega)

theorem shape_succ (bt : rl_btree) (lv lo id : Nat) :
    shape bt (lv + 1) lo id = true ↔
      ∃ nd, select bt id = some nd ∧ lo ≤ nd.size ∧ nd.size ≤ bt.max_node_size ∧
        nd.values.isSome = decide (bt.type.value_size ≠ 0) ∧
        ((nd.children = none ∧ lv = 0) ∨
         (∃ ch, nd.children = some ch ∧ lv ≠ 0 ∧
            ∀ j, j ≤ nd.size → shape bt lv (bt.max_node_size / 2) (ch j) = true)) := by
  rw [shape]
  cases hs : select bt id with
  | none => simp
  | some nd =>
    cases hc : nd.children with
    | none => simp [hc, and_assoc]
    | some ch =>
      simp only [hc, Bool.and_eq_true, decide_eq_true_eq, List.all_eq_true, mem_live,
        forall_exists_index, and_imp, Option.some.injEq, exists_eq_left', false_and, false_or,
        exists_eq_left, and_congr_right_iff, beq_iff_eq, and_assoc]
      intro _ _ _
      constructor
      · rintro ⟨h0, h⟩
        exact Or.inr ⟨h0, fun j hj => h (ch j) j (by omega) rfl⟩
      · rintro (⟨h, _⟩ | ⟨h0, h⟩)
        · simp at h
        · refine ⟨h0, ?_⟩
          intro x j hj hx
          subst hx
          exact h j (by omega)

theorem shape_zero (bt : rl_btree) (lo id : Nat) : shape bt 0 lo id = false := by
  rw [shape]

theorem linked_zero (bt : rl_btree) (id : Nat) : linked bt 0 id = false := by
  rw [linked]

theorem shape_linked (bt : rl_btree) : ∀ (lv lo id : Nat),
    shape bt lv lo id = true → linked bt lv id = true := by
  intro lv
  induction lv with
  | zero => intro lo id h; simp [shape_zero] at h
  | succ lv ih =>
    intro lo id h
    rw [shape_succ] at h
    rw [linked_succ]
    obtain ⟨nd, hs, _, _, _, h⟩ := h
    refine ⟨nd, hs, ?_⟩
    rcases h with h | ⟨ch, hc, hlv, h⟩
    · exact Or.inl h
    · exact Or.inr ⟨ch, hc, hlv, fun j hj => ih _ _ (h j hj)⟩

theorem shape_mono (bt : rl_btree) (lv lo lo1 id : Nat) (h : shape bt lv lo id = true)
    (hlo : ∀ nd, select bt id = some nd → lo1 ≤ nd.size) : shape bt lv lo1 id = true := by
  cases lv with
  | zero => simp [shape_zero] at h
  | succ lv =>
    rw [shape_succ] at h ⊢
    obtain ⟨nd, hs, h1, h2⟩ := h
    exact ⟨nd, hs, hlo nd hs, h2⟩

theorem keys_leaf {bt : rl_btree} {lv id : Nat} {nd : rl_btree_node}
    (hs : select bt id = some nd) (hc : nd.children = none) :
    keys bt (lv + 1) id = live nd.scores nd.size := by
  rw [keys]; simp [hs, hc]

theorem keys_internal {bt : rl_btree} {lv id : Nat} {nd : rl_btree_node} {ch : Nat → Nat}
    (hs : select bt id = some nd) (hc : nd.children = some ch) :
    keys bt (lv + 1) id =
      inter ((live ch (nd.size + 1)).map (keys bt lv)) (live nd.scores nd.size) := by
  rw [keys]; simp [hs, hc]

theorem ids_leaf {bt : rl_btree} {lv id : Nat} {nd : rl_btree_node}
    (hs : select bt id = some nd) (hc : nd.children = none) :
    ids bt (lv + 1) id = [id] := by
  rw [ids]; simp [hs, hc]

theorem ids_internal {bt : rl_btree} {lv id : Nat} {nd : rl_btree_node} {ch : Nat → Nat}
    (hs : select bt id = some nd) (hc : nd.children = some ch) :
    ids bt (lv + 1) id = id :: ((live ch (nd.size + 1)).map (ids bt lv)).flatten := by
  rw [ids]; simp [hs, hc]

theorem mem_ids_self (bt : rl_btree) (lv id : Nat) : id ∈ ids bt (lv + 1) id := by
  rw [ids]; simp

theorem mem_ids_child {bt : rl_btree} {lv id : Nat} {nd : rl_btree_node} {ch : Nat → Nat}
    (hs : select bt id = some nd) (hc : nd.children = some ch) (j : Nat) (hj : j ≤ nd.size)
    (x : Nat) (hx : x ∈ ids bt lv (ch j)) : x ∈ ids bt (lv + 1) id := by
  rw [ids_internal hs hc]
  simp only [List.mem_cons, List.mem_flatten, List.mem_map, mem_live, exists_exists_and_eq_and]
  right
  exact ⟨j, by omega, hx⟩

/-! ## Flatten and the in-order keys -/

theorem live_map {α β : Type} (g : α → β) (a : Nat → α) (n : Nat) :
    (live a n).map g = live (fun i => g (a i)) n := by
  simp [live]

theorem inter_live (n : Nat) : ∀ (f : Nat → List Int) (s : Nat → Int),
    inter (live f (n + 1)) (live s n) =
      f 0 ++ ((List.range n).map (fun i => s i :: f (i + 1))).flatten := by
  induction n with
  | zero => intro f s; simp [live, inter]
  | succ n ih =>
    intro f s
    rw [live_cons f, live_cons s, inter, ih]
    simp [List.range_succ_eq_map, Function.comp_def]

theorem mapM_option_all {α β : Type} (f : α → Option β) (g : α → β) :
    ∀ (l : List α), (∀ x ∈ l, f x = some (g x)) → l.mapM f = some (l.map g) := by
  intro l
  induction l with
  | nil => intro _; rfl
  | cons a l ih =>
    intro h
    rw [List.mapM_cons, h a (by simp), ih (fun x hx => h x (by simp [hx]))]
    rfl

theorem flatten_linked (bt : rl_btree) : ∀ (lv id : Nat), linked bt lv id = true →
    ∀ fuel, lv ≤ fuel + 1 → rl_flatten_btree_node bt fuel id = some (keys bt lv id) := by
  intro lv
  induction lv with
  | zero => intro id h; simp [linked_zero] at h
  | succ lv ih =>
    intro id h fuel hf
    rw [linked_succ] at h
    obtain ⟨nd, hs, h⟩ := h
    rcases h with ⟨hc, _⟩ | ⟨ch, hc, hlv, hch⟩
    · cases fuel <;> simp [rl_flatten_btree_node, hs, hc, keys_leaf hs hc]
    · rw [keys_internal hs hc]
      cases fuel with
      | zero => omega
      | succ fuel1 =>
        rw [rl_flatten_btree_node]
        simp only [hs, hc]
        rw [ih (ch 0) (hch 0 (by omega)) fuel1 (by omega)]
        simp only
        rw [mapM_option_all _ (fun i => nd.scores i :: keys bt lv (ch (i + 1)))]
        · simp only [live_map]
          rw [inter_live nd.size (fun i => keys bt lv (ch i)) nd.scores]
        · intro i hi
          simp only [List.mem_range] at hi
          rw [ih (ch (i + 1)) (hch (i + 1) (by omega)) fuel1 (by omega)]
          rfl

/-! ## Frames: a subtree depends only on its own nodes -/

theorem frame_ids (bt bt1 : rl_btree) : ∀ (lv id : Nat),
    (∀ x ∈ ids bt lv id, select bt1 x = select bt x) → ids bt1 lv id = ids bt lv id := by
  intro lv
  induction lv with
  | zero => intro id _; simp [ids]
  | succ lv ih =>
    intro id h
    have hid := h id (mem_ids_self bt lv id)
    cases hs : select bt id with
    | none =>
      rw [ids, ids]; simp [hs, hid]
    | some nd =>
      rw [hs] at hid
      cases hc : nd.children with
      | none => rw [ids_leaf hs hc, ids_leaf hid hc]
      | some ch =>
        rw [ids_internal hs hc, ids_internal hid hc]
        congr 2
        apply List.map_congr_left
        intro c hcm
        rw [mem_live] at hcm
        obtain ⟨j, hj, rfl⟩ := hcm
        apply ih
        intro x hx
        exact h x (mem_ids_child hs hc j (by omega) x hx)

theorem frame_keys (bt bt1 : rl_btree) : ∀ (lv id : Nat),
    (∀ x ∈ ids bt lv id, select bt1 x = select bt x) → keys bt1 lv id = keys bt lv id := by
  intro lv
  induction lv with
  | zero => intro id _; simp [keys]
  | succ lv ih =>
    intro id h
    have hid := h id (mem_ids_self bt lv id)
    cases hs : select bt id with
    | none =>
      rw [keys, keys]; simp [hs, hid]
    | some nd =>
      rw [hs] at hid
      cases hc : nd.children with
      | none => rw [keys_leaf hs hc, keys_leaf hid hc]
      | some ch =>
        rw [keys_internal hs hc, keys_internal hid hc]
        congr 1
        apply List.map_congr_left
        intro c hcm
        rw [mem_live] at hcm
        obtain ⟨j, hj, rfl⟩ := hcm
        apply ih
        intro x hx
        exact h x (mem_ids_child hs hc j (by omega) x hx)

theorem frame_shape (bt bt1 : rl_btree) (hm : bt1.max_node_size = bt.max_node_size)
    (ht : bt1.type = bt.type) : ∀ (lv lo id : Nat),
    (∀ x ∈ ids bt lv id, select bt1 x = select bt x) →
    shape bt lv lo id = true → shape bt1 lv lo id = true := by
  intro lv
  induction lv with
  | zero => intro lo id _ h; simp [shape_zero] at h
  | succ lv ih =>
    intro lo id h hsh
    have hid := h id (mem_ids_self bt lv id)
    rw [shape_succ] at hsh ⊢
    obtain ⟨nd, hs, h1, h2, h3, h4⟩ := hsh
    rw [hs] at hid
    refine ⟨nd, hid, h1, by rw [hm]; exact h2, by rw [ht]; exact h3, ?_⟩
    rcases h4 with h4 | ⟨ch, hc, hlv, hch⟩
    · exact Or.inl h4
    · refine Or.inr ⟨ch, hc, hlv, ?_⟩
      intro j hj
      rw [hm]
      apply ih
      · intro x hx
        exact h x (mem_ids_child hs hc j hj x hx)
      · exact hch j hj

theorem frame_linked (bt bt1 : rl_btree) : ∀ (lv id : Nat),
    (∀ x ∈ ids bt lv id, select bt1 x = select bt x) →
    linked bt lv id = true → linked bt1 lv id = true := by
  intro lv
  induction lv with
  | zero => intro id _ h; simp [linked_zero] at h
  | succ lv ih =>
    intro id h hsh
    have hid := h id (mem_ids_self bt lv id)
    rw [linked_succ] at hsh ⊢
    obtain ⟨nd, hs, h4⟩ := hsh
    rw [hs] at hid
    refine ⟨nd, hid, ?_⟩
    rcases h4 with h4 | ⟨ch, hc, hlv, hch⟩
    · exact Or.inl h4
    · refine Or.inr ⟨ch, hc, hlv, ?_⟩
      intro j hj
      apply ih
      · intro x hx
        exact h x (mem_ids_child hs hc j hj x hx)
      · exact hch j hj

theorem ids_lt (bt : rl_btree) : ∀ (lv id : Nat), linked bt lv id = true →
    ∀ x ∈ ids bt lv id, x < bt.accessor.length := by
  intro lv
  induction lv with
  | zero => intro id h; simp [linked_zero] at h
  | succ lv ih =>
    intro id h x hx
    rw [linked_succ] at h
    obtain ⟨nd, hs, h⟩ := h
    rcases h with ⟨hc, _⟩ | ⟨ch, hc, hlv, hch⟩
    · rw [ids_leaf hs hc] at hx
      simp only [List.mem_singleton] at hx
      subst hx
      exact select_lt hs
    · rw [ids_internal hs hc] at hx
      simp only [List.mem_cons, List.mem_flatten, List.mem_map, mem_live,
        exists_exists_and_eq_and] at hx
      rcases hx with rfl | ⟨j, hj, hx⟩
      · exact select_lt hs
      · exact ih (ch j) (hch j (by omega)) x hx

/-! ## Order facts inside a strictly ascending subtree -/

theorem pairwise_live (a : Nat → Int) (n : Nat) :
    (live a n).Pairwise (fun x y => x < y) ↔ ∀ i j, i < j → j < n → a i < a j := by
  rw [List.pairwise_iff_getElem]
  constructor
  · intro h i j hij hj
    have := h i j (by simp; omega) (by simpa using hj) hij
    simpa using this
  · intro h i j hi hj hij
    simp only [live_getElem]
    exact h i j hij (by simpa using hj)

theorem node_ascending {bt : rl_btree} {lv id : Nat} {nd : rl_btree_node}
    (hs : select bt id = some nd)
    (hp : (keys bt (lv + 1) id).Pairwise (fun x y => x < y)) :
    ∀ i j, i < j → j < nd.size → nd.scores i < nd.scores j := by
  rw [← pairwise_live]
  cases hc : nd.children with
  | none => rw [keys_leaf hs hc] at hp; exact hp
  | some ch =>
    rw [keys_internal hs hc] at hp
    exact hp.sublist (keys_sublist_inter _ _ (by simp))

theorem ins_pos_not_mem {nd : rl_btree_node} {k : Int} {p : Nat} (h : ins_pos nd k p) :
    k ∉ live nd.scores nd.size := by
  rw [mem_live]
  rintro ⟨i, hi, hk⟩
  obtain ⟨_, h1, h2⟩ := h
  by_cases hip : i < p
  · have := h1 i hip; omega
  · have := h2 i (by omega) hi; omega

/-- Inside an internal node of a strictly ascending subtree, everything before child
`p` is below a key with insertion position `p`, and everything after is above. -/
theorem internal_around {bt : rl_btree} {lv id : Nat} {nd : rl_btree_node} {ch : Nat → Nat}
    (hs : select bt id = some nd) (hc : nd.children = some ch)
    (hp : (keys bt (lv + 1) id).Pairwise (fun x y => x < y)) {k : Int} {p : Nat}
    (hk : ins_pos nd k p) :
    keys bt (lv + 1) id =
      interL (((live ch (nd.size + 1)).map (keys bt lv)).take p) ((live nd.scores nd.size).take p)
        ++ (keys bt lv (ch p) ++
          interR ((live nd.scores nd.size).drop p)
            (((live ch (nd.size + 1)).map (keys bt lv)).drop (p + 1))) ∧
    (∀ x ∈ interL (((live ch (nd.size + 1)).map (keys bt lv)).take p)
        ((live nd.scores nd.size).take p), x < k) ∧
    (∀ x ∈ interR ((live nd.scores nd.size).drop p)
        (((live ch (nd.size + 1)).map (keys bt lv)).drop (p + 1)), k < x) := by
  obtain ⟨hk0, hk1, hk2⟩ := hk
  rw [keys_internal hs hc] at hp ⊢
  refine ⟨?_, ?_⟩
  · rw [inter_at_self _ _ p (by simp) (by simpa using hk0) (by simp; omega)]
    simp
  · apply inter_bounds _ _ p k (by simp) (by simpa using hk0) hp
    · intro j hj hjp
      simpa using hk1 j hjp
    · intro j hj hjp
      simp only [live_length] at hj
      simpa using hk2 j hjp hj

theorem child_ascending {bt : rl_btree} {lv id : Nat} {nd : rl_btree_node} {ch : Nat → Nat}
    (hs : select bt id = some nd) (hc : nd.children = some ch)
    (hp : (keys bt (lv + 1) id).Pairwise (fun x y => x < y)) (j : Nat) (hj : j ≤ nd.size) :
    (keys bt lv (ch j)).Pairwise (fun x y => x < y) := by
  rw [keys_internal hs hc,
    inter_at_self _ _ j (by simp) (by simpa using hj) (by simp; omega)] at hp
  rw [List.pairwise_append, List.pairwise_append] at hp
  simpa using hp.2.1.1

theorem mem_keys_child_iff {bt : rl_btree} {lv id : Nat} {nd : rl_btree_node} {ch : Nat → Nat}
    (hs : select bt id = some nd) (hc : nd.children = some ch)
    (hp : (keys bt (lv + 1) id).Pairwise (fun x y => x < y)) {k : Int} {p : Nat}
    (hk : ins_pos nd k p) :
    k ∈ keys bt (lv + 1) id ↔ k ∈ keys bt lv (ch p) := by
  obtain ⟨h1, h2, h3⟩ := internal_around hs hc hp hk
  rw [h1]
  simp only [List.mem_append]
  constructor
  · rintro (h | h | h)
    · have := h2 k h; omega
    · exact h
    · have := h3 k h; omega
  · intro h; exact Or.inr (Or.inl h)

theorem mem_keys_of_score {bt : rl_btree} {lv id : Nat} {nd : rl_btree_node}
    (hs : select bt id = some nd) (p : Nat) (hp : p < nd.size) :
    nd.scores p ∈ keys bt (lv + 1) id := by
  cases hc : nd.children with
  | none => rw [keys_leaf hs hc, mem_live]; exact ⟨p, hp, rfl⟩
  | some ch =>
    rw [keys_internal hs hc]
    apply (keys_sublist_inter _ _ (by simp)).subset
    rw [mem_live]; exact ⟨p, hp, rfl⟩

/-! ## `rl_btree_find_score` -/

theorem miss_path_congr (bt : rl_btree) (k : Int) (nodes nodes1 : Nat → Option Nat)
    (positions positions1 : Nat → Nat) : ∀ (lv d id : Nat),
    (∀ j, d ≤ j → nodes1 j = nodes j ∧ positions1 j = positions j) →
    miss_path bt nodes positions k lv d id → miss_path bt nodes1 positions1 k lv d id := by
  intro lv
  induction lv with
  | zero => intro d id _ _; trivial
  | succ lv ih =>
    intro d id h hp
    obtain ⟨h1, nd, hs, hi, hch⟩ := hp
    refine ⟨by rw [(h d (le_refl d)).1]; exact h1, nd, hs, by rw [(h d (le_refl d)).2]; exact hi,
      ?_⟩
    intro ch hc
    rw [(h d (le_refl d)).2]
    exact ih (d + 1) _ (fun j hj => h j (by omega)) (hch ch hc)

/-- What `find_levels` computes on a linked, strictly ascending subtree. -/
theorem find_levels_spec (bt : rl_btree) (k : Int) (wv : Bool) : ∀ (lv i id : Nat)
    (nodes : Option (Nat → Option Nat)) (positions : Option (Nat → Nat)),
    linked bt lv id = true → (keys bt lv id).Pairwise (fun x y => x < y) →
    nodes.isSome = positions.isSome →
    ∃ r, find_levels bt k wv lv i id nodes positions = some r ∧
      r.retval = (if k ∈ keys bt lv id then RL_FOUND else RL_NOT_FOUND) ∧
      ∀ nodes0 positions0, nodes = some nodes0 → positions = some positions0 →
        ∃ nodes1 positions1, r.nodes = some nodes1 ∧ r.positions = some positions1 ∧
          (∀ j, j < i → nodes1 j = nodes0 j ∧ positions1 j = positions0 j) ∧
          (k ∈ keys bt lv id → i + lv = bt.height →
            hit_path bt bt.height nodes1 positions1 k lv i id) ∧
          (k ∉ keys bt lv id → miss_path bt nodes1 positions1 k lv i id) := by
  intro lv
  induction lv with
  | zero => intro i id nodes positions h; simp [linked_zero] at h
  | succ lv ih =>
    intro i id nodes positions hl hp hsome
    have hl0 := hl
    rw [linked_succ] at hl
    obtain ⟨nd, hs, hl⟩ := hl
    have hasc := node_ascending hs hp
    rw [find_levels]
    simp only [hs]
    rcases bisect_node k nd.scores nd.size hasc with ⟨p, hb, hp1, hp2⟩ | ⟨p, mx, hb, hp1, hp2, hp3, hp4⟩
    · -- the key is in this node
      simp only [hb]
      have hmem : k ∈ keys bt (lv + 1) id := by
        rw [← hp2]; exact mem_keys_of_score hs p hp1
      refine ⟨_, rfl, by simp [hmem], ?_⟩
      intro nodes0 positions0 hn hpo
      subst hn; subst hpo
      refine ⟨_, _, rfl, rfl, ?_, ?_, ?_⟩
      · intro j hj
        simp only [aset]
        have : ¬ (i < j ∧ j < bt.height) := by omega
        simp [this, Nat.ne_of_lt hj]
      · intro _ hh
        rw [hit_path]
        refine ⟨by simp [aset], nd, hs, Or.inl ⟨by simpa [aset] using hp1, by simpa [aset] using hp2, ?_⟩⟩
        intro j hj1 hj2
        simp [hj1, hj2]
      · intro h; exact absurd hmem h
    · -- the key is not in this node
      simp only [hb]
      have hins : ins_pos nd k p := ⟨hp1, hp2, hp3⟩
      have hfix : ¬ (positions.isSome = true ∧ (p : Int) = mx ∧
          long_cmp k (nd.scores p) = 1) := by
        rintro ⟨_, h1, h2⟩
        exact hp4 ⟨h1, h2⟩
      simp only [Int.toNat_ofNat, hfix, if_false]
      rcases hl with ⟨hc, hlv⟩ | ⟨ch, hc, hlv, hch⟩
      · -- a leaf: the search ends
        subst hlv
        simp only [hc, find_levels]
        have hnot : k ∉ keys bt 1 id := by
          rw [keys_leaf hs hc]; exact ins_pos_not_mem hins
        refine ⟨_, rfl, by simp [hnot], ?_⟩
        intro nodes0 positions0 hn hpo
        subst hn; subst hpo
        refine ⟨_, _, rfl, rfl, ?_, ?_, ?_⟩
        · intro j hj
          simp [aset, Nat.ne_of_lt hj]
        · intro h; exact absurd h hnot
        · intro _
          rw [miss_path]
          refine ⟨by simp [aset], nd, hs, by simpa [aset] using hins, ?_⟩
          intro ch hch; rw [hc] at hch; cases hch
      · -- an internal node: the search goes on in child `p`
        simp only [hc]
        have hiff := mem_keys_child_iff hs hc hp hins
        obtain ⟨r, hr, hrv, hpath⟩ := ih (i + 1) (ch p)
          (nodes.map (fun a => aset a i (some id)))
          (positions.map (fun a => aset a i p))
          (hch p hp1) (child_ascending hs hc hp p hp1) (by simp [hsome])
        refine ⟨r, hr, by rw [hrv]; simp only [hiff], ?_⟩
        intro nodes0 positions0 hn hpo
        subst hn; subst hpo
        obtain ⟨nodes1, positions1, hn1, hp1', hfr, hhit, hmiss⟩ := hpath _ _ rfl rfl
        have hni : nodes1 i = some id := by
          rw [(hfr i (by omega)).1]; simp [aset]
        have hpi : positions1 i = p := by
          rw [(hfr i (by omega)).2]; simp [aset]
        refine ⟨nodes1, positions1, hn1, hp1', ?_, ?_, ?_⟩
        · intro j hj
          have := hfr j (by omega)
          rw [this.1, this.2]
          simp [aset, Nat.ne_of_lt hj]
        · intro hm hh
          rw [hit_path]
          refine ⟨hni, nd, hs, Or.inr ⟨by rw [hpi]; exact hins, ch, hc, ?_⟩⟩
          rw [hpi]
          exact hhit (hiff.mp hm) (by omega)
        · intro hm
          rw [miss_path]
          refine ⟨hni, nd, hs, by rw [hpi]; exact hins, ?_⟩
          intro ch1 hc1
          rw [hc] at hc1; cases hc1
          rw [hpi]
          exact hmiss (fun h => hm (hiff.mpr h))

/-! ## Array steps of the insertion, as list operations -/

/-- Shifting the slots from `p` right by one and storing `x` at `p` inserts `x` at
index `p`. -/
theorem live_insert {α : Type} (a : Nat → α) (n p : Nat) (x : α) (hp : p ≤ n) :
    live (aset (memmove_dbg a (p + 1) a p (n - p)) p x) (n + 1) =
      (live a n).take p ++ x :: (live a n).drop p := by
  apply List.ext_getElem?
  intro i
  simp only [live_getElem?, List.getElem?_append, List.getElem?_take, List.getElem?_cons,
    List.getElem?_drop, List.length_take, live_length, aset, memmove_dbg]
  split_ifs <;> first | rfl | omega | (congr 1; congr 1; omega)

/-- The three cases of `split_keys` on a full array of `m = 2 * h` entries: the left
half, the entry carried up and the right half of the array with `x` inserted at `p`. -/
theorem split_keys_spec {α : Type} (m h p : Nat) (a r : Nat → α) (x : α) (hm : m = 2 * h)
    (hh : 1 ≤ h) (hp : p ≤ m) :
    live (split_keys m p a r x).1 h = ((live a m).take p ++ x :: (live a m).drop p).take h ∧
    live (split_keys m p a r x).2.1 h =
      ((live a m).take p ++ x :: (live a m).drop p).drop (h + 1) ∧
    ((live a m).take p ++ x :: (live a m).drop p)[h]? = some (split_keys m p a r x).2.2 := by
  have hh2 : m / 2 = h := by omega
  unfold split_keys
  rw [hh2]
  by_cases h1 : p < h
  · simp only [h1, if_true]
    refine ⟨?_, ?_, ?_⟩
    · apply List.ext_getElem?
      intro i
      simp only [live_getElem?, List.getElem?_append, List.getElem?_take, List.getElem?_cons,
        List.getElem?_drop, List.length_take, live_length, aset, memmove_dbg]
      split_ifs <;> first | rfl | omega | (congr 1; congr 1; omega)
    · apply List.ext_getElem?
      intro i
      simp only [live_getElem?, List.getElem?_append, List.getElem?_take, List.getElem?_cons,
        List.getElem?_drop, List.length_take, live_length, aset, memmove_dbg]
      split_ifs <;> first | rfl | omega | (congr 1; congr 1; omega)
    · simp only [live_getElem?, List.getElem?_append, List.getElem?_take, List.getElem?_cons,
        List.getElem?_drop, List.length_take, live_length, aset, memmove_dbg]
      split_ifs <;> first | rfl | omega | (congr 1; congr 1; omega)
  · simp only [h1, if_false]
    by_cases h2 : p = h
    · simp only [h2, if_true]
      refine ⟨?_, ?_, ?_⟩
      · apply List.ext_getElem?
        intro i
        simp only [live_getElem?, List.getElem?_append, List.getElem?_take, List.getElem?_cons,
          List.getElem?_drop, List.length_take, live_length, aset, memmove_dbg]
        split_ifs <;> first | rfl | omega
      · apply List.ext_getElem?
        intro i
        simp only [live_getElem?, List.getElem?_append, List.getElem?_take, List.getElem?_cons,
          List.getElem?_drop, List.length_take, live_length, aset, memmove_dbg]
        split_ifs <;> first | rfl | omega | (congr 1; congr 1; omega)
      · simp only [live_getElem?, List.getElem?_append, List.getElem?_take, List.getElem?_cons,
          List.getElem?_drop, List.length_take, live_length, aset, memmove_dbg]
        split_ifs <;> first | rfl | omega
    · simp only [h2, if_false]
      refine ⟨?_, ?_, ?_⟩
      · apply List.ext_getElem?
        intro i
        simp only [live_getElem?, List.getElem?_append, List.getElem?_take, List.getElem?_cons,
          List.getElem?_drop, List.length_take, live_length, aset, memmove_dbg]
        split_ifs <;> first | rfl | omega
      · apply List.ext_getElem?
        intro i
        simp only [live_getElem?, List.getElem?_append, List.getElem?_take, List.getElem?_cons,
          List.getElem?_drop, List.length_take, live_length, aset, memmove_dbg]
        split_ifs <;> first | rfl | omega | (congr 1; congr 1; omega)
      · simp only [live_getElem?, List.getElem?_append, List.getElem?_take, List.getElem?_cons,
          List.getElem?_drop, List.length_take, live_length, aset, memmove_dbg]
        split_ifs <;> first | rfl | omega

/-- The three cases of `split_children` on the `m + 1` children of a full node: the
first and second half of the children with `c` inserted at `p + 1`. -/
theorem split_children_spec (m h p : Nat) (a r : Nat → Nat) (c : Nat) (hm : m = 2 * h)
    (hh : 1 ≤ h) (hp : p ≤ m) :
    live (split_children m p a r c).1 (h + 1) =
      ((live a (m + 1)).take (p + 1) ++ c :: (live a (m + 1)).drop (p + 1)).take (h + 1) ∧
    live (split_children m p a r c).2 (h + 1) =
      ((live a (m + 1)).take (p + 1) ++ c :: (live a (m + 1)).drop (p + 1)).drop (h + 1) := by
  have hh2 : m / 2 = h := by omega
  unfold split_children
  rw [hh2]
  by_cases h1 : p < h
  · simp only [h1, if_true]
    refine ⟨?_, ?_⟩
    · apply List.ext_getElem?
      intro i
      simp only [live_getElem?, List.getElem?_append, List.getElem?_take, List.getElem?_cons,
        List.getElem?_drop, List.length_take, live_length, aset, memmove_dbg]
      split_ifs <;> first | rfl | omega | (congr 1; congr 1; omega)
    · apply List.ext_getElem?
      intro i
      simp only [live_getElem?, List.getElem?_append, List.getElem?_take, List.getElem?_cons,
        List.getElem?_drop, List.length_take, live_length, aset, memmove_dbg]
      split_ifs <;> first | rfl | omega | (congr 1; congr 1; omega)
  · simp only [h1, if_false]
    by_cases h2 : p = h
    · simp only [h2, if_true]
      refine ⟨?_, ?_⟩
      · apply List.ext_getElem?
        intro i
        simp only [live_getElem?, List.getElem?_append, List.getElem?_take, List.getElem?_cons,
          List.getElem?_drop, List.length_take, live_length, aset, memmove_dbg]
        split_ifs <;> first | rfl | omega
      · apply List.ext_getElem?
        intro i
        simp only [live_getElem?, List.getElem?_append, List.getElem?_take, List.getElem?_cons,
          List.getElem?_drop, List.length_take, live_length, aset, memmove_dbg]
        split_ifs <;> first | rfl | omega | (congr 1; congr 1; omega)
    · simp only [h2, if_false]
      refine ⟨?_, ?_⟩
      · apply List.ext_getElem?
        intro i
        simp only [live_getElem?, List.getElem?_append, List.getElem?_take, List.getElem?_cons,
          List.getElem?_drop, List.length_take, live_length, aset, memmove_dbg]
        split_ifs <;> first | rfl | omega
      · apply List.ext_getElem?
        intro i
        simp only [live_getElem?, List.getElem?_append, List.getElem?_take, List.getElem?_cons,
          List.getElem?_drop, List.length_take, live_length, aset, memmove_dbg]
        split_ifs <;> first | rfl | omega | (congr 1; congr 1; omega)

/-! ## Node steps of the insertion -/

theorem add_into_node_leaf (nd : rl_btree_node) (p : Nat) (s v : Int)
    (hc : nd.children = none) (hp : p ≤ nd.size) :
    ∃ nd1, add_into_node nd p s v none = some nd1 ∧ nd1.size = nd.size + 1 ∧
      nd1.children = none ∧ nd1.values.isSome = nd.values.isSome ∧
      live nd1.scores (nd.size + 1) =
        (live nd.scores nd.size).take p ++ s :: (live nd.scores nd.size).drop p := by
  refine ⟨_, rfl, rfl, by simp [hc], by simp, ?_⟩
  exact live_insert nd.scores nd.size p s hp

theorem add_into_node_internal (nd : rl_btree_node) (p : Nat) (s v : Int) (c : Nat)
    (ch : Nat → Nat) (hc : nd.children = some ch) (hp : p ≤ nd.size) :
    ∃ nd1 ch1, add_into_node nd p s v (some c) = some nd1 ∧ nd1.size = nd.size + 1 ∧
      nd1.children = some ch1 ∧ nd1.values.isSome = nd.values.isSome ∧
      live nd1.scores (nd.size + 1) =
        (live nd.scores nd.size).take p ++ s :: (live nd.scores nd.size).drop p ∧
      live ch1 (nd.size + 1 + 1) =
        (live ch (nd.size + 1)).take (p + 1) ++ c :: (live ch (nd.size + 1)).drop (p + 1) := by
  refine ⟨_, _, by simp only [add_into_node, hc, Option.map_some']; rfl, rfl, rfl, by simp,
    live_insert nd.scores nd.size p s hp, ?_⟩
  have := live_insert ch (nd.size + 1) (p + 1) c (by omega)
  simpa using this

theorem add_split_leaf (m h : Nat) (nd right : rl_btree_node) (p : Nat) (s v : Int)
    (hm : m = 2 * h) (hh : 1 ≤ h) (hp : p ≤ m) (hsz : nd.size = m)
    (hc : nd.children = none) (hrc : right.children = none)
    (hv : right.values.isSome = nd.values.isSome) :
    ∃ l r s1 v1, add_split m nd right p s v none = some (l, r, s1, v1) ∧
      l.size = h ∧ r.size = h ∧ l.children = none ∧ r.children = none ∧
      l.values.isSome = nd.values.isSome ∧ r.values.isSome = nd.values.isSome ∧
      live l.scores h ++ s1 :: live r.scores h =
        (live nd.scores nd.size).take p ++ s :: (live nd.scores nd.size).drop p := by
  have hh2 : m / 2 = h := by omega
  obtain ⟨k1, k2, k3⟩ := split_keys_spec m h p nd.scores right.scores s hm hh hp
  have hlist : live (split_keys m p nd.scores right.scores s).1 h ++
      (split_keys m p nd.scores right.scores s).2.2 ::
        live (split_keys m p nd.scores right.scores s).2.1 h =
      (live nd.scores nd.size).take p ++ s :: (live nd.scores nd.size).drop p := by
    rw [k1, k2, hsz]
    have hlt : h < ((live nd.scores m).take p ++ s :: (live nd.scores m).drop p).length := by
      simp; omega
    rw [List.getElem?_eq_getElem hlt] at k3
    simp only [Option.some.injEq] at k3
    rw [← k3]
    conv_rhs => rw [list_split_at _ h hlt]
    simp
  cases hnv : nd.values with
  | none =>
    refine ⟨_, _, _, _, by simp only [add_split, hnv, hc, hrc]; rfl, hh2, hh2, rfl, rfl, rfl, ?_,
      hlist⟩
    simpa [hnv] using hv
  | some nv =>
    rw [hnv] at hv
    obtain ⟨rv, hrv⟩ := Option.isSome_iff_exists.mp hv
    refine ⟨_, _, _, _, by simp only [add_split, hnv, hc, hrc, hrv]; rfl, hh2, hh2, rfl, rfl, rfl,
      rfl, hlist⟩

theorem add_split_internal (m h : Nat) (nd right : rl_btree_node) (p : Nat) (s v : Int)
    (c : Nat) (ch rch : Nat → Nat)
    (hm : m = 2 * h) (hh : 1 ≤ h) (hp : p ≤ m) (hsz : nd.size = m)
    (hc : nd.children = some ch) (hrc : right.children = some rch)
    (hv : right.values.isSome = nd.values.isSome) :
    ∃ l r s1 v1 lch rch1, add_split m nd right p s v (some c) = some (l, r, s1, v1) ∧
      l.size = h ∧ r.size = h ∧ l.children = some lch ∧ r.children = some rch1 ∧
      l.values.isSome = nd.values.isSome ∧ r.values.isSome = nd.values.isSome ∧
      live l.scores h =
        ((live nd.scores nd.size).take p ++ s :: (live nd.scores nd.size).drop p).take h ∧
      live r.scores h =
        ((live nd.scores nd.size).take p ++ s :: (live nd.scores nd.size).drop p).drop (h + 1) ∧
      ((live nd.scores nd.size).take p ++ s :: (live nd.scores nd.size).drop p)[h]? = some s1 ∧
      live lch (h + 1) =
        ((live ch (nd.size + 1)).take (p + 1) ++ c ::
          (live ch (nd.size + 1)).drop (p + 1)).take (h + 1) ∧
      live rch1 (h + 1) =
        ((live ch (nd.size + 1)).take (p + 1) ++ c ::
          (live ch (nd.size + 1)).drop (p + 1)).drop (h + 1) := by
  have hh2 : m / 2 = h := by omega
  obtain ⟨k1, k2, k3⟩ := split_keys_spec m h p nd.scores right.scores s hm hh hp
  obtain ⟨c1, c2⟩ := split_children_spec m h p ch rch c hm hh hp
  rw [hsz]
  cases hnv : nd.values with
  | none =>
    refine ⟨_, _, _, _, _, _, by simp only [add_split, hnv, hc, hrc]; rfl, hh2, hh2, rfl, rfl,
      rfl, ?_, k1, k2, k3, c1, c2⟩
    simpa [hnv] using hv
  | some nv =>
    rw [hnv] at hv
    obtain ⟨rv, hrv⟩ := Option.isSome_iff_exists.mp hv
    refine ⟨_, _, _, _, _, _, by simp only [add_split, hnv, hc, hrc, hrv]; rfl, hh2, hh2, rfl,
      rfl, rfl, rfl, k1, k2, k3, c1, c2⟩

/-! ## List surgery for the insertion -/

theorem inserted_context (k : Int) (a b l l1 : List Int) (h : inserted k l l1)
    (ha : ∀ x ∈ a, x < k) (hb : ∀ x ∈ b, k < x) :
    inserted k (a ++ (l ++ b)) (a ++ (l1 ++ b)) := by
  obtain ⟨u, w, rfl, rfl, hu, hw⟩ := h
  refine ⟨a ++ u, w ++ b, by simp, by simp, ?_, ?_⟩
  · intro x hx
    rcases List.mem_append.mp hx with hx | hx
    · exact ha x hx
    · exact hu x hx
  · intro x hx
    rcases List.mem_append.mp hx with hx | hx
    · exact hw x hx
    · exact hb x hx

theorem inserted_pairwise (k : Int) (l l1 : List Int) (h : inserted k l l1)
    (hp : l.Pairwise (fun x y => x < y)) : l1.Pairwise (fun x y => x < y) := by
  obtain ⟨u, w, rfl, rfl, hu, hw⟩ := h
  rw [List.pairwise_append] at hp ⊢
  refine ⟨hp.1, ?_, ?_⟩
  · rw [List.pairwise_cons]
    exact ⟨hw, hp.2.1⟩
  · intro x hx y hy
    rcases List.mem_cons.mp hy with rfl | hy
    · exact hu x hx
    · exact hp.2.2 x hx y hy

theorem inserted_ordered (k : Int) (l l1 : List Int) (h : inserted k l l1) :
    l1 = List.orderedInsert (fun x y => x ≤ y) k l := by
  obtain ⟨u, w, rfl, rfl, hu, hw⟩ := h
  induction u with
  | nil =>
    cases w with
    | nil => simp
    | cons y w =>
      have := hw y (by simp)
      simp [List.orderedInsert, le_of_lt this]
  | cons x u ih =>
    have hx := hu x (by simp)
    have e := ih (fun y hy => hu y (by simp [hy]))
    simp only [List.cons_append, List.orderedInsert, not_le.mpr hx, if_false]
    exact congrArg (List.cons x) e

theorem inserted_mem (k : Int) (l l1 : List Int) (h : inserted k l l1) (x : Int) :
    x ∈ l1 ↔ x = k ∨ x ∈ l := by
  obtain ⟨u, w, rfl, rfl, _, _⟩ := h
  simp only [List.mem_append, List.mem_cons]
  tauto

theorem take_succ_map {α β : Type} (f : α → β) (l : List α) (p : Nat) (hp : p < l.length) :
    (l.map f).take (p + 1) = (l.map f).take p ++ [f l[p]] := by
  rw [List.take_succ]
  simp [List.getElem?_eq_getElem hp]

/-- The interleaving of a node after child `p` was replaced: the children other than
`p` have the key lists `K0`, child `p` has the key list `K (kids[p])`. -/
theorem inter_replace_child (kids : List Nat) (ks : List Int) (p : Nat) (K0 K : Nat → List Int)
    (hlen : kids.length = ks.length + 1) (hp : p ≤ ks.length) (hpk : p < kids.length)
    (hK : ∀ j (hj : j < kids.length), j ≠ p → K kids[j] = K0 kids[j]) :
    inter (kids.map K) ks =
      interL ((kids.map K0).take p) (ks.take p) ++
        (K kids[p] ++ interR (ks.drop p) ((kids.map K0).drop (p + 1))) := by
  have h1 : (kids.map K).take p = (kids.map K0).take p := by
    apply List.ext_getElem?
    intro i
    simp only [List.getElem?_take, List.getElem?_map]
    split_ifs with h
    · by_cases hi : i < kids.length
      · simp [List.getElem?_eq_getElem hi, hK i hi (by omega)]
      · simp [List.getElem?_eq_none (not_lt.mp hi)]
    · rfl
  have h2 : (kids.map K).drop (p + 1) = (kids.map K0).drop (p + 1) := by
    apply List.ext_getElem?
    intro i
    simp only [List.getElem?_drop, List.getElem?_map]
    by_cases hi : p + 1 + i < kids.length
    · simp [List.getElem?_eq_getElem hi, hK (p + 1 + i) hi (by omega)]
    · simp [List.getElem?_eq_none (not_lt.mp hi)]
  rw [inter_at_self (kids.map K) ks p (by simpa using hlen) hp (by simpa using hpk), h1, h2]
  simp

/-- The interleaving of a node after child `p` was split into itself and a new right
sibling `c1`, with the key `s1` between them. -/
theorem inter_insert_child (kids : List Nat) (ks : List Int) (p : Nat) (K0 K : Nat → List Int)
    (c1 : Nat) (s1 : Int)
    (hlen : kids.length = ks.length + 1) (hp : p ≤ ks.length) (hpk : p < kids.length)
    (hK : ∀ j (hj : j < kids.length), j ≠ p → K kids[j] = K0 kids[j]) :
    inter ((kids.take (p + 1) ++ c1 :: kids.drop (p + 1)).map K)
        (ks.take p ++ s1 :: ks.drop p) =
      interL ((kids.map K0).take p) (ks.take p) ++
        ((K kids[p] ++ s1 :: K c1) ++ interR (ks.drop p) ((kids.map K0).drop (p + 1))) := by
  have h1 : (kids.map K).take p = (kids.map K0).take p := by
    apply List.ext_getElem?
    intro i
    simp only [List.getElem?_take, List.getElem?_map]
    split_ifs with h
    · by_cases hi : i < kids.length
      · simp [List.getElem?_eq_getElem hi, hK i hi (by omega)]
      · simp [List.getElem?_eq_none (not_lt.mp hi)]
    · rfl
  have h2 : (kids.map K).drop (p + 1) = (kids.map K0).drop (p + 1) := by
    apply List.ext_getElem?
    intro i
    simp only [List.getElem?_drop, List.getElem?_map]
    by_cases hi : p + 1 + i < kids.length
    · simp [List.getElem?_eq_getElem hi, hK (p + 1 + i) hi (by omega)]
    · simp [List.getElem?_eq_none (not_lt.mp hi)]
  have h3 : (kids.take (p + 1) ++ c1 :: kids.drop (p + 1)).map K =
      (kids.map K0).take p ++ ([K kids[p], K c1] ++ (kids.map K0).drop (p + 1)) := by
    rw [List.map_append, List.map_cons, List.map_take, List.map_drop, take_succ_map K kids p hpk,
      h1, h2]
    simp
  have h4 : ks.take p ++ s1 :: ks.drop p = ks.take p ++ ([s1] ++ ks.drop p) := by simp
  rw [h3, h4, inter_splice _ _ _ _ _ _ (by simp; omega) (by simp) (by simp; omega)]
  simp [inter]

/-! ## Node ids of a subtree without repetition -/

theorem nodup_ids_internal {bt : rl_btree} {lv id : Nat} {nd : rl_btree_node} {ch : Nat → Nat}
    (hs : select bt id = some nd) (hc : nd.children = some ch)
    (hn : (ids bt (lv + 1) id).Nodup) :
    (∀ j, j ≤ nd.size → id ∉ ids bt lv (ch j)) ∧
    (∀ j, j ≤ nd.size → (ids bt lv (ch j)).Nodup) ∧
    (∀ i j, i ≤ nd.size → j ≤ nd.size → i ≠ j →
      ∀ x, x ∈ ids bt lv (ch i) → x ∉ ids bt lv (ch j)) := by
  rw [ids_internal hs hc, List.nodup_cons, List.nodup_flatten] at hn
  obtain ⟨h1, h2, h3⟩ := hn
  refine ⟨?_, ?_, ?_⟩
  · intro j hj hmem
    apply h1
    simp only [List.mem_flatten, List.mem_map, mem_live, exists_exists_and_eq_and]
    exact ⟨j, by omega, hmem⟩
  · intro j hj
    apply h2
    simp only [List.mem_map, mem_live, exists_exists_and_eq_and]
    exact ⟨j, by omega, rfl⟩
  · intro i j hi hj hij x hx hx2
    rw [List.pairwise_iff_getElem] at h3
    rcases Nat.lt_or_gt_of_ne hij with hlt | hlt
    · have := h3 i j (by simp; omega) (by simp; omega) hlt
      simp only [List.getElem_map, live_getElem] at this
      exact this hx hx2
    · have := h3 j i (by simp; omega) (by simp; omega) hlt
      simp only [List.getElem_map, live_getElem] at this
      exact this hx2 hx

/-! ## The main loop of the insertion, level by level -/

theorem add_levels_succ (nodes : Nat → Option Nat) (positions : Nat → Nat) (d : Nat) :
    ∀ (n : Nat) (st : add_state), st.placed = false →
      add_levels nodes positions d (n + 1) st =
        match add_levels nodes positions (d + 1) n st with
        | none => none
        | some st1 => if st1.placed then some st1 else add_level nodes positions d st1 := by
  intro n
  induction n with
  | zero =>
    intro st hst
    simp only [add_levels, hst, Nat.add_zero]
    cases add_level nodes positions d st with
    | none => rfl
    | some st1 => simp [add_levels]
  | succ n ih =>
    intro st hst
    rw [add_levels]
    conv_rhs => rw [add_levels]
    have e : d + (n + 1) = d + 1 + n := by omega
    rw [e]
    cases h : add_level nodes positions (d + 1 + n) st with
    | none => rfl
    | some st1 =>
      simp only
      by_cases hp : st1.placed = true
      · simp [hp]
      · simp only [hp, if_false]
        exact ih st1 (by simpa using hp)

theorem create_values (bt : rl_btree) :
    (rl_btree_node_create bt).values.isSome = decide (bt.type.value_size ≠ 0) := by
  unfold rl_btree_node_create
  by_cases h : bt.type.value_size = 0 <;> simp [h]

theorem ins_pos_take {nd : rl_btree_node} {k : Int} {p : Nat} (h : ins_pos nd k p) :
    ∀ x ∈ (live nd.scores nd.size).take p, x < k := by
  intro x hx
  obtain ⟨j, hj, rfl⟩ := List.getElem_of_mem hx
  simp only [List.length_take, live_length, lt_min_iff] at hj
  simp only [List.getElem_take, live_getElem]
  exact h.2.1 j hj.1

theorem ins_pos_drop {nd : rl_btree_node} {k : Int} {p : Nat} (h : ins_pos nd k p) :
    ∀ x ∈ (live nd.scores nd.size).drop p, k < x := by
  intro x hx
  obtain ⟨j, hj, rfl⟩ := List.getElem_of_mem hx
  simp only [List.length_drop, live_length] at hj
  simp only [List.getElem_drop, live_getElem]
  exact h.2.2 (p + j) (by omega) (by omega)

theorem inserted_leaf {nd : rl_btree_node} {k : Int} {p : Nat} (h : ins_pos nd k p) :
    inserted k (live nd.scores nd.size)
      ((live nd.scores nd.size).take p ++ k :: (live nd.scores nd.size).drop p) :=
  ⟨_, _, (List.take_append_drop p _).symm, rfl, ins_pos_take h, ins_pos_drop h⟩

/-- The insertion loop on a leaf. -/
theorem add_leaf_spec (nodes : Nat → Option Nat) (positions : Nat → Nat) (k : Int) (h : Nat)
    (hh : 1 ≤ h) (d id lo : Nat) (bt : rl_btree) (v : Int) (nd0 : Option Nat)
    (hm : bt.max_node_size = 2 * h) (hsh : shape bt 1 lo id = true)
    (hpath : miss_path bt nodes positions k 1 d id) :
    ∃ st, add_levels nodes positions d 1
        { bt := bt, placed := false, score := k, value := v, child := none, node := nd0 } =
          some st ∧ add_post k bt 1 lo id st := by
  rw [shape_succ] at hsh
  obtain ⟨nd, hs, hlo, hhi, hval, hch⟩ := hsh
  have hc : nd.children = none := by
    rcases hch with ⟨hc, _⟩ | ⟨ch, _, hlv, _⟩
    · exact hc
    · exact absurd rfl hlv
  obtain ⟨hn, nd', hs', hins, _⟩ := hpath
  rw [hs] at hs'; cases hs'
  have hp := hins.1
  have hh2 : bt.max_node_size / 2 = h := by omega
  simp only [add_levels, Nat.add_zero, add_level, hn, hs]
  by_cases hfull : nd.size < bt.max_node_size
  · obtain ⟨nd1, e1, e2, e3, e4, e5⟩ := add_into_node_leaf nd (positions d) k v hc hp
    simp only [hfull, if_true, e1]
    refine ⟨_, rfl, rfl, rfl, rfl, rfl, by simp, ?_, Or.inl ⟨rfl, ?_, ?_, ?_⟩⟩
    · intro x _ hx
      rw [ids_leaf hs hc] at hx
      exact select_store_ne bt id nd1 x (by simpa using hx)
    · rw [shape_succ]
      exact ⟨nd1, select_store_same hs nd1, by omega, by simp only [store_max]; omega,
        by rw [e4]; exact hval, Or.inl ⟨e3, rfl⟩⟩
    · rw [keys_leaf hs hc, keys_leaf (select_store_same hs nd1) e3, e2, e5]
      exact inserted_leaf hins
    · rw [ids_leaf hs hc, ids_leaf (select_store_same hs nd1) e3]
      intro x hx; exact Or.inl hx
  · have hsz : nd.size = bt.max_node_size := by omega
    obtain ⟨l, r, s1, v1, e1, e2, e3, e4, e5, e6, e7, e8⟩ :=
      add_split_leaf bt.max_node_size h nd
        { rl_btree_node_create bt with
          children := (if (none : Option Nat).isSome then some (fun _ => 0) else none) }
        (positions d) k v hm hh (by omega) hsz hc rfl
        (by rw [hval]; exact create_values bt)
    simp only [hfull, if_false, e1]
    have hidlt := select_lt hs
    have hsl : select (insert (store bt id l) r).2 id = some l := by
      rw [select_insert, store_length, if_neg (by omega)]
      exact select_store_same hs l
    have hsr : select (insert (store bt id l) r).2 bt.accessor.length = some r := by
      rw [select_insert, store_length, if_pos rfl]
    refine ⟨_, rfl, rfl, rfl, rfl, rfl, by simp, ?_,
      Or.inr ⟨rfl, rfl, bt.accessor.length, by simp, ?_, ?_, ?_, ?_⟩⟩
    · intro x hx1 hx
      rw [ids_leaf hs hc] at hx
      rw [select_insert, store_length, if_neg (by omega)]
      exact select_store_ne bt id l x (by simpa using hx)
    · rw [shape_succ]
      exact ⟨l, hsl, by rw [hh2, e2], by simp only [insert_max, store_max]; omega,
        by rw [e6]; exact hval, Or.inl ⟨e4, rfl⟩⟩
    · rw [shape_succ]
      exact ⟨r, hsr, by rw [hh2, e3], by simp only [insert_max, store_max]; omega,
        by rw [e7]; exact hval, Or.inl ⟨e5, rfl⟩⟩
    · rw [keys_leaf hs hc, keys_leaf hsl e4, keys_leaf hsr e5, e2, e3, e8]
      exact inserted_leaf hins
    · rw [ids_leaf hs hc, ids_leaf hsl e4, ids_leaf hsr e5]
      intro x hx
      simp only [List.singleton_append, List.mem_cons, List.mem_singleton, List.not_mem_nil,
        or_false] at hx
      rcases hx with rfl | rfl
      · exact Or.inl (by simp)
      · exact Or.inr (le_refl _)

/-! ## A node placed over subtrees that did not change -/

/-- The node `N`, registered under `z` in the tree `F`, has children whose subtrees
are in `F` what they were in the tree `B`. -/
theorem node_over (B F : rl_btree) (lv z : Nat) (N : rl_btree_node) (chN : Nat → Nat)
    (hsel : select F z = some N) (hcN : N.children = some chN)
    (hagree : ∀ y ∈ live chN (N.size + 1), ∀ x ∈ ids B lv y, select F x = select B x) :
    keys F (lv + 1) z =
      inter ((live chN (N.size + 1)).map (keys B lv)) (live N.scores N.size) ∧
    ids F (lv + 1) z = z :: ((live chN (N.size + 1)).map (ids B lv)).flatten ∧
    (∀ lo, lv ≠ 0 → lo ≤ N.size → N.size ≤ F.max_node_size →
      N.values.isSome = decide (F.type.value_size ≠ 0) →
      F.max_node_size = B.max_node_size → F.type = B.type →
      (∀ y ∈ live chN (N.size + 1), shape B lv (B.max_node_size / 2) y = true) →
      shape F (lv + 1) lo z = true) := by
  refine ⟨?_, ?_, ?_⟩
  · rw [keys_internal hsel hcN]
    congr 1
    apply List.map_congr_left
    intro y hy
    exact frame_keys B F lv y (hagree y hy)
  · rw [ids_internal hsel hcN]
    congr 2
    apply List.map_congr_left
    intro y hy
    exact frame_ids B F lv y (hagree y hy)
  · intro lo hlv h1 h2 h3 hm ht hsh
    rw [shape_succ]
    refine ⟨N, hsel, h1, h2, h3, Or.inr ⟨chN, hcN, hlv, ?_⟩⟩
    intro j hj
    have hmem : chN j ∈ live chN (N.size + 1) := by
      rw [mem_live]; exact ⟨j, by omega, rfl⟩
    rw [hm]
    exact frame_shape B F hm ht lv _ _ (hagree _ hmem) (hsh _ hmem)

theorem mem_insert_list {α : Type} (l : List α) (p : Nat) (c y : α)
    (h : y ∈ l.take p ++ c :: l.drop p) : y ∈ l ∨ y = c := by
  rcases List.mem_append.mp h with h | h
  · exact Or.inl (List.mem_of_mem_take h)
  · rcases List.mem_cons.mp h with h | h
    · exact Or.inr h
    · exact Or.inl (List.mem_of_mem_drop h)

theorem inter_halves (cs : List (List Int)) (ks : List Int) (h : Nat) (s : Int)
    (hlen : cs.length = ks.length + 1) (hh : h < ks.length) (hs : ks[h]? = some s) :
    inter (cs.take (h + 1)) (ks.take h) ++ s :: inter (cs.drop (h + 1)) (ks.drop (h + 1)) =
      inter cs ks := by
  rw [List.getElem?_eq_getElem hh] at hs
  simp only [Option.some.injEq] at hs
  have e1 : ks = ks.take h ++ s :: ks.drop (h + 1) := by
    rw [← hs]
    exact list_split_at ks h hh
  conv_rhs => rw [← List.take_append_drop (h + 1) cs, e1]
  rw [inter_split_at _ _ _ _ _ (by simp; omega)]

/-- The insertion loop at an internal node, after it has left the subtree of child
`positions d`. -/
theorem add_internal_step (nodes : Nat → Option Nat) (positions : Nat → Nat) (k : Int)
    (h : Nat) (hh : 1 ≤ h) (lv d id lo : Nat) (bt : rl_btree)
    (hm : bt.max_node_size = 2 * h) (hlv : lv ≠ 0)
    (hsh : shape bt (lv + 1) lo id = true)
    (hpw : (keys bt (lv + 1) id).Pairwise (fun x y => x < y))
    (hnd : (ids bt (lv + 1) id).Nodup)
    (hpath : miss_path bt nodes positions k (lv + 1) d id)
    (st1 : add_state)
    (hpost : ∀ nd ch, select bt id = some nd → nd.children = some ch →
      add_post k bt lv h (ch (positions d)) st1) :
    ∃ st, (if st1.placed then some st1 else add_level nodes positions d st1) = some st ∧
      add_post k bt (lv + 1) lo id st := by
  have hh2 : bt.max_node_size / 2 = h := by omega
  rw [shape_succ] at hsh
  obtain ⟨nd, hs, hlo, hhi, hval, hch⟩ := hsh
  obtain ⟨ch, hc, hch⟩ : ∃ ch, nd.children = some ch ∧
      ∀ j, j ≤ nd.size → shape bt lv (bt.max_node_size / 2) (ch j) = true := by
    rcases hch with ⟨_, h0⟩ | ⟨ch, hc, _, hch⟩
    · exact absurd h0 hlv
    · exact ⟨ch, hc, hch⟩
  obtain ⟨hn, nd', hs', hins, _⟩ := hpath
  rw [hs] at hs'; cases hs'
  have hp := hins.1
  obtain ⟨hmax, hty, hht, hrt, hlen, hframe, hcase⟩ := hpost nd ch hs hc
  obtain ⟨D1, D2, D3⟩ := nodup_ids_internal hs hc hnd
  have hidlt := select_lt hs
  have hltids : ∀ j, j ≤ nd.size → ∀ x ∈ ids bt lv (ch j), x < bt.accessor.length :=
    fun j hj => ids_lt bt lv (ch j) (shape_linked bt lv _ _ (hch j hj))
  have Eid : select st1.bt id = some nd := by
    rw [hframe id hidlt (D1 _ hp)]; exact hs
  have Esib : ∀ j, j ≤ nd.size → j ≠ positions d →
      ∀ x ∈ ids bt lv (ch j), select st1.bt x = select bt x :=
    fun j hj hne x hx => hframe x (hltids j hj x hx) (D3 j _ hj hp hne x hx)
  obtain ⟨har, hA, hB⟩ := internal_around hs hc hpw hins
  have hK : ∀ j (hj : j < (live ch (nd.size + 1)).length), j ≠ positions d →
      keys st1.bt lv (live ch (nd.size + 1))[j] = keys bt lv (live ch (nd.size + 1))[j] := by
    intro j hj hne
    simp only [live_length] at hj
    simp only [live_getElem]
    exact frame_keys bt st1.bt lv (ch j) (Esib j (by omega) hne)
  have hframe_up : ∀ x, x < bt.accessor.length → x ∉ ids bt (lv + 1) id →
      select st1.bt x = select bt x :=
    fun x hx hx2 => hframe x hx (fun hmem => hx2 (mem_ids_child hs hc _ hp x hmem))
  rcases hcase with ⟨hpl, hshape, hins1, htrack⟩ | ⟨hpl, hnode, c1, hchild, hshL, hshR, hins1, htrack⟩
  · -- the key was placed below
    simp only [hpl, if_true]
    refine ⟨st1, rfl, hmax, hty, hht, hrt, hlen, hframe_up, Or.inl ⟨hpl, ?_, ?_, ?_⟩⟩
    · rw [shape_succ]
      refine ⟨nd, Eid, hlo, by rw [hmax]; exact hhi, by rw [hty]; exact hval,
        Or.inr ⟨ch, hc, hlv, ?_⟩⟩
      intro j hj
      rw [hmax, hh2]
      by_cases hjp : j = positions d
      · rw [hjp]; exact hshape
      · rw [← hh2]
        exact frame_shape bt st1.bt hmax hty lv _ _ (Esib j hj hjp) (hch j hj)
    · rw [har, keys_internal Eid hc,
        inter_replace_child (live ch (nd.size + 1)) (live nd.scores nd.size) (positions d)
          (keys bt lv) (keys st1.bt lv) (by simp) (by simpa using hp) (by simp; omega) hK]
      simp only [live_getElem]
      exact inserted_context k _ _ _ _ hins1 hA hB
    · intro x hx
      rw [ids_internal Eid hc] at hx
      simp only [List.mem_cons, List.mem_flatten, List.mem_map, mem_live,
        exists_exists_and_eq_and] at hx
      rcases hx with rfl | ⟨j, hj, hx⟩
      · exact Or.inl (mem_ids_self bt lv x)
      · by_cases hjp : j = positions d
        · subst hjp
          rcases htrack x hx with h1 | h1
          · exact Or.inl (mem_ids_child hs hc _ hp x h1)
          · exact Or.inr h1
        · rw [frame_ids bt st1.bt lv (ch j) (Esib j (by omega) hjp)] at hx
          exact Or.inl (mem_ids_child hs hc j (by omega) x hx)
  · -- the child was split: its right sibling `c1` and a key arrive at this node
    simp only [hpl, Bool.false_eq_true, if_false, add_level, hn, Eid]
    have hkids : ∀ y ∈ (live ch (nd.size + 1)).take (positions d + 1) ++
        c1 :: (live ch (nd.size + 1)).drop (positions d + 1),
        shape st1.bt lv (bt.max_node_size / 2) y = true ∧ id ∉ ids st1.bt lv y ∧
        (∀ x ∈ ids st1.bt lv y, x ∈ ids bt (lv + 1) id ∨ bt.accessor.length ≤ x) ∧
        (∀ x ∈ ids st1.bt lv y, x < st1.bt.accessor.length) := by
      intro y hy
      have hgen : ∀ y, shape st1.bt lv (bt.max_node_size / 2) y = true →
          (∀ x ∈ ids st1.bt lv y, x ∈ ids bt (lv + 1) id ∧ x ≠ id ∨ bt.accessor.length ≤ x) →
          shape st1.bt lv (bt.max_node_size / 2) y = true ∧ id ∉ ids st1.bt lv y ∧
          (∀ x ∈ ids st1.bt lv y, x ∈ ids bt (lv + 1) id ∨ bt.accessor.length ≤ x) ∧
          (∀ x ∈ ids st1.bt lv y, x < st1.bt.accessor.length) := by
        intro y hy1 hy2
        refine ⟨hy1, ?_, ?_, ids_lt st1.bt lv y (shape_linked _ _ _ _ hy1)⟩
        · intro hmem
          rcases hy2 id hmem with h1 | h1
          · exact h1.2 rfl
          · omega
        · intro x hx
          rcases hy2 x hx with h1 | h1
          · exact Or.inl h1.1
          · exact Or.inr h1
      rcases mem_insert_list _ _ _ _ hy with hy | hy
      · rw [mem_live] at hy
        obtain ⟨j, hj, rfl⟩ := hy
        by_cases hjp : j = positions d
        · subst hjp
          apply hgen _ hshL
          intro x hx
          rcases htrack x (List.mem_append_left _ hx) with h1 | h1
          · refine Or.inl ⟨mem_ids_child hs hc _ hp x h1, ?_⟩
            rintro rfl
            exact D1 _ hp h1
          · exact Or.inr h1
        · apply hgen _ (frame_shape bt st1.bt hmax hty lv _ _ (Esib j (by omega) hjp)
            (hch j (by omega)))
          intro x hx
          rw [frame_ids bt st1.bt lv (ch j) (Esib j (by omega) hjp)] at hx
          refine Or.inl ⟨mem_ids_child hs hc j (by omega) x hx, ?_⟩
          rintro rfl
          exact D1 j (by omega) hx
      · subst hy
        apply hgen _ hshR
        intro x hx
        rcases htrack x (List.mem_append_right _ hx) with h1 | h1
        · refine Or.inl ⟨mem_ids_child hs hc _ hp x h1, ?_⟩
          rintro rfl
          exact D1 _ hp h1
        · exact Or.inr h1
    have hinter : inter
        (((live ch (nd.size + 1)).take (positions d + 1) ++
          c1 :: (live ch (nd.size + 1)).drop (positions d + 1)).map (keys st1.bt lv))
        ((live nd.scores nd.size).take (positions d) ++
          st1.score :: (live nd.scores nd.size).drop (positions d)) =
        interL (((live ch (nd.size + 1)).map (keys bt lv)).take (positions d))
          ((live nd.scores nd.size).take (positions d)) ++
        ((keys st1.bt lv (ch (positions d)) ++ st1.score :: keys st1.bt lv c1) ++
          interR ((live nd.scores nd.size).drop (positions d))
            (((live ch (nd.size + 1)).map (keys bt lv)).drop (positions d + 1))) := by
      rw [inter_insert_child (live ch (nd.size + 1)) (live nd.scores nd.size) (positions d)
          (keys bt lv) (keys st1.bt lv) c1 st1.score (by simp) (by simpa using hp)
          (by simp; omega) hK]
      simp only [live_getElem]
    have hinsF : inserted k (keys bt (lv + 1) id)
        (interL (((live ch (nd.size + 1)).map (keys bt lv)).take (positions d))
          ((live nd.scores nd.size).take (positions d)) ++
        ((keys st1.bt lv (ch (positions d)) ++ st1.score :: keys st1.bt lv c1) ++
          interR ((live nd.scores nd.size).drop (positions d))
            (((live ch (nd.size + 1)).map (keys bt lv)).drop (positions d + 1)))) := by
      rw [har]
      exact inserted_context k _ _ _ _ hins1 hA hB
    rw [← hinter] at hinsF
    by_cases hfull : nd.size < bt.max_node_size
    · -- the node has room
      obtain ⟨nd1, ch1, e1, e2, e3, e4, e5, e6⟩ :=
        add_into_node_internal nd (positions d) st1.score st1.value c1 ch hc hp
      simp only [hmax, hfull, if_true, hchild, e1]
      have hsel := select_store_same Eid nd1
      have hagree : ∀ y ∈ live ch1 (nd1.size + 1), ∀ x ∈ ids st1.bt lv y,
          select (store st1.bt id nd1) x = select st1.bt x := by
        intro y hy x hx
        rw [e2, e6] at hy
        apply select_store_ne
        rintro rfl
        exact (hkids y hy).2.1 hx
      obtain ⟨n1, n2, n3⟩ := node_over st1.bt (store st1.bt id nd1) lv id nd1 ch1 hsel e3 hagree
      refine ⟨_, rfl, hmax, hty, hht, hrt, by simpa using hlen, ?_, Or.inl ⟨rfl, ?_, ?_, ?_⟩⟩
      · intro x hx hx2
        show select (store st1.bt id nd1) x = select bt x
        rw [select_store_ne _ _ _ _ (by rintro rfl; exact hx2 (mem_ids_self bt lv x))]
        exact hframe_up x hx hx2
      · apply n3 lo hlv (by omega) (by simp only [store_max]; omega)
          (by rw [e4, store_type, hty]; exact hval) rfl rfl
        intro y hy
        rw [e2, e6] at hy
        rw [hmax]
        exact (hkids y hy).1
      · show inserted k _ (keys (store st1.bt id nd1) (lv + 1) id)
        rw [n1, e2, e5, e6]
        exact hinsF
      · intro x hx
        change x ∈ ids (store st1.bt id nd1) (lv + 1) id at hx
        rw [n2, e2, e6] at hx
        simp only [List.mem_cons, List.mem_flatten, List.mem_map, exists_exists_and_eq_and] at hx
        rcases hx with rfl | ⟨y, hy, hx⟩
        · exact Or.inl (mem_ids_self bt lv x)
        · exact (hkids y hy).2.2.1 x hx
    · -- the node is full: it is split
      have hsz : nd.size = bt.max_node_size := by omega
      obtain ⟨l, r, s2, v2, lch, rch, e1, e2, e3, e4, e5, e6, e7, e8, e9, e10, e11, e12⟩ :=
        add_split_internal bt.max_node_size h nd
          { rl_btree_node_create st1.bt with children := some (fun _ => 0) }
          (positions d) st1.score st1.value c1 ch (fun _ => 0) hm hh (by omega) hsz hc rfl
          (by rw [hval, ← hty]; exact create_values st1.bt)
      simp only [hmax, hfull, if_false, hchild, Option.isSome_some, if_true, e1]
      have hsl : select (insert (store st1.bt id l) r).2 id = some l := by
        rw [select_insert, store_length, if_neg (by omega)]
        exact select_store_same Eid l
      have hsr : select (insert (store st1.bt id l) r).2 st1.bt.accessor.length = some r := by
        rw [select_insert, store_length, if_pos rfl]
      have hag : ∀ y ∈ (live ch (nd.size + 1)).take (positions d + 1) ++
          c1 :: (live ch (nd.size + 1)).drop (positions d + 1), ∀ x ∈ ids st1.bt lv y,
          select (insert (store st1.bt id l) r).2 x = select st1.bt x := by
        intro y hy x hx
        rw [select_insert, store_length, if_neg (by have := (hkids y hy).2.2.2 x hx; omega)]
        apply select_store_ne
        rintro rfl
        exact (hkids y hy).2.1 hx
      obtain ⟨n1, n2, n3⟩ := node_over st1.bt (insert (store st1.bt id l) r).2 lv id l lch hsl e4
        (by
          intro y hy
          rw [e2, e11] at hy
          exact hag y (List.mem_of_mem_take hy))
      obtain ⟨m1, m2, m3⟩ := node_over st1.bt (insert (store st1.bt id l) r).2 lv
        st1.bt.accessor.length r rch hsr e5
        (by
          intro y hy
          rw [e3, e12] at hy
          exact hag y (List.mem_of_mem_drop hy))
      refine ⟨_, rfl, hmax, hty, hht, hrt, by simp only [insert_length, store_length]; omega, ?_,
        Or.inr ⟨rfl, rfl, st1.bt.accessor.length, by simp, ?_, ?_, ?_, ?_⟩⟩
      · intro x hx hx2
        show select (insert (store st1.bt id l) r).2 x = select bt x
        rw [select_insert, store_length, if_neg (by omega),
          select_store_ne _ _ _ _ (by rintro rfl; exact hx2 (mem_ids_self bt lv x))]
        exact hframe_up x hx hx2
      · apply n3 _ hlv (by rw [hh2, e2]) (by simp only [insert_max, store_max]; omega)
          (by rw [e6, insert_type, store_type, hty]; exact hval) rfl rfl
        intro y hy
        rw [e2, e11] at hy
        rw [hmax]
        exact (hkids y (List.mem_of_mem_take hy)).1
      · apply m3 _ hlv (by rw [hh2, e3]) (by simp only [insert_max, store_max]; omega)
          (by rw [e7, insert_type, store_type, hty]; exact hval) rfl rfl
        intro y hy
        rw [e3, e12] at hy
        rw [hmax]
        exact (hkids y (List.mem_of_mem_drop hy)).1
      · show inserted k _ (keys (insert (store st1.bt id l) r).2 (lv + 1) id ++
          s2 :: keys (insert (store st1.bt id l) r).2 (lv + 1) st1.bt.accessor.length)
        rw [n1, m1, e2, e3, e8, e9, e11, e12, List.map_take, List.map_drop,
          inter_halves _ _ h s2 (by simp; omega) (by simp; omega) e10]
        exact hinsF
      · intro x hx
        change x ∈ ids (insert (store st1.bt id l) r).2 (lv + 1) id ++
          ids (insert (store st1.bt id l) r).2 (lv + 1) st1.bt.accessor.length at hx
        rw [n2, m2, e2, e3, e11, e12] at hx
        simp only [List.mem_append, List.mem_cons, List.mem_flatten, List.mem_map,
          exists_exists_and_eq_and] at hx
        rcases hx with (rfl | ⟨y, hy, hx⟩) | (rfl | ⟨y, hy, hx⟩)
        · exact Or.inl (mem_ids_self bt lv x)
        · exact (hkids y (List.mem_of_mem_take hy)).2.2.1 x hx
        · exact Or.inr hlen
        · exact (hkids y (List.mem_of_mem_drop hy)).2.2.1 x hx

/-- The main loop of `rl_btree_add_element` on a subtree, for an absent key. -/
theorem add_levels_spec (nodes : Nat → Option Nat) (positions : Nat → Nat) (k : Int)
    (h : Nat) (hh : 1 ≤ h) : ∀ (lv d id lo : Nat) (bt : rl_btree) (v : Int) (nd0 : Option Nat),
    bt.max_node_size = 2 * h → shape bt lv lo id = true →
    (keys bt lv id).Pairwise (fun x y => x < y) → (ids bt lv id).Nodup →
    miss_path bt nodes positions k lv d id →
    ∃ st, add_levels nodes positions d lv
        { bt := bt, placed := false, score := k, value := v, child := none, node := nd0 } =
          some st ∧ add_post k bt lv lo id st := by
  intro lv
  induction lv with
  | zero => intro d id lo bt v nd0 _ hsh; simp [shape_zero] at hsh
  | succ lv ih =>
    intro d id lo bt v nd0 hm hsh hpw hnd hpath
    by_cases hlv : lv = 0
    · subst hlv
      exact add_leaf_spec nodes positions k h hh d id lo bt v nd0 hm hsh hpath
    · have hsh0 := hsh
      have hpath0 := hpath
      rw [shape_succ] at hsh
      obtain ⟨nd, hs, hlo, hhi, hval, hch⟩ := hsh
      obtain ⟨ch, hc, hch⟩ : ∃ ch, nd.children = some ch ∧
          ∀ j, j ≤ nd.size → shape bt lv (bt.max_node_size / 2) (ch j) = true := by
        rcases hch with ⟨_, h0⟩ | ⟨ch, hc, _, hch⟩
        · exact absurd h0 hlv
        · exact ⟨ch, hc, hch⟩
      obtain ⟨hn, nd', hs', hins, hsub⟩ := hpath
      rw [hs] at hs'; cases hs'
      have hh2 : bt.max_node_size / 2 = h := by omega
      obtain ⟨_, D2, _⟩ := nodup_ids_internal hs hc hnd
      obtain ⟨st1, hst1, hpost⟩ := ih (d + 1) (ch (positions d)) h bt v nd0 hm
        (by rw [← hh2]; exact hch _ hins.1) (child_ascending hs hc hpw _ hins.1)
        (D2 _ hins.1) (hsub ch hc)
      rw [add_levels_succ nodes positions d lv _ rfl, hst1]
      apply add_internal_step nodes positions k h hh lv d id lo bt hm hlv hsh0 hpw hnd hpath0 st1
      intro nd2 ch2 hs2 hc2
      rw [hs] at hs2; cases hs2
      rw [hc] at hc2; cases hc2
      exact hpost

/-! ## No node id occurs twice in a strictly ascending B-tree -/

theorem mem_inter_child (cs : List (List Int)) (ks : List Int) (j : Nat)
    (hlen : cs.length = ks.length + 1) (hj : j < cs.length) (x : Int) (hx : x ∈ cs[j]) :
    x ∈ inter cs ks := by
  rw [inter_at_self cs ks j hlen (by omega) hj]
  simp only [List.mem_append]
  exact Or.inr (Or.inl hx)

theorem mem_interR_child (ks : List Int) : ∀ (cs : List (List Int)) (j : Nat)
    (_ : cs.length = ks.length) (hj : j < cs.length) (x : Int), x ∈ cs[j] →
    x ∈ interR ks cs := by
  induction ks with
  | nil => intro cs j hlen hj; simp at hlen; subst hlen; simp at hj
  | cons k ks ih =>
    intro cs j hlen hj x hx
    cases cs with
    | nil => simp at hj
    | cons c cs =>
      simp only [interR, List.mem_cons, List.mem_append]
      cases j with
      | zero => exact Or.inr (Or.inl (by simpa using hx))
      | succ j =>
        simp only [List.getElem_cons_succ] at hx
        simp only [List.length_cons, add_left_inj] at hlen
        exact Or.inr (Or.inr (ih cs j hlen (by simpa using hj) x hx))

/-- In a strictly ascending interleaving the entries of an earlier child are below
the entries of a later child. -/
theorem inter_child_lt (cs : List (List Int)) (ks : List Int) (i j : Nat)
    (hlen : cs.length = ks.length + 1) (hij : i < j) (hj : j < cs.length)
    (hi : i < cs.length)
    (hp : (inter cs ks).Pairwise (fun x y => x < y)) (a b : Int) (ha : a ∈ cs[i])
    (hb : b ∈ cs[j]) : a < b := by
  rw [inter_at_self cs ks i hlen (by omega) hi, List.pairwise_append,
    List.pairwise_append] at hp
  apply hp.2.1.2.2 a ha b
  have hj2 : j - (i + 1) < (cs.drop (i + 1)).length := by simp; omega
  apply mem_interR_child _ _ (j - (i + 1)) (by simp; omega) hj2
  simp only [List.getElem_drop]
  have e : i + 1 + (j - (i + 1)) = j := by omega
  simp only [e]
  exact hb

/-- The first key of a node with children is not a key of one of its subtrees. -/
theorem inter_first_key (cs : List (List Int)) (ks : List Int) (j : Nat)
    (hlen : cs.length = ks.length + 1) (hj : j < cs.length) (hk : 0 < ks.length)
    (hp : (inter cs ks).Pairwise (fun x y => x < y)) : ks[0] ∉ cs[j] := by
  intro hmem
  cases cs with
  | nil => simp at hj
  | cons c cs =>
    cases ks with
    | nil => simp at hk
    | cons k ks =>
      simp only [List.length_cons, add_left_inj] at hlen
      simp only [inter, List.pairwise_append, List.pairwise_cons] at hp
      simp only [List.getElem_cons_zero] at hmem
      cases j with
      | zero =>
        simp only [List.getElem_cons_zero] at hmem
        have := hp.2.2 k hmem k (by simp)
        omega
      | succ j =>
        simp only [List.getElem_cons_succ] at hmem
        have := hp.2.1.1 k (mem_inter_child cs ks j hlen (by simpa using hj) k hmem)
        omega

theorem ids_first_key (bt : rl_btree) : ∀ (lv lo id x : Nat), shape bt lv lo id = true →
    1 ≤ lo → 1 ≤ bt.max_node_size / 2 → x ∈ ids bt lv id →
    ∃ ndx, select bt x = some ndx ∧ 1 ≤ ndx.size ∧ ndx.scores 0 ∈ keys bt lv id := by
  intro lv
  induction lv with
  | zero => intro lo id x hsh; simp [shape_zero] at hsh
  | succ lv ih =>
    intro lo id x hsh hlo hm hx
    rw [shape_succ] at hsh
    obtain ⟨nd, hs, h1, h2, h3, h4⟩ := hsh
    rcases h4 with ⟨hc, _⟩ | ⟨ch, hc, hlv, hch⟩
    · rw [ids_leaf hs hc] at hx
      simp only [List.mem_singleton] at hx
      subst hx
      exact ⟨nd, hs, by omega, mem_keys_of_score hs 0 (by omega)⟩
    · rw [ids_internal hs hc] at hx
      simp only [List.mem_cons, List.mem_flatten, List.mem_map, mem_live,
        exists_exists_and_eq_and] at hx
      rcases hx with rfl | ⟨j, hj, hx⟩
      · exact ⟨nd, hs, by omega, mem_keys_of_score hs 0 (by omega)⟩
      · obtain ⟨ndx, e1, e2, e3⟩ := ih _ (ch j) x (hch j (by omega)) hm hm hx
        refine ⟨ndx, e1, e2, ?_⟩
        rw [keys_internal hs hc]
        apply mem_inter_child _ _ j (by simp) (by simp; omega)
        simpa using e3

theorem ids_nodup (bt : rl_btree) (hm : 1 ≤ bt.max_node_size / 2) : ∀ (lv lo id : Nat),
    shape bt lv lo id = true → (keys bt lv id).Pairwise (fun x y => x < y) →
    (ids bt lv id).Nodup := by
  intro lv
  induction lv with
  | zero => intro lo id hsh; simp [shape_zero] at hsh
  | succ lv ih =>
    intro lo id hsh hpw
    have hsh0 := hsh
    rw [shape_succ] at hsh
    obtain ⟨nd, hs, h1, h2, h3, h4⟩ := hsh
    rcases h4 with ⟨hc, _⟩ | ⟨ch, hc, hlv, hch⟩
    · rw [ids_leaf hs hc]; simp
    · have hpw0 := hpw
      rw [keys_internal hs hc] at hpw
      rw [ids_internal hs hc, List.nodup_cons, List.nodup_flatten]
      refine ⟨?_, ?_, ?_⟩
      · simp only [List.mem_flatten, List.mem_map, mem_live, exists_exists_and_eq_and, not_exists,
          not_and]
        intro j hj hmem
        obtain ⟨ndx, e1, e2, e3⟩ := ids_first_key bt lv _ (ch j) id (hch j (by omega)) hm hm hmem
        rw [hs] at e1; cases e1
        have := inter_first_key _ _ j (by simp) (by simp; omega) (by simpa using e2) hpw
        apply this
        simpa using e3
      · intro l hl
        simp only [List.mem_map, mem_live, exists_exists_and_eq_and] at hl
        obtain ⟨j, hj, rfl⟩ := hl
        exact ih _ (ch j) (hch j (by omega)) (child_ascending hs hc hpw0 j (by omega))
      · rw [List.pairwise_iff_getElem]
        intro i j hi hj hij
        simp only [List.length_map, live_length] at hi hj
        simp only [List.getElem_map, live_getElem]
        intro x hxi hxj
        obtain ⟨ndx, e1, e2, e3⟩ := ids_first_key bt lv _ (ch i) x (hch i (by omega)) hm hm hxi
        obtain ⟨ndy, f1, f2, f3⟩ := ids_first_key bt lv _ (ch j) x (hch j (by omega)) hm hm hxj
        rw [e1] at f1; cases f1
        have := inter_child_lt _ _ i j (by simp) hij (by simp; omega) (by simp; omega) hpw
          (ndx.scores 0) (ndx.scores 0) (by simpa using e3) (by simpa using f3)
        omega

/-! ## `rl_btree_add_element` on a well-formed tree -/

theorem well_formed_iff (bt : rl_btree) :
    well_formed bt = true ↔
      bt.max_node_size % 2 = 0 ∧ 4 ≤ bt.max_node_size ∧ 1 ≤ bt.height ∧
      shape bt bt.height 0 bt.root = true ∧
      (keys bt bt.height bt.root).Pairwise (fun x y => x < y) := by
  unfold well_formed flatten_ascending rl_flatten_btree
  by_cases hsh : shape bt bt.height 0 bt.root = true
  · rw [flatten_linked bt _ _ (shape_linked bt _ _ _ hsh) bt.height (by omega)]
    simp [hsh, ascending, and_assoc]
  · simp [hsh]

theorem well_formed_flatten (bt : rl_btree) (hwf : well_formed bt = true) (fuel : Nat)
    (hf : bt.height ≤ fuel + 1) :
    rl_flatten_btree fuel bt = some (keys bt bt.height bt.root) := by
  rw [well_formed_iff] at hwf
  exact flatten_linked bt _ _ (shape_linked bt _ _ _ hwf.2.2.2.1) fuel hf

theorem select_congr (bt bt1 : rl_btree) (h : bt1.accessor = bt.accessor) (x : Nat) :
    select bt1 x = select bt x := by
  unfold select; rw [h]

theorem keys_with_root (F : rl_btree) (r hgt lv z : Nat) :
    keys { F with root := r, height := hgt } lv z = keys F lv z :=
  frame_keys F _ lv z (fun x _ => select_congr _ _ rfl x)

theorem ids_with_root (F : rl_btree) (r hgt lv z : Nat) :
    ids { F with root := r, height := hgt } lv z = ids F lv z :=
  frame_ids F _ lv z (fun x _ => select_congr _ _ rfl x)

theorem shape_with_root (F : rl_btree) (r hgt lv lo z : Nat) :
    shape { F with root := r, height := hgt } lv lo z = shape F lv lo z := by
  rw [Bool.eq_iff_iff]
  constructor
  · exact frame_shape { F with root := r, height := hgt } F rfl rfl lv lo z
      (fun x _ => select_congr _ _ rfl x)
  · exact frame_shape F { F with root := r, height := hgt } rfl rfl lv lo z
      (fun x _ => select_congr _ _ rfl x)

/-- What `rl_btree_add_element` does with an absent key on a well-formed tree. -/
theorem add_element_core (bt : rl_btree) (k v : Int) (lo : Nat)
    (hwf : well_formed bt = true) (hlo1 : lo ≤ 1)
    (hlo : shape bt bt.height lo bt.root = true) (hk : k ∉ keys bt bt.height bt.root) :
    ∃ bt1, rl_btree_add_element bt k v = some (RL_OK, bt1) ∧
      bt1.max_node_size = bt.max_node_size ∧ bt1.type = bt.type ∧
      inserted k (keys bt bt.height bt.root) (keys bt1 bt1.height bt1.root) ∧
      shape bt1 bt1.height lo bt1.root = true ∧
      ((bt1.height = bt.height ∧ bt1.root = bt.root) ∨
       (bt1.height = bt.height + 1 ∧ bt.accessor.length ≤ bt1.root ∧
         ∃ nd ch, select bt1 bt1.root = some nd ∧ nd.size = 1 ∧ nd.children = some ch ∧
           ch 0 = bt.root)) := by
  rw [well_formed_iff] at hwf
  obtain ⟨hev, h4, hht, hsh, hpw⟩ := hwf
  obtain ⟨r, hr, hrv, hpath⟩ := find_levels_spec bt k false bt.height 0 bt.root
    (some (fun _ => none)) (some (fun _ => 0)) (shape_linked bt _ _ _ hsh) hpw rfl
  obtain ⟨nodes1, positions1, hn1, hp1, _, _, hmiss⟩ := hpath _ _ rfl rfl
  simp only [hk, if_false] at hrv
  obtain ⟨st, hst, hmax, hty, hhe, hro, hlen, hframe, hcase⟩ :=
    add_levels_spec nodes1 positions1 k (bt.max_node_size / 2) (by omega) bt.height 0 bt.root lo
      bt v none (by omega) hlo hpw (ids_nodup bt (by omega) _ _ _ hsh hpw) (hmiss hk)
  have hfind : rl_btree_find_score bt k false (some (fun _ => none)) (some (fun _ => 0)) =
      some r := by
    simp only [rl_btree_find_score, Option.isNone_some, Option.isSome_some, Bool.false_eq_true,
      and_true, and_false, or_self, if_false]
    exact hr
  simp only [rl_btree_add_element, hfind, hrv, ne_eq, not_true_eq_false, if_false, hn1, hp1, hst]
  rcases hcase with ⟨hpl, hshape, hins, _⟩ | ⟨hpl, hnode, c, hchild, hshL, hshR, hins, htrack⟩
  · simp only [hpl, if_true]
    refine ⟨st.bt, rfl, hmax, hty, ?_, ?_, Or.inl ⟨hhe, hro⟩⟩
    · rw [hhe, hro]; exact hins
    · rw [hhe, hro]; exact hshape
  · simp only [hpl, Bool.false_eq_true, if_false, add_new_root, update_id, hnode, hchild,
        Option.getD_some]
    have hsel : select (insert st.bt
        { size := 1
          scores := aset (rl_btree_node_create st.bt).scores 0 st.score
          values := (rl_btree_node_create st.bt).values.map (fun v => aset v 0 st.value)
          children := some (aset (aset (fun _ => 0) 0 bt.root) 1 c) }).2
        st.bt.accessor.length = some
        { size := 1
          scores := aset (rl_btree_node_create st.bt).scores 0 st.score
          values := (rl_btree_node_create st.bt).values.map (fun v => aset v 0 st.value)
          children := some (aset (aset (fun _ => 0) 0 bt.root) 1 c) } := by
      rw [select_insert, if_pos rfl]
    have hkids : live (aset (aset (fun _ => 0) 0 bt.root) 1 c) (1 + 1) = [bt.root, c] := by
      simp [live, aset, List.range_succ]
    have hsc : live (aset (rl_btree_node_create st.bt).scores 0 st.score) 1 = [st.score] := by
      simp [live, aset, List.range_succ]
    obtain ⟨n1, n2, n3⟩ := node_over st.bt _ bt.height st.bt.accessor.length _ _ hsel rfl
      (by
        intro y hy x hx
        rw [select_insert, if_neg]
        have hy2 : shape st.bt bt.height (bt.max_node_size / 2) y = true := by
          rw [hkids] at hy
          simp only [List.mem_cons, List.mem_singleton, List.not_mem_nil, or_false] at hy
          rcases hy with rfl | rfl
          · exact hshL
          · exact hshR
        have := ids_lt st.bt _ _ (shape_linked _ _ _ _ hy2) x hx
        omega)
    refine ⟨_, rfl, hmax, hty, ?_, ?_, Or.inr ⟨by simp only [hhe], ?_, ?_⟩⟩
    · simp only [insert_id, hhe, keys_with_root]
      rw [n1, hkids, hsc]
      simpa [inter] using hins
    · simp only [insert_id, hhe, shape_with_root]
      exact n3 lo (by omega) hlo1 (by simp only [insert_max, hmax]; omega)
          (by rw [Option.isSome_map', insert_type]; exact create_values st.bt) rfl rfl
          (by
            intro y hy
            rw [hkids] at hy
            simp only [List.mem_cons, List.mem_singleton, List.not_mem_nil, or_false] at hy
            rw [hmax]
            rcases hy with rfl | rfl
            · exact hshL
            · exact hshR)
    · simpa using hlen
    · exact ⟨_, _, hsel, rfl, rfl, by simp [aset]⟩

/-! ## Array steps of the removal, as list operations -/

theorem live_set {α : Type} (a : Nat → α) (n q : Nat) (x : α) (hq : q < n) :
    live (aset a q x) n = (live a n).take q ++ x :: (live a n).drop (q + 1) := by
  apply List.ext_getElem?
  intro i
  simp only [live_getElem?, List.getElem?_append, List.getElem?_take, List.getElem?_cons,
    List.getElem?_drop, List.length_take, live_length, aset, memmove_dbg]
  split_ifs <;> first | rfl | omega | (congr 1; congr 1; omega)

theorem live_set_beyond {α : Type} (a : Nat → α) (n q : Nat) (x : α) (hq : n ≤ q) :
    live (aset a q x) n = live a n := by
  apply live_congr
  intro i hi
  simp only [aset]
  rw [if_neg (by omega)]

theorem live_push {α : Type} (a : Nat → α) (n : Nat) (x : α) :
    live (aset a n x) (n + 1) = live a n ++ [x] := by
  rw [live_succ, live_set_beyond a n n x (le_refl n)]
  simp [aset]

theorem live_shift_left {α : Type} (a : Nat → α) (n : Nat) :
    live (memmove_dbg a 0 a 1 (n - 1)) (n - 1) = (live a n).drop 1 := by
  apply List.ext_getElem?
  intro i
  simp only [live_getElem?, List.getElem?_append, List.getElem?_take, List.getElem?_cons,
    List.getElem?_drop, List.length_take, live_length, aset, memmove_dbg]
  split_ifs <;> first | rfl | omega | (congr 1; congr 1; omega)

theorem live_erase {α : Type} (a : Nat → α) (n q : Nat) (hq : q < n) :
    live (memmove_dbg a q a (q + 1) (n - q - 1)) (n - 1) =
      (live a n).take q ++ (live a n).drop (q + 1) := by
  apply List.ext_getElem?
  intro i
  simp only [live_getElem?, List.getElem?_append, List.getElem?_take, List.getElem?_cons,
    List.getElem?_drop, List.length_take, live_length, aset, memmove_dbg]
  split_ifs <;> first | rfl | omega | (congr 1; congr 1; omega)

theorem live_concat {α : Type} (a b : Nat → α) (n k : Nat) :
    live (memmove_dbg a n b 0 k) (n + k) = live a n ++ live b k := by
  apply List.ext_getElem?
  intro i
  simp only [live_getElem?, List.getElem?_append, List.getElem?_take, List.getElem?_cons,
    List.getElem?_drop, List.length_take, live_length, aset, memmove_dbg]
  split_ifs <;> first | rfl | omega

theorem live_concat_with {α : Type} (a b : Nat → α) (n k : Nat) (x : α) :
    live (memmove_dbg (aset a n x) (n + 1) b 0 k) (n + (1 + k)) = live a n ++ x :: live b k := by
  apply List.ext_getElem?
  intro i
  simp only [live_getElem?, List.getElem?_append, List.getElem?_take, List.getElem?_cons,
    List.getElem?_drop, List.length_take, live_length, aset, memmove_dbg]
  split_ifs <;> first | rfl | omega

theorem live_unshift {α : Type} (a : Nat → α) (n : Nat) (x : α) :
    live (aset (memmove_dbg a 1 a 0 n) 0 x) (n + 1) = x :: live a n := by
  have := live_insert a n 0 x (Nat.zero_le n)
  simpa using this

/-! ## Node steps of the removal -/

theorem isSome_cases {α : Type} (o : Option α) : o = none ∨ ∃ v, o = some v := by
  cases o with
  | none => exact Or.inl rfl
  | some v => exact Or.inr ⟨v, rfl⟩

theorem borrow_left_leaf (node parent sib : rl_btree_node) (ppos : Nat)
    (hp : 1 ≤ ppos) (hpp : ppos ≤ parent.size)
    (hv1 : node.values.isSome = parent.values.isSome)
    (hv2 : sib.values.isSome = parent.values.isSome)
    (hnc : node.children = none) (hsc : sib.children = none) :
    ∃ n1 p1 s1, borrow_left node parent sib ppos = some (n1, p1, s1) ∧
      n1.size = node.size + 1 ∧ n1.children = none ∧
      n1.values.isSome = node.values.isSome ∧
      live n1.scores (node.size + 1) = parent.scores (ppos - 1) :: live node.scores node.size ∧
      p1.size = parent.size ∧ p1.children = parent.children ∧
      p1.values.isSome = parent.values.isSome ∧
      live p1.scores parent.size =
        (live parent.scores parent.size).take (ppos - 1) ++
          sib.scores (sib.size - 1) :: (live parent.scores parent.size).drop (ppos - 1 + 1) ∧
      s1.size = sib.size - 1 ∧ s1.children = none ∧ s1.values.isSome = sib.values.isSome ∧
      s1.scores = sib.scores := by
  rcases isSome_cases parent.values with hpv | ⟨pv, hpv⟩ <;>
  rcases isSome_cases node.values with hnv | ⟨nv, hnv⟩ <;>
  rcases isSome_cases sib.values with hsv | ⟨sv, hsv⟩ <;>
  simp only [hpv, hnv, hsv, Option.isSome_some, Option.isSome_none, Bool.false_eq_true,
    Bool.true_eq_false] at hv1 hv2
  all_goals
    generalize hb : borrow_left node parent sib ppos = res
    simp only [borrow_left, hpv, hnv, hsv, hnc, hsc, Option.map_some',
      Option.map_none'] at hb
    subst hb
    exact ⟨_, _, _, rfl, rfl, rfl, by simp [hnv], live_unshift _ _ _, rfl, rfl,
      by simp [hpv], live_set _ _ _ _ (by omega), rfl, rfl, by simp [hsv], rfl⟩

theorem borrow_left_internal (node parent sib : rl_btree_node) (ppos : Nat)
    (nc sc : Nat → Nat)
    (hp : 1 ≤ ppos) (hpp : ppos ≤ parent.size)
    (hv1 : node.values.isSome = parent.values.isSome)
    (hv2 : sib.values.isSome = parent.values.isSome)
    (hnc : node.children = some nc) (hsc : sib.children = some sc) :
    ∃ n1 p1 s1 nc1, borrow_left node parent sib ppos = some (n1, p1, s1) ∧
      n1.size = node.size + 1 ∧ n1.children = some nc1 ∧
      live nc1 (node.size + 1 + 1) = sc sib.size :: live nc (node.size + 1) ∧
      n1.values.isSome = node.values.isSome ∧
      live n1.scores (node.size + 1) = parent.scores (ppos - 1) :: live node.scores node.size ∧
      p1.size = parent.size ∧ p1.children = parent.children ∧
      p1.values.isSome = parent.values.isSome ∧
      live p1.scores parent.size =
        (live parent.scores parent.size).take (ppos - 1) ++
          sib.scores (sib.size - 1) :: (live parent.scores parent.size).drop (ppos - 1 + 1) ∧
      s1.size = sib.size - 1 ∧ s1.children = some sc ∧ s1.values.isSome = sib.values.isSome ∧
      s1.scores = sib.scores := by
  rcases isSome_cases parent.values with hpv | ⟨pv, hpv⟩ <;>
  rcases isSome_cases node.values with hnv | ⟨nv, hnv⟩ <;>
  rcases isSome_cases sib.values with hsv | ⟨sv, hsv⟩ <;>
  simp only [hpv, hnv, hsv, Option.isSome_some, Option.isSome_none, Bool.false_eq_true,
    Bool.true_eq_false] at hv1 hv2
  all_goals
    generalize hb : borrow_left node parent sib ppos = res
    simp only [borrow_left, hpv, hnv, hsv, hnc, hsc, Option.map_some',
      Option.map_none'] at hb
    subst hb
    exact ⟨_, _, _, _, rfl, rfl, rfl, live_unshift _ _ _, by simp [hnv], live_unshift _ _ _,
      rfl, rfl, by simp [hpv], live_set _ _ _ _ (by omega), rfl, rfl, by simp [hsv], rfl⟩

theorem borrow_right_leaf (node parent sib : rl_btree_node) (ppos : Nat)
    (hpp : ppos < parent.size)
    (hv1 : node.values.isSome = parent.values.isSome)
    (hv2 : sib.values.isSome = parent.values.isSome)
    (hnc : node.children = none) (hsc : sib.children = none) :
    ∃ n1 p1 s1, borrow_right node parent sib ppos = some (n1, p1, s1) ∧
      n1.size = node.size + 1 ∧ n1.children = none ∧
      n1.values.isSome = node.values.isSome ∧
      live n1.scores (node.size + 1) = live node.scores node.size ++ [parent.scores ppos] ∧
      p1.size = parent.size ∧ p1.children = parent.children ∧
      p1.values.isSome = parent.values.isSome ∧
      live p1.scores parent.size =
        (live parent.scores parent.size).take ppos ++
          sib.scores 0 :: (live parent.scores parent.size).drop (ppos + 1) ∧
      s1.size = sib.size - 1 ∧ s1.children = none ∧ s1.values.isSome = sib.values.isSome ∧
      live s1.scores (sib.size - 1) = (live sib.scores sib.size).drop 1 := by
  rcases isSome_cases parent.values with hpv | ⟨pv, hpv⟩ <;>
  rcases isSome_cases node.values with hnv | ⟨nv, hnv⟩ <;>
  rcases isSome_cases sib.values with hsv | ⟨sv, hsv⟩ <;>
  simp only [hpv, hnv, hsv, Option.isSome_some, Option.isSome_none, Bool.false_eq_true,
    Bool.true_eq_false] at hv1 hv2
  all_goals
    generalize hb : borrow_right node parent sib ppos = res
    simp only [borrow_right, hpv, hnv, hsv, hnc, hsc, Option.map_some',
      Option.map_none'] at hb
    subst hb
    exact ⟨_, _, _, rfl, rfl, rfl, by simp [hnv], live_push _ _ _, rfl, rfl,
      by simp [hpv], live_set _ _ _ _ (by omega), rfl, rfl, by simp [hsv],
      live_shift_left _ _⟩

theorem borrow_right_internal (node parent sib : rl_btree_node) (ppos : Nat)
    (nc sc : Nat → Nat)
    (hpp : ppos < parent.size)
    (hv1 : node.values.isSome = parent.values.isSome)
    (hv2 : sib.values.isSome = parent.values.isSome)
    (hnc : node.children = some nc) (hsc : sib.children = some sc) :
    ∃ n1 p1 s1 nc1 sc1, borrow_right node parent sib ppos = some (n1, p1, s1) ∧
      n1.size = node.size + 1 ∧ n1.children = some nc1 ∧
      live nc1 (node.size + 1 + 1) = live nc (node.size + 1) ++ [sc 0] ∧
      n1.values.isSome = node.values.isSome ∧
      live n1.scores (node.size + 1) = live node.scores node.size ++ [parent.scores ppos] ∧
      p1.size = parent.size ∧ p1.children = parent.children ∧
      p1.values.isSome = parent.values.isSome ∧
      live p1.scores parent.size =
        (live parent.scores parent.size).take ppos ++
          sib.scores 0 :: (live parent.scores parent.size).drop (ppos + 1) ∧
      s1.size = sib.size - 1 ∧ s1.children = some sc1 ∧
      live sc1 (sib.size + 1 - 1) = (live sc (sib.size + 1)).drop 1 ∧
      s1.values.isSome = sib.values.isSome ∧
      live s1.scores (sib.size - 1) = (live sib.scores sib.size).drop 1 := by
  rcases isSome_cases parent.values with hpv | ⟨pv, hpv⟩ <;>
  rcases isSome_cases node.values with hnv | ⟨nv, hnv⟩ <;>
  rcases isSome_cases sib.values with hsv | ⟨sv, hsv⟩ <;>
  simp only [hpv, hnv, hsv, Option.isSome_some, Option.isSome_none, Bool.false_eq_true,
    Bool.true_eq_false] at hv1 hv2
  all_goals
    generalize hb : borrow_right node parent sib ppos = res
    simp only [borrow_right, hpv, hnv, hsv, hnc, hsc, Option.map_some',
      Option.map_none'] at hb
    subst hb
    exact ⟨_, _, _, _, _, rfl, rfl, rfl, live_push _ _ _, by simp [hnv], live_push _ _ _, rfl,
      rfl, by simp [hpv], live_set _ _ _ _ (by omega), rfl, rfl, live_shift_left sc (sib.size + 1),
      by simp [hsv], live_shift_left _ _⟩

theorem live_erase_gen {α : Type} (a : Nat → α) (n n1 q q1 cnt : Nat) (hq : q < n)
    (h1 : q1 = q + 1) (h2 : cnt = n - q - 1) (h3 : n1 = n - 1) :
    live (memmove_dbg a q a q1 cnt) n1 = (live a n).take q ++ (live a n).drop (q + 1) := by
  subst h1 h2 h3
  exact live_erase a n q hq

theorem live_take_of_le {α : Type} (a : Nat → α) (n q : Nat) (hq : n = q + 1) :
    live a (n - 1) = (live a n).take q ++ (live a n).drop (q + 1) := by
  subst hq
  rw [live_take a (q + 1) q (by omega)]
  simp [List.drop_eq_nil_of_le]

/-- Merge into the left sibling, for a node that is child `q + 1` of its parent. -/
theorem merge_left_spec (node parent sib : rl_btree_node) (pch : Nat → Nat) (q : Nat)
    (hpp : q + 1 ≤ parent.size)
    (hpc : parent.children = some pch)
    (hv1 : node.values.isSome = parent.values.isSome)
    (hv2 : sib.values.isSome = parent.values.isSome)
    (hcs : node.children.isSome = sib.children.isSome) :
    ∃ p1 s1 pc1, merge_left node parent sib pch (q + 1) = some (p1, s1) ∧
      s1.size = sib.size + (1 + node.size) ∧
      s1.values.isSome = sib.values.isSome ∧
      live s1.scores (sib.size + (1 + node.size)) =
        live sib.scores sib.size ++ parent.scores q :: live node.scores node.size ∧
      (node.children = none → s1.children = none) ∧
      (∀ nc sc, node.children = some nc → sib.children = some sc →
        ∃ sc1, s1.children = some sc1 ∧
          live sc1 (sib.size + 1 + (node.size + 1)) =
            live sc (sib.size + 1) ++ live nc (node.size + 1)) ∧
      p1.size = parent.size - 1 ∧ p1.children = some pc1 ∧
      p1.values.isSome = parent.values.isSome ∧
      live p1.scores (parent.size - 1) =
        (live parent.scores parent.size).take q ++ (live parent.scores parent.size).drop (q + 1) ∧
      live pc1 (parent.size + 1 - 1) =
        (live pch (parent.size + 1)).take (q + 1) ++
          (live pch (parent.size + 1)).drop (q + 1 + 1) := by
  rcases isSome_cases parent.values with hpv | ⟨pv, hpv⟩ <;>
  rcases isSome_cases node.values with hnv | ⟨nv, hnv⟩ <;>
  rcases isSome_cases sib.values with hsv | ⟨sv, hsv⟩ <;>
  rcases isSome_cases node.children with hnc | ⟨nc, hnc⟩ <;>
  rcases isSome_cases sib.children with hsc | ⟨sc, hsc⟩ <;>
  simp only [hpv, hnv, hsv, hnc, hsc, Option.isSome_some, Option.isSome_none, Bool.false_eq_true,
    Bool.true_eq_false] at hv1 hv2 hcs
  all_goals
    by_cases hlt : q + 1 < parent.size
    · generalize hb : merge_left node parent sib pch (q + 1) = res
      simp only [merge_left, hpv, hnv, hsv, hnc, hsc, Option.map_some', Option.map_none', hlt,
        if_true, Nat.add_sub_cancel] at hb
      subst hb
      refine ⟨_, _, _, rfl, rfl, by simp [hsv], live_concat_with _ _ _ _ _, by simp [hnc],
        ?_, rfl, rfl, by simp [hpv],
        live_erase_gen _ parent.size _ q (q + 1) _ (by omega) rfl (by omega) rfl,
        live_erase_gen _ (parent.size + 1) _ (q + 1) (q + 1 + 1) _ (by omega) rfl (by omega) rfl⟩
      intro nc0 sc0 h1 h2
      rw [hnc] at h1
      rw [hsc] at h2
      first
        | (cases h1; done)
        | (cases h1; cases h2; exact ⟨_, rfl, live_concat _ _ _ _⟩)
    · generalize hb : merge_left node parent sib pch (q + 1) = res
      simp only [merge_left, hpv, hnv, hsv, hnc, hsc, Option.map_some', Option.map_none', hlt,
        if_false, Nat.add_sub_cancel] at hb
      subst hb
      refine ⟨_, _, pch, rfl, rfl, by simp [hsv], live_concat_with _ _ _ _ _, by simp [hnc],
        ?_, rfl, hpc, by simp [hpv],
        live_take_of_le _ _ q (by omega),
        live_take_of_le _ _ (q + 1) (by omega)⟩
      intro nc0 sc0 h1 h2
      rw [hnc] at h1
      rw [hsc] at h2
      first
        | (cases h1; done)
        | (cases h1; cases h2; exact ⟨_, rfl, live_concat _ _ _ _⟩)

/-- Merge of the right sibling into a node that is child `ppos` of its parent. -/
theorem merge_right_spec (node parent sib : rl_btree_node) (pch : Nat → Nat) (ppos : Nat)
    (hpp : ppos < parent.size)
    (hv1 : node.values.isSome = parent.values.isSome)
    (hv2 : sib.values.isSome = parent.values.isSome)
    (hcs : node.children.isSome = sib.children.isSome) :
    ∃ n1 p1 pc1, merge_right node parent sib pch ppos = some (n1, p1) ∧
      n1.size = node.size + (1 + sib.size) ∧
      n1.values.isSome = node.values.isSome ∧
      live n1.scores (node.size + (1 + sib.size)) =
        live node.scores node.size ++ parent.scores ppos :: live sib.scores sib.size ∧
      (node.children = none → n1.children = none) ∧
      (∀ nc sc, node.children = some nc → sib.children = some sc →
        ∃ nc1, n1.children = some nc1 ∧
          live nc1 (node.size + 1 + (sib.size + 1)) =
            live nc (node.size + 1) ++ live sc (sib.size + 1)) ∧
      p1.size = parent.size - 1 ∧ p1.children = some pc1 ∧
      p1.values.isSome = parent.values.isSome ∧
      live p1.scores (parent.size - 1) =
        (live parent.scores parent.size).take ppos ++
          (live parent.scores parent.size).drop (ppos + 1) ∧
      live pc1 (parent.size + 1 - 1) =
        (live pch (parent.size + 1)).take (ppos + 1) ++
          (live pch (parent.size + 1)).drop (ppos + 1 + 1) := by
  rcases isSome_cases parent.values with hpv | ⟨pv, hpv⟩ <;>
  rcases isSome_cases node.values with hnv | ⟨nv, hnv⟩ <;>
  rcases isSome_cases sib.values with hsv | ⟨sv, hsv⟩ <;>
  rcases isSome_cases node.children with hnc | ⟨nc, hnc⟩ <;>
  rcases isSome_cases sib.children with hsc | ⟨sc, hsc⟩ <;>
  simp only [hpv, hnv, hsv, hnc, hsc, Option.isSome_some, Option.isSome_none, Bool.false_eq_true,
    Bool.true_eq_false] at hv1 hv2 hcs
  all_goals
    generalize hb : merge_right node parent sib pch ppos = res
    simp only [merge_right, hpv, hnv, hsv, hnc, hsc, Option.map_some', Option.map_none'] at hb
    subst hb
    refine ⟨_, _, _, rfl, rfl, by simp [hnv], live_concat_with _ _ _ _ _, by simp [hnc],
      ?_, rfl, rfl, by simp [hpv],
      live_erase_gen _ parent.size _ ppos (ppos + 1) _ (by omega) rfl (by omega) rfl,
      live_erase_gen _ (parent.size + 1) _ (ppos + 1) (ppos + 1 + 1) _ (by omega) rfl (by omega)
        rfl⟩
    intro nc0 sc0 h1 h2
    rw [hnc] at h1
    rw [hsc] at h2
    first
      | (cases h1; done)
      | (cases h1; cases h2; exact ⟨_, rfl, live_concat _ _ _ _⟩)

theorem remove_from_leaf_spec (node : rl_btree_node) (pos : Nat) (hp : pos < node.size) :
    (remove_from_leaf node pos).size = node.size - 1 ∧
    (remove_from_leaf node pos).children = node.children ∧
    (remove_from_leaf node pos).values.isSome = node.values.isSome ∧
    live (remove_from_leaf node pos).scores (node.size - 1) =
      (live node.scores node.size).take pos ++ (live node.scores node.size).drop (pos + 1) :=
  ⟨rfl, rfl, by simp [remove_from_leaf], live_erase _ _ _ hp⟩

/-! ## List surgery for the rebalance loop -/

theorem map_take_congr (kids : List Nat) (K1 K2 : Nat → List Int) (q : Nat)
    (h : ∀ j (hj : j < kids.length), j < q → K2 kids[j] = K1 kids[j]) :
    (kids.take q).map K2 = (kids.map K1).take q := by
  apply List.ext_getElem?
  intro i
  simp only [List.getElem?_take, List.getElem?_map]
  split_ifs with hi
  · by_cases hl : i < kids.length
    · simp [List.getElem?_eq_getElem hl, h i hl hi]
    · simp [List.getElem?_eq_none (not_lt.mp hl)]
  · rfl

theorem map_drop_congr (kids : List Nat) (K1 K2 : Nat → List Int) (r : Nat)
    (h : ∀ j (hj : j < kids.length), r ≤ j → K2 kids[j] = K1 kids[j]) :
    (kids.drop r).map K2 = (kids.map K1).drop r := by
  apply List.ext_getElem?
  intro i
  simp only [List.getElem?_drop, List.getElem?_map]
  by_cases hl : r + i < kids.length
  · simp [List.getElem?_eq_getElem hl, h (r + i) hl (by omega)]
  · simp [List.getElem?_eq_none (not_lt.mp hl)]

theorem list_split_pair {α : Type} (l : List α) (q : Nat) (h : q + 1 < l.length) :
    l = l.take q ++ ([l[q], l[q + 1]] ++ l.drop (q + 2)) := by
  have e1 : l.drop q = l[q] :: l.drop (q + 1) := List.drop_eq_getElem_cons (by omega)
  have e2 : l.drop (q + 1) = l[q + 1] :: l.drop (q + 1 + 1) := List.drop_eq_getElem_cons h
  conv_lhs => rw [← List.take_append_drop q l, e1, e2]
  simp

theorem map_pair (kids : List Nat) (K1 K2 : Nat → List Int) (q : Nat)
    (hq : q + 1 < kids.length)
    (hK : ∀ j (hj : j < kids.length), j ≠ q → j ≠ q + 1 → K2 kids[j] = K1 kids[j]) :
    kids.map K2 =
      (kids.map K1).take q ++ ([K2 kids[q], K2 kids[q + 1]] ++ (kids.map K1).drop (q + 2)) := by
  conv_lhs => rw [list_split_pair kids q hq]
  rw [List.map_append, List.map_append,
    map_take_congr kids K1 K2 q (fun j hj hjq => hK j hj (by omega) (by omega)),
    map_drop_congr kids K1 K2 (q + 2) (fun j hj hjq => hK j hj (by omega) (by omega))]
  simp

theorem map_merge (kids : List Nat) (K1 K2 : Nat → List Int) (q : Nat)
    (hq : q + 1 < kids.length)
    (hK : ∀ j (hj : j < kids.length), j ≠ q → j ≠ q + 1 → K2 kids[j] = K1 kids[j]) :
    (kids.take (q + 1) ++ kids.drop (q + 1 + 1)).map K2 =
      (kids.map K1).take q ++ ([K2 kids[q]] ++ (kids.map K1).drop (q + 2)) := by
  have e : kids.take (q + 1) = kids.take q ++ [kids[q]] := by
    rw [List.take_succ]
    simp [List.getElem?_eq_getElem (show q < kids.length by omega)]
  rw [e, List.map_append, List.map_append,
    map_take_congr kids K1 K2 q (fun j hj hjq => hK j hj (by omega) (by omega)),
    map_drop_congr kids K1 K2 (q + 1 + 1) (fun j hj hjq => hK j hj (by omega) (by omega))]
  simp

/-- The interleaving of a node in which the children `q` and `q + 1` and the key
between them were replaced without changing what they hold together. -/
theorem inter_pair (kids : List Nat) (pk : List Int) (K1 K2 : Nat → List Int) (q : Nat)
    (s1 : Int) (hlen : kids.length = pk.length + 1) (hq : q < pk.length)
    (hqa : q < kids.length) (hqb : q + 1 < kids.length)
    (hK : ∀ j (hj : j < kids.length), j ≠ q → j ≠ q + 1 → K2 kids[j] = K1 kids[j])
    (hpair : K2 kids[q] ++ s1 :: K2 kids[q + 1] = K1 kids[q] ++ pk[q] :: K1 kids[q + 1]) :
    inter (kids.map K2) (pk.take q ++ s1 :: pk.drop (q + 1)) = inter (kids.map K1) pk := by
  have e1 : pk.take q ++ s1 :: pk.drop (q + 1) = pk.take q ++ ([s1] ++ pk.drop (q + 1)) := by
    simp
  have e2 : pk = pk.take q ++ ([pk[q]] ++ pk.drop (q + 1)) := list_split_at pk q hq
  rw [map_pair kids K1 K2 q hqb hK, e1,
    inter_splice _ _ _ _ _ _ (by simp; omega) (by simp) (by simp; omega)]
  conv_rhs =>
    rw [map_pair kids K1 K1 q hqb (fun _ _ _ _ => rfl), e2,
      inter_splice _ _ _ _ _ _ (by simp; omega) (by simp) (by simp; omega)]
  simp only [inter, List.append_cancel_left_eq, List.append_cancel_right_eq]
  simpa using hpair

/-- The interleaving of a node in which the children `q` and `q + 1` were merged
around the key between them. -/
theorem inter_merge (kids : List Nat) (pk : List Int) (K1 K2 : Nat → List Int) (q : Nat)
    (hlen : kids.length = pk.length + 1) (hq : q < pk.length)
    (hqa : q < kids.length) (hqb : q + 1 < kids.length)
    (hK : ∀ j (hj : j < kids.length), j ≠ q → j ≠ q + 1 → K2 kids[j] = K1 kids[j])
    (hpair : K2 kids[q] = K1 kids[q] ++ pk[q] :: K1 kids[q + 1]) :
    inter ((kids.take (q + 1) ++ kids.drop (q + 1 + 1)).map K2) (pk.take q ++ pk.drop (q + 1)) =
      inter (kids.map K1) pk := by
  have e1 : pk.take q ++ pk.drop (q + 1) = pk.take q ++ ([] ++ pk.drop (q + 1)) := by simp
  have e2 : pk = pk.take q ++ ([pk[q]] ++ pk.drop (q + 1)) := list_split_at pk q hq
  rw [map_merge kids K1 K2 q hqb hK, e1,
    inter_splice _ _ _ _ _ _ (by simp; omega) (by simp) (by simp; omega)]
  conv_rhs =>
    rw [map_pair kids K1 K1 q hqb (fun _ _ _ _ => rfl), e2,
      inter_splice _ _ _ _ _ _ (by simp; omega) (by simp) (by simp; omega)]
  simp only [inter, List.append_cancel_left_eq, List.append_cancel_right_eq, inter_single,
    List.take_nil, List.append_nil]
  simpa using hpair

/-! ## Nodes rewritten by the rebalance loop -/

theorem keys_node_keys {bt : rl_btree} {lv z : Nat} {N : rl_btree_node}
    (hs : select bt z = some N) : keys bt (lv + 1) z = node_keys (keys bt lv) N := by
  unfold node_keys
  cases hc : N.children with
  | none => exact keys_leaf hs hc
  | some ch => exact keys_internal hs hc

theorem mem_node_kids {N : rl_btree_node} {g : Nat} :
    g ∈ node_kids N ↔ ∃ ch, N.children = some ch ∧ ∃ j, j ≤ N.size ∧ ch j = g := by
  unfold node_kids
  cases hc : N.children with
  | none => simp
  | some ch =>
    simp only [mem_live, Option.some.injEq, exists_eq_left']
    constructor
    · rintro ⟨j, hj, rfl⟩; exact ⟨j, by omega, rfl⟩
    · rintro ⟨j, hj, rfl⟩; exact ⟨j, by omega, rfl⟩

theorem ids_node {bt : rl_btree} {lv z : Nat} {N : rl_btree_node} (hs : select bt z = some N)
    (x : Nat) : x ∈ ids bt (lv + 1) z ↔ x = z ∨ ∃ g ∈ node_kids N, x ∈ ids bt lv g := by
  cases hc : N.children with
  | none =>
    rw [ids_leaf hs hc]
    simp [node_kids, hc]
  | some ch =>
    rw [ids_internal hs hc]
    simp [node_kids, hc]

/-- The node `N`, registered under `z` in the tree `b2`, stands over children whose
subtrees are in `b2` what they were in the tree `b1`. -/
theorem child_over (b1 b2 : rl_btree) (lv z : Nat) (N : rl_btree_node)
    (hsel : select b2 z = some N)
    (hagree : ∀ g ∈ node_kids N, ∀ x ∈ ids b1 lv g, select b2 x = select b1 x) :
    keys b2 (lv + 1) z = node_keys (keys b1 lv) N ∧
    (∀ x, x ∈ ids b2 (lv + 1) z ↔ x = z ∨ ∃ g ∈ node_kids N, x ∈ ids b1 lv g) ∧
    (∀ lo, (N.children = none ↔ lv = 0) → lo ≤ N.size → N.size ≤ b2.max_node_size →
      N.values.isSome = decide (b2.type.value_size ≠ 0) →
      b2.max_node_size = b1.max_node_size → b2.type = b1.type →
      (∀ g ∈ node_kids N, shape b1 lv (b1.max_node_size / 2) g = true) →
      shape b2 (lv + 1) lo z = true) := by
  refine ⟨?_, ?_, ?_⟩
  · rw [keys_node_keys hsel]
    unfold node_keys
    cases hc : N.children with
    | none => rfl
    | some ch =>
      simp only
      congr 1
      apply List.map_congr_left
      intro g hg
      exact frame_keys b1 b2 lv g (hagree g (by simp [node_kids, hc, hg]))
  · intro x
    rw [ids_node hsel]
    constructor
    · rintro (h | ⟨g, hg, hx⟩)
      · exact Or.inl h
      · rw [frame_ids b1 b2 lv g (hagree g hg)] at hx
        exact Or.inr ⟨g, hg, hx⟩
    · rintro (h | ⟨g, hg, hx⟩)
      · exact Or.inl h
      · rw [← frame_ids b1 b2 lv g (hagree g hg)] at hx
        exact Or.inr ⟨g, hg, hx⟩
  · intro lo hleaf h1 h2 h3 hm ht hsh
    rw [shape_succ]
    refine ⟨N, hsel, h1, h2, h3, ?_⟩
    cases hc : N.children with
    | none => exact Or.inl ⟨rfl, hleaf.mp hc⟩
    | some ch =>
      refine Or.inr ⟨ch, rfl, ?_, ?_⟩
      · intro h0
        have := hleaf.mpr h0
        rw [hc] at this
        cases this
      · intro j hj
        have hmem : ch j ∈ node_kids N := mem_node_kids.mpr ⟨ch, hc, j, hj, rfl⟩
        rw [hm]
        exact frame_shape b1 b2 hm ht lv _ _ (hagree _ hmem) (hsh _ hmem)

theorem shape_kids {bt : rl_btree} {lv lo z : Nat} {N : rl_btree_node}
    (hsh : shape bt (lv + 1) lo z = true) (hs : select bt z = some N) :
    (N.children = none ↔ lv = 0) ∧
    N.size ≤ bt.max_node_size ∧ lo ≤ N.size ∧
    N.values.isSome = decide (bt.type.value_size ≠ 0) ∧
    ∀ g ∈ node_kids N, shape bt lv (bt.max_node_size / 2) g = true := by
  rw [shape_succ] at hsh
  obtain ⟨nd, hs2, h1, h2, h3, h4⟩ := hsh
  rw [hs] at hs2; cases hs2
  rcases h4 with ⟨hc, hlv⟩ | ⟨ch, hc, hlv, hch⟩
  · refine ⟨by simp [hc, hlv], h2, h1, h3, ?_⟩
    intro g hg
    simp [node_kids, hc] at hg
  · refine ⟨by simp [hc, hlv], h2, h1, h3, ?_⟩
    intro g hg
    obtain ⟨ch2, hc2, j, hj, rfl⟩ := mem_node_kids.mp hg
    rw [hc] at hc2; cases hc2
    exact hch j hj

/-- Two neighbouring children of a node and the subtrees below them are apart from
each other, from the node and from the other children. -/
theorem pair_context (b1 : rl_btree) (lv id : Nat) (nd ln rn : rl_btree_node)
    (ch : Nat → Nat) (q : Nat)
    (hs : select b1 id = some nd) (_hc : nd.children = some ch) (hq : q < nd.size)
    (hsl : select b1 (ch q) = some ln) (hsr : select b1 (ch (q + 1)) = some rn)
    (H2 : ∀ j, j ≤ nd.size → id ∉ ids b1 (lv + 1) (ch j))
    (H3 : ∀ i j, i ≤ nd.size → j ≤ nd.size → i ≠ j →
      ∀ x ∈ ids b1 (lv + 1) (ch i), x ∉ ids b1 (lv + 1) (ch j))
    (H4L : top_fresh b1 (lv + 1) (ch q)) (H4R : top_fresh b1 (lv + 1) (ch (q + 1))) :
    ch q ≠ ch (q + 1) ∧ ch q ≠ id ∧ ch (q + 1) ≠ id ∧
    (∀ g ∈ node_kids ln ++ node_kids rn, ∀ x ∈ ids b1 lv g,
      x ≠ ch q ∧ x ≠ ch (q + 1) ∧ x ≠ id ∧
      (x ∈ ids b1 (lv + 1) (ch q) ∨ x ∈ ids b1 (lv + 1) (ch (q + 1)))) ∧
    (∀ j, j ≤ nd.size → j ≠ q → j ≠ q + 1 → ∀ x ∈ ids b1 (lv + 1) (ch j),
      x ≠ ch q ∧ x ≠ ch (q + 1) ∧ x ≠ id) := by
  have hLself := mem_ids_self b1 lv (ch q)
  have hRself := mem_ids_self b1 lv (ch (q + 1))
  refine ⟨?_, ?_, ?_, ?_, ?_⟩
  · intro h
    apply H3 q (q + 1) (by omega) (by omega) (by omega) (ch q) hLself
    rw [h]; exact hRself
  · intro h
    apply H2 q (by omega)
    rw [← h]; exact hLself
  · intro h
    apply H2 (q + 1) (by omega)
    rw [← h]; exact hRself
  · intro g hg x hx
    rcases List.mem_append.mp hg with hg | hg
    · obtain ⟨lc, hlc, j, hj, rfl⟩ := mem_node_kids.mp hg
      have hxL : x ∈ ids b1 (lv + 1) (ch q) := mem_ids_child hsl hlc j hj x hx
      refine ⟨?_, ?_, ?_, Or.inl hxL⟩
      · rintro rfl
        exact H4L ln lc hsl hlc j hj (by simpa using hx)
      · rintro rfl
        exact H3 q (q + 1) (by omega) (by omega) (by omega) _ hxL hRself
      · rintro rfl
        exact H2 q (by omega) hxL
    · obtain ⟨rc, hrc, j, hj, rfl⟩ := mem_node_kids.mp hg
      have hxR : x ∈ ids b1 (lv + 1) (ch (q + 1)) := mem_ids_child hsr hrc j hj x hx
      refine ⟨?_, ?_, ?_, Or.inr hxR⟩
      · rintro rfl
        exact H3 (q + 1) q (by omega) (by omega) (by omega) _ hxR hLself
      · rintro rfl
        exact H4R rn rc hsr hrc j hj (by simpa using hx)
      · rintro rfl
        exact H2 (q + 1) (by omega) hxR
  · intro j hj hj1 hj2 x hx
    refine ⟨?_, ?_, ?_⟩
    · rintro rfl
      exact H3 j q hj (by omega) hj1 _ hx hLself
    · rintro rfl
      exact H3 j (q + 1) hj (by omega) hj2 _ hx hRself
    · rintro rfl
      exact H2 j hj hx

/-- A borrow between the children `q` and `q + 1` of the node `id`: the three nodes
were rewritten (`L1`, `R1`, `P1`) so that the pair holds the same keys as before. -/
theorem pair_borrow (b1 b2 : rl_btree) (lv id : Nat) (nd P1 ln rn L1 R1 : rl_btree_node)
    (ch : Nat → Nat) (q : Nat) (s1 : Int) (lo : Nat)
    (hm : b2.max_node_size = b1.max_node_size) (ht : b2.type = b1.type)
    (hs : select b1 id = some nd) (hc : nd.children = some ch) (hq : q < nd.size)
    (hsl : select b1 (ch q) = some ln) (hsr : select b1 (ch (q + 1)) = some rn)
    (H2 : ∀ j, j ≤ nd.size → id ∉ ids b1 (lv + 1) (ch j))
    (H3 : ∀ i j, i ≤ nd.size → j ≤ nd.size → i ≠ j →
      ∀ x ∈ ids b1 (lv + 1) (ch i), x ∉ ids b1 (lv + 1) (ch j))
    (H4L : top_fresh b1 (lv + 1) (ch q)) (H4R : top_fresh b1 (lv + 1) (ch (q + 1)))
    (Hsh : ∀ j, j ≤ nd.size → j ≠ q → j ≠ q + 1 →
      shape b1 (lv + 1) (b1.max_node_size / 2) (ch j) = true)
    (HshL : ∀ g ∈ node_kids ln, shape b1 lv (b1.max_node_size / 2) g = true)
    (HshR : ∀ g ∈ node_kids rn, shape b1 lv (b1.max_node_size / 2) g = true)
    (hb2 : ∀ x, select b2 x =
      if x = ch q then some L1 else if x = ch (q + 1) then some R1
      else if x = id then some P1 else select b1 x)
    (hP1 : P1.size = nd.size) (hP2 : P1.children = some ch)
    (hP3 : P1.values.isSome = nd.values.isSome)
    (hP4 : live P1.scores nd.size =
      (live nd.scores nd.size).take q ++ s1 :: (live nd.scores nd.size).drop (q + 1))
    (hPlo : lo ≤ nd.size) (hPhi : nd.size ≤ b1.max_node_size)
    (hPv : nd.values.isSome = decide (b1.type.value_size ≠ 0))
    (hL1 : b1.max_node_size / 2 ≤ L1.size ∧ L1.size ≤ b1.max_node_size ∧
      L1.values.isSome = decide (b1.type.value_size ≠ 0) ∧ (L1.children = none ↔ lv = 0))
    (hR1 : b1.max_node_size / 2 ≤ R1.size ∧ R1.size ≤ b1.max_node_size ∧
      R1.values.isSome = decide (b1.type.value_size ≠ 0) ∧ (R1.children = none ↔ lv = 0))
    (hkids : ∀ g ∈ node_kids L1 ++ node_kids R1, g ∈ node_kids ln ++ node_kids rn)
    (hNK : node_keys (keys b1 lv) L1 ++ s1 :: node_keys (keys b1 lv) R1 =
      node_keys (keys b1 lv) ln ++ nd.scores q :: node_keys (keys b1 lv) rn) :
    shape b2 (lv + 1 + 1) lo id = true ∧
    keys b2 (lv + 1 + 1) id = keys b1 (lv + 1 + 1) id ∧
    (∀ x ∈ ids b2 (lv + 1 + 1) id, x ∈ ids b1 (lv + 1 + 1) id) ∧
    top_fresh b2 (lv + 1 + 1) id ∧
    (∀ x, x ∉ ids b1 (lv + 1 + 1) id → select b2 x = select b1 x) := by
  obtain ⟨d1, d2, d3, hg, hoth⟩ :=
    pair_context b1 lv id nd ln rn ch q hs hc hq hsl hsr H2 H3 H4L H4R
  have hselL : select b2 (ch q) = some L1 := by rw [hb2]; simp
  have hselR : select b2 (ch (q + 1)) = some R1 := by rw [hb2]; simp [Ne.symm d1]
  have hselP : select b2 id = some P1 := by rw [hb2]; simp [Ne.symm d2, Ne.symm d3]
  have hsame : ∀ x, x ≠ ch q → x ≠ ch (q + 1) → x ≠ id → select b2 x = select b1 x := by
    intro x h1 h2 h3
    rw [hb2]; simp [h1, h2, h3]
  have hagree : ∀ g ∈ node_kids ln ++ node_kids rn, ∀ x ∈ ids b1 lv g,
      select b2 x = select b1 x :=
    fun g hg1 x hx => hsame x (hg g hg1 x hx).1 (hg g hg1 x hx).2.1 (hg g hg1 x hx).2.2.1
  have hgsh : ∀ g ∈ node_kids ln ++ node_kids rn,
      shape b1 lv (b1.max_node_size / 2) g = true := by
    intro g hg1
    rcases List.mem_append.mp hg1 with h | h
    · exact HshL g h
    · exact HshR g h
  obtain ⟨kL, iL, sL⟩ := child_over b1 b2 lv (ch q) L1 hselL
    (fun g hg1 => hagree g (hkids g (List.mem_append_left _ hg1)))
  obtain ⟨kR, iR, sR⟩ := child_over b1 b2 lv (ch (q + 1)) R1 hselR
    (fun g hg1 => hagree g (hkids g (List.mem_append_right _ hg1)))
  have hshL2 : shape b2 (lv + 1) (b1.max_node_size / 2) (ch q) = true :=
    sL _ hL1.2.2.2 hL1.1 (by rw [hm]; exact hL1.2.1) (by rw [ht]; exact hL1.2.2.1) hm ht
      (fun g hg1 => hgsh g (hkids g (List.mem_append_left _ hg1)))
  have hshR2 : shape b2 (lv + 1) (b1.max_node_size / 2) (ch (q + 1)) = true :=
    sR _ hR1.2.2.2 hR1.1 (by rw [hm]; exact hR1.2.1) (by rw [ht]; exact hR1.2.2.1) hm ht
      (fun g hg1 => hgsh g (hkids g (List.mem_append_right _ hg1)))
  have hothers : ∀ j, j ≤ nd.size → j ≠ q → j ≠ q + 1 →
      ∀ x ∈ ids b1 (lv + 1) (ch j), select b2 x = select b1 x :=
    fun j hj h1 h2 x hx =>
      hsame x (hoth j hj h1 h2 x hx).1 (hoth j hj h1 h2 x hx).2.1 (hoth j hj h1 h2 x hx).2.2
  have hidsub : ∀ j, j ≤ nd.size → ∀ x ∈ ids b2 (lv + 1) (ch j),
      ∃ j1, j1 ≤ nd.size ∧ x ∈ ids b1 (lv + 1) (ch j1) := by
    intro j hj x hx
    by_cases h1 : j = q
    · subst h1
      rcases (iL x).mp hx with rfl | ⟨g, hg1, hx1⟩
      · exact ⟨j, hj, mem_ids_self _ _ _⟩
      · rcases (hg g (hkids g (List.mem_append_left _ hg1)) x hx1).2.2.2 with h | h
        · exact ⟨j, hj, h⟩
        · exact ⟨j + 1, by omega, h⟩
    · by_cases h2 : j = q + 1
      · subst h2
        rcases (iR x).mp hx with rfl | ⟨g, hg1, hx1⟩
        · exact ⟨q + 1, hj, mem_ids_self _ _ _⟩
        · rcases (hg g (hkids g (List.mem_append_right _ hg1)) x hx1).2.2.2 with h | h
          · exact ⟨q, by omega, h⟩
          · exact ⟨q + 1, hj, h⟩
      · rw [frame_ids b1 b2 (lv + 1) (ch j) (hothers j hj h1 h2)] at hx
        exact ⟨j, hj, hx⟩
  refine ⟨?_, ?_, ?_, ?_, ?_⟩
  · rw [shape_succ]
    refine ⟨P1, hselP, by omega, by rw [hP1, hm]; exact hPhi, by rw [hP3, ht]; exact hPv,
      Or.inr ⟨ch, hP2, by omega, ?_⟩⟩
    intro j hj
    rw [hP1] at hj
    rw [hm]
    by_cases h1 : j = q
    · subst h1; exact hshL2
    · by_cases h2 : j = q + 1
      · subst h2; exact hshR2
      · exact frame_shape b1 b2 hm ht _ _ _ (hothers j hj h1 h2) (Hsh j hj h1 h2)
  · rw [keys_internal hselP hP2, keys_internal hs hc, hP1, hP4]
    apply inter_pair (live ch (nd.size + 1)) (live nd.scores nd.size) (keys b1 (lv + 1))
      (keys b2 (lv + 1)) q s1 (by simp) (by simpa using hq) (by simp; omega) (by simp; omega)
    · intro j hj h1 h2
      simp only [live_length] at hj
      simp only [live_getElem]
      exact frame_keys b1 b2 (lv + 1) (ch j) (hothers j (by omega) h1 h2)
    · simp only [live_getElem]
      rw [kL, kR, keys_node_keys hsl, keys_node_keys hsr]
      exact hNK
  · intro x hx
    rw [ids_internal hselP hP2] at hx
    simp only [List.mem_cons, List.mem_flatten, List.mem_map, mem_live,
      exists_exists_and_eq_and] at hx
    rcases hx with rfl | ⟨j, hj, hx⟩
    · exact mem_ids_self _ _ _
    · rw [hP1] at hj
      obtain ⟨j1, hj1, hx1⟩ := hidsub j (by omega) x hx
      exact mem_ids_child hs hc j1 hj1 x hx1
  · intro N chN hN hcN j hj hmem
    rw [hselP] at hN; cases hN
    rw [hP2] at hcN; cases hcN
    rw [hP1] at hj
    obtain ⟨j1, hj1, hx1⟩ := hidsub j hj id (by simpa using hmem)
    exact H2 j1 hj1 hx1
  · intro x hx
    apply hsame
    · rintro rfl; exact hx (mem_ids_child hs hc q (by omega) _ (mem_ids_self _ _ _))
    · rintro rfl; exact hx (mem_ids_child hs hc (q + 1) (by omega) _ (mem_ids_self _ _ _))
    · rintro rfl; exact hx (mem_ids_self _ _ _)

theorem mem_take_drop_live (ch : Nat → Nat) (n q : Nat) (y : Nat)
    (hy : y ∈ (live ch (n + 1)).take (q + 1) ++ (live ch (n + 1)).drop (q + 1 + 1)) :
    ∃ j, j ≤ n ∧ j ≠ q + 1 ∧ ch j = y := by
  rcases List.mem_append.mp hy with h | h
  · obtain ⟨j, hj, rfl⟩ := List.getElem_of_mem h
    simp only [List.length_take, live_length, lt_min_iff] at hj
    exact ⟨j, by omega, by omega, by simp⟩
  · obtain ⟨j, hj, rfl⟩ := List.getElem_of_mem h
    simp only [List.length_drop, live_length] at hj
    exact ⟨q + 1 + 1 + j, by omega, by omega, by simp⟩

/-- A merge of the children `q` and `q + 1` of the node `id`: child `q` was
rewritten (`S1`) to hold the keys of both and the key between them, child `q + 1`
is gone, and the node (`P1`) lost that key and that child. -/
theorem pair_merge (b1 b2 : rl_btree) (lv id : Nat) (nd P1 ln rn S1 : rl_btree_node)
    (ch pc1 : Nat → Nat) (q : Nat) (lo : Nat)
    (hm : b2.max_node_size = b1.max_node_size) (ht : b2.type = b1.type)
    (hs : select b1 id = some nd) (hc : nd.children = some ch) (hq : q < nd.size)
    (hsl : select b1 (ch q) = some ln) (hsr : select b1 (ch (q + 1)) = some rn)
    (H2 : ∀ j, j ≤ nd.size → id ∉ ids b1 (lv + 1) (ch j))
    (H3 : ∀ i j, i ≤ nd.size → j ≤ nd.size → i ≠ j →
      ∀ x ∈ ids b1 (lv + 1) (ch i), x ∉ ids b1 (lv + 1) (ch j))
    (H4L : top_fresh b1 (lv + 1) (ch q)) (H4R : top_fresh b1 (lv + 1) (ch (q + 1)))
    (Hsh : ∀ j, j ≤ nd.size → j ≠ q → j ≠ q + 1 →
      shape b1 (lv + 1) (b1.max_node_size / 2) (ch j) = true)
    (HshL : ∀ g ∈ node_kids ln, shape b1 lv (b1.max_node_size / 2) g = true)
    (HshR : ∀ g ∈ node_kids rn, shape b1 lv (b1.max_node_size / 2) g = true)
    (hb2 : ∀ x, select b2 x =
      if x = ch q then some S1 else if x = ch (q + 1) then none
      else if x = id then some P1 else select b1 x)
    (hP1 : P1.size = nd.size - 1) (hP2 : P1.children = some pc1)
    (hP3 : P1.values.isSome = nd.values.isSome)
    (hP4 : live P1.scores (nd.size - 1) =
      (live nd.scores nd.size).take q ++ (live nd.scores nd.size).drop (q + 1))
    (hP5 : live pc1 (nd.size + 1 - 1) =
      (live ch (nd.size + 1)).take (q + 1) ++ (live ch (nd.size + 1)).drop (q + 1 + 1))
    (hPlo : lo ≤ nd.size) (hPhi : nd.size ≤ b1.max_node_size)
    (hPv : nd.values.isSome = decide (b1.type.value_size ≠ 0))
    (hS1 : b1.max_node_size / 2 ≤ S1.size ∧ S1.size ≤ b1.max_node_size ∧
      S1.values.isSome = decide (b1.type.value_size ≠ 0) ∧ (S1.children = none ↔ lv = 0))
    (hkids : ∀ g ∈ node_kids S1, g ∈ node_kids ln ++ node_kids rn)
    (hNK : node_keys (keys b1 lv) S1 =
      node_keys (keys b1 lv) ln ++ nd.scores q :: node_keys (keys b1 lv) rn) :
    shape b2 (lv + 1 + 1) (lo - 1) id = true ∧
    keys b2 (lv + 1 + 1) id = keys b1 (lv + 1 + 1) id ∧
    (∀ x ∈ ids b2 (lv + 1 + 1) id, x ∈ ids b1 (lv + 1 + 1) id) ∧
    top_fresh b2 (lv + 1 + 1) id ∧
    (∀ x, x ∉ ids b1 (lv + 1 + 1) id → select b2 x = select b1 x) := by
  obtain ⟨d1, d2, d3, hg, hoth⟩ :=
    pair_context b1 lv id nd ln rn ch q hs hc hq hsl hsr H2 H3 H4L H4R
  have hselL : select b2 (ch q) = some S1 := by rw [hb2]; simp
  have hselP : select b2 id = some P1 := by rw [hb2]; simp [Ne.symm d2, Ne.symm d3]
  have hsame : ∀ x, x ≠ ch q → x ≠ ch (q + 1) → x ≠ id → select b2 x = select b1 x := by
    intro x h1 h2 h3
    rw [hb2]; simp [h1, h2, h3]
  have hagree : ∀ g ∈ node_kids ln ++ node_kids rn, ∀ x ∈ ids b1 lv g,
      select b2 x = select b1 x :=
    fun g hg1 x hx => hsame x (hg g hg1 x hx).1 (hg g hg1 x hx).2.1 (hg g hg1 x hx).2.2.1
  have hgsh : ∀ g ∈ node_kids ln ++ node_kids rn,
      shape b1 lv (b1.max_node_size / 2) g = true := by
    intro g hg1
    rcases List.mem_append.mp hg1 with h | h
    · exact HshL g h
    · exact HshR g h
  obtain ⟨kL, iL, sL⟩ := child_over b1 b2 lv (ch q) S1 hselL
    (fun g hg1 => hagree g (hkids g hg1))
  have hshL2 : shape b2 (lv + 1) (b1.max_node_size / 2) (ch q) = true :=
    sL _ hS1.2.2.2 hS1.1 (by rw [hm]; exact hS1.2.1) (by rw [ht]; exact hS1.2.2.1) hm ht
      (fun g hg1 => hgsh g (hkids g hg1))
  have hothers : ∀ j, j ≤ nd.size → j ≠ q → j ≠ q + 1 →
      ∀ x ∈ ids b1 (lv + 1) (ch j), select b2 x = select b1 x :=
    fun j hj h1 h2 x hx =>
      hsame x (hoth j hj h1 h2 x hx).1 (hoth j hj h1 h2 x hx).2.1 (hoth j hj h1 h2 x hx).2.2
  have hidsub : ∀ j, j ≤ nd.size → j ≠ q + 1 → ∀ x ∈ ids b2 (lv + 1) (ch j),
      ∃ j1, j1 ≤ nd.size ∧ x ∈ ids b1 (lv + 1) (ch j1) := by
    intro j hj h2 x hx
    by_cases h1 : j = q
    · subst h1
      rcases (iL x).mp hx with rfl | ⟨g, hg1, hx1⟩
      · exact ⟨j, hj, mem_ids_self _ _ _⟩
      · rcases (hg g (hkids g hg1) x hx1).2.2.2 with h | h
        · exact ⟨j, hj, h⟩
        · exact ⟨j + 1, by omega, h⟩
    · rw [frame_ids b1 b2 (lv + 1) (ch j) (hothers j hj h1 h2)] at hx
      exact ⟨j, hj, hx⟩
  have hsz : P1.size + 1 = nd.size + 1 - 1 := by omega
  refine ⟨?_, ?_, ?_, ?_, ?_⟩
  · rw [shape_succ]
    refine ⟨P1, hselP, by omega, by rw [hP1, hm]; omega, by rw [hP3, ht]; exact hPv,
      Or.inr ⟨pc1, hP2, by omega, ?_⟩⟩
    intro j hj
    have hmem : pc1 j ∈ live pc1 (nd.size + 1 - 1) := by
      rw [mem_live]; exact ⟨j, by omega, rfl⟩
    rw [hP5] at hmem
    obtain ⟨j1, hj1, hj2, hj3⟩ := mem_take_drop_live ch nd.size q _ hmem
    rw [← hj3, hm]
    by_cases h1 : j1 = q
    · subst h1; exact hshL2
    · exact frame_shape b1 b2 hm ht _ _ _ (hothers j1 hj1 h1 hj2) (Hsh j1 hj1 h1 hj2)
  · rw [keys_internal hselP hP2, keys_internal hs hc, hsz, hP5, hP1, hP4]
    apply inter_merge (live ch (nd.size + 1)) (live nd.scores nd.size) (keys b1 (lv + 1))
      (keys b2 (lv + 1)) q (by simp) (by simpa using hq) (by simp; omega) (by simp; omega)
    · intro j hj h1 h2
      simp only [live_length] at hj
      simp only [live_getElem]
      exact frame_keys b1 b2 (lv + 1) (ch j) (hothers j (by omega) h1 h2)
    · simp only [live_getElem]
      rw [kL, keys_node_keys hsl, keys_node_keys hsr]
      exact hNK
  · intro x hx
    rw [ids_internal hselP hP2, hsz, hP5] at hx
    simp only [List.mem_cons, List.mem_flatten, List.mem_map, exists_exists_and_eq_and] at hx
    rcases hx with rfl | ⟨y, hy, hx⟩
    · exact mem_ids_self _ _ _
    · obtain ⟨j1, hj1, hj2, rfl⟩ := mem_take_drop_live ch nd.size q _ hy
      obtain ⟨j2, hj3, hx1⟩ := hidsub j1 hj1 hj2 x hx
      exact mem_ids_child hs hc j2 hj3 x hx1
  · intro N chN hN hcN j hj hmem
    rw [hselP] at hN; cases hN
    rw [hP2] at hcN; cases hcN
    have hmem2 : pc1 j ∈ live pc1 (nd.size + 1 - 1) := by
      rw [mem_live]; exact ⟨j, by omega, rfl⟩
    rw [hP5] at hmem2
    obtain ⟨j1, hj1, hj2, hj3⟩ := mem_take_drop_live ch nd.size q _ hmem2
    rw [← hj3] at hmem
    obtain ⟨j2, hj4, hx1⟩ := hidsub j1 hj1 hj2 id (by simpa using hmem)
    exact H2 j2 hj4 hx1
  · intro x hx
    apply hsame
    · rintro rfl; exact hx (mem_ids_child hs hc q (by omega) _ (mem_ids_self _ _ _))
    · rintro rfl; exact hx (mem_ids_child hs hc (q + 1) (by omega) _ (mem_ids_self _ _ _))
    · rintro rfl; exact hx (mem_ids_self _ _ _)

/-! ## What a borrow or a merge does to the keys of the pair -/

theorem node_keys_leaf (K : Nat → List Int) (N : rl_btree_node) (h : N.children = none) :
    node_keys K N = live N.scores N.size := by
  simp [node_keys, h]

theorem node_keys_internal (K : Nat → List Int) (N : rl_btree_node) (ch : Nat → Nat)
    (h : N.children = some ch) :
    node_keys K N = inter ((live ch (N.size + 1)).map K) (live N.scores N.size) := by
  simp [node_keys, h]

theorem node_kids_leaf (N : rl_btree_node) (h : N.children = none) : node_kids N = [] := by
  simp [node_kids, h]

theorem node_kids_internal (N : rl_btree_node) (ch : Nat → Nat) (h : N.children = some ch) :
    node_kids N = live ch (N.size + 1) := by
  simp [node_kids, h]

/-- Keys of a left sibling that lends its last key: what stays, the key lent, and
the subtree that moves with it. -/
theorem inter_last (K : Nat → List Int) (sc : Nat → Nat) (ss : Nat → Int) (n : Nat) :
    inter ((live sc (n + 1 + 1)).map K) (live ss (n + 1)) =
      inter ((live sc (n + 1)).map K) (live ss n) ++ ss n :: K (sc (n + 1)) := by
  rw [live_succ sc (n + 1), live_succ ss n, List.map_append,
    inter_split_at _ _ _ _ _ (by simp)]
  simp

theorem inter_first (K : Nat → List Int) (sc : Nat → Nat) (ss : Nat → Int) (n : Nat) :
    inter ((live sc (n + 1 + 1)).map K) (live ss (n + 1)) =
      K (sc 0) ++ ss 0 ::
        inter (((live sc (n + 1 + 1)).drop 1).map K) ((live ss (n + 1)).drop 1) := by
  rw [live_cons sc (n + 1), live_cons ss n]
  simp [inter]

theorem nk_borrow_left (K : Nat → List Int) (node sib n1 s1 : rl_btree_node) (x : Int)
    (hss : 1 ≤ sib.size)
    (hn1 : n1.size = node.size + 1) (hs1 : s1.size = sib.size - 1)
    (hs2 : s1.scores = sib.scores) (hs3 : s1.children = sib.children)
    (hn2 : live n1.scores (node.size + 1) = x :: live node.scores node.size)
    (hleaf : node.children = none → sib.children = none ∧ n1.children = none)
    (hint : ∀ nc, node.children = some nc → ∃ sc nc1, sib.children = some sc ∧
      n1.children = some nc1 ∧
      live nc1 (node.size + 1 + 1) = sc sib.size :: live nc (node.size + 1)) :
    node_keys K s1 ++ sib.scores (sib.size - 1) :: node_keys K n1 =
      node_keys K sib ++ x :: node_keys K node ∧
    ∀ g ∈ node_kids s1 ++ node_kids n1, g ∈ node_kids sib ++ node_kids node := by
  obtain ⟨m, hm⟩ : ∃ m, sib.size = m + 1 := ⟨sib.size - 1, by omega⟩
  rcases isSome_cases node.children with hnc | ⟨nc, hnc⟩
  · obtain ⟨h1, h2⟩ := hleaf hnc
    rw [node_keys_leaf K s1 (by rw [hs3]; exact h1), node_keys_leaf K n1 h2,
      node_keys_leaf K sib h1, node_keys_leaf K node hnc, hn1, hn2, hs1, hs2, hm,
      node_kids_leaf s1 (by rw [hs3]; exact h1), node_kids_leaf n1 h2]
    refine ⟨?_, by simp⟩
    simp [live_succ sib.scores m]
  · obtain ⟨sc, nc1, h1, h2, h3⟩ := hint nc hnc
    rw [node_keys_internal K s1 sc (by rw [hs3]; exact h1), node_keys_internal K n1 nc1 h2,
      node_keys_internal K sib sc h1, node_keys_internal K node nc hnc, hn1, hn2, hs1, hs2, h3,
      node_kids_internal s1 sc (by rw [hs3]; exact h1), node_kids_internal n1 nc1 h2,
      node_kids_internal sib sc h1, node_kids_internal node nc hnc, hn1, hs1, h3, hm]
    refine ⟨?_, ?_⟩
    · simp only [Nat.add_sub_cancel, List.map_cons, inter, inter_last K sc sib.scores m]
      simp
    · intro g hg
      simp only [Nat.add_sub_cancel, List.mem_append, List.mem_cons] at hg
      rcases hg with hg | rfl | hg
      · rw [mem_live] at hg
        obtain ⟨j, hj, rfl⟩ := hg
        exact List.mem_append_left _ ((mem_live _ _ _).mpr ⟨j, by omega, rfl⟩)
      · exact List.mem_append_left _ ((mem_live _ _ _).mpr ⟨m + 1, by omega, rfl⟩)
      · exact List.mem_append_right _ hg

theorem nk_borrow_right (K : Nat → List Int) (node sib n1 s1 : rl_btree_node) (x : Int)
    (hss : 1 ≤ sib.size)
    (hn1 : n1.size = node.size + 1) (hs1 : s1.size = sib.size - 1)
    (hs2 : live s1.scores (sib.size - 1) = (live sib.scores sib.size).drop 1)
    (hn2 : live n1.scores (node.size + 1) = live node.scores node.size ++ [x])
    (hleaf : node.children = none →
      sib.children = none ∧ n1.children = none ∧ s1.children = none)
    (hint : ∀ nc, node.children = some nc → ∃ sc nc1 sc1, sib.children = some sc ∧
      n1.children = some nc1 ∧ s1.children = some sc1 ∧
      live nc1 (node.size + 1 + 1) = live nc (node.size + 1) ++ [sc 0] ∧
      live sc1 (sib.size + 1 - 1) = (live sc (sib.size + 1)).drop 1) :
    node_keys K n1 ++ sib.scores 0 :: node_keys K s1 =
      node_keys K node ++ x :: node_keys K sib ∧
    ∀ g ∈ node_kids n1 ++ node_kids s1, g ∈ node_kids node ++ node_kids sib := by
  obtain ⟨m, hm⟩ : ∃ m, sib.size = m + 1 := ⟨sib.size - 1, by omega⟩
  rcases isSome_cases node.children with hnc | ⟨nc, hnc⟩
  · obtain ⟨h1, h2, h3⟩ := hleaf hnc
    rw [node_keys_leaf K s1 h3, node_keys_leaf K n1 h2,
      node_keys_leaf K sib h1, node_keys_leaf K node hnc, hn1, hn2, hs1, hs2, hm,
      node_kids_leaf s1 h3, node_kids_leaf n1 h2]
    refine ⟨?_, by simp⟩
    simp [live_cons sib.scores m]
  · obtain ⟨sc, nc1, sc1, h1, h2, h3, h4, h5⟩ := hint nc hnc
    have h6 : s1.size + 1 = sib.size + 1 - 1 := by omega
    rw [node_keys_internal K s1 sc1 h3, node_keys_internal K n1 nc1 h2,
      node_keys_internal K sib sc h1, node_keys_internal K node nc hnc, hn1, hn2, h4, h6, h5,
      hs1, hs2,
      node_kids_internal s1 sc1 h3, node_kids_internal n1 nc1 h2,
      node_kids_internal sib sc h1, node_kids_internal node nc hnc, hn1, h4, h6, h5, hm]
    refine ⟨?_, ?_⟩
    · rw [inter_first K sc sib.scores m, List.map_append,
        inter_split_at _ _ _ _ _ (by simp)]
      simp
    · intro g hg
      simp only [List.mem_append, List.mem_singleton] at hg
      rcases hg with (hg | rfl) | hg
      · exact List.mem_append_left _ hg
      · exact List.mem_append_right _ ((mem_live _ _ _).mpr ⟨0, by omega, rfl⟩)
      · exact List.mem_append_right _ (List.mem_of_mem_drop hg)

theorem nk_merge (K : Nat → List Int) (l r s1 : rl_btree_node) (x : Int)
    (hs1 : s1.size = l.size + (1 + r.size))
    (hs2 : live s1.scores (l.size + (1 + r.size)) =
      live l.scores l.size ++ x :: live r.scores r.size)
    (hleaf : l.children = none → r.children = none ∧ s1.children = none)
    (hint : ∀ lc, l.children = some lc → ∃ rc sc1, r.children = some rc ∧
      s1.children = some sc1 ∧
      live sc1 (l.size + 1 + (r.size + 1)) = live lc (l.size + 1) ++ live rc (r.size + 1)) :
    node_keys K s1 = node_keys K l ++ x :: node_keys K r ∧
    ∀ g ∈ node_kids s1, g ∈ node_kids l ++ node_kids r := by
  rcases isSome_cases l.children with hlc | ⟨lc, hlc⟩
  · obtain ⟨h1, h2⟩ := hleaf hlc
    rw [node_keys_leaf K s1 h2, node_keys_leaf K l hlc, node_keys_leaf K r h1, hs1, hs2,
      node_kids_leaf s1 h2]
    exact ⟨rfl, by simp⟩
  · obtain ⟨rc, sc1, h1, h2, h3⟩ := hint lc hlc
    have h4 : s1.size + 1 = l.size + 1 + (r.size + 1) := by omega
    rw [node_keys_internal K s1 sc1 h2, node_keys_internal K l lc hlc,
      node_keys_internal K r rc h1, h4, h3, hs1, hs2, node_kids_internal s1 sc1 h2,
      node_kids_internal l lc hlc, node_kids_internal r rc h1, h4, h3]
    refine ⟨?_, fun g hg => hg⟩
    rw [List.map_append, inter_split_at _ _ _ _ _ (by simp)]

/-! ## One step of the rebalance loop -/

theorem select_store3 (b1 : rl_btree) (a b c : Nat) (A B C : rl_btree_node)
    (ha : a < b1.accessor.length) (hb : b < b1.accessor.length) (hc : c < b1.accessor.length)
    (x : Nat) :
    select (store (store (store b1 a A) b B) c C) x =
      if x = c then some C else if x = b then some B else if x = a then some A
      else select b1 x := by
  rw [select_store, select_store, select_store]
  simp [ha, hb, hc]

theorem select_store2_remove (b1 : rl_btree) (a b c : Nat) (A B : rl_btree_node)
    (ha : a < b1.accessor.length) (hb : b < b1.accessor.length) (x : Nat) :
    select (remove (store (store b1 a A) b B) c) x =
      if x = c then none else if x = b then some B else if x = a then some A
      else select b1 x := by
  rw [select_remove, select_store, select_store]
  simp [ha, hb]

theorem rebalance_same_of (b1 b2 : rl_btree) (lv id : Nat)
    (hm : b2.max_node_size = b1.max_node_size) (ht : b2.type = b1.type)
    (hh : b2.height = b1.height) (hr : b2.root = b1.root)
    (h : keys b2 lv id = keys b1 lv id ∧
      (∀ x ∈ ids b2 lv id, x ∈ ids b1 lv id) ∧ top_fresh b2 lv id ∧
      (∀ x, x ∉ ids b1 lv id → select b2 x = select b1 x)) :
    rebalance_same b1 b2 lv id :=
  ⟨hm, ht, hh, hr, h.1, h.2.2.2, h.2.1, h.2.2.1⟩

theorem shape_vals {bt : rl_btree} {lv lo z : Nat} {N : rl_btree_node}
    (hsh : shape bt (lv + 1) lo z = true) (hs : select bt z = some N) :
    N.values.isSome = decide (bt.type.value_size ≠ 0) :=
  (shape_kids hsh hs).2.2.2.1

theorem shape_select {bt : rl_btree} {lv lo z : Nat} (hsh : shape bt (lv + 1) lo z = true) :
    ∃ N, select bt z = some N := by
  rw [shape_succ] at hsh
  obtain ⟨N, hs, _⟩ := hsh
  exact ⟨N, hs⟩

theorem children_agree {bt : rl_btree} {lv lo1 lo2 y z : Nat} {N M : rl_btree_node}
    (h1 : shape bt (lv + 1) lo1 y = true) (hs1 : select bt y = some N)
    (h2 : shape bt (lv + 1) lo2 z = true) (hs2 : select bt z = some M) :
    (N.children = none → M.children = none) ∧
    (∀ nc, N.children = some nc → ∃ mc, M.children = some mc) := by
  have a := (shape_kids h1 hs1).1
  have b := (shape_kids h2 hs2).1
  constructor
  · intro h; exact b.mpr (a.mp h)
  · intro nc h
    rcases isSome_cases M.children with hm | ⟨mc, hm⟩
    · have := a.mpr (b.mp hm)
      rw [h] at this; cases this
    · exact ⟨mc, hm⟩

theorem leaf_iff_of {N M : rl_btree_node} {lv : Nat}
    (h : N.children.isSome = M.children.isSome) (hM : M.children = none ↔ lv = 0) :
    N.children = none ↔ lv = 0 := by
  rw [← hM]
  rcases isSome_cases N.children with h1 | ⟨c1, h1⟩ <;>
  rcases isSome_cases M.children with h2 | ⟨c2, h2⟩ <;>
  simp [h1, h2] at h ⊢

/-- Borrow from the left sibling: the node is child `q + 1`, the sibling child `q`. -/
theorem step_borrow_left (b1 : rl_btree) (h lv id : Nat) (nd cn ln : rl_btree_node)
    (ch : Nat → Nat) (q lo : Nat) (hm : b1.max_node_size = 2 * h) (hh : 1 ≤ h)
    (hctx : pair_ctx b1 lv id nd ch q lo)
    (hsc : select b1 (ch (q + 1)) = some cn) (hsl : select b1 (ch q) = some ln)
    (hshc : shape b1 (lv + 1) (h - 1) (ch (q + 1)) = true)
    (hshl : shape b1 (lv + 1) h (ch q) = true)
    (hcs : cn.size = h - 1) (hls : ln.size > h) :
    ∃ n1 p1 s1, borrow_left cn nd ln (q + 1) = some (n1, p1, s1) ∧
      shape (store (store (store b1 (ch q) s1) id p1) (ch (q + 1)) n1) (lv + 1 + 1) lo id = true ∧
      rebalance_same b1 (store (store (store b1 (ch q) s1) id p1) (ch (q + 1)) n1)
        (lv + 1 + 1) id := by
  obtain ⟨hs, hc, hq, hlo, hhi, hval, H2, H3, H4, Hsh⟩ := hctx
  have hh2 : b1.max_node_size / 2 = h := by omega
  obtain ⟨kc1, kc2, kc3, kc4, kc5⟩ := shape_kids hshc hsc
  obtain ⟨kl1, kl2, kl3, kl4, kl5⟩ := shape_kids hshl hsl
  have hv1 : cn.values.isSome = nd.values.isSome := by rw [kc4, hval]
  have hv2 : ln.values.isSome = nd.values.isSome := by rw [kl4, hval]
  obtain ⟨ca1, ca2⟩ := children_agree hshc hsc hshl hsl
  obtain ⟨d1, d2, d3, _, _⟩ := pair_context b1 lv id nd ln cn ch q hs hc hq hsl hsc H2 H3
    (H4 q (by omega)) (H4 (q + 1) (by omega))
  have hb2 : ∀ (n1 p1 s1 : rl_btree_node) (x : Nat),
      select (store (store (store b1 (ch q) s1) id p1) (ch (q + 1)) n1) x =
        if x = ch q then some s1 else if x = ch (q + 1) then some n1
        else if x = id then some p1 else select b1 x := by
    intro n1 p1 s1 x
    rw [select_store3 b1 _ _ _ _ _ _ (select_lt hsl) (select_lt hs) (select_lt hsc)]
    by_cases e1 : x = ch q
    · subst e1; simp [d1, d2]
    · by_cases e2 : x = ch (q + 1)
      · subst e2; simp [e1]
      · simp [e1, e2]
  rcases isSome_cases cn.children with hcc | ⟨nc, hcc⟩
  · have hlc := ca1 hcc
    obtain ⟨n1, p1, s1, e0, e1, e2, e3, e4, e5, e6, e7, e8, e9, e10, e11, e12⟩ :=
      borrow_left_leaf cn nd ln (q + 1) (by omega) (by omega) hv1 hv2 hcc hlc
    simp only [Nat.add_sub_cancel] at e4 e8
    obtain ⟨nk1, nk2⟩ := nk_borrow_left (keys b1 lv) cn ln n1 s1 (nd.scores q) (by omega) e1 e9
      e12 (by rw [e10, hlc]) e4 (fun _ => ⟨hlc, e2⟩)
      (fun nc0 h0 => by rw [hcc] at h0; cases h0)
    refine ⟨n1, p1, s1, e0, ?_⟩
    obtain ⟨r1, r2, r3, r4, r5⟩ := pair_borrow b1
      (store (store (store b1 (ch q) s1) id p1) (ch (q + 1)) n1) lv id nd p1 ln cn s1 n1 ch q
      (ln.scores (ln.size - 1)) lo rfl rfl hs hc hq hsl hsc H2 H3 (H4 q (by omega))
      (H4 (q + 1) (by omega)) Hsh kl5 kc5 (hb2 n1 p1 s1)
      e5 (by rw [e6, hc]) e7 e8 hlo hhi hval
      ⟨by omega, by omega, by rw [e11]; exact kl4, leaf_iff_of (by simp [e10, hlc]) kl1⟩
      ⟨by omega, by omega, by rw [e3]; exact kc4, leaf_iff_of (by simp [e2, hcc]) kc1⟩
      nk2 nk1
    exact ⟨r1, rebalance_same_of _ _ _ _ rfl rfl rfl rfl ⟨r2, r3, r4, r5⟩⟩
  · obtain ⟨sc, hlc⟩ := ca2 nc hcc
    obtain ⟨n1, p1, s1, nc1, e0, e1, e2, e2b, e3, e4, e5, e6, e7, e8, e9, e10, e11, e12⟩ :=
      borrow_left_internal cn nd ln (q + 1) nc sc (by omega) (by omega) hv1 hv2 hcc hlc
    simp only [Nat.add_sub_cancel] at e4 e8
    obtain ⟨nk1, nk2⟩ := nk_borrow_left (keys b1 lv) cn ln n1 s1 (nd.scores q) (by omega) e1 e9
      e12 (by rw [e10, hlc]) e4 (fun h0 => by rw [hcc] at h0; cases h0)
      (fun nc0 h0 => by
        rw [hcc] at h0; cases h0
        exact ⟨sc, nc1, hlc, e2, e2b⟩)
    refine ⟨n1, p1, s1, e0, ?_⟩
    obtain ⟨r1, r2, r3, r4, r5⟩ := pair_borrow b1
      (store (store (store b1 (ch q) s1) id p1) (ch (q + 1)) n1) lv id nd p1 ln cn s1 n1 ch q
      (ln.scores (ln.size - 1)) lo rfl rfl hs hc hq hsl hsc H2 H3 (H4 q (by omega))
      (H4 (q + 1) (by omega)) Hsh kl5 kc5 (hb2 n1 p1 s1)
      e5 (by rw [e6, hc]) e7 e8 hlo hhi hval
      ⟨by omega, by omega, by rw [e11]; exact kl4, leaf_iff_of (by simp [e10, hlc]) kl1⟩
      ⟨by omega, by omega, by rw [e3]; exact kc4, leaf_iff_of (by simp [e2, hcc]) kc1⟩
      nk2 nk1
    exact ⟨r1, rebalance_same_of _ _ _ _ rfl rfl rfl rfl ⟨r2, r3, r4, r5⟩⟩

/-- Borrow from the right sibling: the node is child `q`, the sibling child `q + 1`. -/
theorem step_borrow_right (b1 : rl_btree) (h lv id : Nat) (nd cn rn : rl_btree_node)
    (ch : Nat → Nat) (q lo : Nat) (hm : b1.max_node_size = 2 * h) (hh : 1 ≤ h)
    (hctx : pair_ctx b1 lv id nd ch q lo)
    (hsc : select b1 (ch q) = some cn) (hsr : select b1 (ch (q + 1)) = some rn)
    (hshc : shape b1 (lv + 1) (h - 1) (ch q) = true)
    (hshr : shape b1 (lv + 1) h (ch (q + 1)) = true)
    (hcs : cn.size = h - 1) (hrs : rn.size > h) :
    ∃ n1 p1 s1, borrow_right cn nd rn q = some (n1, p1, s1) ∧
      shape (store (store (store b1 (ch (q + 1)) s1) id p1) (ch q) n1) (lv + 1 + 1) lo id = true ∧
      rebalance_same b1 (store (store (store b1 (ch (q + 1)) s1) id p1) (ch q) n1)
        (lv + 1 + 1) id := by
  obtain ⟨hs, hc, hq, hlo, hhi, hval, H2, H3, H4, Hsh⟩ := hctx
  have hh2 : b1.max_node_size / 2 = h := by omega
  obtain ⟨kc1, kc2, kc3, kc4, kc5⟩ := shape_kids hshc hsc
  obtain ⟨kr1, kr2, kr3, kr4, kr5⟩ := shape_kids hshr hsr
  have hv1 : cn.values.isSome = nd.values.isSome := by rw [kc4, hval]
  have hv2 : rn.values.isSome = nd.values.isSome := by rw [kr4, hval]
  obtain ⟨ca1, ca2⟩ := children_agree hshc hsc hshr hsr
  obtain ⟨d1, d2, d3, _, _⟩ := pair_context b1 lv id nd cn rn ch q hs hc hq hsc hsr H2 H3
    (H4 q (by omega)) (H4 (q + 1) (by omega))
  have hb2 : ∀ (n1 p1 s1 : rl_btree_node) (x : Nat),
      select (store (store (store b1 (ch (q + 1)) s1) id p1) (ch q) n1) x =
        if x = ch q then some n1 else if x = ch (q + 1) then some s1
        else if x = id then some p1 else select b1 x := by
    intro n1 p1 s1 x
    rw [select_store3 b1 _ _ _ _ _ _ (select_lt hsr) (select_lt hs) (select_lt hsc)]
    by_cases e1 : x = ch q
    · subst e1; simp
    · by_cases e2 : x = ch (q + 1)
      · subst e2; simp [e1, d3]
      · simp [e1, e2]
  rcases isSome_cases cn.children with hcc | ⟨nc, hcc⟩
  · have hrc := ca1 hcc
    obtain ⟨n1, p1, s1, e0, e1, e2, e3, e4, e5, e6, e7, e8, e9, e10, e11, e12⟩ :=
      borrow_right_leaf cn nd rn q hq hv1 hv2 hcc hrc
    obtain ⟨nk1, nk2⟩ := nk_borrow_right (keys b1 lv) cn rn n1 s1 (nd.scores q) (by omega) e1 e9
      e12 e4 (fun _ => ⟨hrc, e2, e10⟩)
      (fun nc0 h0 => by rw [hcc] at h0; cases h0)
    refine ⟨n1, p1, s1, e0, ?_⟩
    obtain ⟨r1, r2, r3, r4, r5⟩ := pair_borrow b1
      (store (store (store b1 (ch (q + 1)) s1) id p1) (ch q) n1) lv id nd p1 cn rn n1 s1 ch q
      (rn.scores 0) lo rfl rfl hs hc hq hsc hsr H2 H3 (H4 q (by omega))
      (H4 (q + 1) (by omega)) Hsh kc5 kr5 (hb2 n1 p1 s1)
      e5 (by rw [e6, hc]) e7 e8 hlo hhi hval
      ⟨by omega, by omega, by rw [e3]; exact kc4, leaf_iff_of (by simp [e2, hcc]) kc1⟩
      ⟨by omega, by omega, by rw [e11]; exact kr4, leaf_iff_of (by simp [e10, hrc]) kr1⟩
      nk2 nk1
    exact ⟨r1, rebalance_same_of _ _ _ _ rfl rfl rfl rfl ⟨r2, r3, r4, r5⟩⟩
  · obtain ⟨sc, hrc⟩ := ca2 nc hcc
    obtain ⟨n1, p1, s1, nc1, sc1, e0, e1, e2, e2b, e3, e4, e5, e6, e7, e8, e9, e10, e10b, e11,
      e12⟩ := borrow_right_internal cn nd rn q nc sc hq hv1 hv2 hcc hrc
    obtain ⟨nk1, nk2⟩ := nk_borrow_right (keys b1 lv) cn rn n1 s1 (nd.scores q) (by omega) e1 e9
      e12 e4 (fun h0 => by rw [hcc] at h0; cases h0)
      (fun nc0 h0 => by
        rw [hcc] at h0; cases h0
        exact ⟨sc, nc1, sc1, hrc, e2, e10, e2b, e10b⟩)
    refine ⟨n1, p1, s1, e0, ?_⟩
    obtain ⟨r1, r2, r3, r4, r5⟩ := pair_borrow b1
      (store (store (store b1 (ch (q + 1)) s1) id p1) (ch q) n1) lv id nd p1 cn rn n1 s1 ch q
      (rn.scores 0) lo rfl rfl hs hc hq hsc hsr H2 H3 (H4 q (by omega))
      (H4 (q + 1) (by omega)) Hsh kc5 kr5 (hb2 n1 p1 s1)
      e5 (by rw [e6, hc]) e7 e8 hlo hhi hval
      ⟨by omega, by omega, by rw [e3]; exact kc4, leaf_iff_of (by simp [e2, hcc]) kc1⟩
      ⟨by omega, by omega, by rw [e11]; exact kr4, leaf_iff_of (by simp [e10, hrc]) kr1⟩
      nk2 nk1
    exact ⟨r1, rebalance_same_of _ _ _ _ rfl rfl rfl rfl ⟨r2, r3, r4, r5⟩⟩

/-- Merge into the left sibling: the node is child `q + 1`, the sibling child `q`. -/
theorem step_merge_left (b1 : rl_btree) (h lv id : Nat) (nd cn ln : rl_btree_node)
    (ch : Nat → Nat) (q lo : Nat) (hm : b1.max_node_size = 2 * h) (hh : 1 ≤ h)
    (hctx : pair_ctx b1 lv id nd ch q lo)
    (hsc : select b1 (ch (q + 1)) = some cn) (hsl : select b1 (ch q) = some ln)
    (hshc : shape b1 (lv + 1) (h - 1) (ch (q + 1)) = true)
    (hshl : shape b1 (lv + 1) h (ch q) = true)
    (hcs : cn.size = h - 1) (hls : ¬ ln.size > h) :
    ∃ p1 s1, merge_left cn nd ln ch (q + 1) = some (p1, s1) ∧
      shape (remove (store (store b1 (ch q) s1) id p1) (ch (q + 1))) (lv + 1 + 1) (lo - 1) id =
        true ∧
      rebalance_same b1 (remove (store (store b1 (ch q) s1) id p1) (ch (q + 1)))
        (lv + 1 + 1) id := by
  obtain ⟨hs, hc, hq, hlo, hhi, hval, H2, H3, H4, Hsh⟩ := hctx
  have hh2 : b1.max_node_size / 2 = h := by omega
  obtain ⟨kc1, kc2, kc3, kc4, kc5⟩ := shape_kids hshc hsc
  obtain ⟨kl1, kl2, kl3, kl4, kl5⟩ := shape_kids hshl hsl
  have hv1 : cn.values.isSome = nd.values.isSome := by rw [kc4, hval]
  have hv2 : ln.values.isSome = nd.values.isSome := by rw [kl4, hval]
  obtain ⟨ca1, ca2⟩ := children_agree hshl hsl hshc hsc
  obtain ⟨d1, d2, d3, _, _⟩ := pair_context b1 lv id nd ln cn ch q hs hc hq hsl hsc H2 H3
    (H4 q (by omega)) (H4 (q + 1) (by omega))
  have hb2 : ∀ (p1 s1 : rl_btree_node) (x : Nat),
      select (remove (store (store b1 (ch q) s1) id p1) (ch (q + 1))) x =
        if x = ch q then some s1 else if x = ch (q + 1) then none
        else if x = id then some p1 else select b1 x := by
    intro p1 s1 x
    rw [select_store2_remove b1 _ _ _ _ _ (select_lt hsl) (select_lt hs)]
    by_cases e1 : x = ch q
    · subst e1; simp [d1, d2]
    · by_cases e2 : x = ch (q + 1)
      · subst e2; simp [e1]
      · simp [e1, e2]
  have hcsi : cn.children.isSome = ln.children.isSome := by
    rcases isSome_cases ln.children with h1 | ⟨c1, h1⟩
    · rw [h1, ca1 h1]
    · obtain ⟨c2, h2⟩ := ca2 c1 h1
      rw [h1, h2]; rfl
  obtain ⟨p1, s1, pc1, e0, e1, e2, e3, e4, e5, e6, e7, e8, e9, e10⟩ :=
    merge_left_spec cn nd ln ch q (by omega) hc hv1 hv2 hcsi
  obtain ⟨nk1, nk2⟩ := nk_merge (keys b1 lv) ln cn s1 (nd.scores q) e1 e3
    (fun h0 => ⟨ca1 h0, e4 (ca1 h0)⟩)
    (fun lc h0 => by
      obtain ⟨c2, h2⟩ := ca2 lc h0
      obtain ⟨sc1, h3, h4⟩ := e5 c2 lc h2 h0
      exact ⟨c2, sc1, h2, h3, h4⟩)
  refine ⟨p1, s1, e0, ?_⟩
  have hleaf : s1.children = none ↔ lv = 0 := by
    rcases isSome_cases ln.children with h1 | ⟨c1, h1⟩
    · rw [e4 (ca1 h1)]; exact ⟨fun _ => kl1.mp h1, fun _ => rfl⟩
    · obtain ⟨c2, h2⟩ := ca2 c1 h1
      obtain ⟨sc1, h3, _⟩ := e5 c2 c1 h2 h1
      exact leaf_iff_of (by simp [h3, h1]) kl1
  obtain ⟨r1, r2, r3, r4, r5⟩ := pair_merge b1
    (remove (store (store b1 (ch q) s1) id p1) (ch (q + 1))) lv id nd p1 ln cn s1 ch pc1 q lo
    rfl rfl hs hc hq hsl hsc H2 H3 (H4 q (by omega)) (H4 (q + 1) (by omega)) Hsh kl5 kc5
    (hb2 p1 s1) e6 e7 e8 e9 e10 hlo hhi hval
    ⟨by omega, by omega, by rw [e2]; exact kl4, hleaf⟩ nk2 nk1
  exact ⟨r1, rebalance_same_of _ _ _ _ rfl rfl rfl rfl ⟨r2, r3, r4, r5⟩⟩

/-- Merge of the right sibling into the node: the node is child `q`, the sibling
child `q + 1`. -/
theorem step_merge_right (b1 : rl_btree) (h lv id : Nat) (nd cn rn : rl_btree_node)
    (ch : Nat → Nat) (q lo : Nat) (hm : b1.max_node_size = 2 * h) (hh : 1 ≤ h)
    (hctx : pair_ctx b1 lv id nd ch q lo)
    (hsc : select b1 (ch q) = some cn) (hsr : select b1 (ch (q + 1)) = some rn)
    (hshc : shape b1 (lv + 1) (h - 1) (ch q) = true)
    (hshr : shape b1 (lv + 1) h (ch (q + 1)) = true)
    (hcs : cn.size = h - 1) (hrs : ¬ rn.size > h) :
    ∃ n1 p1, merge_right cn nd rn ch q = some (n1, p1) ∧
      shape (remove (store (store b1 (ch q) n1) id p1) (ch (q + 1))) (lv + 1 + 1) (lo - 1) id =
        true ∧
      rebalance_same b1 (remove (store (store b1 (ch q) n1) id p1) (ch (q + 1)))
        (lv + 1 + 1) id := by
  obtain ⟨hs, hc, hq, hlo, hhi, hval, H2, H3, H4, Hsh⟩ := hctx
  have hh2 : b1.max_node_size / 2 = h := by omega
  obtain ⟨kc1, kc2, kc3, kc4, kc5⟩ := shape_kids hshc hsc
  obtain ⟨kr1, kr2, kr3, kr4, kr5⟩ := shape_kids hshr hsr
  have hv1 : cn.values.isSome = nd.values.isSome := by rw [kc4, hval]
  have hv2 : rn.values.isSome = nd.values.isSome := by rw [kr4, hval]
  obtain ⟨ca1, ca2⟩ := children_agree hshc hsc hshr hsr
  obtain ⟨d1, d2, d3, _, _⟩ := pair_context b1 lv id nd cn rn ch q hs hc hq hsc hsr H2 H3
    (H4 q (by omega)) (H4 (q + 1) (by omega))
  have hb2 : ∀ (n1 p1 : rl_btree_node) (x : Nat),
      select (remove (store (store b1 (ch q) n1) id p1) (ch (q + 1))) x =
        if x = ch q then some n1 else if x = ch (q + 1) then none
        else if x = id then some p1 else select b1 x := by
    intro n1 p1 x
    rw [select_store2_remove b1 _ _ _ _ _ (select_lt hsc) (select_lt hs)]
    by_cases e1 : x = ch q
    · subst e1; simp [d1, d2]
    · by_cases e2 : x = ch (q + 1)
      · subst e2; simp [e1]
      · simp [e1, e2]
  have hcsi : cn.children.isSome = rn.children.isSome := by
    rcases isSome_cases cn.children with h1 | ⟨c1, h1⟩
    · rw [h1, ca1 h1]
    · obtain ⟨c2, h2⟩ := ca2 c1 h1
      rw [h1, h2]; rfl
  obtain ⟨n1, p1, pc1, e0, e1, e2, e3, e4, e5, e6, e7, e8, e9, e10⟩ :=
    merge_right_spec cn nd rn ch q hq hv1 hv2 hcsi
  obtain ⟨nk1, nk2⟩ := nk_merge (keys b1 lv) cn rn n1 (nd.scores q) e1 e3
    (fun h0 => ⟨ca1 h0, e4 h0⟩)
    (fun lc h0 => by
      obtain ⟨c2, h2⟩ := ca2 lc h0
      obtain ⟨sc1, h3, h4⟩ := e5 lc c2 h0 h2
      exact ⟨c2, sc1, h2, h3, h4⟩)
  refine ⟨n1, p1, e0, ?_⟩
  have hleaf : n1.children = none ↔ lv = 0 := by
    rcases isSome_cases cn.children with h1 | ⟨c1, h1⟩
    · rw [e4 h1]; exact ⟨fun _ => kc1.mp h1, fun _ => rfl⟩
    · obtain ⟨c2, h2⟩ := ca2 c1 h1
      obtain ⟨sc1, h3, _⟩ := e5 c1 c2 h1 h2
      exact leaf_iff_of (by simp [h3, h1]) kc1
  obtain ⟨r1, r2, r3, r4, r5⟩ := pair_merge b1
    (remove (store (store b1 (ch q) n1) id p1) (ch (q + 1))) lv id nd p1 cn rn n1 ch pc1 q lo
    rfl rfl hs hc hq hsc hsr H2 H3 (H4 q (by omega)) (H4 (q + 1) (by omega)) Hsh kc5 kr5
    (hb2 n1 p1) e6 (by rw [e7]) e8 e9 e10 hlo hhi hval
    ⟨by omega, by omega, by rw [e2]; exact kc4, hleaf⟩ nk2 nk1
  exact ⟨r1, rebalance_same_of _ _ _ _ rfl rfl rfl rfl ⟨r2, r3, r4, r5⟩⟩

theorem top_fresh_of_nodup {bt : rl_btree} {lv id : Nat} (hn : (ids bt (lv + 1) id).Nodup) :
    top_fresh bt (lv + 1) id := by
  intro nd ch hs hc j hj
  exact (nodup_ids_internal hs hc hn).1 j hj

theorem rebalance_same_refl (bt : rl_btree) (lv id : Nat) (hn : (ids bt (lv + 1) id).Nodup) :
    rebalance_same bt bt (lv + 1) id :=
  ⟨rfl, rfl, rfl, rfl, rfl, fun _ _ => rfl, fun _ hx => hx, top_fresh_of_nodup hn⟩

theorem rebalance_same_trans {bt b b2 : rl_btree} {lv id : Nat}
    (h1 : rebalance_same bt b lv id) (h2 : rebalance_same b b2 lv id) :
    rebalance_same bt b2 lv id := by
  obtain ⟨s1, s2, s3, s4, s5, s6, s7, s8⟩ := h1
  obtain ⟨t1, t2, t3, t4, t5, t6, t7, t8⟩ := h2
  refine ⟨t1.trans s1, t2.trans s2, t3.trans s3, t4.trans s4, t5.trans s5, ?_, ?_, t8⟩
  · intro x hx
    rw [t6 x (fun hx2 => hx (s7 x hx2)), s6 x hx]
  · intro x hx
    exact s7 x (t7 x hx)

/-- What a change confined to the subtree of child `p` means for the node above. -/
theorem ctx_lift (bt b : rl_btree) (lv id : Nat) (nd : rl_btree_node) (ch : Nat → Nat)
    (p : Nat) (hs : select bt id = some nd) (hc : nd.children = some ch) (hp : p ≤ nd.size)
    (hn : (ids bt (lv + 1 + 1) id).Nodup)
    (hsame : rebalance_same bt b (lv + 1) (ch p)) :
    select b id = some nd ∧
    (∀ j, j ≤ nd.size → j ≠ p → ∀ x ∈ ids bt (lv + 1) (ch j), select b x = select bt x) ∧
    (∀ j, j ≤ nd.size → ∀ x ∈ ids b (lv + 1) (ch j), x ∈ ids bt (lv + 1) (ch j)) ∧
    (∀ j, j ≤ nd.size → top_fresh b (lv + 1) (ch j)) ∧
    rebalance_same bt b (lv + 1 + 1) id := by
  obtain ⟨n1, n2, n3⟩ := nodup_ids_internal hs hc hn
  obtain ⟨s1, s2, s3, s4, s5, s6, s7, s8⟩ := hsame
  have hsb : select b id = some nd := by rw [s6 id (n1 p hp), hs]
  have hfr : ∀ j, j ≤ nd.size → j ≠ p → ∀ x ∈ ids bt (lv + 1) (ch j),
      select b x = select bt x := by
    intro j hj hjp x hx
    exact s6 x (n3 j p hj hp hjp x hx)
  have hsub : ∀ j, j ≤ nd.size → ∀ x ∈ ids b (lv + 1) (ch j), x ∈ ids bt (lv + 1) (ch j) := by
    intro j hj x hx
    by_cases hjp : j = p
    · subst hjp; exact s7 x hx
    · rw [frame_ids bt b (lv + 1) (ch j) (hfr j hj hjp)] at hx; exact hx
  refine ⟨hsb, hfr, hsub, ?_, s1, s2, s3, s4, ?_, ?_, ?_, ?_⟩
  · intro j hj
    by_cases hjp : j = p
    · subst hjp; exact s8
    · intro nd1 ch1 hs1 hc1 j1 hj1
      have e1 : select bt (ch j) = some nd1 := by
        rw [← hfr j hj hjp (ch j) (mem_ids_self bt lv (ch j))]; exact hs1
      have e2 : ids b lv (ch1 j1) = ids bt lv (ch1 j1) :=
        frame_ids bt b lv (ch1 j1) (fun x hx =>
          hfr j hj hjp x (mem_ids_child e1 hc1 j1 hj1 x hx))
      show ch j ∉ ids b lv (ch1 j1)
      rw [e2]
      exact top_fresh_of_nodup (n2 j hj) nd1 ch1 e1 hc1 j1 hj1
  · rw [keys_internal hsb hc, keys_internal hs hc]
    congr 1
    apply List.map_congr_left
    intro y hy
    rw [mem_live] at hy
    obtain ⟨j, hj, rfl⟩ := hy
    by_cases hjp : j = p
    · subst hjp; exact s5
    · exact frame_keys bt b (lv + 1) (ch j) (hfr j (by omega) hjp)
  · intro x hx
    exact s6 x (fun hx2 => hx (mem_ids_child hs hc p hp x hx2))
  · intro x hx
    rw [ids_node hsb] at hx
    rcases hx with rfl | ⟨g, hg, hx⟩
    · exact mem_ids_self bt (lv + 1) _
    · rw [mem_node_kids] at hg
      obtain ⟨ch1, hc1, j, hj, rfl⟩ := hg
      rw [hc] at hc1; cases hc1
      exact mem_ids_child hs hc j hj x (hsub j hj x hx)
  · intro nd1 ch1 hs1 hc1 j hj
    rw [hsb] at hs1; cases hs1
    rw [hc] at hc1; cases hc1
    exact fun hx => n1 j hj (hsub j hj _ hx)

theorem pair_ctx_of (bt b : rl_btree) (lv id : Nat) (nd : rl_btree_node) (ch : Nat → Nat)
    (p : Nat) (hs : select bt id = some nd) (hc : nd.children = some ch) (hp : p ≤ nd.size)
    (hn : (ids bt (lv + 1 + 1) id).Nodup)
    (hsame : rebalance_same bt b (lv + 1) (ch p))
    (hhi : nd.size ≤ bt.max_node_size)
    (hval : nd.values.isSome = decide (bt.type.value_size ≠ 0))
    (hothers : ∀ j, j ≤ nd.size → j ≠ p →
      shape bt (lv + 1) (bt.max_node_size / 2) (ch j) = true) :
    (∀ j, j ≤ nd.size → j ≠ p → shape b (lv + 1) (b.max_node_size / 2) (ch j) = true) ∧
    ∀ q lo, q < nd.size → (q = p ∨ q + 1 = p) → lo ≤ nd.size → pair_ctx b lv id nd ch q lo := by
  obtain ⟨n1, n2, n3⟩ := nodup_ids_internal hs hc hn
  obtain ⟨c1, c2, c3, c4, c5⟩ := ctx_lift bt b lv id nd ch p hs hc hp hn hsame
  obtain ⟨s1, s2, s3, s4, s5, s6, s7, s8⟩ := hsame
  have hsh : ∀ j, j ≤ nd.size → j ≠ p →
      shape b (lv + 1) (b.max_node_size / 2) (ch j) = true := by
    intro j hj hjp
    rw [s1]
    exact frame_shape bt b s1 s2 (lv + 1) _ (ch j) (c2 j hj hjp) (hothers j hj hjp)
  refine ⟨hsh, ?_⟩
  intro q lo hq hqp hlo
  refine ⟨c1, hc, hq, hlo, by rw [s1]; exact hhi, by rw [s2]; exact hval, ?_, ?_, c4, ?_⟩
  · intro j hj hx
    exact n1 j hj (c3 j hj _ hx)
  · intro i j hi hj hij x hx hx2
    exact n3 i j hi hj hij x (c3 i hi x hx) (c3 j hj x hx2)
  · intro j hj hjq hjq1
    exact hsh j hj (by omega)

/-- The loop over the levels `d + n` down to `d` is the loop over the levels
`d + n` down to `d + 1` followed by the iteration at level `d`. -/
theorem rebalance_succ (nodes : Nat → Option Nat) (positions : Nat → Nat) (d : Nat) :
    ∀ (n : Nat) (bt : rl_btree),
      rebalance nodes positions d (n + 1) bt =
        match rebalance nodes positions (d + 1) n bt with
        | none => none
        | some (rebalance_result.stop rv b) => some (rebalance_result.stop rv b)
        | some (rebalance_result.next b) => rebalance_level nodes positions d b := by
  intro n
  induction n with
  | zero =>
    intro bt
    simp only [rebalance, Nat.add_zero]
    cases rebalance_level nodes positions d bt with
    | none => rfl
    | some r => cases r <;> rfl
  | succ n ih =>
    intro bt
    rw [rebalance]
    conv_rhs => rw [rebalance]
    have e : d + (n + 1) = d + 1 + n := by omega
    rw [e]
    cases h : rebalance_level nodes positions (d + 1 + n) bt with
    | none => rfl
    | some r =>
      cases r with
      | stop rv b => rfl
      | next b => exact ih b

/-! ## `rl_btree_node_destroy` leaves the accessor as it is -/

theorem select_destroy (b : rl_btree) (n : Nat) (sc vl : Option (Nat → Int)) (x : Nat) :
    select (rl_btree_node_destroy b n sc vl) x = select b x :=
  select_congr _ _ rfl x

theorem keys_destroy (b : rl_btree) (n : Nat) (sc vl : Option (Nat → Int)) (lv z : Nat) :
    keys (rl_btree_node_destroy b n sc vl) lv z = keys b lv z :=
  frame_keys b _ lv z (fun x _ => select_congr _ _ rfl x)

theorem ids_destroy (b : rl_btree) (n : Nat) (sc vl : Option (Nat → Int)) (lv z : Nat) :
    ids (rl_btree_node_destroy b n sc vl) lv z = ids b lv z :=
  frame_ids b _ lv z (fun x _ => select_congr _ _ rfl x)

theorem shape_destroy (b : rl_btree) (n : Nat) (sc vl : Option (Nat → Int)) (lv lo z : Nat) :
    shape (rl_btree_node_destroy b n sc vl) lv lo z = shape b lv lo z := by
  rw [Bool.eq_iff_iff]
  constructor
  · exact frame_shape (rl_btree_node_destroy b n sc vl) b rfl rfl lv lo z
      (fun x _ => select_congr _ _ rfl x)
  · exact frame_shape b (rl_btree_node_destroy b n sc vl) rfl rfl lv lo z
      (fun x _ => select_congr _ _ rfl x)

theorem rebalance_same_destroy {bt b : rl_btree} {lv id : Nat} (n : Nat)
    (sc vl : Option (Nat → Int)) (h : rebalance_same bt b lv id) :
    rebalance_same bt (rl_btree_node_destroy b n sc vl) lv id := by
  obtain ⟨s1, s2, s3, s4, s5, s6, s7, s8⟩ := h
  refine ⟨s1, s2, s3, s4, ?_, ?_, ?_, ?_⟩
  · rw [keys_destroy]; exact s5
  · intro x hx
    rw [select_destroy]; exact s6 x hx
  · intro x hx
    rw [ids_destroy] at hx; exact s7 x hx
  · intro nd ch hs hc j hj
    rw [select_destroy] at hs
    rw [ids_destroy]
    exact s8 nd ch hs hc j hj

theorem rebalance_step (nodes : Nat → Option Nat) (positions : Nat → Nat) (bt b : rl_btree)
    (h lv d id lo p : Nat) (nd : rl_btree_node) (ch : Nat → Nat)
    (hm : bt.max_node_size = 2 * h) (hh : 1 ≤ h)
    (hnd : nodes d = some id) (hpp : positions d = p) (hnc : nodes (d + 1) = some (ch p))
    (hs : select bt id = some nd) (hc : nd.children = some ch) (hp : p ≤ nd.size)
    (hlo : lo ≤ nd.size) (hhi : nd.size ≤ bt.max_node_size)
    (hval : nd.values.isSome = decide (bt.type.value_size ≠ 0))
    (hothers : ∀ j, j ≤ nd.size → j ≠ p →
      shape bt (lv + 1) (bt.max_node_size / 2) (ch j) = true)
    (hn : (ids bt (lv + 1 + 1) id).Nodup)
    (hshape : shape b (lv + 1) (h - 1) (ch p) = true)
    (hsame : rebalance_same bt b (lv + 1) (ch p)) :
    ∃ res, rebalance_level nodes positions (d + 1) b = some res ∧
      rebalance_post bt (lv + 1 + 1) lo id res := by
  obtain ⟨c1, c2, c3, c4, c5⟩ := ctx_lift bt b lv id nd ch p hs hc hp hn hsame
  obtain ⟨hsh, hctx⟩ := pair_ctx_of bt b lv id nd ch p hs hc hp hn hsame hhi hval hothers
  have hmb : b.max_node_size = 2 * h := by rw [hsame.1, hm]
  have hh2 : b.max_node_size / 2 = h := by omega
  obtain ⟨cn, hsc⟩ := shape_select hshape
  obtain ⟨kc1, kc2, kc3, kc4, kc5⟩ := shape_kids hshape hsc
  have hstop : shape b (lv + 1) h (ch p) = true →
      rebalance_post bt (lv + 1 + 1) lo id (rebalance_result.stop RL_OK b) := by
    intro hsp
    refine ⟨Or.inl ⟨rfl, ?_⟩, c5⟩
    rw [shape_succ]
    refine ⟨nd, c1, hlo, by rw [hsame.1]; exact hhi, by rw [hsame.2.1]; exact hval,
      Or.inr ⟨ch, hc, by omega, ?_⟩⟩
    intro j hj
    by_cases hjp : j = p
    · subst hjp; rw [hh2]; exact hsp
    · exact hsh j hj hjp
  unfold rebalance_level
  simp only [hnc, hsc, Nat.succ_ne_zero, if_false, or_false, Nat.add_sub_cancel, hnd, c1, hc,
    hpp, hh2]
  by_cases hbig : cn.size ≥ h
  · simp only [hbig, if_true]
    exact ⟨_, rfl, hstop (shape_mono b (lv + 1) _ _ _ hshape (fun n0 hn0 => by
      rw [hsc] at hn0; cases hn0; exact hbig))⟩
  · have hcs : cn.size = h - 1 := by omega
    by_cases hnz : nd.size = 0
    · simp only [hbig, if_false, hnz, if_true]
      exact ⟨_, rfl, Or.inr ⟨rfl, by omega⟩, c5⟩
    simp only [hbig, if_false, hnz]
    rcases Nat.eq_zero_or_pos p with hp0 | hp0
    · -- no left sibling
      subst hp0
      have hshr := hsh 1 (by omega) (by omega)
      rw [hh2] at hshr
      obtain ⟨rn, hsr⟩ := shape_select hshr
      have hlt : 0 < nd.size := by omega
      simp only [Nat.lt_irrefl, gt_iff_lt, if_false, hlt, if_true, Nat.zero_add, hsr,
        Option.map_some']
      by_cases hrs : rn.size > h
      · obtain ⟨n1, p1, s1, e0, e1, e2⟩ := step_borrow_right b h lv id nd cn rn ch 0 lo hmb hh
          (hctx 0 lo (by omega) (Or.inl rfl) hlo) hsc hsr hshape hshr hcs hrs
        simp only [gt_iff_lt] at hrs
        simp only [hrs, if_true, e0]
        exact ⟨_, rfl, Or.inl ⟨rfl, e1⟩, rebalance_same_trans c5 e2⟩
      · obtain ⟨n1, p1, e0, e1, e2⟩ := step_merge_right b h lv id nd cn rn ch 0 lo hmb hh
          (hctx 0 lo (by omega) (Or.inl rfl) hlo) hsc hsr hshape hshr hcs hrs
        simp only [gt_iff_lt] at hrs
        simp only [hrs, if_false, e0]
        exact ⟨_, rfl, by rw [shape_destroy]; exact e1,
          rebalance_same_trans c5 (rebalance_same_destroy _ _ _ e2)⟩
    · obtain ⟨q, rfl⟩ : ∃ q, p = q + 1 := ⟨p - 1, by omega⟩
      have hshl := hsh q (by omega) (by omega)
      rw [hh2] at hshl
      obtain ⟨ln, hsl⟩ := shape_select hshl
      simp only [gt_iff_lt, Nat.succ_pos, if_true, Nat.add_sub_cancel, hsl, Option.map_some']
      by_cases hls : ln.size > h
      · obtain ⟨n1, p1, s1, e0, e1, e2⟩ := step_borrow_left b h lv id nd cn ln ch q lo hmb hh
          (hctx q lo (by omega) (Or.inr rfl) hlo) hsc hsl hshape hshl hcs hls
        simp only [gt_iff_lt] at hls
        simp only [hls, if_true, e0]
        exact ⟨_, rfl, Or.inl ⟨rfl, e1⟩, rebalance_same_trans c5 e2⟩
      · obtain ⟨p1, s1, e0, e1, e2⟩ := step_merge_left b h lv id nd cn ln ch q lo hmb hh
          (hctx q lo (by omega) (Or.inr rfl) hlo) hsc hsl hshape hshl hcs hls
        simp only [gt_iff_lt] at hls
        simp only [hls, if_false]
        by_cases hlt : q + 1 < nd.size
        · have hshr := hsh (q + 1 + 1) (by omega) (by omega)
          rw [hh2] at hshr
          obtain ⟨rn, hsr⟩ := shape_select hshr
          simp only [hlt, if_true, hsr, Option.map_some']
          by_cases hrs : rn.size > h
          · obtain ⟨n1, p2, s2, f0, f1, f2⟩ := step_borrow_right b h lv id nd cn rn ch (q + 1) lo
              hmb hh (hctx (q + 1) lo (by omega) (Or.inl rfl) hlo) hsc hsr hshape hshr hcs hrs
            simp only [gt_iff_lt] at hrs
            simp only [hrs, if_true, f0]
            exact ⟨_, rfl, Or.inl ⟨rfl, f1⟩, rebalance_same_trans c5 f2⟩
          · simp only [gt_iff_lt] at hrs
            simp only [hrs, if_false, e0]
            exact ⟨_, rfl, by rw [shape_destroy]; exact e1,
          rebalance_same_trans c5 (rebalance_same_destroy _ _ _ e2)⟩
        · simp only [hlt, if_false, e0]
          exact ⟨_, rfl, by rw [shape_destroy]; exact e1,
          rebalance_same_trans c5 (rebalance_same_destroy _ _ _ e2)⟩

theorem lift_stop (bt b : rl_btree) (h lv id lo p : Nat) (nd : rl_btree_node) (ch : Nat → Nat)
    (hm : bt.max_node_size = 2 * h)
    (hs : select bt id = some nd) (hc : nd.children = some ch) (hp : p ≤ nd.size)
    (hlo : lo ≤ nd.size) (hhi : nd.size ≤ bt.max_node_size)
    (hval : nd.values.isSome = decide (bt.type.value_size ≠ 0))
    (hothers : ∀ j, j ≤ nd.size → j ≠ p →
      shape bt (lv + 1) (bt.max_node_size / 2) (ch j) = true)
    (hn : (ids bt (lv + 1 + 1) id).Nodup)
    (hshape : shape b (lv + 1) h (ch p) = true)
    (hsame : rebalance_same bt b (lv + 1) (ch p)) :
    shape b (lv + 1 + 1) lo id = true ∧ rebalance_same bt b (lv + 1 + 1) id := by
  obtain ⟨c1, c2, c3, c4, c5⟩ := ctx_lift bt b lv id nd ch p hs hc hp hn hsame
  obtain ⟨hsh, _⟩ := pair_ctx_of bt b lv id nd ch p hs hc hp hn hsame hhi hval hothers
  have hmb : b.max_node_size = 2 * h := by rw [hsame.1, hm]
  have hh2 : b.max_node_size / 2 = h := by omega
  refine ⟨?_, c5⟩
  rw [shape_succ]
  refine ⟨nd, c1, hlo, by rw [hsame.1]; exact hhi, by rw [hsame.2.1]; exact hval,
    Or.inr ⟨ch, hc, by omega, ?_⟩⟩
  intro j hj
  by_cases hjp : j = p
  · subst hjp; rw [hh2]; exact hshape
  · exact hsh j hj hjp

/-- The rebalance loop, run over the levels below the top of a subtree that the
first loop has left one key short in a leaf. -/
theorem rebalance_spec (nodes : Nat → Option Nat) (positions : Nat → Nat) (h : Nat)
    (hh : 1 ≤ h) : ∀ (lv d lo id : Nat) (bt : rl_btree), bt.max_node_size = 2 * h →
      slack_path bt nodes positions lv d lo id → (ids bt lv id).Nodup →
      ∃ res, rebalance nodes positions (d + 1) (lv - 1) bt = some res ∧
        rebalance_post bt lv lo id res := by
  intro lv
  induction lv with
  | zero => intro d lo id bt _ hsl _; exact hsl.elim
  | succ lv ih =>
    intro d lo id bt hm hsl hn
    obtain ⟨hnd, nd, hs, hhi, hval, hcase⟩ := hsl
    have hh2 : bt.max_node_size / 2 = h := by omega
    rcases hcase with ⟨hlv, hc, hlo⟩ | ⟨hlv, hlo, hp, ch, hc, hchild, hothers⟩
    · subst hlv
      refine ⟨rebalance_result.next bt, rfl, ?_, rebalance_same_refl bt 0 id hn⟩
      rw [shape_succ]
      exact ⟨nd, hs, by omega, hhi, hval, Or.inl ⟨hc, rfl⟩⟩
    · obtain ⟨lv, rfl⟩ : ∃ l, lv = l + 1 := ⟨lv - 1, by omega⟩
      obtain ⟨n1, n2, n3⟩ := nodup_ids_internal hs hc hn
      rw [hh2] at hchild
      obtain ⟨res1, hres1, hpost1⟩ := ih (d + 1) h (ch (positions d)) bt hm hchild
        (n2 _ hp)
      simp only [Nat.add_sub_cancel] at hres1 ⊢
      rw [rebalance_succ, hres1]
      cases res1 with
      | stop rv b =>
        obtain ⟨hrv, hsame⟩ := hpost1
        rcases hrv with ⟨rfl, hshape⟩ | ⟨_, h0⟩
        · obtain ⟨l1, l2⟩ := lift_stop bt b h lv id lo (positions d) nd ch hm hs hc hp hlo hhi
            hval hothers hn hshape hsame
          exact ⟨_, rfl, Or.inl ⟨rfl, l1⟩, l2⟩
        · omega
      | next b =>
        obtain ⟨hshape, hsame⟩ := hpost1
        exact rebalance_step nodes positions bt b h lv d id lo (positions d) nd ch hm hh hnd rfl
          hchild.1 hs hc hp hlo hhi hval hothers hn hshape hsame

theorem ids_succ_kids (bt : rl_btree) (lv id : Nat) :
    ids bt (lv + 1) id = id :: ((kids_of bt id).map (ids bt lv)).flatten := by
  rw [ids, kids_of]
  cases hs : select bt id with
  | none => simp
  | some nd =>
    simp only [node_kids]
    cases hc : nd.children with
    | none => simp
    | some ch => rfl

theorem ids_congr (bt bt1 : rl_btree) : ∀ (lv id : Nat),
    (∀ x ∈ ids bt lv id, kids_of bt1 x = kids_of bt x) → ids bt1 lv id = ids bt lv id := by
  intro lv
  induction lv with
  | zero => intro id _; rfl
  | succ lv ih =>
    intro id hag
    rw [ids_succ_kids, ids_succ_kids, hag id (mem_ids_self bt lv id)]
    congr 2
    apply List.map_congr_left
    intro g hg
    apply ih
    intro x hx
    apply hag
    rw [ids_succ_kids]
    simp only [List.mem_cons, List.mem_flatten, List.mem_map, exists_exists_and_eq_and]
    exact Or.inr ⟨g, hg, hx⟩

theorem keys_around (bt bt1 : rl_btree) (lv id : Nat) (nd nd1 : rl_btree_node)
    (ch : Nat → Nat) (p : Nat) (hs : select bt id = some nd) (hs1 : select bt1 id = some nd1)
    (hc : nd.children = some ch) (hc1 : nd1.children = some ch) (hsz : nd1.size = nd.size)
    (hp : p ≤ nd.size)
    (hK : ∀ j, j ≤ nd.size → j ≠ p → keys bt1 lv (ch j) = keys bt lv (ch j)) :
    keys bt (lv + 1) id =
      interL (((live ch (nd.size + 1)).map (keys bt lv)).take p)
        ((live nd.scores nd.size).take p) ++
        (keys bt lv (ch p) ++ interR ((live nd.scores nd.size).drop p)
          (((live ch (nd.size + 1)).map (keys bt lv)).drop (p + 1))) ∧
    keys bt1 (lv + 1) id =
      interL (((live ch (nd.size + 1)).map (keys bt lv)).take p)
        ((live nd1.scores nd.size).take p) ++
        (keys bt1 lv (ch p) ++ interR ((live nd1.scores nd.size).drop p)
          (((live ch (nd.size + 1)).map (keys bt lv)).drop (p + 1))) := by
  constructor
  · rw [keys_internal hs hc]
    have := inter_replace_child (live ch (nd.size + 1)) (live nd.scores nd.size) p
      (keys bt lv) (keys bt lv) (by simp) (by simpa using hp) (by simp; omega)
      (fun _ _ _ => rfl)
    simpa [live_getElem] using this
  · rw [keys_internal hs1 hc1, hsz]
    have := inter_replace_child (live ch (nd.size + 1)) (live nd1.scores nd.size) p
      (keys bt lv) (keys bt1 lv) (by simp) (by simpa using hp) (by simp; omega)
      (fun j hj hjp => by
        rw [live_getElem]
        exact hK j (by simp at hj; omega) hjp)
    simpa [live_getElem] using this

/-- The descent of lines 552-556 along the last children, and the state of the
subtree once the leaf reached has given up its last key. -/
theorem right_spec (bt : rl_btree) (h : Nat) (hh : 1 ≤ h) (hm : bt.max_node_size / 2 = h) :
    ∀ (lv e lo c : Nat) (nodes : Nat → Option Nat) (positions : Nat → Nat),
    shape bt lv lo c = true → 1 ≤ lo → (ids bt lv c).Nodup →
    nodes e = some c → (∀ nd, select bt c = some nd → positions e = nd.size) →
    ∃ cid nodes1 positions1 leaf,
      descend bt (lv - 1) e c nodes positions = some (cid, nodes1, positions1) ∧
      select bt cid = some leaf ∧ leaf.children = none ∧ 1 ≤ leaf.size ∧
      leaf.values.isSome = decide (bt.type.value_size ≠ 0) ∧ cid ∈ ids bt lv c ∧
      (∀ j, j ≤ e → nodes1 j = nodes j ∧ positions1 j = positions j) ∧
      ∀ bt1, bt1.max_node_size = bt.max_node_size → bt1.type = bt.type →
        select bt1 cid = some { leaf with size := leaf.size - 1 } →
        (∀ x ∈ ids bt lv c, x ≠ cid → select bt1 x = select bt x) →
        slack_path bt1 nodes1 positions1 lv e lo c ∧
        keys bt lv c = keys bt1 lv c ++ [leaf.scores (leaf.size - 1)] := by
  intro lv
  induction lv with
  | zero => intro e lo c nodes positions hsh; rw [shape_zero] at hsh; cases hsh
  | succ lv ih =>
    intro e lo c nodes positions hsh hlo1 hn hne hpe
    have hsh0 := hsh
    rw [shape_succ] at hsh
    obtain ⟨nd, hs, hlo, hhi, hval, hcase⟩ := hsh
    rcases hcase with ⟨hc, hlv⟩ | ⟨ch, hc, hlv, hkids⟩
    · subst hlv
      refine ⟨c, nodes, positions, nd, rfl, hs, hc, by omega, hval, mem_ids_self bt 0 c,
        fun _ _ => ⟨rfl, rfl⟩, ?_⟩
      intro bt1 hm1 ht1 hs1 _
      refine ⟨⟨hne, _, hs1, by simp only [hm1]; omega, by rw [ht1]; exact hval,
        Or.inl ⟨rfl, hc, by simp only; omega⟩⟩, ?_⟩
      rw [keys_leaf hs hc, keys_leaf hs1 hc]
      simp only
      have e : nd.size = nd.size - 1 + 1 := by omega
      conv_lhs => rw [e, live_succ]
    · obtain ⟨lv, rfl⟩ : ∃ l, lv = l + 1 := ⟨lv - 1, by omega⟩
      obtain ⟨n1, n2, n3⟩ := nodup_ids_internal hs hc hn
      have hpe1 := hpe nd hs
      have hshc := hkids nd.size (le_refl _)
      rw [hm] at hshc
      obtain ⟨next, hnext⟩ := shape_select hshc
      obtain ⟨cid, nodes1, positions1, leaf, hd, hsl, hlc, hl1, hlv, hmem, hpre, hpost⟩ :=
        ih (e + 1) h (ch nd.size) (aset nodes (e + 1) (some (ch nd.size)))
          (aset positions (e + 1) next.size) hshc hh (n2 _ (le_refl _))
          (by simp [aset])
          (fun nd0 h0 => by rw [hnext] at h0; cases h0; simp [aset])
      simp only [Nat.add_sub_cancel] at hd ⊢
      have hcc : cid ≠ c := fun e0 => n1 nd.size (le_refl _) (e0 ▸ hmem)
      refine ⟨cid, nodes1, positions1, leaf, ?_, hsl, hlc, hl1, hlv,
        mem_ids_child hs hc nd.size (le_refl _) cid hmem, ?_, ?_⟩
      · simp only [descend, hs, hc, hpe1, hnext]
        exact hd
      · intro j hj
        obtain ⟨a1, a2⟩ := hpre j (by omega)
        rw [a1, a2]
        simp only [aset]
        rw [if_neg (by omega), if_neg (by omega)]
        exact ⟨rfl, rfl⟩
      · intro bt1 hm1 ht1 hs1 hfr
        have hsc1 : select bt1 c = some nd := by
          rw [hfr c (mem_ids_self bt _ c) (Ne.symm hcc), hs]
        obtain ⟨q1, q2⟩ := hpost bt1 hm1 ht1 hs1
          (fun x hx hxc => hfr x (mem_ids_child hs hc nd.size (le_refl _) x hx) hxc)
        have hfo : ∀ j, j ≤ nd.size → j ≠ nd.size → ∀ x ∈ ids bt (lv + 1) (ch j),
            select bt1 x = select bt x := by
          intro j hj hjn x hx
          exact hfr x (mem_ids_child hs hc j hj x hx)
            (fun e0 => n3 j nd.size hj (le_refl _) hjn x hx (e0 ▸ hmem))
        have hp1 : positions1 e = nd.size := by
          rw [(hpre e (by omega)).2]
          simp only [aset]
          rw [if_neg (by omega)]
          exact hpe1
        have hn1 : nodes1 e = some c := by
          rw [(hpre e (by omega)).1]
          simp only [aset]
          rw [if_neg (by omega)]
          exact hne
        constructor
        · refine ⟨hn1, nd, hsc1, by rw [hm1]; exact hhi, by rw [ht1]; exact hval,
            Or.inr ⟨by omega, hlo, by omega, ch, hc, ?_, ?_⟩⟩
          · rw [hp1, hm1, hm]; exact q1
          · intro j hj hjp
            rw [hp1] at hjp
            rw [hm1]
            exact frame_shape bt bt1 hm1 ht1 (lv + 1) _ (ch j) (hfo j hj hjp)
              (hkids j hj)
        · obtain ⟨k1, k2⟩ := keys_around bt bt1 (lv + 1) c nd nd ch nd.size hs hsc1 hc hc rfl
            (le_refl _) (fun j hj hjp => frame_keys bt bt1 (lv + 1) (ch j) (hfo j hj hjp))
          rw [k1, k2, q2]
          have e0 : (live nd.scores nd.size).drop nd.size = [] := by simp
          rw [e0]
          simp [interR]

theorem last_node_hit (nodes : Nat → Option Nat) (d id : Nat) (hn : nodes d = some id) :
    ∀ (H : Nat), d < H → (∀ j, d < j → j < H → nodes j = none) →
      last_node nodes H = some (d, id) := by
  intro H
  induction H with
  | zero => intro hd; omega
  | succ n ih =>
    intro hd hab
    rw [last_node]
    by_cases hnd : n = d
    · subst hnd; rw [hn]
    · rw [hab n (by omega) (by omega)]
      exact ih (by omega) (fun j h1 h2 => hab j h1 (by omega))

theorem kids_of_store (bt : rl_btree) (id : Nat) (nd nd1 : rl_btree_node)
    (hs : select bt id = some nd) (hk : node_kids nd1 = node_kids nd) (x : Nat) :
    kids_of (store bt id nd1) x = kids_of bt x := by
  unfold kids_of
  by_cases hx : x = id
  · subst hx
    rw [select_store_same hs, hs]
    exact hk
  · rw [select_store_ne _ _ _ _ hx]

theorem delete_leaf (bt : rl_btree) (k : Int) (nodes : Nat → Option Nat)
    (positions : Nat → Nat) (d lo id : Nat) (nd : rl_btree_node)
    (hH : d + 1 = bt.height) (hnd : nodes d = some id) (hs : select bt id = some nd)
    (hc : nd.children = none) (hp : positions d < nd.size)
    (hk : nd.scores (positions d) = k)
    (hab : ∀ j, d < j → j < bt.height → nodes j = none)
    (hlo : lo ≤ nd.size) (hhi : nd.size ≤ bt.max_node_size)
    (hval : nd.values.isSome = decide (bt.type.value_size ≠ 0)) :
    delete_post bt nodes positions k 1 d lo id := by
  obtain ⟨r1, r2, r3, r4⟩ := remove_from_leaf_spec nd (positions d) hp
  refine ⟨d, id, store bt id (remove_from_leaf nd (positions d)), nodes, positions,
    last_node_hit nodes d id hnd bt.height (by omega) hab, ?_, rfl, rfl, rfl, rfl,
    fun _ _ => ⟨rfl, rfl⟩, ?_, ?_, ?_, ?_⟩
  · simp only [delete_key, hs, hc]
    have e : bt.height - 1 = d := by omega
    rw [e]
  · intro x hx
    apply select_store_ne
    intro e; subst e
    exact hx (mem_ids_self bt 0 _)
  · intro x
    apply kids_of_store bt id nd _ hs
    simp [node_kids, r2, hc]
  · refine ⟨hnd, _, select_store_same hs _, ?_, ?_, Or.inl ⟨rfl, by rw [r2, hc], ?_⟩⟩
    · rw [r1, store_max]; omega
    · rw [r3, store_type]; exact hval
    · rw [r1]; omega
  · rw [keys_leaf hs hc, keys_leaf (select_store_same hs _) (by rw [r2, hc]), r1, r4]
    refine ⟨_, _, ?_, rfl⟩
    have := list_split_at (live nd.scores nd.size) (positions d) (by simp; omega)
    rw [live_getElem, hk] at this
    simpa using this

theorem interR_head (a b : Int) (ks : List Int) (cs : List (List Int)) (hne : cs ≠ []) :
    ∃ T, interR (a :: ks) cs = a :: T ∧ interR (b :: ks) cs = b :: T := by
  cases cs with
  | nil => exact (hne rfl).elim
  | cons c cs => exact ⟨c ++ interR ks cs, rfl, rfl⟩

theorem delete_key_internal (bt : rl_btree) (nodes nodes1 : Nat → Option Nat)
    (positions positions1 : Nat → Nat) (d id cid n : Nat) (nd leaf : rl_btree_node)
    (ch : Nat → Nat) (hs : select bt id = some nd) (hc : nd.children = some ch)
    (hn : bt.height - 1 - d = n)
    (hd : descend bt n d id nodes positions = some (cid, nodes1, positions1))
    (hsl : select bt cid = some leaf) (hlc : leaf.children = none) (hl1 : 1 ≤ leaf.size)
    (hci : cid ≠ id) (hv : leaf.values.isSome = nd.values.isSome) :
    ∃ v1, v1.isSome = nd.values.isSome ∧
      delete_key bt nodes positions d id = some (delete_result.done
        (store (store bt cid { leaf with size := leaf.size - 1 }) id
          { nd with scores := aset nd.scores (positions1 d) (leaf.scores (leaf.size - 1))
                    values := v1 })
        nodes1 positions1 (d + n)) := by
  have hs2 : ∀ L, select (store bt cid L) id = some nd := by
    intro L
    rw [select_store_ne _ _ _ _ (Ne.symm hci), hs]
  have hz : ¬ leaf.size = 0 := by omega
  simp only [delete_key, hs, hc, hn, hd, hsl, hlc, Option.isSome_none, Bool.false_eq_true,
    if_false, hz, hs2]
  cases hvn : nd.values with
  | none => exact ⟨none, rfl, rfl⟩
  | some v =>
    cases hvl : leaf.values with
    | none => rw [hvn, hvl] at hv; cases hv
    | some cv => exact ⟨some (aset v (positions1 d) (cv (leaf.size - 1))), rfl, rfl⟩

theorem delete_internal (bt : rl_btree) (h : Nat) (hh : 1 ≤ h)
    (hm : bt.max_node_size = 2 * h) (k : Int) (nodes : Nat → Option Nat)
    (positions : Nat → Nat) (lv d lo id : Nat) (nd : rl_btree_node) (ch : Nat → Nat)
    (hH : d + (lv + 1 + 1) = bt.height) (hnd : nodes d = some id)
    (hs : select bt id = some nd) (hc : nd.children = some ch)
    (hp : positions d < nd.size) (hk : nd.scores (positions d) = k)
    (hab : ∀ j, d < j → j < bt.height → nodes j = none)
    (hlo : lo ≤ nd.size) (hhi : nd.size ≤ bt.max_node_size)
    (hval : nd.values.isSome = decide (bt.type.value_size ≠ 0))
    (hkids : ∀ j, j ≤ nd.size → shape bt (lv + 1) (bt.max_node_size / 2) (ch j) = true)
    (hn : (ids bt (lv + 1 + 1) id).Nodup) :
    delete_post bt nodes positions k (lv + 1 + 1) d lo id := by
  have hh2 : bt.max_node_size / 2 = h := by omega
  obtain ⟨n1, n2, n3⟩ := nodup_ids_internal hs hc hn
  have hshc := hkids (positions d) (by omega)
  rw [hh2] at hshc
  obtain ⟨next, hnext⟩ := shape_select hshc
  obtain ⟨cid, nodes1, positions1, leaf, hd, hsl, hlc, hl1, hlv, hmem, hpre, hpost⟩ :=
    right_spec bt h hh hh2 (lv + 1) (d + 1) h (ch (positions d))
      (aset nodes (d + 1) (some (ch (positions d)))) (aset positions (d + 1) next.size)
      hshc hh (n2 _ (by omega)) (by simp [aset])
      (fun nd0 h0 => by rw [hnext] at h0; cases h0; simp [aset])
  simp only [Nat.add_sub_cancel] at hd
  have hci : cid ≠ id := fun e0 => n1 _ (by omega) (e0 ▸ hmem)
  have hp1 : positions1 d = positions d := by
    rw [(hpre d (by omega)).2]; simp only [aset]; rw [if_neg (by omega)]
  have hn1 : nodes1 d = some id := by
    rw [(hpre d (by omega)).1]; simp only [aset]; rw [if_neg (by omega)]; exact hnd
  have hdd : descend bt (lv + 1) d id nodes positions = some (cid, nodes1, positions1) := by
    simp only [descend, hs, hc, hnext]
    exact hd
  obtain ⟨v1, hv1, hdk⟩ := delete_key_internal bt nodes nodes1 positions positions1 d id cid
    (lv + 1) nd leaf ch hs hc (by omega) hdd hsl hlc hl1 hci (by rw [hlv, hval])
  rw [hp1] at hdk
  have hfr : ∀ x, x ≠ cid → x ≠ id →
      select (store (store bt cid { leaf with size := leaf.size - 1 }) id
        { nd with scores := aset nd.scores (positions d) (leaf.scores (leaf.size - 1))
                  values := v1 }) x = select bt x := by
    intro x h1 h2
    rw [select_store_ne _ _ _ _ h2, select_store_ne _ _ _ _ h1]
  have hsid : select (store (store bt cid { leaf with size := leaf.size - 1 }) id
        { nd with scores := aset nd.scores (positions d) (leaf.scores (leaf.size - 1))
                  values := v1 }) id = some
        { nd with scores := aset nd.scores (positions d) (leaf.scores (leaf.size - 1))
                  values := v1 } := by
    have hsx : select (store bt cid { leaf with size := leaf.size - 1 }) id = some nd := by
      rw [select_store_ne _ _ _ _ (Ne.symm hci), hs]
    exact select_store_same hsx _
  have hscid : select (store (store bt cid { leaf with size := leaf.size - 1 }) id
        { nd with scores := aset nd.scores (positions d) (leaf.scores (leaf.size - 1))
                  values := v1 }) cid = some { leaf with size := leaf.size - 1 } := by
    rw [select_store_ne _ _ _ _ hci]
    exact select_store_same hsl _
  have hBm : (store (store bt cid { leaf with size := leaf.size - 1 }) id
        { nd with scores := aset nd.scores (positions d) (leaf.scores (leaf.size - 1))
                  values := v1 }).max_node_size = bt.max_node_size := rfl
  have hBt : (store (store bt cid { leaf with size := leaf.size - 1 }) id
        { nd with scores := aset nd.scores (positions d) (leaf.scores (leaf.size - 1))
                  values := v1 }).type = bt.type := rfl
  have hBh : (store (store bt cid { leaf with size := leaf.size - 1 }) id
        { nd with scores := aset nd.scores (positions d) (leaf.scores (leaf.size - 1))
                  values := v1 }).height = bt.height := rfl
  have hBr : (store (store bt cid { leaf with size := leaf.size - 1 }) id
        { nd with scores := aset nd.scores (positions d) (leaf.scores (leaf.size - 1))
                  values := v1 }).root = bt.root := rfl
  generalize (store (store bt cid { leaf with size := leaf.size - 1 }) id
        { nd with scores := aset nd.scores (positions d) (leaf.scores (leaf.size - 1))
                  values := v1 }) = B at hdk hfr hsid hscid hBm hBt hBh hBr
  obtain ⟨q1, q2⟩ := hpost B hBm hBt hscid (fun x hx hxc =>
    hfr x hxc (fun e0 => n1 _ (by omega) (e0 ▸ hx)))
  have hfo : ∀ j, j ≤ nd.size → j ≠ positions d → ∀ x ∈ ids bt (lv + 1) (ch j),
      select B x = select bt x := by
    intro j hj hjn x hx
    exact hfr x (fun e0 => n3 j (positions d) hj (by omega) hjn x hx (e0 ▸ hmem))
      (fun e0 => n1 j hj (e0 ▸ hx))
  have hkB : ∀ x, kids_of B x = kids_of bt x := by
    intro x
    unfold kids_of
    by_cases h1 : x = id
    · subst h1; rw [hsid, hs]; simp [node_kids]
    · by_cases h2 : x = cid
      · subst h2; rw [hscid, hsl]; simp [node_kids, hlc]
      · rw [hfr x h2 h1]
  refine ⟨d, id, B, nodes1, positions1,
    last_node_hit nodes d id hnd bt.height (by omega) hab, ?_, hBm, hBt, hBh, hBr, ?_, ?_, hkB,
    ?_, ?_⟩
  · rw [hdk]
    have e : d + (lv + 1) = bt.height - 1 := by omega
    rw [e]
  · intro j hj
    obtain ⟨a1, a2⟩ := hpre j (by omega)
    rw [a1, a2]
    simp only [aset]
    rw [if_neg (by omega), if_neg (by omega)]
    exact ⟨rfl, rfl⟩
  · intro x hx
    exact hfr x (fun e0 => hx (e0 ▸ mem_ids_child hs hc _ (by omega) cid hmem))
      (fun e0 => hx (e0 ▸ mem_ids_self bt _ _))
  · refine ⟨hn1, _, hsid, by rw [hBm]; exact hhi, by rw [hBt, hv1]; exact hval,
      Or.inr ⟨by omega, hlo, by rw [hp1]; exact Nat.le_of_lt hp, ch, hc, ?_, ?_⟩⟩
    · rw [hp1, hBm, hh2]
      exact q1
    · intro j hj hjp
      rw [hp1] at hjp
      rw [hBm]
      exact frame_shape bt B hBm hBt (lv + 1) _ (ch j) (hfo j hj hjp) (hkids j hj)
  · obtain ⟨k1, k2⟩ := keys_around bt B (lv + 1) id nd _ ch (positions d) hs hsid hc hc rfl
      (by omega) (fun j hj hjp => frame_keys bt B (lv + 1) (ch j) (hfo j hj hjp))
    rw [k1, k2, q2]
    simp only
    rw [live_set nd.scores nd.size (positions d) _ hp]
    have e1 : ((live nd.scores nd.size).take (positions d) ++
        leaf.scores (leaf.size - 1) :: (live nd.scores nd.size).drop (positions d + 1)).take
          (positions d) = (live nd.scores nd.size).take (positions d) := by
      rw [List.take_append_of_le_length (by simp; omega)]
      simp
    have e2 : ((live nd.scores nd.size).take (positions d) ++
        leaf.scores (leaf.size - 1) :: (live nd.scores nd.size).drop (positions d + 1)).drop
          (positions d) =
        leaf.scores (leaf.size - 1) :: (live nd.scores nd.size).drop (positions d + 1) := by
      rw [List.drop_append_of_le_length (by simp; omega)]
      simp
    have e3 : (live nd.scores nd.size).drop (positions d) =
        k :: (live nd.scores nd.size).drop (positions d + 1) := by
      rw [List.drop_eq_getElem_cons (by simp; omega), live_getElem, hk]
    rw [e1, e2, e3]
    obtain ⟨T, t1, t2⟩ := interR_head k (leaf.scores (leaf.size - 1))
      ((live nd.scores nd.size).drop (positions d + 1))
      (((live ch (nd.size + 1)).map (keys bt (lv + 1))).drop (positions d + 1))
      (by
        intro e0
        have := congrArg List.length e0
        simp at this
        omega)
    rw [t1, t2]
    refine ⟨interL (((live ch (nd.size + 1)).map (keys bt (lv + 1))).take (positions d))
        ((live nd.scores nd.size).take (positions d)) ++
        (keys B (lv + 1) (ch (positions d)) ++ [leaf.scores (leaf.size - 1)]), T, ?_, ?_⟩
    · simp
    · simp

/-- The first loop of `rl_btree_remove_element` on the path to a key that is
present. -/
theorem delete_spec (bt : rl_btree) (h : Nat) (hh : 1 ≤ h) (hm : bt.max_node_size = 2 * h)
    (k : Int) (nodes : Nat → Option Nat) (positions : Nat → Nat) :
    ∀ (lv d lo id : Nat), d + lv = bt.height →
      hit_path bt bt.height nodes positions k lv d id → shape bt lv lo id = true →
      (ids bt lv id).Nodup → delete_post bt nodes positions k lv d lo id := by
  intro lv
  induction lv with
  | zero => intro d lo id _ hp; exact hp.elim
  | succ lv ih =>
    intro d lo id hH hpath hsh hn
    obtain ⟨hnd, nd, hs, hcase⟩ := hpath
    rw [shape_succ] at hsh
    obtain ⟨nd1, hs1, hlo, hhi, hval, hsc⟩ := hsh
    rw [hs] at hs1; cases hs1
    rcases hcase with ⟨hp, hk, hab⟩ | ⟨hins, ch, hc, hrec⟩
    · rcases hsc with ⟨hc, hlv⟩ | ⟨ch, hc, hlv, hkids⟩
      · subst hlv
        exact delete_leaf bt k nodes positions d lo id nd hH hnd hs hc hp hk hab hlo hhi hval
      · obtain ⟨lv, rfl⟩ : ∃ l, lv = l + 1 := ⟨lv - 1, by omega⟩
        exact delete_internal bt h hh hm k nodes positions lv d lo id nd ch hH hnd hs hc hp hk
          hab hlo hhi hval hkids hn
    · rcases hsc with ⟨hc0, _⟩ | ⟨ch1, hc1, hlv, hkids⟩
      · rw [hc] at hc0; cases hc0
      · rw [hc] at hc1; cases hc1
        obtain ⟨lv, rfl⟩ : ∃ l, lv = l + 1 := ⟨lv - 1, by omega⟩
        obtain ⟨n1, n2, n3⟩ := nodup_ids_internal hs hc hn
        have hp := hins.1
        obtain ⟨i, nid, bt1, nodes1, positions1, hl, hdk, hBm, hBt, hBh, hBr, hpre, hfr, hkB,
          hslack, hdel⟩ := ih (d + 1) (bt.max_node_size / 2) (ch (positions d)) (by omega) hrec
            (hkids _ hp) (n2 _ hp)
        have hs1 : select bt1 id = some nd := by rw [hfr id (n1 _ hp), hs]
        have hfo : ∀ j, j ≤ nd.size → j ≠ positions d → ∀ x ∈ ids bt (lv + 1) (ch j),
            select bt1 x = select bt x :=
          fun j hj hjp x hx => hfr x (n3 j _ hj hp hjp x hx)
        have hp1 : positions1 d = positions d := (hpre d (by omega)).2
        refine ⟨i, nid, bt1, nodes1, positions1, hl, hdk, hBm, hBt, hBh, hBr,
          fun j hj => hpre j (by omega), ?_, hkB, ?_, ?_⟩
        · intro x hx
          exact hfr x (fun hx2 => hx (mem_ids_child hs hc _ hp x hx2))
        · refine ⟨by rw [(hpre d (by omega)).1]; exact hnd, nd, hs1, by rw [hBm]; exact hhi,
            by rw [hBt]; exact hval,
            Or.inr ⟨by omega, hlo, by rw [hp1]; exact hp, ch, hc, ?_, ?_⟩⟩
          · rw [hp1, hBm]; exact hslack
          · intro j hj hjp
            rw [hp1] at hjp
            rw [hBm]
            exact frame_shape bt bt1 hBm hBt _ _ _ (hfo j hj hjp) (hkids j hj)
        · obtain ⟨k1, k2⟩ := keys_around bt bt1 (lv + 1) id nd nd ch (positions d) hs hs1 hc hc
            rfl hp (fun j hj hjp => frame_keys bt bt1 (lv + 1) (ch j) (hfo j hj hjp))
          obtain ⟨a, b, ha, hb⟩ := hdel
          rw [k1, k2, ha, hb]
          exact ⟨interL (((live ch (nd.size + 1)).map (keys bt (lv + 1))).take (positions d))
            ((live nd.scores nd.size).take (positions d)) ++ a,
            b ++ interR ((live nd.scores nd.size).drop (positions d))
              (((live ch (nd.size + 1)).map (keys bt (lv + 1))).drop (positions d + 1)),
            by simp, by simp⟩

theorem remove_element_core (bt : rl_btree) (k : Int) (lo : Nat)
    (hwf : well_formed bt = true) (hlo1 : lo ≤ 1)
    (hlo : shape bt bt.height lo bt.root = true) (hk : k ∈ keys bt bt.height bt.root) :
    ∃ rv bt1, rl_btree_remove_element bt k = some (rv, bt1) ∧
      bt1.max_node_size = bt.max_node_size ∧ bt1.type = bt.type ∧
      deleted k (keys bt bt.height bt.root) (keys bt1 bt1.height bt1.root) ∧
      ((rv = literal 1 ∧ lo = 0) ∨
       (rv = RL_OK ∧
         ((bt1.height = bt.height ∧ bt1.root = bt.root ∧
             shape bt1 bt1.height lo bt1.root = true) ∨
          (bt1.height + 1 = bt.height ∧ 1 ≤ bt1.height ∧
             shape bt1 bt1.height (bt.max_node_size / 2) bt1.root = true) ∨
          (bt.height = 1 ∧ bt1.height = 0 ∧
             ∃ nd, select bt1 bt1.root = some nd ∧ nd.size = 0 ∧ nd.children = none)))) := by
  rw [well_formed_iff] at hwf
  obtain ⟨hev, h4, hht, hsh, hpw⟩ := hwf
  have hm : bt.max_node_size = 2 * (bt.max_node_size / 2) := by omega
  have hh : 1 ≤ bt.max_node_size / 2 := by omega
  obtain ⟨r, hr, hrv, hpath⟩ := find_levels_spec bt k false bt.height 0 bt.root
    (some (fun _ => none)) (some (fun _ => 0)) (shape_linked bt _ _ _ hsh) hpw rfl
  obtain ⟨nodes1, positions1, hn1, hp1, _, hhit, _⟩ := hpath _ _ rfl rfl
  simp only [hk, if_true] at hrv
  have hfind : rl_btree_find_score bt k false (some (fun _ => none)) (some (fun _ => 0)) =
      some r := by
    simp only [rl_btree_find_score, Option.isNone_some, Option.isSome_some, Bool.false_eq_true,
      and_true, and_false, or_self, if_false]
    exact hr
  have hnodup := ids_nodup bt hh _ _ _ hsh hpw
  obtain ⟨i, nid, bt1, nodes2, positions2, hl, hdk, hBm, hBt, hBh, hBr, hpre, hfr, hkB,
    hslack, hdel⟩ := delete_spec bt _ hh hm k nodes1 positions1 bt.height 0 lo bt.root
      (by omega) (hhit hk (by omega)) hlo hnodup
  have hnodup1 : (ids bt1 bt.height bt.root).Nodup := by
    rw [ids_congr bt bt1 _ _ (fun x _ => hkB x)]; exact hnodup
  obtain ⟨res, hres, hpost⟩ := rebalance_spec nodes2 positions2 _ hh bt.height 0 lo bt.root
    bt1 (by rw [hBm]; exact hm) hslack hnodup1
  obtain ⟨H, hH⟩ : ∃ H, bt.height = H + 1 := ⟨bt.height - 1, by omega⟩
  rw [hH] at hslack hpost hres hdel hlo hdk
  simp only [Nat.add_sub_cancel, Nat.zero_add] at hres hdk
  simp only [rl_btree_remove_element, hfind, hrv, ne_eq, not_true_eq_false, if_false, hn1, hp1,
    hl, hdk]
  rw [rebalance_succ, Nat.zero_add, hres]
  cases res with
  | stop rv b =>
    obtain ⟨hrvc, s1, s2, s3, s4, s5, s6, s7, s8⟩ := hpost
    refine ⟨rv, b, rfl, s1.trans hBm, s2.trans hBt, ?_, ?_⟩
    · rw [s3, s4, hBh, hBr, hH, s5]; exact hdel
    · rcases hrvc with ⟨e1, e2⟩ | ⟨e1, e2⟩
      · refine Or.inr ⟨e1, Or.inl ⟨s3.trans hBh, s4.trans hBr, ?_⟩⟩
        rw [s3, s4, hBh, hBr, hH]; exact e2
      · exact Or.inl ⟨e1, e2⟩
  | next b =>
    obtain ⟨hshape, s1, s2, s3, s4, s5, s6, s7, s8⟩ := hpost
    obtain ⟨nd, hsn⟩ := shape_select hshape
    obtain ⟨kc1, kc2, kc3, kc4, kc5⟩ := shape_kids hshape hsn
    have hnr : nodes2 0 = some bt.root := hslack.1
    simp only [rebalance_level, hnr, hsn, if_true]
    by_cases hz : nd.size = 0
    · simp only [hz, if_true]
      rcases isSome_cases nd.children with hc | ⟨ch, hc⟩
      · have hH0 : H = 0 := kc1.mp hc
        subst hH0
        refine ⟨_, _, rfl, s1.trans hBm, s2.trans hBt, ?_,
          Or.inr ⟨rfl, Or.inr (Or.inr ⟨hH, ?_, nd, ?_, hz, hc⟩)⟩⟩
        · simp only [hc, s3, hBh, hH, Nat.add_sub_cancel]
          rw [← s5, keys_leaf hsn hc, hz] at hdel
          simpa [keys] using hdel
        · simp only [s3, hBh, hH]
        · simp only [hc, s4]
          rw [hBr, ← hsn]
          exact select_congr b _ rfl _
      · have hH0 : H ≠ 0 := fun e => by
          have := kc1.mpr e
          rw [hc] at this; cases this
        obtain ⟨H, rfl⟩ : ∃ l, H = l + 1 := ⟨H - 1, by omega⟩
        have hch : shape b (H + 1) (b.max_node_size / 2) (ch 0) = true :=
          kc5 _ (mem_node_kids.mpr ⟨ch, hc, 0, by omega, rfl⟩)
        refine ⟨_, _, rfl, s1.trans hBm, s2.trans hBt, ?_,
          Or.inr ⟨rfl, Or.inr (Or.inl ⟨?_, ?_, ?_⟩)⟩⟩
        · simp only [hc, s3, hBh, hH, Nat.add_sub_cancel, keys_with_root]
          rw [← s5, keys_internal hsn hc, hz] at hdel
          simpa [live, inter] using hdel
        · simp only [s3, hBh, hH, Nat.add_sub_cancel]
        · simp only [s3, hBh, hH, Nat.add_sub_cancel]; omega
        · simp only [hc, s3, hBh, hH, Nat.add_sub_cancel, shape_with_root]
          rw [← hBm, ← s1]; exact hch
    · simp only [hz, if_false]
      refine ⟨_, _, rfl, s1.trans hBm, s2.trans hBt, ?_,
        Or.inr ⟨rfl, Or.inl ⟨s3.trans hBh, s4.trans hBr, ?_⟩⟩⟩
      · rw [s3, s4, hBh, hBr, hH, s5]; exact hdel
      · rw [s3, s4, hBh, hBr, hH]
        exact shape_mono b _ _ _ _ hshape (fun n0 hn0 => by
          rw [hsn] at hn0; cases hn0; omega)

/-! ## Consequences for whole calls -/

theorem well_linked_iff (bt : rl_btree) :
    well_linked bt = true ↔
      linked bt bt.height bt.root = true ∧
      (keys bt bt.height bt.root).Pairwise (fun x y => x < y) := by
  unfold well_linked flatten_ascending rl_flatten_btree
  by_cases hsh : linked bt bt.height bt.root = true
  · rw [flatten_linked bt _ _ hsh bt.height (by omega)]
    simp [hsh, ascending]
  · simp [hsh]

theorem well_formed_linked (bt : rl_btree) (h : well_formed bt = true) :
    well_linked bt = true := by
  rw [well_formed_iff] at h
  rw [well_linked_iff]
  exact ⟨shape_linked bt _ _ _ h.2.2.2.1, h.2.2.2.2⟩

theorem find_score_paths (bt : rl_btree) (k : Int) :
    rl_btree_find_score bt k false (some (fun _ => none)) (some (fun _ => 0)) =
      find_levels bt k false bt.height 0 bt.root (some (fun _ => none)) (some (fun _ => 0)) := by
  simp [rl_btree_find_score]

theorem find_score_plain (bt : rl_btree) (k : Int) (wv : Bool) :
    rl_btree_find_score bt k wv none none =
      find_levels bt k wv bt.height 0 bt.root none none := by
  simp [rl_btree_find_score]

theorem add_present (bt : rl_btree) (k v : Int) (hl : linked bt bt.height bt.root = true)
    (hp : (keys bt bt.height bt.root).Pairwise (fun x y => x < y))
    (hk : k ∈ keys bt bt.height bt.root) :
    rl_btree_add_element bt k v = some (RL_FOUND, bt) := by
  obtain ⟨r, hr, hrv, _⟩ := find_levels_spec bt k false bt.height 0 bt.root
    (some (fun _ => none)) (some (fun _ => 0)) hl hp rfl
  simp only [hk, if_true] at hrv
  simp [rl_btree_add_element, find_score_paths, hr, hrv]

theorem remove_absent (bt : rl_btree) (k : Int) (hl : linked bt bt.height bt.root = true)
    (hp : (keys bt bt.height bt.root).Pairwise (fun x y => x < y))
    (hk : k ∉ keys bt bt.height bt.root) :
    rl_btree_remove_element bt k = some (RL_NOT_FOUND, bt) := by
  obtain ⟨r, hr, hrv, _⟩ := find_levels_spec bt k false bt.height 0 bt.root
    (some (fun _ => none)) (some (fun _ => 0)) hl hp rfl
  simp only [hk, if_false] at hrv
  simp [rl_btree_remove_element, find_score_paths, hr, hrv]

theorem deleted_pairwise (k : Int) (l l1 : List Int) (h : deleted k l l1)
    (hp : l.Pairwise (fun x y => x < y)) : l1.Pairwise (fun x y => x < y) := by
  obtain ⟨a, b, rfl, rfl⟩ := h
  exact hp.sublist (List.Sublist.append (List.Sublist.refl a) (List.sublist_cons_self k b))

theorem deleted_erase (k : Int) (l l1 : List Int) (h : deleted k l l1)
    (hp : l.Pairwise (fun x y => x < y)) : l1 = l.erase k := by
  obtain ⟨a, b, rfl, rfl⟩ := h
  have hk : k ∉ a := by
    intro hka
    rw [List.pairwise_append] at hp
    have := hp.2.2 k hka k (List.mem_cons_self k b)
    omega
  rw [List.erase_append_right _ hk, List.erase_cons_head]

theorem flatten_leaf (bt : rl_btree) (fuel id : Nat) (nd : rl_btree_node)
    (hs : select bt id = some nd) (hc : nd.children = none) :
    rl_flatten_btree_node bt fuel id = some (live nd.scores nd.size) := by
  cases fuel <;> simp [rl_flatten_btree_node, hs, hc]

theorem shape_fill (bt : rl_btree) : ∀ (lv lo id : Nat), shape bt lv lo id = true →
    (∀ x ∈ ids bt lv id, ∃ nd, select bt x = some nd ∧ nd.size ≤ bt.max_node_size) ∧
    (∀ x ∈ (ids bt lv id).tail, ∃ nd, select bt x = some nd ∧
      bt.max_node_size / 2 ≤ nd.size) := by
  intro lv
  induction lv with
  | zero => intro lo id h; rw [shape_zero] at h; cases h
  | succ lv ih =>
    intro lo id h
    have h0 := h
    rw [shape_succ] at h
    obtain ⟨nd, hs, hlo, hhi, hval, hcase⟩ := h
    rcases hcase with ⟨hc, _⟩ | ⟨ch, hc, _, hkids⟩
    · rw [ids_leaf hs hc]
      refine ⟨?_, ?_⟩
      · intro x hx
        simp only [List.mem_singleton] at hx
        subst hx
        exact ⟨nd, hs, hhi⟩
      · intro x hx
        simp at hx
    · have hkid : ∀ x ∈ ((live ch (nd.size + 1)).map (ids bt lv)).flatten,
          ∃ n0, select bt x = some n0 ∧ n0.size ≤ bt.max_node_size ∧
            bt.max_node_size / 2 ≤ n0.size := by
        intro x hx
        simp only [List.mem_flatten, List.mem_map, mem_live, exists_exists_and_eq_and] at hx
        obtain ⟨j, hj, hx⟩ := hx
        have hsj := hkids j (by omega)
        obtain ⟨f1, f2⟩ := ih _ _ hsj
        obtain ⟨n0, hn0, hsz⟩ := f1 x hx
        refine ⟨n0, hn0, hsz, ?_⟩
        obtain ⟨lv, rfl⟩ : ∃ l, lv = l + 1 := by
          cases lv with
          | zero => rw [shape_zero] at hsj; cases hsj
          | succ l => exact ⟨l, rfl⟩
        rw [ids_succ_kids] at hx
        rcases List.mem_cons.mp hx with rfl | hx2
        · obtain ⟨_, _, k3, _⟩ := shape_kids hsj hn0
          exact k3
        · obtain ⟨n1, hn1, hsz1⟩ := f2 x (by rw [ids_succ_kids]; exact hx2)
          rw [hn0] at hn1; cases hn1
          exact hsz1
      rw [ids_internal hs hc]
      refine ⟨?_, ?_⟩
      · intro x hx
        rcases List.mem_cons.mp hx with rfl | hx2
        · exact ⟨nd, hs, hhi⟩
        · obtain ⟨n0, hn0, h1, _⟩ := hkid x hx2
          exact ⟨n0, hn0, h1⟩
      · intro x hx
        obtain ⟨n0, hn0, _, h2⟩ := hkid x hx
        exact ⟨n0, hn0, h2⟩

theorem shape_min_fill (bt : rl_btree) (lo : Nat) (hev : bt.max_node_size % 2 = 0)
    (h : shape bt bt.height lo bt.root = true) : min_fill bt = true := by
  unfold min_fill
  rw [List.all_eq_true]
  intro x hx
  obtain ⟨nd, hs, hsz⟩ := (shape_fill bt _ _ _ h).2 x hx
  rw [hs]
  simp only [decide_eq_true_eq]
  omega

theorem shape_max_fill (bt : rl_btree) (lo : Nat)
    (h : shape bt bt.height lo bt.root = true) : max_fill bt bt.max_node_size = true := by
  unfold max_fill
  rw [List.all_eq_true]
  intro x hx
  have hx2 : x ∈ ids bt bt.height bt.root := by
    rcases List.mem_cons.mp hx with rfl | hx
    · obtain ⟨H, hH⟩ : ∃ H, bt.height = H + 1 := by
        cases hb : bt.height with
        | zero => rw [hb, shape_zero] at h; cases h
        | succ l => exact ⟨l, rfl⟩
      rw [hH]
      exact mem_ids_self bt H _
    · exact hx
  obtain ⟨nd, hs, hsz⟩ := (shape_fill bt _ _ _ h).1 x hx2
  rw [hs]
  simpa using hsz

theorem long_cmp_neg {a b : Int} (h : a < b) : long_cmp a b < 0 := by
  unfold long_cmp
  rw [if_neg (by omega), if_neg (by omega)]
  omega

theorem long_cmp_ne {a b : Int} (h : a < b) : long_cmp a b ≠ 0 := by
  have := long_cmp_neg h
  omega

/-! ## The state between calls -/

theorem root_has_key_of_shape (bt : rl_btree) (lo : Nat)
    (h : shape bt bt.height lo bt.root = true) (hlo : 1 ≤ lo ∨ bt.height = 1) :
    root_has_key bt = true := by
  obtain ⟨H, hH⟩ : ∃ H, bt.height = H + 1 := by
    cases hb : bt.height with
    | zero => rw [hb, shape_zero] at h; cases h
    | succ l => exact ⟨l, rfl⟩
  rw [hH] at h
  obtain ⟨nd, hs⟩ := shape_select h
  obtain ⟨k1, k2, k3, k4, k5⟩ := shape_kids h hs
  unfold root_has_key
  rw [hs]
  rcases hlo with h1 | h1
  · simp only [Bool.or_eq_true, decide_eq_true_eq]
    exact Or.inr (by omega)
  · have : nd.children = none := k1.mpr (by omega)
    simp [this]

theorem shape_of_root_has_key (bt : rl_btree) (hwf : well_formed bt = true)
    (hr : root_has_key bt = true) :
    ∃ lo, lo ≤ 1 ∧ shape bt bt.height lo bt.root = true ∧ (1 ≤ lo ∨ bt.height = 1) := by
  rw [well_formed_iff] at hwf
  obtain ⟨hev, h4, hht, hsh, hpw⟩ := hwf
  obtain ⟨H, hH⟩ : ∃ H, bt.height = H + 1 := ⟨bt.height - 1, by omega⟩
  rw [hH] at hsh ⊢
  obtain ⟨nd, hs⟩ := shape_select hsh
  obtain ⟨k1, k2, k3, k4, k5⟩ := shape_kids hsh hs
  unfold root_has_key at hr
  rw [hs] at hr
  rcases isSome_cases nd.children with hc | ⟨ch, hc⟩
  · exact ⟨0, by omega, hsh, Or.inr (by rw [k1.mp hc])⟩
  · simp only [hc, Option.isNone_some, Bool.false_or, decide_eq_true_eq] at hr
    refine ⟨1, le_refl _, ?_, Or.inl (le_refl _)⟩
    exact shape_mono bt _ _ _ _ hsh (fun n0 hn0 => by rw [hs] at hn0; cases hn0; exact hr)

theorem shape_one_of_mem (bt : rl_btree) (k : Int) (hwf : well_formed bt = true)
    (hr : root_has_key bt = true) (hk : k ∈ keys bt bt.height bt.root) :
    shape bt bt.height 1 bt.root = true := by
  obtain ⟨lo, hlo1, hsh, hcase⟩ := shape_of_root_has_key bt hwf hr
  obtain ⟨H, hH⟩ : ∃ H, bt.height = H + 1 := by
    cases hb : bt.height with
    | zero => rw [hb, shape_zero] at hsh; cases hsh
    | succ l => exact ⟨l, rfl⟩
  rw [hH] at hsh hk ⊢
  obtain ⟨nd, hs⟩ := shape_select hsh
  obtain ⟨k1, k2, k3, k4, k5⟩ := shape_kids hsh hs
  apply shape_mono bt _ _ _ _ hsh
  intro n0 hn0
  rw [hs] at hn0; cases hn0
  rcases hcase with h1 | h1
  · omega
  · have hc : nd.children = none := k1.mpr (by omega)
    rw [keys_leaf hs hc] at hk
    rw [mem_live] at hk
    obtain ⟨j, hj, _⟩ := hk
    omega

theorem reachable_after_add (type : rl_btree_type) (m : Nat) (bt : rl_btree) (k v : Int)
    (h : reachable type m bt) : reachable type m (after_add bt k v) := by
  unfold after_add
  cases hr : rl_btree_add_element bt k v with
  | none => exact h
  | some r => exact reachable.add bt r.2 k v r.1 h hr

theorem reachable_after_remove (type : rl_btree_type) (m : Nat) (bt : rl_btree) (k : Int)
    (h : reachable type m bt) : reachable type m (after_remove bt k) := by
  unfold after_remove
  cases hr : rl_btree_remove_element bt k with
  | none => exact h
  | some r => exact reachable.remove bt r.2 k r.1 h hr

theorem reachable_add_all (type : rl_btree_type) (m : Nat) (ks : List Int) :
    ∀ (bt : rl_btree), reachable type m bt → reachable type m (add_all bt ks) := by
  induction ks with
  | nil => intro bt h; exact h
  | cons k ks ih =>
    intro bt h
    exact ih _ (reachable_after_add type m bt k (10 * k) h)

/-! ## Statements about the specification -/

/-- C1: for every well-formed `long_set` tree (even `m >= 4`, in-order keys
strictly ascending, all leaves at depth `height - 1` with `height >= 1`, every
non-root node with between `m / 2` and `m` keys, the root with at most `m`, every
internal node with `size + 1` children) and every key `k` that does not occur in
it, `rl_btree_add_element` returns `RL_OK` and `rl_flatten_btree` of the
resulting tree is the flatten output of the tree with `k` inserted at its sorted
position. -/
theorem add_element_inserts (bt : rl_btree) (k v : Int) (fuel : Nat) (l : List Int)
    (hwf : well_formed bt = true) (_hty : bt.type = long_set) (hfuel : bt.height ≤ fuel)
    (hfl : rl_flatten_btree fuel bt = some l) (hk : k ∉ l) :
    (rl_btree_add_element bt k v).map Prod.fst = some RL_OK ∧
    rl_flatten_btree fuel (after_add bt k v) =
      some (List.orderedInsert (fun x y => x ≤ y) k l) := by
  rw [well_formed_flatten bt hwf fuel (by omega)] at hfl
  cases hfl
  have hwf0 := hwf
  rw [well_formed_iff] at hwf0
  obtain ⟨b, hb, _, _, hins, hsh1, hroot⟩ :=
    add_element_core bt k v 0 hwf (Nat.zero_le _) hwf0.2.2.2.1 hk
  refine ⟨by rw [hb]; rfl, ?_⟩
  have ha : after_add bt k v = b := by simp [after_add, hb]
  rw [ha]
  unfold rl_flatten_btree
  rw [flatten_linked b _ _ (shape_linked b _ _ _ hsh1) fuel
    (by rcases hroot with ⟨e, _⟩ | ⟨e, _⟩ <;> omega)]
  rw [inserted_ordered k _ _ hins]

/-- The full root leaf 1, 2, 3, 4 takes the key 5 by a split. -/
theorem add_element_inserts_witness :
    (well_formed set_1234 = true ∧ set_1234.type = long_set ∧ set_1234.height ≤ 1 ∧
      rl_flatten_btree 1 set_1234 = some [1, 2, 3, 4] ∧ (5 : Int) ∉ [1, 2, 3, 4]) ∧
    ((rl_btree_add_element set_1234 5 0).map Prod.fst = some RL_OK ∧
      rl_flatten_btree 1 (after_add set_1234 5 0) =
        some (List.orderedInsert (fun x y => x ≤ y) 5 [1, 2, 3, 4])) :=
  ⟨⟨by decide, by decide, by decide, by decide, by decide⟩,
    add_element_inserts set_1234 5 0 1 [1, 2, 3, 4] (by decide) (by decide) (by decide)
      (by decide) (by decide)⟩

/-- C2: for every well-formed `long_set` tree whose root, when it is internal,
holds at least one key, and every key `k` that occurs in the tree,
`rl_btree_remove_element` returns `RL_OK` and `rl_flatten_btree` of the resulting
tree is the flatten output of the tree with `k` deleted. -/
theorem remove_element_deletes (bt : rl_btree) (k : Int) (fuel : Nat) (l : List Int)
    (hwf : well_formed bt = true) (_hty : bt.type = long_set)
    (hroot : root_has_key bt = true) (hfuel : bt.height ≤ fuel + 1)
    (hfl : rl_flatten_btree fuel bt = some l) (hk : k ∈ l) :
    (rl_btree_remove_element bt k).map Prod.fst = some RL_OK ∧
    rl_flatten_btree fuel (after_remove bt k) = some (l.erase k) := by
  rw [well_formed_flatten bt hwf fuel hfuel] at hfl
  cases hfl
  have hwf0 := hwf
  rw [well_formed_iff] at hwf0
  obtain ⟨rv, b, hb, _, _, hdel, hcase⟩ :=
    remove_element_core bt k 1 hwf (le_refl _) (shape_one_of_mem bt k hwf hroot hk) hk
  have ha : after_remove bt k = b := by simp [after_remove, hb]
  rw [ha, hb, ← deleted_erase k _ _ hdel hwf0.2.2.2.2]
  rcases hcase with ⟨_, e0⟩ | ⟨hrv, hsub⟩
  · omega
  · subst hrv
    refine ⟨rfl, ?_⟩
    unfold rl_flatten_btree
    rcases hsub with ⟨e1, e2, e3⟩ | ⟨e1, e2, e3⟩ | ⟨e1, e2, nd, e3, e4, e5⟩
    · rw [flatten_linked b _ _ (shape_linked b _ _ _ e3) fuel (by omega)]
    · rw [flatten_linked b _ _ (shape_linked b _ _ _ e3) fuel (by omega)]
    · rw [flatten_leaf b fuel _ nd e3 e5, e4, e2]
      rfl

/-- The key 3 of the root of the tree 1 to 5 is removed: the leaves merge and the
root collapses. -/
theorem remove_element_deletes_witness :
    (well_formed set_12345 = true ∧ set_12345.type = long_set ∧
      root_has_key set_12345 = true ∧ set_12345.height ≤ 1 + 1 ∧
      rl_flatten_btree 1 set_12345 = some [1, 2, 3, 4, 5] ∧ (3 : Int) ∈ [1, 2, 3, 4, 5]) ∧
    ((rl_btree_remove_element set_12345 3).map Prod.fst = some RL_OK ∧
      rl_flatten_btree 1 (after_remove set_12345 3) = some ([1, 2, 3, 4, 5].erase 3)) :=
  ⟨⟨by decide, by decide, by decide, by decide, by decide, by decide⟩,
    remove_element_deletes set_12345 3 1 [1, 2, 3, 4, 5] (by decide) (by decide) (by decide)
      (by decide) (by decide) (by decide)⟩

/-- C3: for every well-formed tree (in-order keys strictly ascending, all leaves
at depth `height - 1`, internal nodes with `size + 1` children) and every key
`k`, `rl_btree_find_score` called without path outputs returns `RL_FOUND` if `k`
occurs in the output of `rl_flatten_btree` and `RL_NOT_FOUND` otherwise. -/
theorem find_score_decides (bt : rl_btree) (k : Int) (want_value : Bool) (fuel : Nat)
    (l : List Int) (hwl : well_linked bt = true) (hfuel : bt.height ≤ fuel + 1)
    (hfl : rl_flatten_btree fuel bt = some l) :
    (rl_btree_find_score bt k want_value none none).map (fun r => r.retval) =
      some (if k ∈ l then RL_FOUND else RL_NOT_FOUND) := by
  rw [well_linked_iff] at hwl
  unfold rl_flatten_btree at hfl
  rw [flatten_linked bt _ _ hwl.1 fuel hfuel] at hfl
  cases hfl
  obtain ⟨r, hr, hrv, _⟩ := find_levels_spec bt k want_value bt.height 0 bt.root none none
    hwl.1 hwl.2 rfl
  rw [find_score_plain, hr, Option.map_some', hrv]

/-- The tree 1 to 5 searched for the key 4, which is in a leaf. -/
theorem find_score_decides_witness :
    (well_linked set_12345 = true ∧ set_12345.height ≤ 1 + 1 ∧
      rl_flatten_btree 1 set_12345 = some [1, 2, 3, 4, 5]) ∧
    (rl_btree_find_score set_12345 4 false none none).map (fun r => r.retval) =
      some (if (4 : Int) ∈ [1, 2, 3, 4, 5] then RL_FOUND else RL_NOT_FOUND) :=
  ⟨⟨by decide, by decide, by decide⟩,
    find_score_decides set_12345 4 false 1 [1, 2, 3, 4, 5] (by decide) (by decide)
      (by decide)⟩

/-- C4: in the well-formed `long_hash` tree `hash_9` the key 30 carries the value
300; the removal of the key 70 returns `RL_OK` and rebalances by borrowing from
the left sibling under the parent separator at index 1; afterwards
`rl_btree_find_score` reports the value 500 for the key 30. -/
theorem borrow_left_changes_value :
    well_formed hash_9 = true ∧ hash_9.type = long_hash ∧
    (rl_btree_find_score hash_9 30 true none none).map (fun r => (r.retval, r.value)) =
      some (RL_FOUND, some 300) ∧
    (rl_btree_remove_element hash_9 70).map Prod.fst = some RL_OK ∧
    (rl_btree_find_score (after_remove hash_9 70) 30 true none none).map
      (fun r => (r.retval, r.value)) = some (RL_FOUND, some 500) := by
  decide

/-- C5: for every well-formed tree and every key `k` already present in it,
`rl_btree_add_element` returns `RL_FOUND` and the tree after the call is the tree
before it: root id, height and every node are the same. -/
theorem add_present_unchanged (bt : rl_btree) (k v : Int) (fuel : Nat) (l : List Int)
    (hwl : well_linked bt = true) (hfuel : bt.height ≤ fuel + 1)
    (hfl : rl_flatten_btree fuel bt = some l) (hk : k ∈ l) :
    rl_btree_add_element bt k v = some (RL_FOUND, bt) := by
  rw [well_linked_iff] at hwl
  unfold rl_flatten_btree at hfl
  rw [flatten_linked bt _ _ hwl.1 fuel hfuel] at hfl
  cases hfl
  exact add_present bt k v hwl.1 hwl.2 hk

/-- The key 3 is added a second time to the tree 1 to 5. -/
theorem add_present_unchanged_witness :
    (well_linked set_12345 = true ∧ set_12345.height ≤ 1 + 1 ∧
      rl_flatten_btree 1 set_12345 = some [1, 2, 3, 4, 5] ∧ (3 : Int) ∈ [1, 2, 3, 4, 5]) ∧
    rl_btree_add_element set_12345 3 7 = some (RL_FOUND, set_12345) :=
  ⟨⟨by decide, by decide, by decide, by decide⟩,
    add_present_unchanged set_12345 3 7 1 [1, 2, 3, 4, 5] (by decide) (by decide) (by decide)
      (by decide)⟩

/-- C6: for every well-formed tree and every key `k` absent from it,
`rl_btree_remove_element` returns `RL_NOT_FOUND` and the tree after the call is
the tree before it: root id, height and every node are the same. -/
theorem remove_absent_unchanged (bt : rl_btree) (k : Int) (fuel : Nat) (l : List Int)
    (hwl : well_linked bt = true) (hfuel : bt.height ≤ fuel + 1)
    (hfl : rl_flatten_btree fuel bt = some l) (hk : k ∉ l) :
    rl_btree_remove_element bt k = some (RL_NOT_FOUND, bt) := by
  rw [well_linked_iff] at hwl
  unfold rl_flatten_btree at hfl
  rw [flatten_linked bt _ _ hwl.1 fuel hfuel] at hfl
  cases hfl
  exact remove_absent bt k hwl.1 hwl.2 hk

/-- The key 9 is removed from the tree 1 to 5, which does not hold it. -/
theorem remove_absent_unchanged_witness :
    (well_linked set_12345 = true ∧ set_12345.height ≤ 1 + 1 ∧
      rl_flatten_btree 1 set_12345 = some [1, 2, 3, 4, 5] ∧ (9 : Int) ∉ [1, 2, 3, 4, 5]) ∧
    rl_btree_remove_element set_12345 9 = some (RL_NOT_FOUND, set_12345) :=
  ⟨⟨by decide, by decide, by decide, by decide⟩,
    remove_absent_unchanged set_12345 9 1 [1, 2, 3, 4, 5] (by decide) (by decide) (by decide)
      (by decide)⟩

/-- C8: the key 1 is added to a freshly created tree and removed again:
`rl_btree_remove_element` returns `RL_OK` and leaves a tree of height 0, not 1,
over a root of size 0; a further `rl_btree_add_element` on that tree returns
`RL_OK` and makes a new root of height 1 that has a `children` array, with the
reserved id 0 and -1 in its two slots. -/
theorem remove_last_key_height :
    (rl_btree_add_element fresh_set 1 0).map Prod.fst = some RL_OK ∧
    (rl_btree_remove_element (after_add fresh_set 1 0) 1).map (fun r => (r.1, r.2.height)) =
      some (RL_OK, 0) ∧
    (select (after_remove (after_add fresh_set 1 0) 1)
      (after_remove (after_add fresh_set 1 0) 1).root).map (fun nd => nd.size) = some 0 ∧
    (rl_btree_add_element (after_remove (after_add fresh_set 1 0) 1) 2 0).map
      (fun r => (r.1, r.2.height)) = some (RL_OK, 1) ∧
    (rl_btree_add_element (after_remove (after_add fresh_set 1 0) 1) 2 0).bind
      (fun r => (select r.2 r.2.root).map
        (fun nd => (nd.size, nd.children.map (fun c => (c 0, c 1))))) =
      some (1, some (0, minus_one)) := by
  decide

/-- C9: if every non-root node of a well-formed tree holds at least
`ceil(m / 2)` keys, then after a call of `rl_btree_add_element` or of
`rl_btree_remove_element` that returns `RL_OK` every non-root node of the
resulting tree again holds at least `ceil(m / 2)` keys. -/
theorem min_fill_preserved (bt : rl_btree) (k v : Int) (hwf : well_formed bt = true)
    (_hmin : min_fill bt = true) :
    ((rl_btree_add_element bt k v).map Prod.fst = some RL_OK →
      min_fill (after_add bt k v) = true) ∧
    ((rl_btree_remove_element bt k).map Prod.fst = some RL_OK →
      min_fill (after_remove bt k) = true) := by
  have hwf0 := hwf
  rw [well_formed_iff] at hwf0
  obtain ⟨hev, h4, hht, hsh, hpw⟩ := hwf0
  constructor
  · intro hok
    by_cases hk : k ∈ keys bt bt.height bt.root
    · rw [add_present bt k v (shape_linked bt _ _ _ hsh) hpw hk] at hok
      cases hok
    · obtain ⟨b, hb, hmax, _, _, hsh1, _⟩ :=
        add_element_core bt k v 0 hwf (Nat.zero_le _) hsh hk
      have ha : after_add bt k v = b := by simp [after_add, hb]
      rw [ha]
      exact shape_min_fill b 0 (by rw [hmax]; exact hev) hsh1
  · intro hok
    by_cases hk : k ∈ keys bt bt.height bt.root
    · obtain ⟨rv, b, hb, hmax, _, _, hcase⟩ :=
        remove_element_core bt k 0 hwf (Nat.zero_le _) hsh hk
      have ha : after_remove bt k = b := by simp [after_remove, hb]
      rw [hb] at hok
      rw [ha]
      rcases hcase with ⟨e0, _⟩ | ⟨_, hsub⟩
      · subst e0; cases hok
      · rcases hsub with ⟨e1, e2, e3⟩ | ⟨e1, e2, e3⟩ | ⟨e1, e2, e3⟩
        · exact shape_min_fill b 0 (by rw [hmax]; exact hev) e3
        · exact shape_min_fill b _ (by rw [hmax]; exact hev) e3
        · unfold min_fill
          rw [e2]
          rfl
    · rw [remove_absent bt k (shape_linked bt _ _ _ hsh) hpw hk] at hok
      cases hok

/-- The full root leaf 1, 2, 3, 4 is split by the key 5; the key 3 is removed
from the tree 1 to 5. -/
theorem min_fill_preserved_witness :
    (well_formed set_1234 = true ∧ min_fill set_1234 = true ∧
      (rl_btree_add_element set_1234 5 0).map Prod.fst = some RL_OK) ∧
    min_fill (after_add set_1234 5 0) = true :=
  ⟨⟨by decide, by decide, by decide⟩,
    (min_fill_preserved set_1234 5 0 (by decide) (by decide)).1 (by decide)⟩

/-- Four calls of `rl_btree_add_element` on a fresh tree with `max_node_size = 4`
reach a tree whose root holds 4 keys, more than `max_node_size - 1`. -/
theorem reachable_full_root :
    reachable long_set 4 set_1234 ∧ set_1234.max_node_size = 4 ∧
    max_fill set_1234 (4 - 1) = false :=
  ⟨reachable_add_all long_set 4 [1, 2, 3, 4] _ reachable.create, by decide, by decide⟩

/-! ## Words in a byte buffer -/

theorem word_lt (v : Int) : (v % 4294967296).toNat < 4294967296 := by
  have h1 : 0 ≤ v % 4294967296 := Int.emod_nonneg _ (by decide)
  have h2 : v % 4294967296 < 4294967296 := Int.emod_lt_of_pos _ (by decide)
  omega

theorem word_of_range {v : Int} (h0 : 0 ≤ v) (h1 : v < 4294967296) :
    ((v % 4294967296).toNat : Int) = v := by
  rw [Int.emod_eq_of_lt h0 h1]
  omega

theorem word_of_nat {n : Nat} (h1 : n < 4294967296) : ((n : Int) % 4294967296).toNat = n := by
  omega

theorem get_put_same (d : Nat → Nat) (p : Nat) (v : Int) :
    get_4bytes (put_4bytes d p v) p = (v % 4294967296).toNat := by
  have hw := word_lt v
  simp only [get_4bytes, put_4bytes, if_true, Nat.add_right_eq_self, OfNat.ofNat_ne_zero,
    if_false, Nat.add_left_cancel_iff, OfNat.ofNat_ne_one, Nat.reduceEqDiff]
  omega

theorem put_other (d : Nat → Nat) (p : Nat) (v : Int) (j : Nat) (h : j < p ∨ p + 4 ≤ j) :
    put_4bytes d p v j = d j := by
  simp only [put_4bytes]
  rw [if_neg (by omega), if_neg (by omega), if_neg (by omega), if_neg (by omega)]

theorem get_put_other (d : Nat → Nat) (p q : Nat) (v : Int) (h : q + 4 ≤ p ∨ p + 4 ≤ q) :
    get_4bytes (put_4bytes d p v) q = get_4bytes d q := by
  simp only [get_4bytes]
  rw [put_other d p v q (by omega), put_other d p v (q + 1) (by omega),
    put_other d p v (q + 2) (by omega), put_other d p v (q + 3) (by omega)]

theorem live_put (d : Nat → Nat) (p : Nat) (v : Int) :
    live (put_4bytes d p v) (p + 4) = live d p ++ be32 v := by
  have e : live (put_4bytes d p v) p = live d p :=
    live_congr _ _ _ (fun j hj => put_other d p v j (Or.inl hj))
  rw [show p + 4 = p + 1 + 1 + 1 + 1 from rfl, live_succ, live_succ, live_succ, live_succ, e]
  simp [put_4bytes, be32]

/-! ## `long_set_btree_node_serialize` -/

theorem set_keys_outside (node : rl_btree_node) : ∀ (n : Nat) (data : Nat → Nat) (j : Nat),
    j < 4 ∨ 4 + 8 * n ≤ j → long_set_serialize_keys node n data j = data j := by
  intro n
  induction n with
  | zero => intro data j _; rfl
  | succ n ih =>
    intro data j hj
    simp only [long_set_serialize_keys]
    rw [put_other _ _ _ _ (by omega), put_other _ _ _ _ (by omega), ih data j (by omega)]

theorem set_keys_word_outside (node : rl_btree_node) (n : Nat) (data : Nat → Nat) (q : Nat)
    (hq : q = 0 ∨ 4 + 8 * n ≤ q) :
    get_4bytes (long_set_serialize_keys node n data) q = get_4bytes data q := by
  simp only [get_4bytes]
  rw [set_keys_outside node n data q (by omega), set_keys_outside node n data (q + 1) (by omega),
    set_keys_outside node n data (q + 2) (by omega),
    set_keys_outside node n data (q + 3) (by omega)]

theorem set_keys_words (node : rl_btree_node) : ∀ (n : Nat) (data : Nat → Nat) (i : Nat),
    i < n →
    get_4bytes (long_set_serialize_keys node n data) (4 + 8 * i) =
      (node.scores i % 4294967296).toNat ∧
    get_4bytes (long_set_serialize_keys node n data) (4 + 8 * i + 4) =
      (child_word node i % 4294967296).toNat := by
  intro n
  induction n with
  | zero => intro data i hi; omega
  | succ n ih =>
    intro data i hi
    simp only [long_set_serialize_keys]
    by_cases hin : i = n
    · subst hin
      exact ⟨by rw [get_put_other _ _ _ _ (by omega), get_put_same], get_put_same _ _ _⟩
    · obtain ⟨h1, h2⟩ := ih data i (by omega)
      exact ⟨by rw [get_put_other _ _ _ _ (by omega), get_put_other _ _ _ _ (by omega), h1],
        by rw [get_put_other _ _ _ _ (by omega), get_put_other _ _ _ _ (by omega), h2]⟩

theorem set_keys_layout (node : rl_btree_node) : ∀ (n : Nat) (data : Nat → Nat),
    live (long_set_serialize_keys node n data) (4 + 8 * n) =
      live data 4 ++
        ((List.range n).map
          (fun i => be32 (node.scores i) ++ be32 (child_word node i))).flatten := by
  intro n
  induction n with
  | zero => intro data; simp [long_set_serialize_keys]
  | succ n ih =>
    intro data
    simp only [long_set_serialize_keys]
    rw [show 4 + 8 * (n + 1) = 4 + 8 * n + 4 + 4 from by omega, live_put, live_put, ih,
      List.range_succ]
    simp

/-- The bytes and the size reported by `long_set_btree_node_serialize`. -/
theorem set_serialize_layout (node : rl_btree_node) :
    (long_set_btree_node_serialize node).1 = RL_OK ∧
    (long_set_btree_node_serialize node).2.2 = 8 + 8 * node.size ∧
    live (long_set_btree_node_serialize node).2.1 (8 + 8 * node.size) = wire_set node := by
  refine ⟨rfl, by simp only [long_set_btree_node_serialize]; omega, ?_⟩
  simp only [long_set_btree_node_serialize, wire_set]
  rw [show 8 + 8 * node.size = 4 + 8 * node.size + 4 from by omega, live_put, set_keys_layout,
    show (4 : Nat) = 0 + 4 from rfl, live_put]
  simp [live]

/-- The words of the buffer that `long_set_btree_node_serialize` produces. -/
theorem set_serialize_words (node : rl_btree_node) :
    get_4bytes (long_set_btree_node_serialize node).2.1 0 =
      ((node.size : Int) % 4294967296).toNat ∧
    (∀ i, i < node.size →
      get_4bytes (long_set_btree_node_serialize node).2.1 (4 + 8 * i) =
        (node.scores i % 4294967296).toNat ∧
      get_4bytes (long_set_btree_node_serialize node).2.1 (4 + 8 * i + 4) =
        (child_word node i % 4294967296).toNat) ∧
    get_4bytes (long_set_btree_node_serialize node).2.1 (4 + 8 * node.size) =
      (child_word node node.size % 4294967296).toNat := by
  simp only [long_set_btree_node_serialize]
  refine ⟨?_, ?_, get_put_same _ _ _⟩
  · rw [get_put_other _ _ _ _ (by omega), set_keys_word_outside _ _ _ _ (Or.inl rfl),
      get_put_same]
  · intro i hi
    obtain ⟨h1, h2⟩ := set_keys_words node node.size (put_4bytes (fun _ => 0) 0 node.size) i hi
    exact ⟨by rw [get_put_other _ _ _ _ (by omega), h1],
      by rw [get_put_other _ _ _ _ (by omega), h2]⟩

/-! ## `long_set_btree_node_deserialize` and the round trip -/

theorem word_sized_iff (node : rl_btree_node) :
    word_sized node = true ↔
      node.size < 4294967296 ∧
      (∀ i, i < node.size → 0 ≤ node.scores i ∧ node.scores i < 4294967296) ∧
      (∀ v, node.values = some v → ∀ i, i < node.size → 0 ≤ v i ∧ v i < 4294967296) ∧
      (∀ ch, node.children = some ch →
        1 ≤ node.size ∧ ∀ i, i ≤ node.size → 0 < ch i ∧ ch i < 4294967296) := by
  unfold word_sized
  cases hv : node.values <;> cases hc : node.children <;>
    simp [List.all_eq_true, Nat.lt_succ_iff, and_assoc]

theorem set_de_scores (data : Nat → Nat) : ∀ (n : Nat)
    (st : (Nat → Int) × Option (Nat → Nat)) (j : Nat),
    (long_set_deserialize_keys data n st).1 j =
      if j < n then (get_4bytes data (4 + 8 * j) : Int) else st.1 j := by
  intro n
  induction n with
  | zero => intro st j; simp [long_set_deserialize_keys]
  | succ n ih =>
    intro st j
    simp only [long_set_deserialize_keys]
    have e : ∀ (c : Option (Nat → Nat)),
        (aset (long_set_deserialize_keys data n st).1 n (get_4bytes data (4 + 8 * n) : Int)) j =
          if j < n + 1 then (get_4bytes data (4 + 8 * j) : Int) else st.1 j := by
      intro _
      simp only [aset]
      by_cases hj : j = n
      · subst hj; simp
      · rw [if_neg hj, ih]
        by_cases h1 : j < n
        · rw [if_pos h1, if_pos (by omega)]
        · rw [if_neg h1, if_neg (by omega)]
    by_cases hch : get_4bytes data (4 + 8 * n + 4) ≠ 0
    · rw [if_pos hch]; exact e none
    · rw [if_neg hch]; exact e none

theorem set_de_leaf (data : Nat → Nat) : ∀ (n : Nat)
    (st : (Nat → Int) × Option (Nat → Nat)),
    (∀ i, i < n → get_4bytes data (4 + 8 * i + 4) = 0) →
    (long_set_deserialize_keys data n st).2 = st.2 := by
  intro n
  induction n with
  | zero => intro st _; rfl
  | succ n ih =>
    intro st h
    simp only [long_set_deserialize_keys, h n (by omega), ne_eq, not_true_eq_false, if_false]
    exact ih st (fun i hi => h i (by omega))

theorem set_de_internal (data : Nat → Nat) : ∀ (n : Nat)
    (st : (Nat → Int) × Option (Nat → Nat)),
    (∀ i, i < n → get_4bytes data (4 + 8 * i + 4) ≠ 0) → 0 < n →
    ∃ c, (long_set_deserialize_keys data n st).2 = some c ∧
      ∀ j, j < n → c j = get_4bytes data (4 + 8 * j + 4) := by
  intro n
  induction n with
  | zero => intro st _ h0; omega
  | succ n ih =>
    intro st h _
    simp only [long_set_deserialize_keys, h n (by omega), ne_eq, not_false_eq_true, if_true]
    refine ⟨_, rfl, ?_⟩
    intro j hj
    simp only [aset]
    by_cases hjn : j = n
    · subst hjn; simp
    · rw [if_neg hjn]
      have hn : 0 < n := by omega
      obtain ⟨c, hc, hcj⟩ := ih st (fun i hi => h i (by omega)) hn
      rw [hc]
      exact hcj j (by omega)

theorem child_word_leaf (node : rl_btree_node) (hc : node.children = none) (i : Nat) :
    child_word node i = 0 := by
  simp [child_word, hc]

theorem child_word_internal (node : rl_btree_node) (ch : Nat → Nat)
    (hc : node.children = some ch) (i : Nat) : child_word node i = (ch i : Int) := by
  simp [child_word, hc]

/-- A node without values that fits 4-byte words survives
`long_set_btree_node_serialize` followed by `long_set_btree_node_deserialize`. -/
theorem set_round_trip (bt : rl_btree) (node : rl_btree_node)
    (hty : bt.type.value_size = 0) (hv : node.values = none)
    (hw : word_sized node = true) :
    (long_set_btree_node_deserialize bt (long_set_btree_node_serialize node).2.1).map
      (fun r => (r.1, node_fields r.2)) = some (RL_OK, node_fields node) := by
  rw [word_sized_iff] at hw
  obtain ⟨hsz, hsc, _, hch⟩ := hw
  obtain ⟨w0, wk, wl⟩ := set_serialize_words node
  rw [word_of_nat hsz] at w0
  have hcv : (rl_btree_node_create bt).values = none := by
    simp [rl_btree_node_create, hty]
  have hscores : ∀ st : (Nat → Int) × Option (Nat → Nat),
      live (long_set_deserialize_keys (long_set_btree_node_serialize node).2.1 node.size st).1
        node.size = live node.scores node.size := by
    intro st
    apply live_congr
    intro i hi
    rw [set_de_scores, if_pos hi, (wk i hi).1]
    exact word_of_range (hsc i hi).1 (hsc i hi).2
  rcases isSome_cases node.children with hc | ⟨ch, hc⟩
  · have hzero : ∀ i, i < node.size →
        get_4bytes (long_set_btree_node_serialize node).2.1 (4 + 8 * i + 4) = 0 := by
      intro i hi
      rw [(wk i hi).2, child_word_leaf node hc]
      rfl
    have hlast : get_4bytes (long_set_btree_node_serialize node).2.1 (4 + 8 * node.size) = 0 := by
      rw [wl, child_word_leaf node hc]
      rfl
    simp only [long_set_btree_node_deserialize, w0, hlast, ne_eq, not_true_eq_false, if_false,
      Option.map_some', node_fields, hcv, hv, hc, Option.map_none', hscores,
      set_de_leaf _ _ _ hzero]
    rfl
  · obtain ⟨h1, hr⟩ := hch ch hc
    have hword : ∀ i, i ≤ node.size → ((ch i : Int) % 4294967296).toNat = ch i :=
      fun i hi => word_of_nat (hr i hi).2
    have hnz : ∀ i, i < node.size →
        get_4bytes (long_set_btree_node_serialize node).2.1 (4 + 8 * i + 4) ≠ 0 := by
      intro i hi
      rw [(wk i hi).2, child_word_internal node ch hc, hword i (by omega)]
      have := (hr i (by omega)).1
      omega
    have hlast : get_4bytes (long_set_btree_node_serialize node).2.1 (4 + 8 * node.size) =
        ch node.size := by
      rw [wl, child_word_internal node ch hc, hword _ (le_refl _)]
    have hlnz : ch node.size ≠ 0 := by
      have := (hr node.size (le_refl _)).1
      omega
    obtain ⟨c, hc1, hc2⟩ := set_de_internal (long_set_btree_node_serialize node).2.1 node.size
      ((rl_btree_node_create bt).scores, (rl_btree_node_create bt).children) hnz (by omega)
    have hkids : live (aset c node.size (ch node.size)) (node.size + 1) =
        live ch (node.size + 1) := by
      apply live_congr
      intro i hi
      simp only [aset]
      by_cases hin : i = node.size
      · subst hin; simp
      · rw [if_neg hin, hc2 i (by omega), (wk i (by omega)).2, child_word_internal node ch hc,
          hword i (by omega)]
    simp only [long_set_btree_node_deserialize, w0, hlast, ne_eq, hlnz, not_false_eq_true,
      if_true, hc1, Option.map_some', node_fields, hcv, hv, hc, Option.map_none', hscores,
      hkids]

/-! ## `long_hash_btree_node_serialize` -/

theorem hash_keys_outside (node : rl_btree_node) (values : Nat → Int) :
    ∀ (n : Nat) (data : Nat → Nat) (j : Nat),
    j < 4 ∨ 4 + 12 * n ≤ j → long_hash_serialize_keys node values n data j = data j := by
  intro n
  induction n with
  | zero => intro data j _; rfl
  | succ n ih =>
    intro data j hj
    simp only [long_hash_serialize_keys]
    rw [put_other _ _ _ _ (by omega), put_other _ _ _ _ (by omega),
      put_other _ _ _ _ (by omega), ih data j (by omega)]

theorem hash_keys_word_outside (node : rl_btree_node) (values : Nat → Int) (n : Nat)
    (data : Nat → Nat) (q : Nat) (hq : q = 0 ∨ 4 + 12 * n ≤ q) :
    get_4bytes (long_hash_serialize_keys node values n data) q = get_4bytes data q := by
  simp only [get_4bytes]
  rw [hash_keys_outside node values n data q (by omega),
    hash_keys_outside node values n data (q + 1) (by omega),
    hash_keys_outside node values n data (q + 2) (by omega),
    hash_keys_outside node values n data (q + 3) (by omega)]

theorem hash_keys_words (node : rl_btree_node) (values : Nat → Int) :
    ∀ (n : Nat) (data : Nat → Nat) (i : Nat), i < n →
    get_4bytes (long_hash_serialize_keys node values n data) (4 + 12 * i) =
      (node.scores i % 4294967296).toNat ∧
    get_4bytes (long_hash_serialize_keys node values n data) (4 + 12 * i + 4) =
      (child_word node i % 4294967296).toNat ∧
    get_4bytes (long_hash_serialize_keys node values n data) (4 + 12 * i + 8) =
      (values i % 4294967296).toNat := by
  intro n
  induction n with
  | zero => intro data i hi; omega
  | succ n ih =>
    intro data i hi
    simp only [long_hash_serialize_keys]
    by_cases hin : i = n
    · subst hin
      exact ⟨by rw [get_put_other _ _ _ _ (by omega), get_put_other _ _ _ _ (by omega),
          get_put_same],
        by rw [get_put_other _ _ _ _ (by omega), get_put_same], get_put_same _ _ _⟩
    · obtain ⟨h1, h2, h3⟩ := ih data i (by omega)
      exact ⟨by rw [get_put_other _ _ _ _ (by omega), get_put_other _ _ _ _ (by omega),
          get_put_other _ _ _ _ (by omega), h1],
        by rw [get_put_other _ _ _ _ (by omega), get_put_other _ _ _ _ (by omega),
          get_put_other _ _ _ _ (by omega), h2],
        by rw [get_put_other _ _ _ _ (by omega), get_put_other _ _ _ _ (by omega),
          get_put_other _ _ _ _ (by omega), h3]⟩

theorem hash_keys_layout (node : rl_btree_node) (values : Nat → Int) :
    ∀ (n : Nat) (data : Nat → Nat),
    live (long_hash_serialize_keys node values n data) (4 + 12 * n) =
      live data 4 ++
        ((List.range n).map
          (fun i => be32 (node.scores i) ++ be32 (child_word node i) ++
            be32 (values i))).flatten := by
  intro n
  induction n with
  | zero => intro data; simp [long_hash_serialize_keys]
  | succ n ih =>
    intro data
    simp only [long_hash_serialize_keys]
    rw [show 4 + 12 * (n + 1) = 4 + 12 * n + 8 + 4 from by omega, live_put,
      show 4 + 12 * n + 8 = 4 + 12 * n + 4 + 4 from by omega, live_put, live_put, ih,
      List.range_succ]
    simp

/-- The bytes and the size reported by `long_hash_btree_node_serialize`. -/
theorem hash_serialize_layout (node : rl_btree_node) (v : Nat → Int)
    (hv : node.values = some v) :
    ∃ data, long_hash_btree_node_serialize node = some (RL_OK, data, 8 + 12 * node.size) ∧
      live data (8 + 12 * node.size) = wire_hash node v := by
  refine ⟨(put_4bytes (long_hash_serialize_keys node v node.size (put_4bytes (fun _ => 0) 0 node.size))
    (4 + 12 * node.size) (child_word node node.size)), ?_, ?_⟩
  · simp only [long_hash_btree_node_serialize, hv, Option.isNone_some, Bool.false_eq_true,
      false_and, if_false, Option.getD_some]
    rw [show 4 + 12 * node.size + 4 = 8 + 12 * node.size from by omega]
  · simp only [wire_hash]
    rw [show 8 + 12 * node.size = 4 + 12 * node.size + 4 from by omega, live_put,
      hash_keys_layout, show (4 : Nat) = 0 + 4 from rfl, live_put]
    simp [live]

/-- The words of the buffer that `long_hash_btree_node_serialize` produces. -/
theorem hash_serialize_words (node : rl_btree_node) (v : Nat → Int)
    (hv : node.values = some v) :
    ∃ data, long_hash_btree_node_serialize node = some (RL_OK, data, 8 + 12 * node.size) ∧
      get_4bytes data 0 = ((node.size : Int) % 4294967296).toNat ∧
      (∀ i, i < node.size →
        get_4bytes data (4 + 12 * i) = (node.scores i % 4294967296).toNat ∧
        get_4bytes data (4 + 12 * i + 4) = (child_word node i % 4294967296).toNat ∧
        get_4bytes data (4 + 12 * i + 8) = (v i % 4294967296).toNat) ∧
      get_4bytes data (4 + 12 * node.size) =
        (child_word node node.size % 4294967296).toNat := by
  refine ⟨(put_4bytes (long_hash_serialize_keys node v node.size (put_4bytes (fun _ => 0) 0 node.size))
    (4 + 12 * node.size) (child_word node node.size)), ?_, ?_, ?_, get_put_same _ _ _⟩
  · simp only [long_hash_btree_node_serialize, hv, Option.isNone_some, Bool.false_eq_true,
      false_and, if_false, Option.getD_some]
    rw [show 4 + 12 * node.size + 4 = 8 + 12 * node.size from by omega]
  · rw [get_put_other _ _ _ _ (by omega), hash_keys_word_outside _ _ _ _ _ (Or.inl rfl),
      get_put_same]
  · intro i hi
    obtain ⟨h1, h2, h3⟩ :=
      hash_keys_words node v node.size (put_4bytes (fun _ => 0) 0 node.size) i hi
    exact ⟨by rw [get_put_other _ _ _ _ (by omega), h1],
      by rw [get_put_other _ _ _ _ (by omega), h2],
      by rw [get_put_other _ _ _ _ (by omega), h3]⟩

/-! ## `long_hash_btree_node_deserialize` and the round trip -/

theorem hash_de_scores (data : Nat → Nat) : ∀ (n : Nat)
    (st : (Nat → Int) × Option (Nat → Nat) × (Nat → Int)) (j : Nat),
    ((long_hash_deserialize_keys data n st).1 j =
      if j < n then (get_4bytes data (4 + 12 * j) : Int) else st.1 j) ∧
    ((long_hash_deserialize_keys data n st).2.2 j =
      if j < n then (get_4bytes data (4 + 12 * j + 8) : Int) else st.2.2 j) := by
  intro n
  induction n with
  | zero => intro st j; simp [long_hash_deserialize_keys]
  | succ n ih =>
    intro st j
    simp only [long_hash_deserialize_keys]
    have e1 : (aset (long_hash_deserialize_keys data n st).1 n
        (get_4bytes data (4 + 12 * n) : Int)) j =
          if j < n + 1 then (get_4bytes data (4 + 12 * j) : Int) else st.1 j := by
      simp only [aset]
      by_cases hj : j = n
      · subst hj; simp
      · rw [if_neg hj, (ih st j).1]
        by_cases h1 : j < n
        · rw [if_pos h1, if_pos (by omega)]
        · rw [if_neg h1, if_neg (by omega)]
    have e2 : (aset (long_hash_deserialize_keys data n st).2.2 n
        (get_4bytes data (4 + 12 * n + 8) : Int)) j =
          if j < n + 1 then (get_4bytes data (4 + 12 * j + 8) : Int) else st.2.2 j := by
      simp only [aset]
      by_cases hj : j = n
      · subst hj; simp
      · rw [if_neg hj, (ih st j).2]
        by_cases h1 : j < n
        · rw [if_pos h1, if_pos (by omega)]
        · rw [if_neg h1, if_neg (by omega)]
    by_cases hch : get_4bytes data (4 + 12 * n + 4) ≠ 0
    · rw [if_pos hch]; exact ⟨e1, e2⟩
    · rw [if_neg hch]; exact ⟨e1, e2⟩

theorem hash_de_leaf (data : Nat → Nat) : ∀ (n : Nat)
    (st : (Nat → Int) × Option (Nat → Nat) × (Nat → Int)),
    (∀ i, i < n → get_4bytes data (4 + 12 * i + 4) = 0) →
    (long_hash_deserialize_keys data n st).2.1 = st.2.1 := by
  intro n
  induction n with
  | zero => intro st _; rfl
  | succ n ih =>
    intro st h
    simp only [long_hash_deserialize_keys, h n (by omega), ne_eq, not_true_eq_false, if_false]
    exact ih st (fun i hi => h i (by omega))

theorem hash_de_internal (data : Nat → Nat) : ∀ (n : Nat)
    (st : (Nat → Int) × Option (Nat → Nat) × (Nat → Int)),
    (∀ i, i < n → get_4bytes data (4 + 12 * i + 4) ≠ 0) → 0 < n →
    ∃ c, (long_hash_deserialize_keys data n st).2.1 = some c ∧
      ∀ j, j < n → c j = get_4bytes data (4 + 12 * j + 4) := by
  intro n
  induction n with
  | zero => intro st _ h0; omega
  | succ n ih =>
    intro st h _
    simp only [long_hash_deserialize_keys, h n (by omega), ne_eq, not_false_eq_true, if_true]
    refine ⟨_, rfl, ?_⟩
    intro j hj
    simp only [aset]
    by_cases hjn : j = n
    · subst hjn; simp
    · rw [if_neg hjn]
      have hn : 0 < n := by omega
      obtain ⟨c, hc, hcj⟩ := ih st (fun i hi => h i (by omega)) hn
      rw [hc]
      exact hcj j (by omega)

/-- A node with values that fits 4-byte words survives
`long_hash_btree_node_serialize` followed by `long_hash_btree_node_deserialize`. -/
theorem hash_round_trip (bt : rl_btree) (node : rl_btree_node) (v : Nat → Int)
    (hty : bt.type.value_size ≠ 0) (hv : node.values = some v)
    (hw : word_sized node = true) :
    ∃ data size, long_hash_btree_node_serialize node = some (RL_OK, data, size) ∧
      (long_hash_btree_node_deserialize bt data).map (fun r => (r.1, node_fields r.2)) =
        some (RL_OK, node_fields node) := by
  rw [word_sized_iff] at hw
  obtain ⟨hsz, hsc, hvr, hch⟩ := hw
  obtain ⟨data, hser, w0, wk, wl⟩ := hash_serialize_words node v hv
  refine ⟨data, _, hser, ?_⟩
  rw [word_of_nat hsz] at w0
  have hcv : (rl_btree_node_create bt).values = some (fun _ => 0) := by
    simp [rl_btree_node_create, hty]
  have hscores : ∀ st : (Nat → Int) × Option (Nat → Nat) × (Nat → Int),
      live (long_hash_deserialize_keys data node.size st).1 node.size =
        live node.scores node.size := by
    intro st
    apply live_congr
    intro i hi
    rw [(hash_de_scores _ _ _ _).1, if_pos hi, (wk i hi).1]
    exact word_of_range (hsc i hi).1 (hsc i hi).2
  have hvalues : ∀ st : (Nat → Int) × Option (Nat → Nat) × (Nat → Int),
      live (long_hash_deserialize_keys data node.size st).2.2 node.size = live v node.size := by
    intro st
    apply live_congr
    intro i hi
    rw [(hash_de_scores _ _ _ _).2, if_pos hi, (wk i hi).2.2]
    exact word_of_range (hvr v hv i hi).1 (hvr v hv i hi).2
  rcases isSome_cases node.children with hc | ⟨ch, hc⟩
  · have hzero : ∀ i, i < node.size → get_4bytes data (4 + 12 * i + 4) = 0 := by
      intro i hi
      rw [(wk i hi).2.1, child_word_leaf node hc]
      rfl
    have hlast : get_4bytes data (4 + 12 * node.size) = 0 := by
      rw [wl, child_word_leaf node hc]
      rfl
    simp only [long_hash_btree_node_deserialize, w0, hlast, ne_eq, not_true_eq_false, if_false,
      Option.map_some', node_fields, hcv, hv, hc, Option.map_none', hscores, hvalues,
      hash_de_leaf _ _ _ hzero, Option.isNone_some, Bool.false_eq_true, false_and]
    rfl
  · obtain ⟨h1, hr⟩ := hch ch hc
    have hword : ∀ i, i ≤ node.size → ((ch i : Int) % 4294967296).toNat = ch i :=
      fun i hi => word_of_nat (hr i hi).2
    have hnz : ∀ i, i < node.size → get_4bytes data (4 + 12 * i + 4) ≠ 0 := by
      intro i hi
      rw [(wk i hi).2.1, child_word_internal node ch hc, hword i (by omega)]
      have := (hr i (by omega)).1
      omega
    have hlast : get_4bytes data (4 + 12 * node.size) = ch node.size := by
      rw [wl, child_word_internal node ch hc, hword _ (le_refl _)]
    have hlnz : ch node.size ≠ 0 := by
      have := (hr node.size (le_refl _)).1
      omega
    obtain ⟨c, hc1, hc2⟩ := hash_de_internal data node.size
      ((rl_btree_node_create bt).scores, (rl_btree_node_create bt).children,
        (some (fun _ => (0 : Int))).getD (fun _ => 0)) hnz (by omega)
    have hkids : live (aset c node.size (ch node.size)) (node.size + 1) =
        live ch (node.size + 1) := by
      apply live_congr
      intro i hi
      simp only [aset]
      by_cases hin : i = node.size
      · subst hin; simp
      · rw [if_neg hin, hc2 i (by omega), (wk i (by omega)).2.1,
          child_word_internal node ch hc, hword i (by omega)]
    simp only [long_hash_btree_node_deserialize, w0, hlast, ne_eq, hlnz, not_false_eq_true,
      if_true, hc1, Option.map_some', node_fields, hcv, hv, hc, hscores, hvalues,
      hkids, Option.isNone_some, Bool.false_eq_true, false_and, if_false]

/-! ## Leaf depths -/

theorem flatten_replicate (n : Nat → Nat) (x : Nat) : ∀ (xs : List Nat),
    (xs.map (fun c => List.replicate (n c) x)).flatten =
      List.replicate ((xs.map n).sum) x := by
  intro xs
  induction xs with
  | nil => rfl
  | cons a xs ih =>
    simp only [List.map_cons, List.flatten_cons, List.sum_cons, ih, List.replicate_add]

theorem leaf_depths_linked (bt : rl_btree) : ∀ (lv id : Nat), linked bt lv id = true →
    ∀ fuel d, lv ≤ fuel + 1 →
      leaf_depths bt fuel d id = some (List.replicate (leaf_count bt lv id) (d + lv - 1)) := by
  intro lv
  induction lv with
  | zero => intro id h; simp [linked_zero] at h
  | succ lv ih =>
    intro id h fuel d hf
    rw [linked_succ] at h
    obtain ⟨nd, hs, h⟩ := h
    rcases h with ⟨hc, hlv⟩ | ⟨ch, hc, hlv, hch⟩
    · subst hlv
      cases fuel <;> simp [leaf_depths, leaf_count, hs, hc]
    · cases fuel with
      | zero => omega
      | succ fuel1 =>
        rw [leaf_depths, leaf_count]
        simp only [hs, hc]
        rw [mapM_option_all _
          (fun c => List.replicate (leaf_count bt lv c) (d + (lv + 1) - 1))]
        · rw [Option.map_some', flatten_replicate]
        · intro c hc1
          rw [mem_live] at hc1
          obtain ⟨j, hj, rfl⟩ := hc1
          rw [ih (ch j) (hch j (by omega)) fuel1 (d + 1) (by omega)]
          congr 2
          omega

theorem all_replicate (n x : Nat) :
    (List.replicate n x).all (fun y => decide (y = (List.replicate n x).headD 0)) = true := by
  rw [List.all_eq_true]
  intro y hy
  cases n with
  | zero => simp at hy
  | succ n =>
    have := List.eq_of_mem_replicate hy
    simp [List.replicate_succ, this]

theorem uniform_of_linked (bt : rl_btree) (fuel : Nat)
    (h : linked bt bt.height bt.root = true) (hf : bt.height ≤ fuel + 1) :
    uniform_depth fuel bt = true := by
  unfold uniform_depth
  rw [leaf_depths_linked bt _ _ h fuel 0 hf]
  exact all_replicate _ _

theorem uniform_of_leaf (bt : rl_btree) (fuel : Nat) (nd : rl_btree_node)
    (hs : select bt bt.root = some nd) (hc : nd.children = none) :
    uniform_depth fuel bt = true := by
  unfold uniform_depth
  cases fuel <;> simp [leaf_depths, hs, hc]

/-! ## Return codes of the search -/

theorem find_levels_retval (bt : rl_btree) (k : Int) (wv : Bool) : ∀ (n i node : Nat)
    (nodes : Option (Nat → Option Nat)) (positions : Option (Nat → Nat)) (r : find_result),
    find_levels bt k wv n i node nodes positions = some r →
    r.retval = RL_FOUND ∨ r.retval = RL_NOT_FOUND := by
  intro n
  induction n with
  | zero =>
    intro i node nodes positions r h
    simp only [find_levels, Option.some.injEq] at h
    subst h
    exact Or.inr rfl
  | succ n ih =>
    intro i node nodes positions r h
    rw [find_levels] at h
    cases hs : select bt node with
    | none => rw [hs] at h; cases h
    | some nd =>
      rw [hs] at h
      simp only at h
      cases hb : bisect k nd.scores (nd.size + 1) 0 0 ((nd.size : Int) - 1) with
      | none => rw [hb] at h; cases h
      | some br =>
        rw [hb] at h
        cases br with
        | hit pos =>
          simp only [Option.some.injEq] at h
          subst h
          exact Or.inl rfl
        | miss pos mx =>
          simp only at h
          exact ih _ _ _ _ r h

/-! ## The insertion position is unique -/

theorem ins_pos_unique (scores : Nat → Int) (size : Nat) (k : Int) (p q : Nat)
    (hp : p ≤ size) (hq : q ≤ size)
    (hp1 : ∀ j, j < p → scores j < k) (hp2 : ∀ j, p ≤ j → j < size → k < scores j)
    (hq1 : ∀ j, j < q → scores j < k) (hq2 : ∀ j, q ≤ j → j < size → k < scores j) :
    p = q := by
  rcases Nat.lt_trichotomy p q with h | h | h
  · have a := hq1 p h
    have b := hp2 p (le_refl _) (by omega)
    omega
  · exact h
  · have a := hp1 q h
    have b := hq2 q (le_refl _) (by omega)
    omega

/-! ## The balance check on a well-formed tree -/

theorem node_is_balanced_shape (bt : rl_btree) : ∀ (lv lo id : Nat) (is_root : Bool) (fuel : Nat),
    shape bt lv lo id = true → (is_root = true ∨ bt.max_node_size / 2 ≤ lo) → lv ≤ fuel + 1 →
    rl_btree_node_is_balanced bt fuel id is_root = some balance_result.uninitialised := by
  intro lv
  induction lv with
  | zero => intro lo id is_root fuel h; rw [shape_zero] at h; cases h
  | succ lv ih =>
    intro lo id is_root fuel h hroot hf
    rw [shape_succ] at h
    obtain ⟨nd, hs, hlo, hhi, hval, hcase⟩ := h
    have hnot : ¬ (is_root = false ∧ nd.size < bt.max_node_size / 2) := by
      rintro ⟨h1, h2⟩
      rcases hroot with h3 | h3
      · rw [h1] at h3; cases h3
      · omega
    rcases hcase with ⟨hc, _⟩ | ⟨ch, hc, hlv, hkids⟩
    · cases fuel <;> simp [rl_btree_node_is_balanced, hs, hc, hnot]
    · cases fuel with
      | zero => omega
      | succ fuel1 =>
        rw [rl_btree_node_is_balanced]
        simp only [hs, hc, hnot, if_false, balanced_children]
        rw [ih _ (ch 0) false fuel1 (hkids 0 (by omega)) (Or.inr (le_refl _)) (by omega)]

/-! ## Statements about the specification, continued -/

/-- C11: after a call of `rl_btree_add_element` or of `rl_btree_remove_element`
that returns `RL_OK` on a well-formed tree, all leaves of the resulting tree lie
at the same depth. -/
theorem uniform_depth_preserved (bt : rl_btree) (k v : Int) (fuel : Nat)
    (hwf : well_formed bt = true) (hfuel : bt.height ≤ fuel) :
    ((rl_btree_add_element bt k v).map Prod.fst = some RL_OK →
      uniform_depth fuel (after_add bt k v) = true) ∧
    ((rl_btree_remove_element bt k).map Prod.fst = some RL_OK →
      uniform_depth fuel (after_remove bt k) = true) := by
  have hwf0 := hwf
  rw [well_formed_iff] at hwf0
  obtain ⟨hev, h4, hht, hsh, hpw⟩ := hwf0
  constructor
  · intro hok
    by_cases hk : k ∈ keys bt bt.height bt.root
    · rw [add_present bt k v (shape_linked bt _ _ _ hsh) hpw hk] at hok
      cases hok
    · obtain ⟨b, hb, _, _, _, hsh1, hroot⟩ :=
        add_element_core bt k v 0 hwf (Nat.zero_le _) hsh hk
      have ha : after_add bt k v = b := by simp [after_add, hb]
      rw [ha]
      exact uniform_of_linked b fuel (shape_linked b _ _ _ hsh1)
        (by rcases hroot with ⟨e, _⟩ | ⟨e, _⟩ <;> omega)
  · intro hok
    by_cases hk : k ∈ keys bt bt.height bt.root
    · obtain ⟨rv, b, hb, _, _, _, hcase⟩ :=
        remove_element_core bt k 0 hwf (Nat.zero_le _) hsh hk
      have ha : after_remove bt k = b := by simp [after_remove, hb]
      rw [hb] at hok
      rw [ha]
      rcases hcase with ⟨e0, _⟩ | ⟨_, hsub⟩
      · subst e0; cases hok
      · rcases hsub with ⟨e1, e2, e3⟩ | ⟨e1, e2, e3⟩ | ⟨e1, e2, nd, e3, e4, e5⟩
        · exact uniform_of_linked b fuel (shape_linked b _ _ _ e3) (by omega)
        · exact uniform_of_linked b fuel (shape_linked b _ _ _ e3) (by omega)
        · exact uniform_of_leaf b fuel nd e3 e5
    · rw [remove_absent bt k (shape_linked bt _ _ _ hsh) hpw hk] at hok
      cases hok

/-- The key 5 splits the full root leaf 1, 2, 3, 4; the removal of 3 from the tree
1 to 5 collapses the root. -/
theorem uniform_depth_preserved_witness :
    (well_formed set_12345 = true ∧ set_12345.height ≤ 2 ∧
      (rl_btree_remove_element set_12345 3).map Prod.fst = some RL_OK) ∧
    uniform_depth 2 (after_remove set_12345 3) = true :=
  ⟨⟨by decide, by decide, by decide⟩,
    (uniform_depth_preserved set_12345 3 0 2 (by decide) (by decide)).2 (by decide)⟩

/-- A leaf whose single key is 2^32 comes back from
`long_set_btree_node_serialize` and `long_set_btree_node_deserialize` with the
key 0. -/
theorem round_trip_big_key :
    big_key_leaf.size ≤ fresh_set.max_node_size ∧
    node_fields big_key_leaf = (1, [4294967296], none, none) ∧
    (long_set_btree_node_deserialize fresh_set
      (long_set_btree_node_serialize big_key_leaf).2.1).map Prod.fst = some RL_OK ∧
    (long_set_btree_node_deserialize fresh_set
      (long_set_btree_node_serialize big_key_leaf).2.1).map
      (fun r => node_fields r.2) = some (1, [0], none, none) :=
  ⟨by decide, by decide, by decide, by decide⟩

/-- C12: for each of the `long_set` and `long_hash` type descriptors and for
every node with `size <= m` (leaf or internal) whose size, keys, values and child
ids fit unsigned 32-bit words and which, when internal, holds at least one key
and no child id 0, deserialising the bytes produced by serialising the node
yields a node equal to it in size, key sequence, value sequence and child-id
sequence. -/
theorem node_round_trip (bt : rl_btree) (node : rl_btree_node)
    (_hm : node.size ≤ bt.max_node_size) (hw : word_sized node = true) :
    (bt.type = long_set → node.values = none →
      (long_set_btree_node_deserialize bt (long_set_btree_node_serialize node).2.1).map
        (fun r => (r.1, node_fields r.2)) = some (RL_OK, node_fields node)) ∧
    (bt.type = long_hash → node.values.isSome = true →
      ∃ data size, long_hash_btree_node_serialize node = some (RL_OK, data, size) ∧
        (long_hash_btree_node_deserialize bt data).map (fun r => (r.1, node_fields r.2)) =
          some (RL_OK, node_fields node)) := by
  constructor
  · intro hty hv
    exact set_round_trip bt node (by rw [hty]; rfl) hv hw
  · intro hty hv
    rcases isSome_cases node.values with h0 | ⟨v, h0⟩
    · rw [h0] at hv; cases hv
    · exact hash_round_trip bt node v (by rw [hty]; decide) h0 hw

/-- The node of size 3 with keys 10, 20, 30 and children 7, 8, 9, 11, without
values under `long_set` and with values under `long_hash`. -/
theorem node_round_trip_witness :
    (node_3.size ≤ fresh_set.max_node_size ∧ word_sized node_3 = true ∧
      fresh_set.type = long_set ∧ node_3.values = none) ∧
    (long_set_btree_node_deserialize fresh_set (long_set_btree_node_serialize node_3).2.1).map
      (fun r => (r.1, node_fields r.2)) = some (RL_OK, node_fields node_3) :=
  ⟨⟨by decide, by decide, by decide, rfl⟩,
    (node_round_trip fresh_set node_3 (by decide) (by decide)).1 (by decide) rfl⟩

/-- C13: the deserialisers never return `RL_MALFORMED`, whatever the buffer
holds; on a buffer whose size word is 5, for a tree with `max_node_size = 4`,
`long_set_btree_node_deserialize` returns `RL_OK` with a node of size 5. -/
theorem deserialize_never_malformed (bt : rl_btree) (data : Nat → Nat) :
    (long_set_btree_node_deserialize bt data).map Prod.fst ≠ some RL_MALFORMED ∧
    (long_hash_btree_node_deserialize bt data).map Prod.fst ≠ some RL_MALFORMED ∧
    fresh_set.max_node_size = 4 ∧ get_4bytes size_5_buffer 0 = 5 ∧
    (long_set_btree_node_deserialize fresh_set size_5_buffer).map
      (fun r => (r.1, r.2.size)) = some (RL_OK, 5) := by
  refine ⟨?_, ?_, by decide, by decide, by decide⟩
  · simp only [long_set_btree_node_deserialize]
    split_ifs
    · cases (long_set_deserialize_keys data (get_4bytes data 0)
        ((rl_btree_node_create bt).scores, (rl_btree_node_create bt).children)).2 <;> simp
    · simp
  · simp only [long_hash_btree_node_deserialize]
    split_ifs
    · simp
    · cases (long_hash_deserialize_keys data (get_4bytes data 0)
        ((rl_btree_node_create bt).scores, (rl_btree_node_create bt).children,
          (rl_btree_node_create bt).values.getD (fun _ => 0))).2.1 <;> simp
    · simp

/-- For the node of size 3 the serialisers report 32 bytes under `long_set` and
44 bytes under `long_hash`, where `8 + n * (S_k + S_v + 4)` is 44 and 68. -/
theorem serialize_size_node_3 :
    (long_set_btree_node_serialize node_3).2.2 = 32 ∧
    8 + node_3.size * (long_set.score_size + long_set.value_size + 4) = 44 ∧
    (long_hash_btree_node_serialize node_3_hash).map (fun r => r.2.2) = some 44 ∧
    8 + node_3_hash.size * (long_hash.score_size + long_hash.value_size + 4) = 68 := by
  decide

/-- C14: the bytes a serialize function produces for a node of size `n` are: `n`
as a big-endian 4-byte word; then for each key in order the score as a 4-byte
word, the 4-byte child id (0 for a leaf) and, under `long_hash`, the value as a
4-byte word; then the trailing 4-byte child id.  The reported `data_size` is
`8 + n * 8` for `long_set` and `8 + n * 12` for `long_hash`, which for `n <= m`
is at most `8 + m * (S_k + S_v + 4)`. -/
theorem serialize_wire_layout (node : rl_btree_node) (m : Nat) :
    ((long_set_btree_node_serialize node).1 = RL_OK ∧
      (long_set_btree_node_serialize node).2.2 = 8 + node.size * 8 ∧
      live (long_set_btree_node_serialize node).2.1 (8 + node.size * 8) = wire_set node ∧
      (node.size ≤ m →
        (long_set_btree_node_serialize node).2.2 ≤
          8 + m * (long_set.score_size + long_set.value_size + 4))) ∧
    (∀ v, node.values = some v →
      ∃ data, long_hash_btree_node_serialize node = some (RL_OK, data, 8 + node.size * 12) ∧
        live data (8 + node.size * 12) = wire_hash node v ∧
        (node.size ≤ m →
          8 + node.size * 12 ≤ 8 + m * (long_hash.score_size + long_hash.value_size + 4))) := by
  obtain ⟨s1, s2, s3⟩ := set_serialize_layout node
  refine ⟨⟨s1, by rw [s2]; omega, by rw [Nat.mul_comm node.size 8]; exact s3, ?_⟩, ?_⟩
  · intro hm
    rw [s2]
    simp only [long_set]
    have := Nat.mul_le_mul_right 12 hm
    omega
  · intro v hv
    obtain ⟨data, h1, h2⟩ := hash_serialize_layout node v hv
    refine ⟨data, by rw [h1, Nat.mul_comm node.size 12],
      by rw [Nat.mul_comm node.size 12]; exact h2, ?_⟩
    intro hm
    simp only [long_hash]
    have := Nat.mul_le_mul_right 20 hm
    omega

/-- C15: for every node of size `n` whose keys are strictly ascending and every
key `k`, the bisection inside `rl_btree_find_score` ends; if `k` is the key at
index `j` it reports a hit at `j`, and if `k` is absent from the node it ends
with the one position `p <= n` such that every key at an index below `p` is
smaller than `k` and every key at an index from `p` on is larger, a position
that the adjustment after the loop leaves as it is. -/
theorem bisect_position (score : Int) (scores : Nat → Int) (size : Nat)
    (hs : (live scores size).Pairwise (fun x y => x < y)) :
    (∀ j, j < size → scores j = score →
      bisect score scores (size + 1) 0 0 ((size : Int) - 1) = some (bisect_result.hit j)) ∧
    ((∀ j, j < size → scores j ≠ score) →
      ∃ (p : Nat) (mx : Int),
        bisect score scores (size + 1) 0 0 ((size : Int) - 1) =
          some (bisect_result.miss p mx) ∧
        ¬ ((p : Int) = mx ∧ long_cmp score (scores p) = 1) ∧
        p ≤ size ∧ (∀ j, j < p → scores j < score) ∧
        (∀ j, p ≤ j → j < size → score < scores j) ∧
        ∀ q, q ≤ size → (∀ j, j < q → scores j < score) →
          (∀ j, q ≤ j → j < size → score < scores j) → q = p) := by
  rw [pairwise_live] at hs
  rcases bisect_node score scores size hs with ⟨p, hb, hp, hsp⟩ | ⟨p, mx, hb, hp, h1, h2, h3⟩
  · constructor
    · intro j hj hsj
      have : j = p := by
        rcases Nat.lt_trichotomy j p with h | h | h
        · have := hs j p h hp; omega
        · exact h
        · have := hs p j h hj; omega
      rw [this, hb]
    · intro habs
      exact (habs p hp hsp).elim
  · constructor
    · intro j hj hsj
      by_cases hjp : j < p
      · have := h1 j hjp; omega
      · have := h2 j (by omega) hj; omega
    · intro _
      exact ⟨p, mx, hb, h3, hp, h1, h2,
        fun q hq hq1 hq2 => ins_pos_unique scores size score q p hq hp hq1 hq2 h1 h2⟩

/-- The keys 10, 20, 30 searched for 20. -/
theorem bisect_position_witness :
    (live node_3.scores 3).Pairwise (fun x y => x < y) ∧
    bisect 20 node_3.scores (3 + 1) 0 0 (((3 : Nat) : Int) - 1) =
      some (bisect_result.hit 1) :=
  ⟨by decide, (bisect_position 20 node_3.scores 3 (by decide)).1 1 (by decide) (by decide)⟩

/-- C16: when `rl_btree_find_score` is given both path outputs on a well-formed
tree of height `h`: on a miss, for every level `nodes[i]` is the node visited and
`positions[i]` the insertion position in it, which is the index of the child
followed; on a hit the levels down to the hit are filled the same way, with the
index of the matching key at the level of the hit, and every later slot of
`nodes` below `h` is NULL. -/
theorem find_score_path (bt : rl_btree) (k : Int) (want_value : Bool)
    (nodes0 : Nat → Option Nat) (positions0 : Nat → Nat) (fuel : Nat) (l : List Int)
    (hwl : well_linked bt = true) (hfuel : bt.height ≤ fuel + 1)
    (hfl : rl_flatten_btree fuel bt = some l) :
    ∃ r nodes positions,
      rl_btree_find_score bt k want_value (some nodes0) (some positions0) = some r ∧
      r.nodes = some nodes ∧ r.positions = some positions ∧
      (k ∉ l → r.retval = RL_NOT_FOUND ∧
        miss_path bt nodes positions k bt.height 0 bt.root) ∧
      (k ∈ l → r.retval = RL_FOUND ∧
        hit_path bt bt.height nodes positions k bt.height 0 bt.root) := by
  rw [well_linked_iff] at hwl
  unfold rl_flatten_btree at hfl
  rw [flatten_linked bt _ _ hwl.1 fuel hfuel] at hfl
  cases hfl
  obtain ⟨r, hr, hrv, hpath⟩ := find_levels_spec bt k want_value bt.height 0 bt.root
    (some nodes0) (some positions0) hwl.1 hwl.2 rfl
  obtain ⟨nodes1, positions1, hn1, hp1, _, hhit, hmiss⟩ := hpath _ _ rfl rfl
  refine ⟨r, nodes1, positions1, ?_, hn1, hp1, ?_, ?_⟩
  · simp only [rl_btree_find_score, Option.isNone_some, Option.isSome_some,
      Bool.false_eq_true, and_true, and_false, or_self, if_false]
    exact hr
  · intro hk
    rw [if_neg hk] at hrv
    exact ⟨hrv, hmiss hk⟩
  · intro hk
    rw [if_pos hk] at hrv
    exact ⟨hrv, hhit hk (by omega)⟩

/-- The tree 1 to 5 searched with path outputs for the key 4. -/
theorem find_score_path_witness :
    (well_linked set_12345 = true ∧ set_12345.height ≤ 1 + 1 ∧
      rl_flatten_btree 1 set_12345 = some [1, 2, 3, 4, 5]) ∧
    ∃ r nodes positions,
      rl_btree_find_score set_12345 4 false (some (fun _ => none)) (some (fun _ => 0)) =
        some r ∧
      r.nodes = some nodes ∧ r.positions = some positions ∧
      ((4 : Int) ∉ [1, 2, 3, 4, 5] → r.retval = RL_NOT_FOUND ∧
        miss_path set_12345 nodes positions 4 set_12345.height 0 set_12345.root) ∧
      ((4 : Int) ∈ [1, 2, 3, 4, 5] → r.retval = RL_FOUND ∧
        hit_path set_12345 set_12345.height nodes positions 4 set_12345.height 0
          set_12345.root) :=
  ⟨⟨by decide, by decide, by decide⟩,
    find_score_path set_12345 4 false (fun _ => none) (fun _ => 0) 1 [1, 2, 3, 4, 5]
      (by decide) (by decide) (by decide)⟩

/-- C17: `rl_btree_find_score` returns `RL_INVALID_PARAMETERS`, whatever the
tree holds and with the outputs as they were, when one of the two path outputs
is supplied and the other is not; when both or neither are supplied every
return code is `RL_FOUND` or `RL_NOT_FOUND`. -/
theorem find_score_invalid_parameters (bt : rl_btree) (k : Int) (want_value : Bool)
    (nodes : Option (Nat → Option Nat)) (positions : Option (Nat → Nat)) :
    (nodes.isSome ≠ positions.isSome →
      rl_btree_find_score bt k want_value nodes positions =
        some { retval := RL_INVALID_PARAMETERS, value := none, nodes := nodes,
               positions := positions }) ∧
    (nodes.isSome = positions.isSome →
      ∀ r, rl_btree_find_score bt k want_value nodes positions = some r →
        r.retval = RL_FOUND ∨ r.retval = RL_NOT_FOUND) := by
  constructor
  · intro h
    cases nodes <;> cases positions <;> simp [rl_btree_find_score] at h ⊢
  · intro h r hr
    have hg : ¬ ((nodes.isNone ∧ positions.isSome) ∨ (nodes.isSome ∧ positions.isNone)) := by
      cases nodes <;> cases positions <;> simp at h ⊢
    simp only [rl_btree_find_score, hg, if_false] at hr
    exact find_levels_retval bt k want_value _ _ _ _ _ r hr

/-- C18: on the tree `thin_leaves_tree`, whose two leaves hold one key where the
minimum fill is 2, and on the tree `descending_tree`, whose in-order keys are
9, 5, 1, `rl_btree_is_balanced` returns `RL_OK`. -/
theorem is_balanced_accepts_bad_trees :
    thin_leaves_tree.max_node_size = 4 ∧
    min_fill thin_leaves_tree = false ∧
    rl_btree_is_balanced 1 thin_leaves_tree = some (balance_result.code RL_OK) ∧
    rl_flatten_btree 1 descending_tree = some [9, 5, 1] ∧
    rl_btree_is_balanced 1 descending_tree = some (balance_result.code RL_OK) := by
  decide

/-- C19: on every well-formed tree `rl_btree_is_balanced` hands back the value of
the local `retval` of `rl_btree_node_is_balanced`, which no statement has
assigned, and not `RL_OK`. -/
theorem is_balanced_unassigned (bt : rl_btree) (fuel : Nat) (hwf : well_formed bt = true)
    (hfuel : bt.height ≤ fuel + 1) :
    rl_btree_is_balanced fuel bt = some balance_result.uninitialised := by
  rw [well_formed_iff] at hwf
  unfold rl_btree_is_balanced
  rw [node_is_balanced_shape bt _ _ _ true fuel hwf.2.2.2.1 (Or.inl rfl) hfuel]

/-- The tree built by adding 8, 7, 6, 5, 4, 3, 2, 1, whose flatten output is 1 to
8. -/
theorem is_balanced_unassigned_witness :
    (well_formed set_87654321 = true ∧ set_87654321.height ≤ 1 + 1 ∧
      rl_flatten_btree 1 set_87654321 = some [1, 2, 3, 4, 5, 6, 7, 8]) ∧
    rl_btree_is_balanced 1 set_87654321 = some balance_result.uninitialised :=
  ⟨⟨by decide, by decide, by decide⟩,
    is_balanced_unassigned set_87654321 1 (by decide) (by decide)⟩

/-- C20: for every well-formed tree whose root, when it is internal, holds at
least one key, and every key, `rl_btree_remove_element` returns `RL_OK` or
`RL_NOT_FOUND`: none of the diagnostic exits is taken. -/
theorem remove_retval (bt : rl_btree) (k : Int) (hwf : well_formed bt = true)
    (hroot : root_has_key bt = true) :
    (rl_btree_remove_element bt k).map Prod.fst = some RL_OK ∨
    (rl_btree_remove_element bt k).map Prod.fst = some RL_NOT_FOUND := by
  have hwf0 := hwf
  rw [well_formed_iff] at hwf0
  obtain ⟨hev, h4, hht, hsh, hpw⟩ := hwf0
  by_cases hk : k ∈ keys bt bt.height bt.root
  · obtain ⟨rv, b, hb, _, _, _, hcase⟩ :=
      remove_element_core bt k 1 hwf (le_refl _) (shape_one_of_mem bt k hwf hroot hk) hk
    rcases hcase with ⟨_, e0⟩ | ⟨hrv, _⟩
    · omega
    · subst hrv
      exact Or.inl (by rw [hb]; rfl)
  · rw [remove_absent bt k (shape_linked bt _ _ _ hsh) hpw hk]
    exact Or.inr rfl

/-- The key 50 removed from the hash tree `hash_9`. -/
theorem remove_retval_witness :
    (well_formed hash_9 = true ∧ root_has_key hash_9 = true) ∧
    ((rl_btree_remove_element hash_9 50).map Prod.fst = some RL_OK ∨
      (rl_btree_remove_element hash_9 50).map Prod.fst = some RL_NOT_FOUND) :=
  ⟨⟨by decide, by decide⟩, remove_retval hash_9 50 (by decide) (by decide)⟩

/-! ## The split of a full node, with values -/

/-- The three cases of `split_keys` on a full array of `m = 2 * h` entries, for
every `h`. -/
theorem split_keys_even {α : Type} (m h p : Nat) (a r : Nat → α) (x : α) (hm : m = 2 * h)
    (hp : p ≤ m) :
    live (split_keys m p a r x).1 h = ((live a m).take p ++ x :: (live a m).drop p).take h ∧
    live (split_keys m p a r x).2.1 h =
      ((live a m).take p ++ x :: (live a m).drop p).drop (h + 1) ∧
    ((live a m).take p ++ x :: (live a m).drop p)[h]? = some (split_keys m p a r x).2.2 := by
  have hh2 : m / 2 = h := by omega
  unfold split_keys
  rw [hh2]
  by_cases h1 : p < h
  · simp only [h1, if_true]
    refine ⟨?_, ?_, ?_⟩
    · apply List.ext_getElem?
      intro i
      simp only [live_getElem?, List.getElem?_append, List.getElem?_take, List.getElem?_cons,
        List.getElem?_drop, List.length_take, live_length, aset, memmove_dbg]
      split_ifs <;> first | rfl | omega | (congr 1; congr 1; omega)
    · apply List.ext_getElem?
      intro i
      simp only [live_getElem?, List.getElem?_append, List.getElem?_take, List.getElem?_cons,
        List.getElem?_drop, List.length_take, live_length, aset, memmove_dbg]
      split_ifs <;> first | rfl | omega | (congr 1; congr 1; omega)
    · simp only [live_getElem?, List.getElem?_append, List.getElem?_take, List.getElem?_cons,
        List.getElem?_drop, List.length_take, live_length, aset, memmove_dbg]
      split_ifs <;> first | rfl | omega | (congr 1; congr 1; omega)
  · simp only [h1, if_false]
    by_cases h2 : p = h
    · simp only [h2, if_true]
      refine ⟨?_, ?_, ?_⟩
      · apply List.ext_getElem?
        intro i
        simp only [live_getElem?, List.getElem?_append, List.getElem?_take, List.getElem?_cons,
          List.getElem?_drop, List.length_take, live_length, aset, memmove_dbg]
        split_ifs <;> first | rfl | omega
      · apply List.ext_getElem?
        intro i
        simp only [live_getElem?, List.getElem?_append, List.getElem?_take, List.getElem?_cons,
          List.getElem?_drop, List.length_take, live_length, aset, memmove_dbg]
        split_ifs <;> first | rfl | omega | (congr 1; congr 1; omega)
      · simp only [live_getElem?, List.getElem?_append, List.getElem?_take, List.getElem?_cons,
          List.getElem?_drop, List.length_take, live_length, aset, memmove_dbg]
        split_ifs <;> first | rfl | omega
    · simp only [h2, if_false]
      refine ⟨?_, ?_, ?_⟩
      · apply List.ext_getElem?
        intro i
        simp only [live_getElem?, List.getElem?_append, List.getElem?_take, List.getElem?_cons,
          List.getElem?_drop, List.length_take, live_length, aset, memmove_dbg]
        split_ifs <;> first | rfl | omega
      · apply List.ext_getElem?
        intro i
        simp only [live_getElem?, List.getElem?_append, List.getElem?_take, List.getElem?_cons,
          List.getElem?_drop, List.length_take, live_length, aset, memmove_dbg]
        split_ifs <;> first | rfl | omega | (congr 1; congr 1; omega)
      · simp only [live_getElem?, List.getElem?_append, List.getElem?_take, List.getElem?_cons,
          List.getElem?_drop, List.length_take, live_length, aset, memmove_dbg]
        split_ifs <;> first | rfl | omega

/-- The three cases of `split_children` on the `m + 1` children of a full node: the
first and second half of the children with `c` inserted at `p + 1`. -/
theorem split_children_even (m h p : Nat) (a r : Nat → Nat) (c : Nat) (hm : m = 2 * h)
    (hp : p ≤ m) :
    live (split_children m p a r c).1 (h + 1) =
      ((live a (m + 1)).take (p + 1) ++ c :: (live a (m + 1)).drop (p + 1)).take (h + 1) ∧
    live (split_children m p a r c).2 (h + 1) =
      ((live a (m + 1)).take (p + 1) ++ c :: (live a (m + 1)).drop (p + 1)).drop (h + 1) := by
  have hh2 : m / 2 = h := by omega
  unfold split_children
  rw [hh2]
  by_cases h1 : p < h
  · simp only [h1, if_true]
    refine ⟨?_, ?_⟩
    · apply List.ext_getElem?
      intro i
      simp only [live_getElem?, List.getElem?_append, List.getElem?_take, List.getElem?_cons,
        List.getElem?_drop, List.length_take, live_length, aset, memmove_dbg]
      split_ifs <;> first | rfl | omega | (congr 1; congr 1; omega)
    · apply List.ext_getElem?
      intro i
      simp only [live_getElem?, List.getElem?_append, List.getElem?_take, List.getElem?_cons,
        List.getElem?_drop, List.length_take, live_length, aset, memmove_dbg]
      split_ifs <;> first | rfl | omega | (congr 1; congr 1; omega)
  · simp only [h1, if_false]
    by_cases h2 : p = h
    · simp only [h2, if_true]
      refine ⟨?_, ?_⟩
      · apply List.ext_getElem?
        intro i
        simp only [live_getElem?, List.getElem?_append, List.getElem?_take, List.getElem?_cons,
          List.getElem?_drop, List.length_take, live_length, aset, memmove_dbg]
        split_ifs <;> first | rfl | omega
      · apply List.ext_getElem?
        intro i
        simp only [live_getElem?, List.getElem?_append, List.getElem?_take, List.getElem?_cons,
          List.getElem?_drop, List.length_take, live_length, aset, memmove_dbg]
        split_ifs <;> first | rfl | omega | (congr 1; congr 1; omega)
    · simp only [h2, if_false]
      refine ⟨?_, ?_⟩
      · apply List.ext_getElem?
        intro i
        simp only [live_getElem?, List.getElem?_append, List.getElem?_take, List.getElem?_cons,
          List.getElem?_drop, List.length_take, live_length, aset, memmove_dbg]
        split_ifs <;> first | rfl | omega
      · apply List.ext_getElem?
        intro i
        simp only [live_getElem?, List.getElem?_append, List.getElem?_take, List.getElem?_cons,
          List.getElem?_drop, List.length_take, live_length, aset, memmove_dbg]
        split_ifs <;> first | rfl | omega | (congr 1; congr 1; omega)

theorem split_keys_carried {α : Type} (m pos : Nat) (a r : Nat → α) (x : α) :
    (split_keys m pos a r x).2.2 =
      if pos < m / 2 then a (m / 2 - 1) else if pos = m / 2 then x else a (m / 2) := by
  unfold split_keys
  split_ifs <;> rfl

theorem split_keys_whole {α : Type} (m h p : Nat) (a r : Nat → α) (x : α) (hm : m = 2 * h)
    (hp : p ≤ m) :
    live (split_keys m p a r x).1 h ++ (split_keys m p a r x).2.2 ::
        live (split_keys m p a r x).2.1 h =
      (live a m).take p ++ x :: (live a m).drop p := by
  obtain ⟨k1, k2, k3⟩ := split_keys_even m h p a r x hm hp
  rw [k1, k2]
  have hlt : h < ((live a m).take p ++ x :: (live a m).drop p).length := by
    simp; omega
  rw [List.getElem?_eq_getElem hlt] at k3
  simp only [Option.some.injEq] at k3
  rw [← k3]
  conv_rhs => rw [list_split_at _ h hlt]
  simp

theorem split_children_whole (m h p : Nat) (a r : Nat → Nat) (c : Nat) (hm : m = 2 * h)
    (hp : p ≤ m) :
    live (split_children m p a r c).1 (h + 1) ++ live (split_children m p a r c).2 (h + 1) =
      (live a (m + 1)).take (p + 1) ++ c :: (live a (m + 1)).drop (p + 1) := by
  obtain ⟨c1, c2⟩ := split_children_even m h p a r c hm hp
  rw [c1, c2, List.take_append_drop]

/-- What `add_split` returns, in terms of `split_keys` and `split_children`. -/
theorem add_split_parts (m : Nat) (node right : rl_btree_node) (pos : Nat)
    (score value : Int) (child : Option Nat)
    (hv : right.values.isSome = node.values.isSome)
    (hc : child.isSome = true → node.children.isSome = true ∧ right.children.isSome = true) :
    ∃ l r s1 v1, add_split m node right pos score value child = some (l, r, s1, v1) ∧
      l.size = m / 2 ∧ r.size = m / 2 ∧
      l.scores = (split_keys m pos node.scores right.scores score).1 ∧
      r.scores = (split_keys m pos node.scores right.scores score).2.1 ∧
      s1 = (split_keys m pos node.scores right.scores score).2.2 ∧
      (∀ nv, node.values = some nv → ∃ rv, right.values = some rv ∧
        l.values = some (split_keys m pos nv rv value).1 ∧
        r.values = some (split_keys m pos nv rv value).2.1 ∧
        v1 = (split_keys m pos nv rv value).2.2) ∧
      (node.values = none → l.values = none ∧ r.values = none ∧ v1 = value) ∧
      (∀ c, child = some c → ∃ nc rc, node.children = some nc ∧ right.children = some rc ∧
        l.children = some (split_children m pos nc rc c).1 ∧
        r.children = some (split_children m pos nc rc c).2) ∧
      (child = none → l.children = node.children ∧ r.children = right.children) := by
  rcases isSome_cases node.values with hnv | ⟨nv, hnv⟩ <;>
  rcases isSome_cases right.values with hrv | ⟨rv, hrv⟩ <;>
  simp only [hnv, hrv, Option.isSome_some, Option.isSome_none, Bool.false_eq_true,
    Bool.true_eq_false] at hv
  · cases child with
    | none =>
      refine ⟨_, _, _, _, by simp only [add_split, hnv, hrv]; rfl, rfl, rfl, rfl, rfl, rfl, ?_, ?_,
        ?_, ?_⟩
      · intro nv0 h0; rw [hnv] at h0; cases h0
      · intro _; exact ⟨rfl, rfl, rfl⟩
      · intro c h0; cases h0
      · intro _; exact ⟨rfl, rfl⟩
    | some c =>
      obtain ⟨h1, h2⟩ := hc rfl
      obtain ⟨nc, hnc⟩ := Option.isSome_iff_exists.mp h1
      obtain ⟨rc, hrc⟩ := Option.isSome_iff_exists.mp h2
      refine ⟨_, _, _, _, by simp only [add_split, hnv, hrv, hnc, hrc]; rfl, rfl, rfl, rfl, rfl,
        rfl, ?_, ?_, ?_, ?_⟩
      · intro nv0 h0; rw [hnv] at h0; cases h0
      · intro _; exact ⟨rfl, rfl, rfl⟩
      · intro c0 h0; cases h0; exact ⟨nc, rc, hnc, hrc, rfl, rfl⟩
      · intro h0; cases h0
  · cases child with
    | none =>
      refine ⟨_, _, _, _, by simp only [add_split, hnv, hrv]; rfl, rfl, rfl, rfl, rfl, rfl, ?_, ?_,
        ?_, ?_⟩
      · intro nv0 h0; rw [hnv] at h0; cases h0; exact ⟨rv, hrv, rfl, rfl, rfl⟩
      · intro h0; rw [hnv] at h0; cases h0
      · intro c h0; cases h0
      · intro _; exact ⟨rfl, rfl⟩
    | some c =>
      obtain ⟨h1, h2⟩ := hc rfl
      obtain ⟨nc, hnc⟩ := Option.isSome_iff_exists.mp h1
      obtain ⟨rc, hrc⟩ := Option.isSome_iff_exists.mp h2
      refine ⟨_, _, _, _, by simp only [add_split, hnv, hrv, hnc, hrc]; rfl, rfl, rfl, rfl, rfl,
        rfl, ?_, ?_, ?_, ?_⟩
      · intro nv0 h0; rw [hnv] at h0; cases h0; exact ⟨rv, hrv, rfl, rfl, rfl⟩
      · intro h0; rw [hnv] at h0; cases h0
      · intro c0 h0; cases h0; exact ⟨nc, rc, hnc, hrc, rfl, rfl⟩
      · intro h0; cases h0

/-! ## The child carried up by the main loop of `rl_btree_add_element` -/

theorem add_level_child (nodes : Nat → Option Nat) (positions : Nat → Nat) (i : Nat)
    (st st1 : add_state) (h : add_level nodes positions i st = some st1) :
    st.bt.accessor.length ≤ st1.bt.accessor.length ∧
    (st1.placed = false → st1.child = some st.bt.accessor.length) := by
  unfold add_level at h
  cases hn : nodes i with
  | none => rw [hn] at h; cases h
  | some id =>
    rw [hn] at h
    simp only at h
    cases hs : select st.bt id with
    | none => rw [hs] at h; cases h
    | some node =>
      rw [hs] at h
      simp only at h
      by_cases hfull : node.size < st.bt.max_node_size
      · simp only [hfull, if_true] at h
        cases ha : add_into_node node (positions i) st.score st.value st.child with
        | none => rw [ha] at h; cases h
        | some node1 =>
          rw [ha] at h
          simp only [Option.some.injEq] at h
          subst h
          exact ⟨by simp, fun hp => by cases hp⟩
      · simp only [hfull, if_false] at h
        generalize add_split st.bt.max_node_size node _ (positions i) st.score st.value
          st.child = res at h
        cases res with
        | none => cases h
        | some q =>
          obtain ⟨l, r, s1, v1⟩ := q
          simp only [Option.some.injEq] at h
          subst h
          exact ⟨by simp, fun _ => by simp⟩

theorem add_levels_child (nodes : Nat → Option Nat) (positions : Nat → Nat) (lo L : Nat) :
    ∀ (n : Nat) (st st1 : add_state), L ≤ st.bt.accessor.length →
      add_levels nodes positions lo n st = some st1 → st1.placed = false →
      (n = 0 → ∃ c, st.child = some c ∧ L ≤ c) →
      ∃ c, st1.child = some c ∧ L ≤ c := by
  intro n
  induction n with
  | zero =>
    intro st st1 _ h hp h0
    simp only [add_levels, Option.some.injEq] at h
    subst h
    exact h0 rfl
  | succ n ih =>
    intro st st1 hL h hp _
    rw [add_levels] at h
    cases ha : add_level nodes positions (lo + n) st with
    | none => rw [ha] at h; cases h
    | some st2 =>
      rw [ha] at h
      simp only at h
      obtain ⟨a1, a2⟩ := add_level_child nodes positions (lo + n) st st2 ha
      by_cases hp2 : st2.placed = true
      · simp only [hp2, if_true, Option.some.injEq] at h
        subst h
        rw [hp2] at hp; cases hp
      · simp only [hp2, if_false] at h
        have hp3 : st2.placed = false := by simpa using hp2
        exact ih st2 st1 (by omega) h hp (fun _ => ⟨_, a2 hp3, hL⟩)

theorem select_none_of_le (bt : rl_btree) (x : Nat) (h : bt.accessor.length ≤ x) :
    select bt x = none := by
  cases hs : select bt x with
  | none => rfl
  | some nd => have := select_lt hs; omega

/-! ## The descent to the in-order predecessor -/

theorem descend_keeps (bt : rl_btree) : ∀ (n e c : Nat) (nodes : Nat → Option Nat)
    (positions : Nat → Nat) (cid : Nat) (nodes1 : Nat → Option Nat) (positions1 : Nat → Nat),
    descend bt n e c nodes positions = some (cid, nodes1, positions1) →
    ∀ j, j ≤ e → nodes1 j = nodes j ∧ positions1 j = positions j := by
  intro n
  induction n with
  | zero =>
    intro e c nodes positions cid nodes1 positions1 h j _
    simp only [descend, Option.some.injEq, Prod.mk.injEq] at h
    obtain ⟨_, h2, h3⟩ := h
    subst h2; subst h3
    exact ⟨rfl, rfl⟩
  | succ n ih =>
    intro e c nodes positions cid nodes1 positions1 h j hj
    rw [descend] at h
    cases hs : select bt c with
    | none => rw [hs] at h; cases h
    | some cn =>
      rw [hs] at h
      simp only at h
      cases hc : cn.children with
      | none => rw [hc] at h; cases h
      | some ch =>
        rw [hc] at h
        simp only at h
        cases hx : select bt (ch (positions e)) with
        | none => rw [hx] at h; cases h
        | some next =>
          rw [hx] at h
          simp only at h
          obtain ⟨a1, a2⟩ := ih _ _ _ _ _ _ _ h j (by omega)
          rw [a1, a2]
          simp only [aset]
          rw [if_neg (by omega), if_neg (by omega)]
          exact ⟨rfl, rfl⟩

/-- The descent of lines 552-556 records, at every level below the start, the
node reached and its size, and each node reached is the last child of the one
above. -/
theorem descend_rightmost (bt : rl_btree) : ∀ (lv e lo c : Nat) (nodes : Nat → Option Nat)
    (positions : Nat → Nat), shape bt lv lo c = true → nodes e = some c →
    (∀ nd, select bt c = some nd → positions e = nd.size) →
    ∀ (cid : Nat) (nodes1 : Nat → Option Nat) (positions1 : Nat → Nat),
    descend bt (lv - 1) e c nodes positions = some (cid, nodes1, positions1) →
    rightmost_path bt nodes1 positions1 lv e c ∧ nodes1 (e + lv - 1) = some cid := by
  intro lv
  induction lv with
  | zero => intro e lo c nodes positions hsh; rw [shape_zero] at hsh; cases hsh
  | succ lv ih =>
    intro e lo c nodes positions hsh hne hpe cid nodes1 positions1 hd
    rw [shape_succ] at hsh
    obtain ⟨nd, hs, hlo, hhi, hval, hcase⟩ := hsh
    rcases hcase with ⟨hc, hlv⟩ | ⟨ch, hc, hlv, hkids⟩
    · subst hlv
      simp only [Nat.zero_add, Nat.sub_self, descend, Option.some.injEq, Prod.mk.injEq] at hd
      obtain ⟨h1, h2, h3⟩ := hd
      subst h1; subst h2; subst h3
      refine ⟨⟨hne, nd, hs, hpe nd hs, fun ch h0 => ?_⟩, by simpa using hne⟩
      rw [hc] at h0; cases h0
    · obtain ⟨lv, rfl⟩ : ∃ l, lv = l + 1 := ⟨lv - 1, by omega⟩
      have hpe1 := hpe nd hs
      have hshc := hkids nd.size (le_refl _)
      obtain ⟨next, hnext⟩ := shape_select hshc
      simp only [Nat.add_sub_cancel, descend, hs, hc, hpe1, hnext] at hd
      obtain ⟨q1, q2⟩ := ih (e + 1) _ (ch nd.size) (aset nodes (e + 1) (some (ch nd.size)))
        (aset positions (e + 1) next.size) hshc (by simp [aset])
        (fun nd0 h0 => by rw [hnext] at h0; cases h0; simp [aset]) cid nodes1 positions1
        (by simpa using hd)
      obtain ⟨a1, a2⟩ := descend_keeps bt _ _ _ _ _ _ _ _ hd e (by omega)
      refine ⟨⟨?_, nd, hs, ?_, fun ch0 h0 => ?_⟩, ?_⟩
      · rw [a1]; simp only [aset]; rw [if_neg (by omega)]; exact hne
      · rw [a2]; simp only [aset]; rw [if_neg (by omega)]; exact hpe1
      · rw [hc] at h0; cases h0; exact q1
      · have e0 : e + (lv + 1 + 1) - 1 = e + 1 + (lv + 1) - 1 := by omega
        rw [e0]; exact q2

/-- The node at which the search path of a present key ends. -/
theorem hit_end (bt : rl_btree) (k : Int) (nodes : Nat → Option Nat) (positions : Nat → Nat) :
    ∀ (lv e lo id0 : Nat), e + lv = bt.height →
      hit_path bt bt.height nodes positions k lv e id0 → shape bt lv lo id0 = true →
      (keys bt lv id0).Pairwise (fun x y => x < y) → (ids bt lv id0).Nodup →
      ∃ d id nd lv1 lo1, d + (lv1 + 1) = bt.height ∧
        last_node nodes bt.height = some (d, id) ∧ nodes d = some id ∧
        select bt id = some nd ∧ positions d < nd.size ∧ nd.scores (positions d) = k ∧
        shape bt (lv1 + 1) lo1 id = true ∧
        (keys bt (lv1 + 1) id).Pairwise (fun x y => x < y) ∧ (ids bt (lv1 + 1) id).Nodup := by
  intro lv
  induction lv with
  | zero => intro e lo id0 _ hp; exact hp.elim
  | succ lv ih =>
    intro e lo id0 hH hpath hsh hpw hn
    obtain ⟨hnd, nd, hs, hcase⟩ := hpath
    rcases hcase with ⟨hp, hk, hab⟩ | ⟨hins, ch, hc, hrec⟩
    · exact ⟨e, id0, nd, lv, lo, hH, last_node_hit nodes e id0 hnd bt.height (by omega) hab, hnd,
        hs, hp, hk, hsh, hpw, hn⟩
    · have hsh0 := hsh
      rw [shape_succ] at hsh
      obtain ⟨nd1, hs1, hlo, hhi, hval, hsc⟩ := hsh
      rw [hs] at hs1; cases hs1
      rcases hsc with ⟨hc0, _⟩ | ⟨ch1, hc1, hlv, hkids⟩
      · rw [hc] at hc0; cases hc0
      · rw [hc] at hc1; cases hc1
        obtain ⟨_, n2, _⟩ := nodup_ids_internal hs hc hn
        exact ih (e + 1) _ (ch (positions e)) (by omega) hrec (hkids _ hins.1)
          (child_ascending hs hc hpw _ hins.1) (n2 _ hins.1)

/-- The first loop of `rl_btree_remove_element` at an internal node: what
`delete_key` returns, with the value it stores. -/
theorem delete_key_swap (bt : rl_btree) (nodes nodes1 : Nat → Option Nat)
    (positions positions1 : Nat → Nat) (d id cid n : Nat) (nd leaf : rl_btree_node)
    (ch : Nat → Nat) (hs : select bt id = some nd) (hc : nd.children = some ch)
    (hn : bt.height - 1 - d = n)
    (hd : descend bt n d id nodes positions = some (cid, nodes1, positions1))
    (hsl : select bt cid = some leaf) (hlc : leaf.children = none) (hl1 : 1 ≤ leaf.size)
    (hci : cid ≠ id) (hv : leaf.values.isSome = nd.values.isSome) :
    delete_key bt nodes positions d id = some (delete_result.done
      (store (store bt cid { leaf with size := leaf.size - 1 }) id
        { nd with
          scores := aset nd.scores (positions1 d) (leaf.scores (leaf.size - 1))
          values := nd.values.bind (fun v =>
            leaf.values.map (fun cv => aset v (positions1 d) (cv (leaf.size - 1)))) })
      nodes1 positions1 (d + n)) := by
  have hs2 : ∀ L, select (store bt cid L) id = some nd := by
    intro L
    rw [select_store_ne _ _ _ _ (Ne.symm hci), hs]
  have hz : ¬ leaf.size = 0 := by omega
  simp only [delete_key, hs, hc, hn, hd, hsl, hlc, Option.isSome_none, Bool.false_eq_true,
    if_false, hz, hs2]
  cases hvn : nd.values with
  | none => rfl
  | some v =>
    cases hvl : leaf.values with
    | none => rw [hvn, hvl] at hv; cases hv
    | some cv => rfl

/-- A key found in an internal node is replaced by the last key of the leaf that
the descent along the last children reaches from the child left of the key. -/
theorem predecessor_step (bt : rl_btree) (h : Nat) (hh : 1 ≤ h)
    (hm : bt.max_node_size = 2 * h) (nodes : Nat → Option Nat)
    (positions : Nat → Nat) (lv d lo id : Nat) (nd : rl_btree_node) (ch : Nat → Nat)
    (hH : d + (lv + 1 + 1) = bt.height)
    (hs : select bt id = some nd) (hc : nd.children = some ch)
    (hp : positions d < nd.size)
    (hsh : shape bt (lv + 1 + 1) lo id = true)
    (hpw : (keys bt (lv + 1 + 1) id).Pairwise (fun x y => x < y))
    (hn : (ids bt (lv + 1 + 1) id).Nodup) :
    ∃ cid leaf nodes1 positions1,
      delete_key bt nodes positions d id = some (delete_result.done
        (store (store bt cid { leaf with size := leaf.size - 1 }) id
          { nd with
            scores := aset nd.scores (positions d) (leaf.scores (leaf.size - 1))
            values := nd.values.bind (fun v =>
              leaf.values.map (fun cv => aset v (positions d) (cv (leaf.size - 1)))) })
        nodes1 positions1 (d + (lv + 1))) ∧
      select bt cid = some leaf ∧ leaf.children = none ∧ 1 ≤ leaf.size ∧ cid ≠ id ∧
      leaf.values.isSome = nd.values.isSome ∧
      (∀ j, j ≤ d → nodes1 j = nodes j ∧ positions1 j = positions j) ∧
      rightmost_path bt nodes1 positions1 (lv + 1) (d + 1) (ch (positions d)) ∧
      nodes1 (d + (lv + 1)) = some cid ∧
      (keys bt (lv + 1) (ch (positions d))).getLast? = some (leaf.scores (leaf.size - 1)) ∧
      ∀ x ∈ keys bt (lv + 1) (ch (positions d)), x ≤ leaf.scores (leaf.size - 1) := by
  have hh2 : bt.max_node_size / 2 = h := by omega
  obtain ⟨n1, n2, n3⟩ := nodup_ids_internal hs hc hn
  obtain ⟨kc1, kc2, kc3, kc4, kc5⟩ := shape_kids hsh hs
  have hshc : shape bt (lv + 1) (bt.max_node_size / 2) (ch (positions d)) = true :=
    kc5 _ (mem_node_kids.mpr ⟨ch, hc, positions d, by omega, rfl⟩)
  rw [hh2] at hshc
  obtain ⟨next, hnext⟩ := shape_select hshc
  obtain ⟨cid, nodes1, positions1, leaf, hd, hsl, hlc, hl1, hlv, hmem, hpre, hpost⟩ :=
    right_spec bt h hh hh2 (lv + 1) (d + 1) h (ch (positions d))
      (aset nodes (d + 1) (some (ch (positions d)))) (aset positions (d + 1) next.size)
      hshc hh (n2 _ (by omega)) (by simp [aset])
      (fun nd0 h0 => by rw [hnext] at h0; cases h0; simp [aset])
  simp only [Nat.add_sub_cancel] at hd
  have hci : cid ≠ id := fun e0 => n1 _ (by omega) (e0 ▸ hmem)
  have hp1 : positions1 d = positions d := by
    rw [(hpre d (by omega)).2]; simp only [aset]; rw [if_neg (by omega)]
  have hdd : descend bt (lv + 1) d id nodes positions = some (cid, nodes1, positions1) := by
    simp only [descend, hs, hc, hnext]
    exact hd
  have hvv : leaf.values.isSome = nd.values.isSome := by rw [hlv, kc4]
  have hdk := delete_key_swap bt nodes nodes1 positions positions1 d id cid (lv + 1) nd leaf ch
    hs hc (by omega) hdd hsl hlc hl1 hci hvv
  rw [hp1] at hdk
  obtain ⟨r1, r2⟩ := descend_rightmost bt (lv + 1) (d + 1) h (ch (positions d))
    (aset nodes (d + 1) (some (ch (positions d)))) (aset positions (d + 1) next.size)
    hshc (by simp [aset]) (fun nd0 h0 => by rw [hnext] at h0; cases h0; simp [aset])
    cid nodes1 positions1 (by simpa using hd)
  obtain ⟨_, q2⟩ := hpost (store bt cid { leaf with size := leaf.size - 1 }) rfl rfl
    (select_store_same hsl _) (fun x _ hx => select_store_ne _ _ _ _ hx)
  have hcpw := child_ascending hs hc hpw (positions d) (by omega)
  refine ⟨cid, leaf, nodes1, positions1, hdk, hsl, hlc, hl1, hci, hvv, ?_, r1, ?_, ?_, ?_⟩
  · intro j hj
    obtain ⟨a1, a2⟩ := hpre j (by omega)
    rw [a1, a2]
    simp only [aset]
    rw [if_neg (by omega), if_neg (by omega)]
    exact ⟨rfl, rfl⟩
  · have e0 : d + 1 + (lv + 1) - 1 = d + (lv + 1) := by omega
    rw [← e0]; exact r2
  · rw [q2]; simp
  · intro x hx
    rw [q2] at hx hcpw
    rw [List.pairwise_append] at hcpw
    rcases List.mem_append.mp hx with h1 | h1
    · exact le_of_lt (hcpw.2.2 x h1 _ (by simp))
    · simp only [List.mem_singleton] at h1
      rw [h1]

/-! ## Borrowing from a sibling, with values -/

theorem live_aset {α : Type} (a : Nat → α) (n q : Nat) (x : α) :
    live (aset a q x) n = (live a n).set q x := by
  apply List.ext_getElem?
  intro i
  simp only [live_getElem?, List.getElem?_set, live_length, aset]
  split_ifs <;> first | rfl | omega

theorem live_shift_tail {α : Type} (a : Nat → α) (n : Nat) :
    live (memmove_dbg a 0 a 1 (n - 1)) (n - 1) = (live a n).tail := by
  rw [live_shift_left, List.drop_one]

/-- What `borrow_right` leaves in the node, the parent and the sibling. -/
theorem borrow_right_fields (node parent sib : rl_btree_node) (ppos : Nat)
    (hs1 : 1 ≤ sib.size)
    (hv1 : node.values.isSome = parent.values.isSome)
    (hv2 : sib.values.isSome = parent.values.isSome)
    (hc : sib.children.isSome = node.children.isSome) :
    ∃ n1 p1 s1, borrow_right node parent sib ppos = some (n1, p1, s1) ∧
      node_fields n1 = (node.size + 1, live node.scores node.size ++ [parent.scores ppos],
        node.values.bind (fun v =>
          parent.values.map (fun pv => live v node.size ++ [pv ppos])),
        node.children.bind (fun c =>
          sib.children.map (fun sc => live c (node.size + 1) ++ [sc 0]))) ∧
      node_fields p1 = (parent.size, (live parent.scores parent.size).set ppos (sib.scores 0),
        parent.values.bind (fun pv =>
          sib.values.map (fun sv => (live pv parent.size).set ppos (sv 0))),
        parent.children.map (fun c => live c (parent.size + 1))) ∧
      node_fields s1 = (sib.size - 1, (live sib.scores sib.size).tail,
        sib.values.map (fun v => (live v sib.size).tail),
        sib.children.map (fun c => (live c (sib.size + 1)).tail)) := by
  have hsz : sib.size - 1 + 1 = sib.size := by omega
  have hct : ∀ sc : Nat → Nat,
      live (memmove_dbg sc 0 sc 1 sib.size) (sib.size - 1 + 1) = (live sc (sib.size + 1)).tail := by
    intro sc
    have := live_shift_tail sc (sib.size + 1)
    rw [hsz]
    simpa using this
  rcases isSome_cases parent.values with hpv | ⟨pv, hpv⟩ <;>
  rcases isSome_cases node.values with hnv | ⟨nv, hnv⟩ <;>
  rcases isSome_cases sib.values with hsv | ⟨sv, hsv⟩ <;>
  simp only [hpv, hnv, hsv, Option.isSome_some, Option.isSome_none, Bool.false_eq_true,
    Bool.true_eq_false] at hv1 hv2 <;>
  rcases isSome_cases node.children with hnc | ⟨nc, hnc⟩ <;>
  rcases isSome_cases sib.children with hsc | ⟨sc, hsc⟩ <;>
  simp only [hnc, hsc, Option.isSome_some, Option.isSome_none, Bool.false_eq_true,
    Bool.true_eq_false] at hc <;>
  refine ⟨_, _, _, by simp only [borrow_right, hpv, hnv, hsv, hnc, hsc]; rfl, ?_, ?_, ?_⟩ <;>
  simp only [node_fields, hpv, hnv, hsv, hnc, hsc, Option.map_some', Option.map_none',
    Option.bind_some, Option.bind_none, Option.some_bind, Option.none_bind, live_push, live_aset,
    live_shift_tail, hct, Nat.add_assoc]

/-- Lines 636-639: after `borrow_left` with values the parent's key slot
`ppos - 1` holds the sibling's last key, its value slot `ppos - 1` is as before,
and value slot 0 holds the sibling's last value. -/
theorem borrow_left_value_slot (node parent sib : rl_btree_node) (ppos : Nat)
    (nv pv sv : Nat → Int) (hnv : node.values = some nv) (hpv : parent.values = some pv)
    (hsv : sib.values = some sv) (hc : node.children = none) :
    ∃ n1 p1 s1, borrow_left node parent sib ppos = some (n1, p1, s1) ∧
      p1.scores = aset parent.scores (ppos - 1) (sib.scores (sib.size - 1)) ∧
      p1.values = some (aset pv 0 (sv (sib.size - 1))) :=
  ⟨_, _, _, by simp only [borrow_left, hnv, hpv, hsv, hc, Option.map_some']; rfl, rfl, rfl⟩

/-! ## Statements about the specification: scenarios, creation, splits -/

/-- The root of the tree built by adding 1 to 8 in ascending order holds two
keys. -/
theorem ascending_fill_root_size :
    fresh_set.max_node_size = 4 ∧
    (select set_12345678 set_12345678.root).map (fun nd => nd.size) = some 2 := by
  decide

/-- C21: adding the keys 1, 2, ..., 8 in ascending order to a freshly created
`long_set` tree with `max_node_size = 4` gives a tree whose flatten output is
1 to 8, whose height is 2, whose root holds exactly the two keys 3 and 6, and
whose three leaves hold 2 keys each: 1, 2 and 4, 5 and 7, 8. -/
theorem ascending_fill_tree :
    (rl_btree_add_element (add_all fresh_set [1, 2, 3, 4, 5, 6, 7]) 8 80).map Prod.fst =
      some RL_OK ∧
    rl_flatten_btree 1 set_12345678 = some [1, 2, 3, 4, 5, 6, 7, 8] ∧
    set_12345678.height = 2 ∧
    (ids set_12345678 2 set_12345678.root).map
        (fun x => (select set_12345678 x).map
          (fun nd => (live nd.scores nd.size, nd.children.isSome))) =
      [some ([3, 6], true), some ([1, 2], false), some ([4, 5], false),
       some ([7, 8], false)] := by
  decide

/-- C22: `rl_btree_create` returns a tree of height 1 whose root id is the id
that `accessor->insert` mints, under which a node of size 0 without a children
array is registered; the nodes registered before are untouched; flatten of the
tree is empty and `rl_btree_find_score` returns `RL_NOT_FOUND` for every key. -/
theorem create_empty_leaf (type : rl_btree_type) (m : Nat)
    (accessor : List (Option rl_btree_node)) :
    (rl_btree_create type m accessor).height = 1 ∧
    (rl_btree_create type m accessor).type = type ∧
    (rl_btree_create type m accessor).max_node_size = m ∧
    (rl_btree_create type m accessor).root =
      (insert { type := type, max_node_size := m, height := 1, root := 0,
                accessor := accessor }
        (rl_btree_node_create { type := type, max_node_size := m, height := 1, root := 0,
                                accessor := accessor })).1 ∧
    accessor.get? (rl_btree_create type m accessor).root = none ∧
    (∀ x, x < accessor.length →
      select (rl_btree_create type m accessor) x = (accessor.get? x).join) ∧
    (∃ nd, select (rl_btree_create type m accessor) (rl_btree_create type m accessor).root =
        some nd ∧ nd.size = 0 ∧ nd.children = none) ∧
    (∀ fuel, rl_flatten_btree fuel (rl_btree_create type m accessor) = some []) ∧
    (∀ (k : Int) (want_value : Bool) (nodes : Option (Nat → Option Nat))
        (positions : Option (Nat → Nat)), nodes.isSome = positions.isSome →
      (rl_btree_find_score (rl_btree_create type m accessor) k want_value nodes positions).map
        (fun r => (r.retval, r.value)) = some (RL_NOT_FOUND, none)) := by
  have hsel : select (rl_btree_create type m accessor) (rl_btree_create type m accessor).root =
      some (rl_btree_node_create { type := type, max_node_size := m, height := 1, root := 0,
                                   accessor := accessor }) := by
    simp [rl_btree_create, select, insert, rl_btree_node_create]
  refine ⟨rfl, rfl, rfl, rfl, ?_, ?_, ⟨_, hsel, rfl, rfl⟩, ?_, ?_⟩
  · simp [rl_btree_create, insert]
  · intro x hx
    simp only [rl_btree_create, select, insert, List.get?_eq_getElem?]
    rw [List.getElem?_append_left hx]
  · intro fuel
    cases fuel <;>
      simp [rl_flatten_btree, rl_flatten_btree_node, hsel, rl_btree_node_create, live]
  · intro k wv nodes positions hnp
    have hg : ¬ ((nodes.isNone ∧ positions.isSome) ∨ (nodes.isSome ∧ positions.isNone)) := by
      cases nodes <;> cases positions <;> simp at hnp ⊢
    have hb : bisect k (fun _ => 0) (0 + 1) 0 0 (((0 : Nat) : Int) - 1) =
        some (bisect_result.miss 0 (-1)) := by
      simp [bisect]
    have hh : (rl_btree_create type m accessor).height = 1 := rfl
    simp only [rl_btree_find_score, hg, if_false, hh, find_levels, hsel]
    simp only [rl_btree_node_create, hb]
    simp [find_levels]

/-- C25: for even `m`, a node with exactly `m` keys, a position `pos` in
`0..m` and an incoming key, the split in `rl_btree_add_element` leaves the old
node and the new right sibling with `m / 2` keys each; the left keys, the
promoted median and the right keys together are the old keys with the incoming
key put in at index `pos`; the promoted median is the old key at index
`m / 2 - 1` when `pos < m / 2`, the incoming key when `pos = m / 2`, and the old
key at index `m / 2` when `pos > m / 2`; values, when present, are split in the
same way. -/
theorem split_keys_halves (m : Nat) (node right : rl_btree_node) (pos : Nat)
    (score value : Int) (child : Option Nat)
    (hm : m % 2 = 0) (hsz : node.size = m) (hp : pos ≤ m)
    (hv : right.values.isSome = node.values.isSome)
    (hc : child.isSome = true → node.children.isSome = true ∧ right.children.isSome = true) :
    ∃ l r s1 v1, add_split m node right pos score value child = some (l, r, s1, v1) ∧
      l.size = m / 2 ∧ r.size = m / 2 ∧
      live l.scores (m / 2) ++ s1 :: live r.scores (m / 2) =
        (live node.scores node.size).take pos ++ score :: (live node.scores node.size).drop pos ∧
      s1 = (if pos < m / 2 then node.scores (m / 2 - 1)
            else if pos = m / 2 then score else node.scores (m / 2)) ∧
      (node.values = none → l.values = none ∧ r.values = none) ∧
      ∀ nv, node.values = some nv → ∃ lv rv, l.values = some lv ∧ r.values = some rv ∧
        live lv (m / 2) ++ v1 :: live rv (m / 2) =
          (live nv node.size).take pos ++ value :: (live nv node.size).drop pos ∧
        v1 = (if pos < m / 2 then nv (m / 2 - 1)
              else if pos = m / 2 then value else nv (m / 2)) := by
  obtain ⟨l, r, s1, v1, e0, e1, e2, e3, e4, e5, e6, e7, _, _⟩ :=
    add_split_parts m node right pos score value child hv hc
  have hmh : m = 2 * (m / 2) := by omega
  refine ⟨l, r, s1, v1, e0, e1, e2, ?_, ?_, fun h => ⟨(e7 h).1, (e7 h).2.1⟩, ?_⟩
  · rw [e3, e4, e5, hsz]
    exact split_keys_whole m (m / 2) pos node.scores right.scores score hmh hp
  · rw [e5]; exact split_keys_carried m pos node.scores right.scores score
  · intro nv hnv
    obtain ⟨rv, _, f2, f3, f4⟩ := e6 nv hnv
    refine ⟨_, _, f2, f3, ?_, ?_⟩
    · rw [f4, hsz]
      exact split_keys_whole m (m / 2) pos nv rv value hmh hp
    · rw [f4]; exact split_keys_carried m pos nv rv value

/-- The full leaf 10, 20, 30, 40 of a hash tree takes 50 at position 4. -/
theorem split_keys_halves_witness :
    (4 % 2 = 0 ∧ full_node.size = 4 ∧
      (rl_btree_node_create fresh_hash).values.isSome = full_node.values.isSome) ∧
    ∃ l r s1 v1,
      add_split 4 full_node (rl_btree_node_create fresh_hash) 4 50 500 none =
        some (l, r, s1, v1) ∧
      l.size = 4 / 2 ∧ r.size = 4 / 2 ∧
      live l.scores (4 / 2) ++ s1 :: live r.scores (4 / 2) =
        (live full_node.scores full_node.size).take 4 ++
          50 :: (live full_node.scores full_node.size).drop 4 ∧
      s1 = (if 4 < 4 / 2 then full_node.scores (4 / 2 - 1)
            else if 4 = 4 / 2 then 50 else full_node.scores (4 / 2)) ∧
      (full_node.values = none → l.values = none ∧ r.values = none) ∧
      ∀ nv, full_node.values = some nv → ∃ lv rv, l.values = some lv ∧ r.values = some rv ∧
        live lv (4 / 2) ++ v1 :: live rv (4 / 2) =
          (live nv full_node.size).take 4 ++ 500 :: (live nv full_node.size).drop 4 ∧
        v1 = (if 4 < 4 / 2 then nv (4 / 2 - 1) else if 4 = 4 / 2 then 500 else nv (4 / 2)) :=
  ⟨⟨by decide, by decide, by decide⟩,
    split_keys_halves 4 full_node (rl_btree_node_create fresh_hash) 4 50 500 none (by decide)
      (by decide) (by decide) (by decide) (by decide)⟩

/-- C26: for even `m`, an internal node with `m` keys and `m + 1` child ids, a
position `pos` in `0..m` and an incoming child id `c`, after the split the left
node and the right node have `m / 2 + 1` children each, and the left children
followed by the right children are the old children with `c` put in at index
`pos + 1`; so every child id occurs after the split as often as before, and `c`
once more. -/
theorem split_children_halves (m : Nat) (node right : rl_btree_node) (pos : Nat)
    (score value : Int) (c : Nat) (nc rc : Nat → Nat)
    (hm : m % 2 = 0) (hsz : node.size = m) (hp : pos ≤ m)
    (hv : right.values.isSome = node.values.isSome)
    (hnc : node.children = some nc) (hrc : right.children = some rc) :
    ∃ l r s1 v1 lc rc1, add_split m node right pos score value (some c) = some (l, r, s1, v1) ∧
      l.size = m / 2 ∧ r.size = m / 2 ∧ l.children = some lc ∧ r.children = some rc1 ∧
      live lc (l.size + 1) ++ live rc1 (r.size + 1) =
        (live nc (node.size + 1)).take (pos + 1) ++ c :: (live nc (node.size + 1)).drop (pos + 1) ∧
      ∀ x, (live lc (l.size + 1) ++ live rc1 (r.size + 1)).count x =
        (live nc (node.size + 1)).count x + (if x = c then 1 else 0) := by
  obtain ⟨l, r, s1, v1, e0, e1, e2, _, _, _, _, _, e8, _⟩ :=
    add_split_parts m node right pos score value (some c) hv
      (fun _ => by rw [hnc, hrc]; exact ⟨rfl, rfl⟩)
  obtain ⟨nc0, rc0, g1, g2, g3, g4⟩ := e8 c rfl
  rw [hnc] at g1; cases g1
  rw [hrc] at g2; cases g2
  have hmh : m = 2 * (m / 2) := by omega
  have hw : live (split_children m pos nc rc c).1 (l.size + 1) ++
      live (split_children m pos nc rc c).2 (r.size + 1) =
      (live nc (node.size + 1)).take (pos + 1) ++ c ::
        (live nc (node.size + 1)).drop (pos + 1) := by
    rw [e1, e2, hsz]
    exact split_children_whole m (m / 2) pos nc rc c hmh hp
  refine ⟨l, r, s1, v1, _, _, e0, e1, e2, g3, g4, hw, ?_⟩
  intro x
  rw [hw, List.count_append, List.count_cons, ← Nat.add_assoc, ← List.count_append,
    List.take_append_drop]
  by_cases hx : x = c
  · subst hx; simp
  · have hx2 : ¬ c = x := fun e => hx e.symm
    simp [hx, hx2]

/-- The full internal node 10, 20, 30, 40 over the children 5, 6, 7, 8, 9 takes
15 with the child 12 at position 1. -/
theorem split_children_halves_witness :
    (4 % 2 = 0 ∧ full_node.size = 4 ∧ fresh_right.values.isSome = full_node.values.isSome ∧
      (full_node.children.map (fun a => live a 5) = some [5, 6, 7, 8, 9])) ∧
    ∃ l r s1 v1 lc rc1,
      add_split 4 full_node fresh_right 1 15 150 (some 12) = some (l, r, s1, v1) ∧
      l.size = 4 / 2 ∧ r.size = 4 / 2 ∧ l.children = some lc ∧ r.children = some rc1 ∧
      live lc (l.size + 1) ++ live rc1 (r.size + 1) =
        (live (fun i => if i = 0 then 5 else if i = 1 then 6 else if i = 2 then 7
            else if i = 3 then 8 else 9) (full_node.size + 1)).take (1 + 1) ++
          12 :: (live (fun i => if i = 0 then 5 else if i = 1 then 6 else if i = 2 then 7
            else if i = 3 then 8 else 9) (full_node.size + 1)).drop (1 + 1) ∧
      ∀ x, (live lc (l.size + 1) ++ live rc1 (r.size + 1)).count x =
        (live (fun i => if i = 0 then 5 else if i = 1 then 6 else if i = 2 then 7
            else if i = 3 then 8 else 9) (full_node.size + 1)).count x +
          (if x = 12 then 1 else 0) :=
  ⟨⟨by decide, by decide, by decide, by decide⟩,
    split_children_halves 4 full_node fresh_right 1 15 150 12 _ _ (by decide) (by decide)
      (by decide) (by decide) rfl rfl⟩

/-- C27: on a well-formed tree and an absent key the main loop of
`rl_btree_add_element` ends either with the key placed, and then the call
returns the tree of the loop with height and root id as before, or with a split
carried past the root, and then the height grows by exactly 1 and the root is a
node registered under a new id that holds exactly one key, the score carried up
with its value, over the two children old root and new right sibling: the old
keys and the new key are the keys below the old root, the score carried up and
the keys below the new sibling. -/
theorem add_grows_at_root (bt : rl_btree) (k v : Int) (hwf : well_formed bt = true)
    (hk : k ∉ keys bt bt.height bt.root) :
    ∃ r nodes positions st b,
      rl_btree_find_score bt k false (some (fun _ => none)) (some (fun _ => 0)) = some r ∧
      r.nodes = some nodes ∧ r.positions = some positions ∧
      add_levels nodes positions 0 bt.height
        { bt := bt, placed := false, score := k, value := v, child := none, node := none } =
          some st ∧
      rl_btree_add_element bt k v = some (RL_OK, b) ∧
      st.bt.height = bt.height ∧ st.bt.root = bt.root ∧
      (st.placed = true → b = st.bt) ∧
      (st.placed = false →
        b.height = bt.height + 1 ∧ b.root ≠ bt.root ∧ select st.bt b.root = none ∧
        ∃ c nd ch, st.child = some c ∧ select bt c = none ∧
          select b b.root = some nd ∧ nd.size = 1 ∧ nd.scores 0 = st.score ∧
          nd.values.map (fun a => a 0) =
            (if bt.type.value_size ≠ 0 then some st.value else none) ∧
          nd.children = some ch ∧ ch 0 = bt.root ∧ ch 1 = c ∧
          (∀ x, x ≠ b.root → select b x = select st.bt x) ∧
          inserted k (keys bt bt.height bt.root)
            (keys st.bt bt.height bt.root ++ st.score :: keys st.bt bt.height c)) := by
  have hwf0 := hwf
  rw [well_formed_iff] at hwf0
  obtain ⟨hev, h4, hht, hsh, hpw⟩ := hwf0
  obtain ⟨r, hr, hrv, hpath⟩ := find_levels_spec bt k false bt.height 0 bt.root
    (some (fun _ => none)) (some (fun _ => 0)) (shape_linked bt _ _ _ hsh) hpw rfl
  obtain ⟨nodes1, positions1, hn1, hp1, _, _, hmiss⟩ := hpath _ _ rfl rfl
  simp only [hk, if_false] at hrv
  obtain ⟨st, hst, hmax, hty, hhe, hro, hlen, hframe, hcase⟩ :=
    add_levels_spec nodes1 positions1 k (bt.max_node_size / 2) (by omega) bt.height 0 bt.root 0
      bt v none (by omega) hsh hpw (ids_nodup bt (by omega) _ _ _ hsh hpw) (hmiss hk)
  have hfind : rl_btree_find_score bt k false (some (fun _ => none)) (some (fun _ => 0)) =
      some r := by
    simp only [rl_btree_find_score, Option.isNone_some, Option.isSome_some, Bool.false_eq_true,
      and_true, and_false, or_self, if_false]
    exact hr
  obtain ⟨rootnd, hrootnd⟩ : ∃ N, select bt bt.root = some N := by
    obtain ⟨H, hH⟩ : ∃ H, bt.height = H + 1 := ⟨bt.height - 1, by omega⟩
    rw [hH] at hsh
    exact shape_select hsh
  have hrlt := select_lt hrootnd
  have key : ∃ b, rl_btree_add_element bt k v = some (RL_OK, b) ∧
      (st.placed = true → b = st.bt) ∧
      (st.placed = false →
        b.height = bt.height + 1 ∧ b.root ≠ bt.root ∧ select st.bt b.root = none ∧
        ∃ c nd ch, st.child = some c ∧ select bt c = none ∧
          select b b.root = some nd ∧ nd.size = 1 ∧ nd.scores 0 = st.score ∧
          nd.values.map (fun a => a 0) =
            (if bt.type.value_size ≠ 0 then some st.value else none) ∧
          nd.children = some ch ∧ ch 0 = bt.root ∧ ch 1 = c ∧
          (∀ x, x ≠ b.root → select b x = select st.bt x) ∧
          inserted k (keys bt bt.height bt.root)
            (keys st.bt bt.height bt.root ++ st.score :: keys st.bt bt.height c)) := by
    simp only [rl_btree_add_element, hfind, hrv, ne_eq, not_true_eq_false, if_false, hn1, hp1,
      hst]
    rcases hcase with ⟨hpl, _, _, _⟩ | ⟨hpl, hnode, c, hchild, _, _, hins, _⟩
    · simp only [hpl, if_true]
      exact ⟨st.bt, rfl, fun _ => rfl, fun h => by cases h⟩
    · obtain ⟨c2, hc2, hcL⟩ := add_levels_child nodes1 positions1 0 bt.accessor.length
        bt.height _ st (le_refl _) hst hpl (fun h0 => by omega)
      rw [hchild] at hc2; cases hc2
      simp only [hpl, Bool.false_eq_true, if_false, add_new_root, update_id, hnode,
        hchild, Option.getD_some]
      refine ⟨_, rfl, fun h => h.elim, fun _ => ?_⟩
      refine ⟨by simp only [hhe], ?_, ?_, c,
        { size := 1
          scores := aset (rl_btree_node_create st.bt).scores 0 st.score
          values := (rl_btree_node_create st.bt).values.map (fun a => aset a 0 st.value)
          children := some (aset (aset (fun _ => 0) 0 bt.root) 1 c) },
        aset (aset (fun _ => 0) 0 bt.root) 1 c, rfl, select_none_of_le bt c hcL, ?_, rfl,
        by simp [aset], ?_, rfl, by simp [aset], by simp [aset], ?_, hins⟩
      · simp only [insert_id]; omega
      · simp only [insert_id]
        exact select_none_of_le st.bt _ (le_refl _)
      · simp only [insert_id]
        refine (select_congr (insert st.bt _).2 _ rfl _).trans ?_
        rw [select_insert, if_pos rfl]
      · simp only [rl_btree_node_create, hty]
        by_cases hvs : bt.type.value_size = 0 <;> simp [hvs, aset]
      · intro x hx
        simp only [insert_id] at hx
        refine (select_congr (insert st.bt _).2 _ rfl _).trans ?_
        rw [select_insert, if_neg hx]
  obtain ⟨b, hb1, hb2, hb3⟩ := key
  exact ⟨r, nodes1, positions1, st, b, hfind, hn1, hp1, hst, hb1, hhe, hro, hb2, hb3⟩

/-- The key 5 added to the full root leaf 1, 2, 3, 4: the split goes past the
root. -/
theorem add_grows_at_root_witness :
    (well_formed set_1234 = true ∧ (5 : Int) ∉ keys set_1234 set_1234.height set_1234.root) ∧
    ∃ r nodes positions st b,
      rl_btree_find_score set_1234 5 false (some (fun _ => none)) (some (fun _ => 0)) =
        some r ∧
      r.nodes = some nodes ∧ r.positions = some positions ∧
      add_levels nodes positions 0 set_1234.height
        { bt := set_1234, placed := false, score := 5, value := 50, child := none,
          node := none } = some st ∧
      rl_btree_add_element set_1234 5 50 = some (RL_OK, b) ∧
      st.bt.height = set_1234.height ∧ st.bt.root = set_1234.root ∧
      (st.placed = true → b = st.bt) ∧
      (st.placed = false →
        b.height = set_1234.height + 1 ∧ b.root ≠ set_1234.root ∧
        select st.bt b.root = none ∧
        ∃ c nd ch, st.child = some c ∧ select set_1234 c = none ∧
          select b b.root = some nd ∧ nd.size = 1 ∧ nd.scores 0 = st.score ∧
          nd.values.map (fun a => a 0) =
            (if set_1234.type.value_size ≠ 0 then some st.value else none) ∧
          nd.children = some ch ∧ ch 0 = set_1234.root ∧ ch 1 = c ∧
          (∀ x, x ≠ b.root → select b x = select st.bt x) ∧
          inserted 5 (keys set_1234 set_1234.height set_1234.root)
            (keys st.bt set_1234.height set_1234.root ++
              st.score :: keys st.bt set_1234.height c)) :=
  ⟨⟨by decide, by decide⟩, add_grows_at_root set_1234 5 50 (by decide) (by decide)⟩

/-! ## Statements about the specification: removal steps -/

/-- C28: on a well-formed tree the search path of a present key ends at a node
that holds the key at the recorded position; when that node is internal, the
first loop of `rl_btree_remove_element` descends from the child left of the key
along the last child of every node to a leaf, recording each node reached with
its size as position, writes the last key and value of that leaf over the key
and its value, and takes 1 off the size of the leaf; the key written is the last
and largest key of the subtree it descended into; no other node changes. -/
theorem remove_uses_predecessor (bt : rl_btree) (k : Int) (hwf : well_formed bt = true)
    (hk : k ∈ keys bt bt.height bt.root) :
    ∃ r nodes positions d id nd,
      rl_btree_find_score bt k false (some (fun _ => none)) (some (fun _ => 0)) = some r ∧
      r.nodes = some nodes ∧ r.positions = some positions ∧
      last_node nodes bt.height = some (d, id) ∧ select bt id = some nd ∧
      positions d < nd.size ∧ nd.scores (positions d) = k ∧
      ∀ ch, nd.children = some ch →
        ∃ leaf_id leaf nodes1 positions1,
          delete_key bt nodes positions d id = some (delete_result.done
            (store (store bt leaf_id { leaf with size := leaf.size - 1 }) id
              { nd with
                scores := aset nd.scores (positions d) (leaf.scores (leaf.size - 1))
                values := nd.values.bind (fun a =>
                  leaf.values.map (fun cv => aset a (positions d) (cv (leaf.size - 1)))) })
            nodes1 positions1 (bt.height - 1)) ∧
          select bt leaf_id = some leaf ∧ leaf.children = none ∧ 1 ≤ leaf.size ∧
          leaf_id ≠ id ∧ leaf.values.isSome = nd.values.isSome ∧
          (∀ j, j ≤ d → nodes1 j = nodes j ∧ positions1 j = positions j) ∧
          rightmost_path bt nodes1 positions1 (bt.height - 1 - d) (d + 1) (ch (positions d)) ∧
          nodes1 (bt.height - 1) = some leaf_id ∧
          (keys bt (bt.height - 1 - d) (ch (positions d))).getLast? =
            some (leaf.scores (leaf.size - 1)) ∧
          ∀ x ∈ keys bt (bt.height - 1 - d) (ch (positions d)),
            x ≤ leaf.scores (leaf.size - 1) := by
  have hwf0 := hwf
  rw [well_formed_iff] at hwf0
  obtain ⟨hev, h4, hht, hsh, hpw⟩ := hwf0
  have hm : bt.max_node_size = 2 * (bt.max_node_size / 2) := by omega
  have hh : 1 ≤ bt.max_node_size / 2 := by omega
  obtain ⟨r, hr, hrv, hpath⟩ := find_levels_spec bt k false bt.height 0 bt.root
    (some (fun _ => none)) (some (fun _ => 0)) (shape_linked bt _ _ _ hsh) hpw rfl
  obtain ⟨nodes1, positions1, hn1, hp1, _, hhit, _⟩ := hpath _ _ rfl rfl
  have hfind : rl_btree_find_score bt k false (some (fun _ => none)) (some (fun _ => 0)) =
      some r := by
    simp only [rl_btree_find_score, Option.isNone_some, Option.isSome_some, Bool.false_eq_true,
      and_true, and_false, or_self, if_false]
    exact hr
  obtain ⟨d, id, nd, lv1, lo1, e1, e2, e3, e4, e5, e6, e7, e8, e9⟩ :=
    hit_end bt k nodes1 positions1 bt.height 0 0 bt.root (by omega) (hhit hk (by omega)) hsh hpw
      (ids_nodup bt hh _ _ _ hsh hpw)
  refine ⟨r, nodes1, positions1, d, id, nd, hfind, hn1, hp1, e2, e4, e5, e6, ?_⟩
  intro ch hc
  obtain ⟨kc1, _⟩ := shape_kids e7 e4
  have hlv : lv1 ≠ 0 := fun e0 => by
    have := kc1.mpr e0
    rw [hc] at this; cases this
  obtain ⟨lv, rfl⟩ : ∃ l, lv1 = l + 1 := ⟨lv1 - 1, by omega⟩
  obtain ⟨cid, leaf, nodes2, positions2, p1, p2, p3, p4, p5, p6, p7, p8, p9, p10, p11⟩ :=
    predecessor_step bt _ hh hm nodes1 positions1 lv d lo1 id nd ch e1 e4 hc e5 e7 e8 e9
  have eh1 : bt.height - 1 = d + (lv + 1) := by omega
  have eh2 : bt.height - 1 - d = lv + 1 := by omega
  rw [eh2, eh1]
  exact ⟨cid, leaf, nodes2, positions2, p1, p2, p3, p4, p5, p6, p7, p8, p9, p10, p11⟩

/-- The key 3 of the tree 1 to 5 sits in the root, over the leaves 1, 2 and
4, 5. -/
theorem remove_uses_predecessor_witness :
    (well_formed set_12345 = true ∧ (3 : Int) ∈ keys set_12345 set_12345.height set_12345.root ∧
      (select set_12345 set_12345.root).map (fun nd => nd.children.isSome) = some true) ∧
    ∃ r nodes positions d id nd,
      rl_btree_find_score set_12345 3 false (some (fun _ => none)) (some (fun _ => 0)) =
        some r ∧
      r.nodes = some nodes ∧ r.positions = some positions ∧
      last_node nodes set_12345.height = some (d, id) ∧ select set_12345 id = some nd ∧
      positions d < nd.size ∧ nd.scores (positions d) = 3 ∧
      ∀ ch, nd.children = some ch →
        ∃ leaf_id leaf nodes1 positions1,
          delete_key set_12345 nodes positions d id = some (delete_result.done
            (store (store set_12345 leaf_id { leaf with size := leaf.size - 1 }) id
              { nd with
                scores := aset nd.scores (positions d) (leaf.scores (leaf.size - 1))
                values := nd.values.bind (fun a =>
                  leaf.values.map (fun cv => aset a (positions d) (cv (leaf.size - 1)))) })
            nodes1 positions1 (set_12345.height - 1)) ∧
          select set_12345 leaf_id = some leaf ∧ leaf.children = none ∧ 1 ≤ leaf.size ∧
          leaf_id ≠ id ∧ leaf.values.isSome = nd.values.isSome ∧
          (∀ j, j ≤ d → nodes1 j = nodes j ∧ positions1 j = positions j) ∧
          rightmost_path set_12345 nodes1 positions1 (set_12345.height - 1 - d) (d + 1)
            (ch (positions d)) ∧
          nodes1 (set_12345.height - 1) = some leaf_id ∧
          (keys set_12345 (set_12345.height - 1 - d) (ch (positions d))).getLast? =
            some (leaf.scores (leaf.size - 1)) ∧
          ∀ x ∈ keys set_12345 (set_12345.height - 1 - d) (ch (positions d)),
            x ≤ leaf.scores (leaf.size - 1) :=
  ⟨⟨by decide, by decide, by decide⟩,
    remove_uses_predecessor set_12345 3 (by decide) (by decide)⟩

/-- C29: on the hash tree whose root holds 30 and 60 with the values 300 and
600 over the leaves 10, 20 and 40, 45, 50 and 70, 80, the removal of 80 borrows
from the left sibling of child 2: the separator slot 1 of the root takes the key
50, but its value slot keeps 600, the value of the old separator 60, while value
slot 0, which belongs to the key 30, takes the value 500.  On the set tree
1, 2, 3 | 4 | 5, 6 the removal of 5 gives 1, 2 | 3 | 4, 6. -/
theorem borrow_left_stale_value :
    (select hash_9 hash_9.root).map node_fields =
      some (2, [30, 60], some [300, 600], some [1, 2, 4]) ∧
    (select hash_9 2).map node_fields = some (3, [40, 45, 50], some [400, 450, 500], none) ∧
    (select hash_9 4).map node_fields = some (2, [70, 80], some [700, 800], none) ∧
    (rl_btree_remove_element hash_9 80).map Prod.fst = some RL_OK ∧
    (select (after_remove hash_9 80) hash_9.root).map node_fields =
      some (2, [30, 50], some [500, 600], some [1, 2, 4]) ∧
    (select (after_remove hash_9 80) 2).map node_fields =
      some (2, [40, 45], some [400, 450], none) ∧
    (select (after_remove hash_9 80) 4).map node_fields =
      some (2, [60, 70], some [600, 700], none) ∧
    (rl_btree_find_score (after_remove hash_9 80) 30 true none none).map (fun r => r.value) =
      some (some 500) ∧
    (rl_btree_find_score (after_remove hash_9 80) 50 true none none).map (fun r => r.value) =
      some (some 600) ∧
    (rl_btree_remove_element spec_borrow_tree 5).map Prod.fst = some RL_OK ∧
    (select (after_remove spec_borrow_tree 5) 1).map node_fields =
      some (1, [3], none, some [2, 3]) ∧
    (select (after_remove spec_borrow_tree 5) 2).map node_fields =
      some (2, [1, 2], none, none) ∧
    (select (after_remove spec_borrow_tree 5) 3).map node_fields =
      some (2, [4, 6], none, none) :=
  ⟨by decide, by decide, by decide, by decide, by decide, by decide, by decide, by decide,
    by decide, by decide, by decide, by decide, by decide⟩

/-- C30: when the node at level `i + 1` of the path is short of `m / 2` keys, is
child `p < parent.size` of its parent, has no left sibling that holds more than
`m / 2` keys, and its right sibling holds more than `m / 2` keys, the rebalance
loop of `rl_btree_remove_element` stops with `RL_OK`; the node has gained the
parent's key and value at index `p` at its end, and the sibling's first child
when internal; slot `p` of the parent holds the sibling's first key and value
and the parent is otherwise as before; the sibling has lost its first key,
value and child; no other node has changed. -/
theorem borrow_right_step (bt : rl_btree) (nodes : Nat → Option Nat) (positions : Nat → Nat)
    (i id pid : Nat) (node parent sib : rl_btree_node) (pch : Nat → Nat)
    (hn : nodes (i + 1) = some id) (hs : select bt id = some node)
    (hdef : node.size < bt.max_node_size / 2)
    (hpn : nodes i = some pid) (hps : select bt pid = some parent)
    (hpc : parent.children = some pch) (hp : positions i < parent.size)
    (hleft : positions i = 0 ∨
      ∃ l, select bt (pch (positions i - 1)) = some l ∧ l.size ≤ bt.max_node_size / 2)
    (hss : select bt (pch (positions i + 1)) = some sib)
    (hlend : sib.size > bt.max_node_size / 2)
    (hv1 : node.values.isSome = parent.values.isSome)
    (hv2 : sib.values.isSome = parent.values.isSome)
    (hc : sib.children.isSome = node.children.isSome)
    (hd1 : id ≠ pid) (hd2 : pch (positions i + 1) ≠ pid) (hd3 : pch (positions i + 1) ≠ id) :
    ∃ b n1 p1 s1,
      rebalance_level nodes positions (i + 1) bt = some (rebalance_result.stop RL_OK b) ∧
      select b id = some n1 ∧ select b pid = some p1 ∧
      select b (pch (positions i + 1)) = some s1 ∧
      (∀ x, x ≠ id → x ≠ pid → x ≠ pch (positions i + 1) → select b x = select bt x) ∧
      b.height = bt.height ∧ b.root = bt.root ∧
      node_fields n1 = (node.size + 1, live node.scores node.size ++ [parent.scores (positions i)],
        node.values.bind (fun a =>
          parent.values.map (fun pv => live a node.size ++ [pv (positions i)])),
        node.children.bind (fun a =>
          sib.children.map (fun sc => live a (node.size + 1) ++ [sc 0]))) ∧
      node_fields p1 = (parent.size,
        (live parent.scores parent.size).set (positions i) (sib.scores 0),
        parent.values.bind (fun pv =>
          sib.values.map (fun sv => (live pv parent.size).set (positions i) (sv 0))),
        some (live pch (parent.size + 1))) ∧
      node_fields s1 = (sib.size - 1, (live sib.scores sib.size).tail,
        sib.values.map (fun a => (live a sib.size).tail),
        sib.children.map (fun a => (live a (sib.size + 1)).tail)) := by
  obtain ⟨n1, p1, s1, e0, f1, f2, f3⟩ :=
    borrow_right_fields node parent sib (positions i) (by omega) hv1 hv2 hc
  have hsel : ∀ x, select (store (store (store bt (pch (positions i + 1)) s1) pid p1) id n1) x =
      if x = id then some n1 else if x = pid then some p1
      else if x = pch (positions i + 1) then some s1 else select bt x :=
    select_store3 bt _ _ _ _ _ _ (select_lt hss) (select_lt hps) (select_lt hs)
  have hres : rebalance_level nodes positions (i + 1) bt = some (rebalance_result.stop RL_OK
      (store (store (store bt (pch (positions i + 1)) s1) pid p1) id n1)) := by
    have hz : ¬ parent.size = 0 := by omega
    have hge : ¬ (node.size ≥ bt.max_node_size / 2) := by omega
    simp only [rebalance_level, hn, hs, Nat.add_one_ne_zero, if_false, or_false, hge,
      Nat.add_sub_cancel,
      hpn, hps, hz, hpc, hp, if_true, hss, Option.map_some']
    by_cases h0 : positions i > 0
    · rcases hleft with h00 | ⟨l, hl, hls⟩
      · omega
      · have hnl : ¬ l.size > bt.max_node_size / 2 := by omega
        simp only [h0, if_true, hl, Option.map_some', hnl, if_false, hlend, e0]
    · simp only [h0, if_false, hlend, if_true, e0]
  refine ⟨_, n1, p1, s1, hres, ?_, ?_, ?_, ?_, rfl, rfl, f1, ?_, f3⟩
  · rw [hsel, if_pos rfl]
  · rw [hsel, if_neg (Ne.symm hd1), if_pos rfl]
  · rw [hsel, if_neg hd3, if_neg hd2, if_pos rfl]
  · intro x h1 h2 h3
    rw [hsel, if_neg h1, if_neg h2, if_neg h3]
  · rw [f2, hpc]; rfl

/-- The hash tree 10, 20 | 30 | 50 | 60 | 70, 80, 90 in the middle of the removal of
40: the middle leaf borrows 60 through the root from its right sibling. -/
theorem borrow_right_step_witness :
    (lend_nodes (0 + 1) = some 3 ∧ lend_node.size < lend_right_tree.max_node_size / 2 ∧
      lend_nodes 0 = some 1 ∧ lend_positions 0 < lend_root.size ∧
      lend_left.size ≤ lend_right_tree.max_node_size / 2 ∧
      lend_sibling.size > lend_right_tree.max_node_size / 2) ∧
    ∃ b n1 p1 s1,
      rebalance_level lend_nodes lend_positions (0 + 1) lend_right_tree =
        some (rebalance_result.stop RL_OK b) ∧
      select b 3 = some n1 ∧ select b 1 = some p1 ∧
      select b ((fun j => if j = 0 then 2 else if j = 1 then 3 else 4)
        (lend_positions 0 + 1)) = some s1 ∧
      (∀ x, x ≠ 3 → x ≠ 1 →
        x ≠ (fun j => if j = 0 then 2 else if j = 1 then 3 else 4) (lend_positions 0 + 1) →
        select b x = select lend_right_tree x) ∧
      b.height = lend_right_tree.height ∧ b.root = lend_right_tree.root ∧
      node_fields n1 = (lend_node.size + 1,
        live lend_node.scores lend_node.size ++ [lend_root.scores (lend_positions 0)],
        lend_node.values.bind (fun a =>
          lend_root.values.map (fun pv => live a lend_node.size ++ [pv (lend_positions 0)])),
        lend_node.children.bind (fun a =>
          lend_sibling.children.map (fun sc => live a (lend_node.size + 1) ++ [sc 0]))) ∧
      node_fields p1 = (lend_root.size,
        (live lend_root.scores lend_root.size).set (lend_positions 0) (lend_sibling.scores 0),
        lend_root.values.bind (fun pv =>
          lend_sibling.values.map (fun sv =>
            (live pv lend_root.size).set (lend_positions 0) (sv 0))),
        some (live (fun j => if j = 0 then 2 else if j = 1 then 3 else 4)
          (lend_root.size + 1))) ∧
      node_fields s1 = (lend_sibling.size - 1,
        (live lend_sibling.scores lend_sibling.size).tail,
        lend_sibling.values.map (fun a => (live a lend_sibling.size).tail),
        lend_sibling.children.map (fun a => (live a (lend_sibling.size + 1)).tail)) :=
  ⟨⟨by decide, by decide, by decide, by decide, by decide, by decide⟩,
    borrow_right_step lend_right_tree lend_nodes lend_positions 0 3 1 lend_node lend_root
      lend_sibling (fun j => if j = 0 then 2 else if j = 1 then 3 else 4) rfl rfl (by decide)
      rfl rfl rfl (by decide) (Or.inr ⟨lend_left, rfl, by decide⟩) rfl (by decide)
      (by decide) (by decide) (by decide) (by decide) (by decide) (by decide)⟩

/-! ## Statements about the specification: the reply queue and command dispatch -/

theorem strcasecmp_zero (a b : String) :
    strcasecmp a b = 0 ↔ a.toList.map Char.toLower = b.toList.map Char.toLower := by
  unfold strcasecmp
  split_ifs with h
  · exact ⟨fun _ => h, fun _ => rfl⟩
  · exact ⟨fun h1 => absurd h1 (by decide), fun h1 => absurd h1 h⟩

/-- C23: two commands appended to the empty queue of a fresh context, PING and
then ECHO x: the first call of `rliteGetReply` yields the reply of ECHO, the
second a slot of the array that was never written, the third NULL; a queue that
is first-in first-out yields the reply PONG of PING first.  With one command
appended the reply comes back and the next call yields NULL. -/
theorem reply_queue_overwrites (zset : command_proc → rliteClient → rliteClient) :
    (_rliteConnect 0).replyPosition = 0 ∧ (_rliteConnect 0).replyLength = 0 ∧
    (append_all zset (_rliteConnect 0) [["PING"], ["ECHO", "x"]]).bind (get_replies 3) =
      some [reply_ptr.object (createStringObject "x" 1), reply_ptr.uninitialised,
            reply_ptr.null] ∧
    reply_for zset (_rliteConnect 0) ["PING"] =
      some (reply_ptr.object (createStringObject "PONG" 4)) ∧
    reply_for zset (_rliteConnect 0) ["ECHO", "x"] =
      some (reply_ptr.object (createStringObject "x" 1)) ∧
    (append_all zset (_rliteConnect 0) [["PING"]]).bind (get_replies 2) =
      some [reply_ptr.object (createStringObject "PONG" 4), reply_ptr.null] :=
  ⟨rfl, rfl, rfl, rfl, rfl, rfl⟩

/-- C24: `__rliteAppendCommandArgv` returns `RLITE_ERR` and leaves the context as
it is when `argc` is 0; otherwise it looks `argv[0]` up in `rliteCommandTable`
ignoring letter case; with no entry it queues the error reply of the format
"unknown command"; with an entry whose arity `argc` does not satisfy (`argc`
equal to a positive arity, at least the negation of a negative one) it queues
the error reply of the format "wrong number of arguments"; in these three cases
no handler is called and the result does not depend on the handlers.  With an
entry and a fitting `argc >= 1` the handler of the entry is called, and what is
queued is the reply it leaves: the string PONG for `pingCommand`, the first
`argvlen[1]` bytes of `argv[1]` for `echoCommand`, and for a sorted-set handler
the reply it has stored in the client, queued on the context it has left.  A
handler is called exactly when `argc >= 1`, `argv[0]` has an entry and `argc`
fits its arity, and it is the handler of that entry. -/
theorem append_command_dispatch (zset : command_proc → rliteClient → rliteClient)
    (c : rliteContext) (argc : Int) (argv : Nat → String) (argvlen : Nat → Nat) :
    (argc = 0 →
      __rliteAppendCommandArgv zset c argc argv argvlen = some (rlite_status.RLITE_ERR, c) ∧
      called_handler argc argv = none) ∧
    (argc ≠ 0 → lookupCommand (argv 0) = none →
      __rliteAppendCommandArgv zset c argc argv argvlen =
        addReplyErrorFormat c "unknown command \x27%s\x27" (argv 0) ∧
      called_handler argc argv = none) ∧
    (∀ cmd, argc ≠ 0 → lookupCommand (argv 0) = some cmd →
      ¬ (1 ≤ argc ∧ (0 < cmd.arity → argc = cmd.arity) ∧
          (cmd.arity < 0 → -cmd.arity ≤ argc)) →
      __rliteAppendCommandArgv zset c argc argv argvlen =
        addReplyErrorFormat c "wrong number of arguments for \x27%s\x27 command" cmd.name ∧
      called_handler argc argv = none) ∧
    (∀ cmd, lookupCommand (argv 0) = some cmd → 1 ≤ argc →
      (0 < cmd.arity → argc = cmd.arity) → (cmd.arity < 0 → -cmd.arity ≤ argc) →
      called_handler argc argv = some cmd.proc ∧
      (cmd.proc = command_proc.pingCommand →
        __rliteAppendCommandArgv zset c argc argv argvlen =
          addReply c (reply_ptr.object (createStringObject "PONG" 4))) ∧
      (cmd.proc = command_proc.echoCommand →
        __rliteAppendCommandArgv zset c argc argv argvlen =
          addReply c (reply_ptr.object (createStringObject (argv 1) (argvlen 1)))) ∧
      (cmd.proc ≠ command_proc.pingCommand → cmd.proc ≠ command_proc.echoCommand →
        __rliteAppendCommandArgv zset c argc argv argvlen =
          addReply
            (zset cmd.proc
              { context := c, argc := argc, argv := argv, argvlen := argvlen,
                reply := reply_ptr.uninitialised }).context
            (zset cmd.proc
              { context := c, argc := argc, argv := argv, argvlen := argvlen,
                reply := reply_ptr.uninitialised }).reply)) ∧
    (∀ p, called_handler argc argv = some p ↔
      ∃ cmd, lookupCommand (argv 0) = some cmd ∧ cmd.proc = p ∧ 1 ≤ argc ∧
        (0 < cmd.arity → argc = cmd.arity) ∧ (cmd.arity < 0 → -cmd.arity ≤ argc)) ∧
    (lookupCommand (argv 0) = none ↔
      ∀ cmd ∈ rliteCommandTable,
        cmd.name.toList.map Char.toLower ≠ (argv 0).toList.map Char.toLower) ∧
    (∀ cmd, lookupCommand (argv 0) = some cmd →
      cmd ∈ rliteCommandTable ∧
        cmd.name.toList.map Char.toLower = (argv 0).toList.map Char.toLower) ∧
    (∀ cmd ∈ rliteCommandTable, cmd.arity ≠ 0) ∧
    (∀ fmt arg, c.replyPosition < c.replyAlloc →
      ∃ c1 e, addReplyErrorFormat c fmt arg = some (rlite_status.RLITE_OK, c1) ∧
        c1.replies c.replyPosition = reply_ptr.object e ∧
        e.type = reply_type.RLITE_REPLY_ERROR ∧
        e.str = some (String.mk ((format_s arg.toList fmt.toList).take (fmt.length * 2 - 1))) ∧
        c1.replyLength = c.replyLength + 1 ∧ c1.replyPosition = c.replyPosition ∧
        c1.db = c.db) := by
  have good : ∀ cmd : rliteCommand, 1 ≤ argc →
      (0 < cmd.arity → argc = cmd.arity) → (cmd.arity < 0 → -cmd.arity ≤ argc) →
      ¬ ((cmd.arity > 0 ∧ cmd.arity ≠ argc) ∨ argc < -cmd.arity) := by
    intro cmd h1 h2 h3 hcon
    rcases hcon with ⟨a, b⟩ | a
    · exact b (h2 a).symm
    · by_cases hn : cmd.arity < 0
      · have := h3 hn; omega
      · omega
  have bad : ∀ cmd : rliteCommand, argc ≠ 0 →
      ¬ (1 ≤ argc ∧ (0 < cmd.arity → argc = cmd.arity) ∧
          (cmd.arity < 0 → -cmd.arity ≤ argc)) →
      (cmd.arity > 0 ∧ cmd.arity ≠ argc) ∨ argc < -cmd.arity := by
    intro cmd h hbad
    by_contra hcon
    apply hbad
    omega
  refine ⟨?_, ?_, ?_, ?_, ?_, ?_, ?_, by decide, ?_⟩
  · intro h
    simp [__rliteAppendCommandArgv, called_handler, h]
  · intro h hl
    simp only [__rliteAppendCommandArgv, called_handler, h, if_false, hl, and_self]
  · intro cmd h hl hbad
    have hcond := bad cmd h hbad
    simp only [__rliteAppendCommandArgv, called_handler, h, if_false, hl, hcond, if_true,
      and_self]
  · intro cmd hl h1 h2 h3
    have h : ¬ argc = 0 := by omega
    have hcond := good cmd h1 h2 h3
    refine ⟨?_, ?_, ?_, ?_⟩
    · simp only [called_handler, h, if_false, hl, hcond]
    · intro hp
      simp only [__rliteAppendCommandArgv, h, if_false, hl, hcond, hp, call_proc, pingCommand]
    · intro hp
      simp only [__rliteAppendCommandArgv, h, if_false, hl, hcond, hp, call_proc, echoCommand]
    · intro hp1 hp2
      simp only [__rliteAppendCommandArgv, h, if_false, hl, hcond]
      cases hq : cmd.proc <;> first | rfl | exact absurd hq hp1 | exact absurd hq hp2
  · intro p
    constructor
    · intro hc
      unfold called_handler at hc
      by_cases h : argc = 0
      · simp only [h, if_true] at hc
        cases hc
      · simp only [h, if_false] at hc
        cases hl : lookupCommand (argv 0) with
        | none => rw [hl] at hc; cases hc
        | some cmd =>
          rw [hl] at hc
          simp only at hc
          by_cases hcond : (cmd.arity > 0 ∧ cmd.arity ≠ argc) ∨ argc < -cmd.arity
          · simp only [hcond, if_true] at hc
            cases hc
          · simp only [hcond, if_false, Option.some.injEq] at hc
            refine ⟨cmd, rfl, hc, ?_, ?_, ?_⟩
            · have h0 : cmd.arity ≠ 0 := by
                have hm := List.mem_of_find?_eq_some hl
                revert hm
                generalize cmd = x
                revert x
                decide
              omega
            · intro ha; omega
            · intro ha; omega
    · rintro ⟨cmd, hl, hp, h1, h2, h3⟩
      have h : ¬ argc = 0 := by omega
      have hcond := good cmd h1 h2 h3
      simp only [called_handler, h, if_false, hl, hcond, hp]
  · unfold lookupCommand
    rw [List.find?_eq_none]
    constructor
    · intro h cmd hc heq
      exact h cmd hc (by simpa using (strcasecmp_zero _ _).mpr heq)
    · intro h cmd hc hz
      exact h cmd hc ((strcasecmp_zero _ _).mp (by simpa using hz))
  · intro cmd hl
    unfold lookupCommand at hl
    exact ⟨List.mem_of_find?_eq_some hl,
      (strcasecmp_zero _ _).mp (by simpa using List.find?_some hl)⟩
  · intro fmt arg hpos
    have hne : ¬ c.replyPosition = c.replyAlloc := by omega
    simp only [addReplyErrorFormat, addReply, hne, if_false, hpos, if_true]
    exact ⟨_,
      { createReplyObject reply_type.RLITE_REPLY_ERROR with
        str := some (String.mk ((format_s arg.toList fmt.toList).take (fmt.length * 2 - 1))) },
      rfl, by simp [aset], rfl, rfl, rfl, rfl, rfl⟩

/-! ## The exits of the bisection -/

/-- With `max - min < fuel` the bisection loop returns. -/
theorem bisect_returns (score : Int) (scores : Nat → Int) :
    ∀ (fuel : Nat) (pos min max : Int), max - min < fuel →
      ∃ res, bisect score scores fuel pos min max = some res := by
  intro fuel
  induction fuel with
  | zero =>
    intro pos min max h
    refine ⟨bisect_result.miss pos max, ?_⟩
    rw [bisect, if_neg (by omega)]
  | succ fuel ih =>
    intro pos min max h
    rw [bisect]
    by_cases hm : min ≤ max
    · rw [if_pos hm]
      simp only
      split_ifs with h1 h2 h3 h4 h5
      · exact ⟨_, rfl⟩
      · exact ⟨_, rfl⟩
      · exact ih _ _ _ (by omega)
      · exact ih _ _ _ (by omega)
      · exact ⟨_, rfl⟩
      · exact ih _ _ _ (by omega)
    · rw [if_neg hm]
      exact ⟨_, rfl⟩

/-- When the bisection loop exits without a hit, either `pos = max + 1`, or
`pos = max` and the key is less than `scores[pos]`. -/
theorem bisect_exit (score : Int) (scores : Nat → Int) :
    ∀ (fuel : Nat) (pos min max : Int), (min ≤ max ∨ pos = max + 1) →
      ∀ (p mx : Int), bisect score scores fuel pos min max = some (bisect_result.miss p mx) →
        p = mx + 1 ∨ (p = mx ∧ score < scores p.toNat) := by
  intro fuel
  induction fuel with
  | zero =>
    intro pos min max h0 p mx h
    rw [bisect] at h
    split_ifs at h with hm
    simp only [Option.some.injEq, bisect_result.miss.injEq] at h
    obtain ⟨rfl, rfl⟩ := h
    left; omega
  | succ fuel ih =>
    intro pos min max h0 p mx h
    rw [bisect] at h
    by_cases hm : min ≤ max
    · rw [if_pos hm] at h
      simp only at h
      split_ifs at h with h1 h2 h3 h4 h5
      · cases h
      · simp only [Option.some.injEq, bisect_result.miss.injEq] at h
        obtain ⟨rfl, rfl⟩ := h
        left; omega
      · exact ih _ _ _ (Or.inl (by omega)) p mx h
      · exact ih _ _ _ (Or.inl (by omega)) p mx h
      · simp only [Option.some.injEq, bisect_result.miss.injEq] at h
        obtain ⟨rfl, rfl⟩ := h
        right
        refine ⟨h5.symm, ?_⟩
        have hc : ¬ score = scores ((max - min) / 2 + min).toNat := by
          intro e
          exact h1 ((long_cmp_eq_zero _ _).2 e)
        have hp : ¬ scores ((max - min) / 2 + min).toNat < score := by
          intro e
          exact h2 ((long_cmp_pos _ _).2 e)
        omega
      · exact ih _ _ _ (Or.inl (by omega)) p mx h
    · rw [if_neg hm] at h
      simp only [Option.some.injEq, bisect_result.miss.injEq] at h
      obtain ⟨rfl, rfl⟩ := h
      left; omega

/-- The adjustment after the bisection loop leaves `pos` as it is. -/
theorem bisect_no_adjust (score : Int) (scores : Nat → Int) (size : Nat) (p mx : Int)
    (h : bisect score scores (size + 1) 0 0 ((size : Int) - 1) =
      some (bisect_result.miss p mx)) :
    ¬ (p = mx ∧ long_cmp score (scores p.toNat) = 1) := by
  have hx := bisect_exit score scores (size + 1) 0 0 ((size : Int) - 1)
    (by omega) p mx h
  rintro ⟨e, hc⟩
  rw [long_cmp_eq_one] at hc
  omega

/-- The loop over the levels gives the same return code and the same value with
path vectors and without them. -/
theorem find_levels_paths (bt : rl_btree) (k : Int) (wv : Bool) : ∀ (n i node : Nat)
    (nodes : Nat → Option Nat) (positions : Nat → Nat),
    (find_levels bt k wv n i node (some nodes) (some positions)).map
        (fun r => (r.retval, r.value)) =
      (find_levels bt k wv n i node none none).map (fun r => (r.retval, r.value)) := by
  intro n
  induction n with
  | zero =>
    intro i node nodes positions
    simp only [find_levels, Option.map_some']
  | succ n ih =>
    intro i node nodes positions
    rw [find_levels, find_levels]
    cases hs : select bt node with
    | none => rfl
    | some nd =>
      simp only
      cases hb : bisect k nd.scores (nd.size + 1) 0 0 ((nd.size : Int) - 1) with
      | none => rfl
      | some br =>
        cases br with
        | hit pos => simp only [Option.map_some']
        | miss pos mx =>
          have hna := bisect_no_adjust k nd.scores nd.size pos mx hb
          simp only [Option.isSome_some, Option.isSome_none, true_and, false_and,
            if_neg hna, if_false, Option.map_some', Option.map_none', Bool.false_eq_true]
          exact ih _ _ _ _

/-- C36: in `rl_btree_find_score` the bisection loop of a node returns, and when
it ends without a hit it leaves `pos = max + 1` (an empty node among them) or
`pos = max` with the key less than `scores[pos]`, so that the adjustment made
for path outputs keeps `pos`; a search with path vectors and a search without
them return the same code and the same value. -/
theorem find_score_adjustment_idle (bt : rl_btree) (score : Int) (want_value : Bool)
    (node : rl_btree_node) (nodes : Nat → Option Nat) (positions : Nat → Nat) :
    (∃ res, bisect score node.scores (node.size + 1) 0 0 ((node.size : Int) - 1) = some res ∧
      ∀ p mx, res = bisect_result.miss p mx →
        (p = mx + 1 ∨ (p = mx ∧ score < node.scores p.toNat)) ∧
        (if p = mx ∧ long_cmp score (node.scores p.toNat) = 1 then p + 1 else p) = p) ∧
    (rl_btree_find_score bt score want_value (some nodes) (some positions)).map
        (fun r => (r.retval, r.value)) =
      (rl_btree_find_score bt score want_value none none).map
        (fun r => (r.retval, r.value)) := by
  refine ⟨?_, ?_⟩
  · obtain ⟨res, hres⟩ := bisect_returns score node.scores (node.size + 1) 0 0
      ((node.size : Int) - 1) (by omega)
    refine ⟨res, hres, ?_⟩
    intro p mx e
    subst e
    exact ⟨bisect_exit score node.scores (node.size + 1) 0 0 ((node.size : Int) - 1)
      (by omega) p mx hres, if_neg (bisect_no_adjust score node.scores node.size p mx hres)⟩
  · unfold rl_btree_find_score
    simp only [Option.isNone_some, Option.isSome_some, Option.isNone_none, Option.isSome_none,
      Bool.false_eq_true, false_and, and_false, or_self, if_false]
    exact find_levels_paths bt score want_value _ _ _ _ _

/-! ## Statements about removals: the shift of the values, the old root, the calls
of the accessor -/

/-- C35: the leaf delete shifts `size - pos` slots of `values` where it shifts
`size - pos - 1` slots of `scores`: slot `size - 1` of `scores` keeps its
content, slot `size - 1` of `values` receives the content of slot `size`, which
for a full leaf is index `m`, one past the `m` slots of the array.  The root leaf
of the hash tree holding 10, 20, 30, 40 with `m = 4` is full; the removal of 10
leaves 40 in slot 3 of `scores` and puts the content of slot 4 of `values`, 0,
into slot 3 of `values`. -/
theorem leaf_delete_values_shift :
    (∀ (node : rl_btree_node) (v : Nat → Int) (pos : Nat),
      node.values = some v → pos < node.size →
      (remove_from_leaf node pos).scores (node.size - 1) = node.scores (node.size - 1) ∧
      (remove_from_leaf node pos).values.map (fun w => w (node.size - 1)) =
        some (v node.size)) ∧
    hash_1234.max_node_size = 4 ∧ hash_1234.root = 1 ∧ hash_1234.height = 1 ∧
    (select hash_1234 1).map (fun nd => (nd.size, live nd.scores 5)) =
      some (4, [10, 20, 30, 40, 0]) ∧
    (select hash_1234 1).map (fun nd => nd.values.map (fun w => live w 5)) =
      some (some [100, 200, 300, 400, 0]) ∧
    (rl_btree_remove_element hash_1234 10).map Prod.fst = some RL_OK ∧
    (select (after_remove hash_1234 10) 1).map (fun nd => (nd.size, live nd.scores 4)) =
      some (3, [20, 30, 40, 40]) ∧
    (select (after_remove hash_1234 10) 1).map (fun nd => nd.values.map (fun w => live w 4)) =
      some (some [200, 300, 400, 0]) := by
  refine ⟨?_, by decide, by decide, by decide, by decide, by decide, by decide, by decide,
    by decide⟩
  intro node v pos hv hp
  constructor
  · simp only [remove_from_leaf, memmove_dbg]
    rw [if_neg (by omega)]
  · simp only [remove_from_leaf, memmove_dbg, hv, Option.map_some', Option.some.injEq]
    rw [if_pos (by omega)]
    congr 1
    omega

/-- C32: in the tree `[1] | 2 | [3]` with `m = 4` the removal of 3 returns
RL_OK and gives height 1 with the root id 2, whose node holds the keys 1, 2;
the merged leaf 3 is removed from the accessor, and the old root, id 1, is
still a live node of the accessor, with size 0.  The same holds for the removal
of 1 from the tree built by adding 1 to 5, whose old root has the id 3. -/
theorem root_collapse_keeps_old_root :
    collapse_tree.root = 1 ∧ collapse_tree.height = 2 ∧
    rl_flatten_btree 2 collapse_tree = some [1, 2, 3] ∧
    (rl_btree_remove_element collapse_tree 3).map Prod.fst = some RL_OK ∧
    (after_remove collapse_tree 3).height = 1 ∧
    (after_remove collapse_tree 3).root = 2 ∧
    (select (after_remove collapse_tree 3) 2).map node_fields = some (2, [1, 2], none, none) ∧
    select (after_remove collapse_tree 3) 3 = none ∧
    (select (after_remove collapse_tree 3) 1).map node_fields =
      some (0, [], none, some [2]) ∧
    set_12345.root = 3 ∧
    (rl_btree_remove_element set_12345 1).map Prod.fst = some RL_OK ∧
    (after_remove set_12345 1).height = 1 ∧ (after_remove set_12345 1).root = 1 ∧
    (select (after_remove set_12345 1) 3).map node_fields = some (0, [], none, some [1]) := by
  refine ⟨by decide, by decide, by decide, by decide, by decide, by decide, by decide, ?_,
    by decide, by decide, by decide, by decide, by decide, by decide⟩
  have h : (select (after_remove collapse_tree 3) 3).isSome = false := by decide
  cases hs : select (after_remove collapse_tree 3) 3 with
  | none => rfl
  | some nd => rw [hs] at h; cases h

/-- C33: calls that change a node and hand it neither to `accessor->update` nor
to `accessor->insert`.  Adding 1 to the empty set tree changes the root, node 1,
and makes no call.  Adding 8 to the tree built from 1 to 7 splits the leaf 2:
the nodes 2 (the left half), 3 (the root, which receives the separator) and 4
(the new right half) change and the one call is the insert of node 4.  Removing
80 from `hash_9` borrows from the left sibling: the nodes 2, 3 (the parent,
whose separator is rewritten) and 4 change, the calls are update of 4, 2 and 4. -/
theorem uncommitted_changes :
    (rl_btree_add_element fresh_set 1 10).map Prod.fst = some RL_OK ∧
    changed_nodes fresh_set (after_add fresh_set 1 10) = [1] ∧
    add_element_calls fresh_set 1 10 = some [] ∧
    (rl_btree_add_element set_1234567 8 80).map Prod.fst = some RL_OK ∧
    changed_nodes set_1234567 (after_add set_1234567 8 80) = [2, 3, 4] ∧
    add_element_calls set_1234567 8 80 = some [4] ∧
    (rl_btree_remove_element hash_9 80).map Prod.fst = some RL_OK ∧
    changed_nodes hash_9 (after_remove hash_9 80) = [2, 3, 4] ∧
    remove_element_calls hash_9 80 = some [4, 2, 4] := by
  refine ⟨by decide, by decide, by decide, by decide, by decide, by decide, by decide,
    by decide, by decide⟩

theorem take_drop_erase {α : Type} (l : List α) (q : Nat) :
    l.take q ++ l.drop (q + 1) = l.eraseIdx q :=
  (List.eraseIdx_eq_take_drop_succ l q).symm

/-- The fields of the survivor and of the parent after a merge into the left
sibling, for a node that is child `q + 1` of its parent. -/
theorem merge_left_fields (node parent sib : rl_btree_node) (pch : Nat → Nat) (q : Nat)
    (hpp : q + 1 ≤ parent.size)
    (hpc : parent.children = some pch)
    (hv1 : node.values.isSome = parent.values.isSome)
    (hv2 : sib.values.isSome = parent.values.isSome)
    (hcs : node.children.isSome = sib.children.isSome) :
    ∃ p1 s1, merge_left node parent sib pch (q + 1) = some (p1, s1) ∧
      node_fields s1 =
        (sib.size + (1 + node.size),
         live sib.scores sib.size ++ parent.scores q :: live node.scores node.size,
         sib.values.bind (fun sv => parent.values.bind (fun pv => node.values.map
           (fun nv => live sv sib.size ++ pv q :: live nv node.size))),
         sib.children.bind (fun sc => node.children.map
           (fun nc => live sc (sib.size + 1) ++ live nc (node.size + 1)))) ∧
      node_fields p1 =
        (parent.size - 1, (live parent.scores parent.size).eraseIdx q,
         parent.values.map (fun pv => (live pv parent.size).eraseIdx q),
         some ((live pch (parent.size + 1)).eraseIdx (q + 1))) := by
  have e1 : ∀ (a b : Nat → Nat), live (memmove_dbg a (sib.size + 1) b 0 (node.size + 1))
      (sib.size + (1 + node.size) + 1) = live a (sib.size + 1) ++ live b (node.size + 1) := by
    intro a b
    have := live_concat a b (sib.size + 1) (node.size + 1)
    rw [show sib.size + (1 + node.size) + 1 = sib.size + 1 + (node.size + 1) by omega]
    exact this
  rcases isSome_cases parent.values with hpv | ⟨pv, hpv⟩ <;>
  rcases isSome_cases node.values with hnv | ⟨nv, hnv⟩ <;>
  rcases isSome_cases sib.values with hsv | ⟨sv, hsv⟩ <;>
  rcases isSome_cases node.children with hnc | ⟨nc, hnc⟩ <;>
  rcases isSome_cases sib.children with hsc | ⟨sc, hsc⟩ <;>
  simp only [hpv, hnv, hsv, hnc, hsc, Option.isSome_some, Option.isSome_none, Bool.false_eq_true,
    Bool.true_eq_false] at hv1 hv2 hcs
  all_goals
    by_cases hlt : q + 1 < parent.size
    · have hE : ∀ (a : Nat → Int),
          live (memmove_dbg a q a (q + 1) (parent.size - (q + 1))) (parent.size - 1) =
            (live a parent.size).eraseIdx q := by
        intro a
        rw [← take_drop_erase]
        exact live_erase_gen _ parent.size _ q (q + 1) _ (by omega) rfl (by omega) rfl
      have hC : live (memmove_dbg pch (q + 1) pch (q + 1 + 1) (parent.size - (q + 1)))
          (parent.size - 1 + 1) = (live pch (parent.size + 1)).eraseIdx (q + 1) := by
        rw [← take_drop_erase]
        exact live_erase_gen _ (parent.size + 1) _ (q + 1) (q + 1 + 1) _ (by omega) rfl
          (by omega) (by omega)
      generalize hb : merge_left node parent sib pch (q + 1) = res
      simp only [merge_left, hpv, hnv, hsv, hnc, hsc, Option.map_some', Option.map_none', hlt,
        if_true, Nat.add_sub_cancel] at hb
      subst hb
      refine ⟨_, _, rfl, ?_, ?_⟩
      · simp only [node_fields, hpv, hnv, hsv, hnc, hsc, Option.map_some', Option.map_none', Option.bind_some,
          Option.bind_none, Option.some_bind, Option.none_bind, live_concat_with, e1]
      · simp only [node_fields, hpv, hnv, hsv, hnc, hsc, Option.map_some', Option.map_none', hE, hC]
    · have hT : ∀ (a : Nat → Int), live a (parent.size - 1) = (live a parent.size).eraseIdx q := by
        intro a
        rw [← take_drop_erase]
        exact live_take_of_le _ _ q (by omega)
      have hC : live pch (parent.size - 1 + 1) =
          (live pch (parent.size + 1)).eraseIdx (q + 1) := by
        rw [← take_drop_erase, show parent.size - 1 + 1 = parent.size + 1 - 1 by omega]
        exact live_take_of_le _ _ (q + 1) (by omega)
      generalize hb : merge_left node parent sib pch (q + 1) = res
      simp only [merge_left, hpv, hnv, hsv, hnc, hsc, Option.map_some', Option.map_none', hlt,
        if_false, Nat.add_sub_cancel] at hb
      subst hb
      refine ⟨_, _, rfl, ?_, ?_⟩
      · simp only [node_fields, hpv, hnv, hsv, hnc, hsc, Option.map_some', Option.map_none', Option.bind_some,
          Option.bind_none, Option.some_bind, Option.none_bind, live_concat_with, e1]
      · simp only [node_fields, Option.map_some', Option.map_none', hpc, hpv, hT, hC]

/-- The fields of the survivor and of the parent after a merge of the right
sibling into a node that is child `ppos` of its parent. -/
theorem merge_right_fields (node parent sib : rl_btree_node) (pch : Nat → Nat) (ppos : Nat)
    (hpp : ppos < parent.size)
    (hv1 : node.values.isSome = parent.values.isSome)
    (hv2 : sib.values.isSome = parent.values.isSome)
    (hcs : node.children.isSome = sib.children.isSome) :
    ∃ n1 p1, merge_right node parent sib pch ppos = some (n1, p1) ∧
      node_fields n1 =
        (node.size + (1 + sib.size),
         live node.scores node.size ++ parent.scores ppos :: live sib.scores sib.size,
         node.values.bind (fun nv => parent.values.bind (fun pv => sib.values.map
           (fun sv => live nv node.size ++ pv ppos :: live sv sib.size))),
         node.children.bind (fun nc => sib.children.map
           (fun sc => live nc (node.size + 1) ++ live sc (sib.size + 1)))) ∧
      node_fields p1 =
        (parent.size - 1, (live parent.scores parent.size).eraseIdx ppos,
         parent.values.map (fun pv => (live pv parent.size).eraseIdx ppos),
         some ((live pch (parent.size + 1)).eraseIdx (ppos + 1))) := by
  have e1 : ∀ (a b : Nat → Nat), live (memmove_dbg a (node.size + 1) b 0 (sib.size + 1))
      (node.size + (1 + sib.size) + 1) = live a (node.size + 1) ++ live b (sib.size + 1) := by
    intro a b
    have := live_concat a b (node.size + 1) (sib.size + 1)
    rw [show node.size + (1 + sib.size) + 1 = node.size + 1 + (sib.size + 1) by omega]
    exact this
  have hE : ∀ (a : Nat → Int),
      live (memmove_dbg a ppos a (ppos + 1) (parent.size - ppos - 1)) (parent.size - 1) =
        (live a parent.size).eraseIdx ppos := by
    intro a
    rw [← take_drop_erase]
    exact live_erase_gen _ parent.size _ ppos (ppos + 1) _ (by omega) rfl (by omega) rfl
  have hC : live (memmove_dbg pch (ppos + 1) pch (ppos + 2) (parent.size - ppos - 1))
      (parent.size - 1 + 1) = (live pch (parent.size + 1)).eraseIdx (ppos + 1) := by
    rw [← take_drop_erase]
    exact live_erase_gen _ (parent.size + 1) _ (ppos + 1) (ppos + 1 + 1) _ (by omega) rfl
      (by omega) (by omega)
  rcases isSome_cases parent.values with hpv | ⟨pv, hpv⟩ <;>
  rcases isSome_cases node.values with hnv | ⟨nv, hnv⟩ <;>
  rcases isSome_cases sib.values with hsv | ⟨sv, hsv⟩ <;>
  rcases isSome_cases node.children with hnc | ⟨nc, hnc⟩ <;>
  rcases isSome_cases sib.children with hsc | ⟨sc, hsc⟩ <;>
  simp only [hpv, hnv, hsv, hnc, hsc, Option.isSome_some, Option.isSome_none, Bool.false_eq_true,
    Bool.true_eq_false] at hv1 hv2 hcs
  all_goals
    generalize hb : merge_right node parent sib pch ppos = res
    simp only [merge_right, hpv, hnv, hsv, hnc, hsc, Option.map_some', Option.map_none'] at hb
    subst hb
    refine ⟨_, _, rfl, ?_, ?_⟩
    · simp only [node_fields, hpv, hnv, hsv, hnc, hsc, Option.map_some', Option.map_none',
        Option.bind_some, Option.bind_none, Option.some_bind, Option.none_bind, live_concat_with,
        e1]
    · simp only [node_fields, hpv, hnv, hsv, hnc, hsc, Option.map_some', Option.map_none', hE,
        hC]

/-- C31: the node at level `i + 1` of the path is short of `m / 2` keys and is
child `p` of its parent.  When it has a left sibling, and neither that sibling
nor a right sibling holds more than `m / 2` keys, the rebalance loop of
`rl_btree_remove_element` merges the node into the left sibling: the sibling
holds its keys, the parent's key at index `p - 1`, and the keys of the node
(values alike, children those of the sibling followed by those of the node), the
parent has lost its key and value at index `p - 1` and its child at index `p`,
the node is removed from the accessor.  When `p = 0` and the right sibling holds
at most `m / 2` keys, the sibling is merged into the node: the node holds its
keys, the parent's key at index 0 and the keys of the sibling, the parent has
lost its key and value at index 0 and its child at index 1, the sibling is
removed.  In both cases the survivor holds at most `m` keys, no other node
changes, and the loop goes on with the parent.  In both cases, too,
`rl_btree_node_destroy` of the merged-away node hands to `free` every value that
node held, that is, on a hash tree, the very values the survivor has just taken
over: they are appended to `freed` while the survivor still holds them. -/
theorem merge_step (bt : rl_btree) (nodes : Nat → Option Nat) (positions : Nat → Nat)
    (i id pid : Nat) (node parent : rl_btree_node) (pch : Nat → Nat)
    (hn : nodes (i + 1) = some id) (hs : select bt id = some node)
    (hdef : node.size < bt.max_node_size / 2)
    (hpn : nodes i = some pid) (hps : select bt pid = some parent)
    (hpc : parent.children = some pch) (hch : pch (positions i) = id)
    (hp0 : 0 < parent.size) (hp : positions i ≤ parent.size)
    (hv1 : node.values.isSome = parent.values.isSome) (hd1 : id ≠ pid) :
    (∀ sib, 0 < positions i → select bt (pch (positions i - 1)) = some sib →
      sib.size ≤ bt.max_node_size / 2 →
      (positions i < parent.size →
        ∃ r, select bt (pch (positions i + 1)) = some r ∧ r.size ≤ bt.max_node_size / 2) →
      sib.values.isSome = parent.values.isSome → node.children.isSome = sib.children.isSome →
      pch (positions i - 1) ≠ pid → pch (positions i - 1) ≠ id →
      ∃ b, rebalance_level nodes positions (i + 1) bt = some (rebalance_result.next b) ∧
        (select b (pch (positions i - 1))).map node_fields =
          some (sib.size + (1 + node.size),
            live sib.scores sib.size ++ parent.scores (positions i - 1) ::
              live node.scores node.size,
            sib.values.bind (fun sv => parent.values.bind (fun pv => node.values.map
              (fun nv => live sv sib.size ++ pv (positions i - 1) :: live nv node.size))),
            sib.children.bind (fun sc => node.children.map
              (fun nc => live sc (sib.size + 1) ++ live nc (node.size + 1)))) ∧
        (select b pid).map node_fields =
          some (parent.size - 1, (live parent.scores parent.size).eraseIdx (positions i - 1),
            parent.values.map (fun pv => (live pv parent.size).eraseIdx (positions i - 1)),
            some ((live pch (parent.size + 1)).eraseIdx (positions i))) ∧
        select b (pch (positions i)) = none ∧
        sib.size + (1 + node.size) ≤ bt.max_node_size ∧
        (∀ x, x ≠ id → x ≠ pid → x ≠ pch (positions i - 1) → select b x = select bt x) ∧
        b.height = bt.height ∧ b.root = bt.root ∧
        b.freed = bt.freed ++ (node.values.map (fun nv => live nv node.size)).getD []) ∧
    (∀ sib, positions i = 0 → select bt (pch (positions i + 1)) = some sib →
      sib.size ≤ bt.max_node_size / 2 →
      sib.values.isSome = parent.values.isSome → node.children.isSome = sib.children.isSome →
      pch (positions i + 1) ≠ pid → pch (positions i + 1) ≠ id →
      ∃ b, rebalance_level nodes positions (i + 1) bt = some (rebalance_result.next b) ∧
        (select b (pch (positions i))).map node_fields =
          some (node.size + (1 + sib.size),
            live node.scores node.size ++ parent.scores (positions i) ::
              live sib.scores sib.size,
            node.values.bind (fun nv => parent.values.bind (fun pv => sib.values.map
              (fun sv => live nv node.size ++ pv (positions i) :: live sv sib.size))),
            node.children.bind (fun nc => sib.children.map
              (fun sc => live nc (node.size + 1) ++ live sc (sib.size + 1)))) ∧
        (select b pid).map node_fields =
          some (parent.size - 1, (live parent.scores parent.size).eraseIdx (positions i),
            parent.values.map (fun pv => (live pv parent.size).eraseIdx (positions i)),
            some ((live pch (parent.size + 1)).eraseIdx (positions i + 1))) ∧
        select b (pch (positions i + 1)) = none ∧
        node.size + (1 + sib.size) ≤ bt.max_node_size ∧
        (∀ x, x ≠ id → x ≠ pid → x ≠ pch (positions i + 1) → select b x = select bt x) ∧
        b.height = bt.height ∧ b.root = bt.root ∧
        b.freed = bt.freed ++ (sib.values.map (fun sv => live sv sib.size)).getD []) := by
  have hz : ¬ parent.size = 0 := by omega
  have hge : ¬ (node.size ≥ bt.max_node_size / 2) := by omega
  constructor
  · intro sib h0 hss hsz hright hv2 hcs hd2 hd3
    obtain ⟨q, hq⟩ : ∃ q, positions i = q + 1 := ⟨positions i - 1, by omega⟩
    rw [hq] at hch hright
    simp only [hq, Nat.add_sub_cancel] at hss hd2 hd3 ⊢
    obtain ⟨p1, s1, e0, f1, f2⟩ :=
      merge_left_fields node parent sib pch q (by omega) hpc hv1 hv2 hcs
    have hsel : ∀ x, select (remove (store (store bt (pch q) s1) pid p1) id) x =
        if x = id then none else if x = pid then some p1
        else if x = pch q then some s1 else select bt x :=
      select_store2_remove bt _ _ _ _ _ (select_lt hss) (select_lt hps)
    have hnl : ¬ sib.size > bt.max_node_size / 2 := by omega
    have hres : rebalance_level nodes positions (i + 1) bt = some (rebalance_result.next
        (rl_btree_node_destroy (remove (store (store bt (pch q) s1) pid p1) id) node.size none
          node.values)) := by
      simp only [rebalance_level, hn, hs, Nat.add_one_ne_zero, if_false, or_false, hge,
        Nat.add_sub_cancel, hpn, hps, hz, hpc, hq, Nat.succ_pos, gt_iff_lt, if_true, hss,
        Option.map_some', hnl]
      by_cases hlt : q + 1 < parent.size
      · obtain ⟨r, hr, hrs⟩ := hright hlt
        have hnr : ¬ bt.max_node_size / 2 < r.size := by omega
        simp only [hlt, if_true, hr, Option.map_some', hnr, if_false, e0]
      · simp only [hlt, if_false, e0]
    refine ⟨_, hres, ?_, ?_, ?_, by omega, ?_, rfl, rfl, ?_⟩
    · rw [select_destroy, hsel, if_neg hd3, if_neg hd2, if_pos rfl, Option.map_some', f1]
    · rw [select_destroy, hsel, if_neg (Ne.symm hd1), if_pos rfl, Option.map_some', f2]
    · rw [select_destroy, hsel, if_pos hch]
    · intro x h1 h2 h3
      rw [select_destroy, hsel, if_neg h1, if_neg h2, if_neg h3]
    · cases node.values <;> simp [rl_btree_node_destroy, remove, store]
  · intro sib h0 hss hsz hv2 hcs hd2 hd3
    obtain ⟨n1, p1, e0, f1, f2⟩ :=
      merge_right_fields node parent sib pch (positions i) (by omega) hv1 hv2 hcs
    have hsel : ∀ x, select (remove (store (store bt id n1) pid p1) (pch (positions i + 1))) x =
        if x = pch (positions i + 1) then none else if x = pid then some p1
        else if x = id then some n1 else select bt x :=
      select_store2_remove bt _ _ _ _ _ (select_lt hs) (select_lt hps)
    have hnl : ¬ sib.size > bt.max_node_size / 2 := by omega
    have hlt : positions i < parent.size := by omega
    have hn0 : ¬ positions i > 0 := by omega
    have hres : rebalance_level nodes positions (i + 1) bt = some (rebalance_result.next
        (rl_btree_node_destroy (remove (store (store bt id n1) pid p1) (pch (positions i + 1)))
          sib.size none sib.values)) := by
      simp only [rebalance_level, hn, hs, Nat.add_one_ne_zero, if_false, or_false, hge,
        Nat.add_sub_cancel, hpn, hps, hz, hpc, hn0, hlt, if_true, hss,
        Option.map_some', hnl, e0]
    refine ⟨_, hres, ?_, ?_, ?_, by omega, ?_, rfl, rfl, ?_⟩
    · rw [hch, select_destroy, hsel, if_neg (Ne.symm hd3), if_neg hd1, if_pos rfl,
        Option.map_some', f1]
    · rw [select_destroy, hsel, if_neg (Ne.symm hd2), if_pos rfl, Option.map_some', f2]
    · rw [select_destroy, hsel, if_pos rfl]
    · intro x h1 h2 h3
      rw [select_destroy, hsel, if_neg h3, if_neg h2, if_neg h1]
    · cases sib.values <;> simp [rl_btree_node_destroy, remove, store]

/-- With `m = 4`: the middle leaf 50 of the hash tree 10, 20 | 30 | 50 | 60 | 70, 80 is
merged into its left sibling, which then holds 10, 20, 30, 50, and the root keeps
60 over the leaves 2 and 4; the value 500 that the sibling took over is freed.
The first leaf 20 of the tree 20 | 30 | 40, 50 | 60 | 70, 80 takes in its right
sibling and holds 20, 30, 40, 50; the values 400 and 500 it took over are freed.
In a whole call: the removal of 10 from the hash tree built by adding 10 to 50
returns `RL_OK`, the remaining leaf holds 20, 30, 40, 50 with the values 200, 300,
400, 500, the values 400 and 500 have been handed to `free`, and a search for
40 still reports the value 400. -/
theorem merge_step_witness :
    (lend_node.size < merge_tree.max_node_size / 2 ∧ 0 < lend_positions 0 ∧
      lend_left.size ≤ merge_tree.max_node_size / 2 ∧
      merge_sibling.size ≤ merge_tree.max_node_size / 2 ∧
      short_first.size < merge_first_tree.max_node_size / 2 ∧ first_positions 0 = 0 ∧
      merge_middle.size ≤ merge_first_tree.max_node_size / 2) ∧
    (∃ b, rebalance_level lend_nodes lend_positions (0 + 1) merge_tree =
        some (rebalance_result.next b) ∧
      (select b 2).map node_fields =
        some (4, [10, 20, 30, 50], some [100, 200, 300, 500], none) ∧
      (select b 1).map node_fields = some (1, [60], some [600], some [2, 4]) ∧
      select b 3 = none ∧ (4 : Nat) ≤ merge_tree.max_node_size ∧
      (∀ x, x ≠ 3 → x ≠ 1 → x ≠ 2 → select b x = select merge_tree x) ∧
      b.height = merge_tree.height ∧ b.root = merge_tree.root ∧
      b.freed = merge_tree.freed ++ [500]) ∧
    (∃ b, rebalance_level first_nodes first_positions (0 + 1) merge_first_tree =
        some (rebalance_result.next b) ∧
      (select b 2).map node_fields =
        some (4, [20, 30, 40, 50], some [200, 300, 400, 500], none) ∧
      (select b 1).map node_fields = some (1, [60], some [600], some [2, 4]) ∧
      select b 3 = none ∧ (4 : Nat) ≤ merge_first_tree.max_node_size ∧
      (∀ x, x ≠ 2 → x ≠ 1 → x ≠ 3 → select b x = select merge_first_tree x) ∧
      b.height = merge_first_tree.height ∧ b.root = merge_first_tree.root ∧
      b.freed = merge_first_tree.freed ++ [400, 500]) ∧
    (hash_12345.freed = [] ∧
      (rl_btree_remove_element hash_12345 10).map Prod.fst = some RL_OK ∧
      (select (after_remove hash_12345 10) (after_remove hash_12345 10).root).map
        node_fields = some (4, [20, 30, 40, 50], some [200, 300, 400, 500], none) ∧
      (after_remove hash_12345 10).freed = [400, 500] ∧
      (rl_btree_find_score (after_remove hash_12345 10) 40 true none none).map
        (fun r => (r.retval, r.value)) = some (RL_FOUND, some 400)) :=
  ⟨⟨by decide, by decide, by decide, by decide, by decide, by decide, by decide⟩,
    (merge_step merge_tree lend_nodes lend_positions 0 3 1 lend_node lend_root
      (fun j => if j = 0 then 2 else if j = 1 then 3 else 4) rfl rfl (by decide) rfl rfl rfl
      rfl (by decide) (by decide) (by decide) (by decide)).1 lend_left (by decide) rfl
      (by decide) (fun _ => ⟨merge_sibling, rfl, by decide⟩) (by decide) (by decide)
      (by decide) (by decide),
    (merge_step merge_first_tree first_nodes first_positions 0 2 1 short_first lend_root
      (fun j => if j = 0 then 2 else if j = 1 then 3 else 4) rfl rfl (by decide) rfl rfl rfl
      rfl (by decide) (by decide) (by decide) (by decide)).2 merge_middle (by decide) rfl
      (by decide) (by decide) (by decide) (by decide) (by decide),
    ⟨by decide, by decide, by decide, by decide, by decide⟩⟩

/-! ## The round trip of keys and values of any size -/

theorem put_4bytes_mod (data : Nat → Nat) (pos : Nat) (v : Int) :
    put_4bytes data pos (v % 4294967296) = put_4bytes data pos v := by
  funext j
  simp only [put_4bytes, Int.emod_emod_of_dvd v (dvd_refl (4294967296 : Int))]

theorem set_serialize_keys_wrap (node : rl_btree_node) : ∀ (n : Nat) (data : Nat → Nat),
    long_set_serialize_keys (wrap_node node) n data = long_set_serialize_keys node n data := by
  intro n
  induction n with
  | zero => intro data; rfl
  | succ n ih =>
    intro data
    simp only [long_set_serialize_keys, ih]
    have e : (wrap_node node).scores n = node.scores n % 4294967296 := rfl
    have c : child_word (wrap_node node) n = child_word node n := rfl
    rw [e, c, put_4bytes_mod]

theorem set_serialize_wrap (node : rl_btree_node) :
    long_set_btree_node_serialize (wrap_node node) = long_set_btree_node_serialize node := by
  simp only [long_set_btree_node_serialize, set_serialize_keys_wrap]
  rfl

theorem hash_serialize_keys_wrap (node : rl_btree_node) (v : Nat → Int) :
    ∀ (n : Nat) (data : Nat → Nat),
    long_hash_serialize_keys (wrap_node node) (fun i => v i % 4294967296) n data =
      long_hash_serialize_keys node v n data := by
  intro n
  induction n with
  | zero => intro data; rfl
  | succ n ih =>
    intro data
    simp only [long_hash_serialize_keys, ih]
    have e : (wrap_node node).scores n = node.scores n % 4294967296 := rfl
    have c : child_word (wrap_node node) n = child_word node n := rfl
    rw [e, c, put_4bytes_mod, put_4bytes_mod]

theorem hash_serialize_wrap (node : rl_btree_node) (v : Nat → Int) (hv : node.values = some v) :
    long_hash_btree_node_serialize (wrap_node node) = long_hash_btree_node_serialize node := by
  have hw : (wrap_node node).values = some (fun i => v i % 4294967296) := by
    simp only [wrap_node, hv, Option.map_some']
  simp only [long_hash_btree_node_serialize, hw, hv, Option.getD_some, hash_serialize_keys_wrap]
  rfl

theorem wrap_word_sized (node : rl_btree_node) (h1 : 1 ≤ node.size)
    (hsz : node.size < 4294967296)
    (hc : ∀ ch, node.children = some ch →
      ∀ i, i ≤ node.size → 0 < ch i ∧ ch i < 4294967296) :
    word_sized (wrap_node node) = true := by
  rw [word_sized_iff]
  refine ⟨hsz, ?_, ?_, ?_⟩
  · intro i _
    exact ⟨Int.emod_nonneg _ (by norm_num), Int.emod_lt_of_pos _ (by norm_num)⟩
  · intro v hv i _
    rcases isSome_cases node.values with h0 | ⟨w, h0⟩
    · simp only [wrap_node, h0, Option.map_none'] at hv
      cases hv
    · simp only [wrap_node, h0, Option.map_some', Option.some.injEq] at hv
      subst hv
      exact ⟨Int.emod_nonneg _ (by norm_num), Int.emod_lt_of_pos _ (by norm_num)⟩
  · intro ch hch
    exact ⟨h1, hc ch hch⟩

theorem wrap_fields (node : rl_btree_node) :
    node_fields (wrap_node node) =
      (node.size, (live node.scores node.size).map (fun s => s % 4294967296),
       node.values.map (fun v => (live v node.size).map (fun s => s % 4294967296)),
       node.children.map (fun c => live c (node.size + 1))) := by
  simp only [node_fields, wrap_node, live_map, Option.map_map, Function.comp_def]

theorem map_mod_eq (l : List Int) :
    l.map (fun s => s % 4294967296) = l ↔ ∀ s ∈ l, 0 ≤ s ∧ s < 4294967296 := by
  induction l with
  | nil => simp
  | cons a l ih =>
    simp only [List.map_cons, List.cons.injEq, ih, List.mem_cons, forall_eq_or_imp]
    constructor
    · rintro ⟨h, h2⟩
      refine ⟨⟨?_, ?_⟩, h2⟩
      · rw [← h]; exact Int.emod_nonneg _ (by norm_num)
      · rw [← h]; exact Int.emod_lt_of_pos _ (by norm_num)
    · rintro ⟨⟨h1, h2⟩, h3⟩
      exact ⟨Int.emod_eq_of_lt h1 h2, h3⟩

/-- The leaf of size 2^32 in a `long_set` tree with `m = 2^32`: the size satisfies
`1 <= size <= m`, and the round trip gives a node of size 0. -/
theorem round_trip_huge_size :
    huge_set.type = long_set ∧ huge_leaf.values = none ∧ huge_leaf.children = none ∧
    1 ≤ huge_leaf.size ∧ huge_leaf.size ≤ huge_set.max_node_size ∧
    (long_set_btree_node_deserialize huge_set (long_set_btree_node_serialize huge_leaf).2.1).map
      (fun r => (r.1, r.2.size)) = some (RL_OK, 0) ∧
    huge_leaf.size ≠ 0 := by
  refine ⟨rfl, rfl, rfl, by decide, by decide, ?_, by decide⟩
  obtain ⟨w0, wk, _⟩ := set_serialize_words huge_leaf
  have e0 : get_4bytes (long_set_btree_node_serialize huge_leaf).2.1 0 = 0 := by
    rw [w0]; rfl
  have e1 : get_4bytes (long_set_btree_node_serialize huge_leaf).2.1 (4 + 8 * 0) = 0 := by
    rw [(wk 0 (by decide)).1]; rfl
  generalize (long_set_btree_node_serialize huge_leaf).2.1 = data at e0 e1
  simp only [long_set_btree_node_deserialize, e0, e1, long_set_deserialize_keys, ne_eq,
    not_true_eq_false, if_false, Option.map_some']

/-- C37: for a node with `1 <= size < 2^32` that is a leaf or has all its
`size + 1` child ids in `[1, 2^32)`, under either type descriptor, deserialising
the bytes produced by serialising the node returns RL_OK with a node of the same
size and the same child ids whose i-th key and value are the key and value of
the node modulo 2^32; these sequences are those of the node exactly when every
key and every value lies in `[0, 2^32)`. -/
theorem round_trip_mod_words (bt : rl_btree) (node : rl_btree_node) (h1 : 1 ≤ node.size)
    (hsz : node.size < 4294967296)
    (hc : ∀ ch, node.children = some ch →
      ∀ i, i ≤ node.size → 0 < ch i ∧ ch i < 4294967296) :
    (bt.type = long_set → node.values = none →
      (long_set_btree_node_deserialize bt (long_set_btree_node_serialize node).2.1).map
        (fun r => (r.1, node_fields r.2)) =
        some (RL_OK, node.size, (live node.scores node.size).map (fun s => s % 4294967296),
          none, node.children.map (fun c => live c (node.size + 1)))) ∧
    (bt.type = long_hash → ∀ v, node.values = some v →
      ∃ data size, long_hash_btree_node_serialize node = some (RL_OK, data, size) ∧
        (long_hash_btree_node_deserialize bt data).map (fun r => (r.1, node_fields r.2)) =
          some (RL_OK, node.size, (live node.scores node.size).map (fun s => s % 4294967296),
            some ((live v node.size).map (fun s => s % 4294967296)),
            node.children.map (fun c => live c (node.size + 1)))) ∧
    (((live node.scores node.size).map (fun s => s % 4294967296) = live node.scores node.size ∧
        ∀ v, node.values = some v →
          (live v node.size).map (fun s => s % 4294967296) = live v node.size) ↔
      ((∀ i, i < node.size → 0 ≤ node.scores i ∧ node.scores i < 4294967296) ∧
        ∀ v, node.values = some v → ∀ i, i < node.size → 0 ≤ v i ∧ v i < 4294967296)) := by
  have hw := wrap_word_sized node h1 hsz hc
  refine ⟨?_, ?_, ?_⟩
  · intro hty hv
    have h := set_round_trip bt (wrap_node node) (by rw [hty]; rfl)
      (by simp only [wrap_node, hv, Option.map_none']) hw
    rw [set_serialize_wrap, wrap_fields, hv] at h
    exact h
  · intro hty v hv
    obtain ⟨data, size, e1, e2⟩ := hash_round_trip bt (wrap_node node)
      (fun i => v i % 4294967296) (by rw [hty]; decide)
      (by simp only [wrap_node, hv, Option.map_some']) hw
    rw [hash_serialize_wrap node v hv] at e1
    rw [wrap_fields, hv] at e2
    exact ⟨data, size, e1, e2⟩
  · have key : ∀ a : Nat → Int,
        (live a node.size).map (fun s => s % 4294967296) = live a node.size ↔
          ∀ i, i < node.size → 0 ≤ a i ∧ a i < 4294967296 := by
      intro a
      rw [map_mod_eq]
      constructor
      · intro h i hi
        exact h (a i) ((mem_live a node.size (a i)).2 ⟨i, hi, rfl⟩)
      · intro h s hs
        obtain ⟨i, hi, e⟩ := (mem_live a node.size s).1 hs
        rw [← e]
        exact h i hi
    rw [key]
    constructor
    · rintro ⟨ha, hb⟩
      exact ⟨ha, fun v hv => (key v).1 (hb v hv)⟩
    · rintro ⟨ha, hb⟩
      exact ⟨ha, fun v hv => (key v).2 (hb v hv)⟩

/-- The hash leaf with the keys -1 and 2^32 + 5 and the values 7 and -2 comes
back with the keys 2^32 - 1 and 5 and the values 7 and 2^32 - 2. -/
theorem round_trip_mod_words_witness :
    (1 ≤ wide_leaf.size ∧ wide_leaf.size < 4294967296 ∧ wide_leaf.children = none ∧
      fresh_hash.type = long_hash) ∧
    ∃ data size, long_hash_btree_node_serialize wide_leaf = some (RL_OK, data, size) ∧
      (long_hash_btree_node_deserialize fresh_hash data).map (fun r => (r.1, node_fields r.2)) =
        some (RL_OK, 2, [4294967295, 5], some [7, 4294967294], none) :=
  ⟨⟨by decide, by decide, rfl, rfl⟩,
    (round_trip_mod_words fresh_hash wide_leaf (by decide) (by decide)
      (fun _ h => nomatch h)).2.1 rfl _ rfl⟩

/-! ## Writes stay within the capacity of the arrays -/

theorem beyond_refl (m : Nat) (nd : rl_btree_node) : beyond_kept m nd nd :=
  fun _ _ => ⟨rfl, rfl, rfl⟩

theorem beyond_trans {m : Nat} {a b c : rl_btree_node} (h1 : beyond_kept m a b)
    (h2 : beyond_kept m b c) : beyond_kept m a c := by
  intro j hj
  obtain ⟨a1, a2, a3⟩ := h1 j hj
  obtain ⟨b1, b2, b3⟩ := h2 j hj
  exact ⟨b1.trans a1, b2.trans a2, b3.trans a3⟩

theorem beyond_size (m : Nat) (nd : rl_btree_node) (n : Nat) :
    beyond_kept m nd { nd with size := n } :=
  fun _ _ => ⟨rfl, rfl, rfl⟩

/-- A node that has room takes a key without a write past the capacity. -/
theorem add_into_node_beyond (m : Nat) (node node1 : rl_btree_node) (pos : Nat)
    (s v : Int) (child : Option Nat) (hsz : node.size < m) (hp : pos ≤ node.size)
    (h : add_into_node node pos s v child = some node1) : beyond_kept m node node1 := by
  rcases isSome_cases node.values with hv | ⟨nv, hv⟩ <;>
  rcases isSome_cases node.children with hc | ⟨nc, hc⟩ <;>
  rcases isSome_cases child with hd | ⟨c, hd⟩ <;>
  simp only [add_into_node, hv, hc, hd, Option.map_some', Option.map_none',
    Option.some.injEq] at h
  all_goals first
    | (cases h; done)
    | (subst h
       intro j hj
       simp only [values_slot, children_slot, hv, hc, aset, memmove_dbg]
       refine ⟨?_, ?_, ?_⟩ <;>
         first | trivial | rfl | (split_ifs <;> first | trivial | rfl | omega))

theorem split_keys_outside {α : Type} (m pos : Nat) (a r : Nat → α) (x : α) (j : Nat)
    (hp : pos ≤ m) (hj : m ≤ j) :
    (split_keys m pos a r x).1 j = a j ∧ (split_keys m pos a r x).2.1 j = r j := by
  unfold split_keys
  split_ifs <;> simp only [aset, memmove_dbg] <;>
    (constructor <;> first | trivial | rfl | (split_ifs <;> first | trivial | rfl | omega))

theorem split_children_outside (m pos : Nat) (a r : Nat → Nat) (c : Nat) (j : Nat)
    (hp : pos ≤ m) (hj : m ≤ j) :
    (split_children m pos a r c).1 (j + 1) = a (j + 1) ∧
    (split_children m pos a r c).2 (j + 1) = r (j + 1) := by
  unfold split_children
  split_ifs <;> simp only [aset, memmove_dbg] <;>
    (constructor <;> first | trivial | rfl | (split_ifs <;> first | trivial | rfl | omega))

/-- The split of a full node writes within the capacity of both nodes. -/
theorem add_split_beyond (m : Nat) (node right left right1 : rl_btree_node) (pos : Nat)
    (s v s1 v1 : Int) (child : Option Nat) (hp : pos ≤ m)
    (h : add_split m node right pos s v child = some (left, right1, s1, v1)) :
    beyond_kept m node left ∧ beyond_kept m right right1 := by
  rcases isSome_cases node.values with hv | ⟨nv, hv⟩ <;>
  rcases isSome_cases right.values with hrv | ⟨rv, hrv⟩ <;>
  rcases isSome_cases node.children with hc | ⟨nc, hc⟩ <;>
  rcases isSome_cases right.children with hrc | ⟨rc, hrc⟩ <;>
  rcases isSome_cases child with hd | ⟨c, hd⟩ <;>
  simp only [add_split, hv, hrv, hc, hrc, hd, Option.some.injEq, Prod.mk.injEq] at h
  all_goals first
    | (cases h; done)
    | (obtain ⟨h1, h2, _, _⟩ := h
       subst h1; subst h2
       constructor
       · intro j hj
         simp only [values_slot, children_slot, hv, hrv, hc, hrc]
         refine ⟨(split_keys_outside m pos _ _ _ j hp hj).1, ?_, ?_⟩ <;>
           first
             | trivial
             | rfl
             | exact (split_keys_outside m pos _ _ _ j hp hj).1
             | exact (split_children_outside m pos _ _ _ j hp hj).1
       · intro j hj
         simp only [values_slot, children_slot, hv, hrv, hc, hrc]
         refine ⟨(split_keys_outside m pos _ _ _ j hp hj).2, ?_, ?_⟩ <;>
           first
             | trivial
             | rfl
             | exact (split_keys_outside m pos _ _ _ j hp hj).2
             | exact (split_children_outside m pos _ _ _ j hp hj).2)

/-- The leaf delete writes within the capacity of the leaf. -/
theorem remove_from_leaf_beyond (m : Nat) (node : rl_btree_node) (pos : Nat)
    (hsz : node.size ≤ m) : beyond_kept m node (remove_from_leaf node pos) := by
  rcases isSome_cases node.values with hv | ⟨nv, hv⟩ <;>
  rcases isSome_cases node.children with hc | ⟨nc, hc⟩
  all_goals
    intro j hj
    simp only [remove_from_leaf, values_slot, children_slot, hv, hc, Option.map_some',
      Option.map_none', aset, memmove_dbg]
    refine ⟨?_, ?_, ?_⟩ <;>
      first | trivial | rfl | (split_ifs <;> first | trivial | rfl | omega)

/-- A borrow from the left sibling writes within the capacity of the three
nodes. -/
theorem borrow_left_beyond (m : Nat) (node parent sib n1 p1 s1 : rl_btree_node) (ppos : Nat)
    (hn : node.size < m) (hpp : ppos - 1 < m)
    (h : borrow_left node parent sib ppos = some (n1, p1, s1)) :
    beyond_kept m node n1 ∧ beyond_kept m parent p1 ∧ beyond_kept m sib s1 := by
  rcases isSome_cases node.values with hv | ⟨nv, hv⟩ <;>
  rcases isSome_cases parent.values with hpv | ⟨pv, hpv⟩ <;>
  rcases isSome_cases sib.values with hsv | ⟨sv, hsv⟩ <;>
  rcases isSome_cases node.children with hc | ⟨nc, hc⟩ <;>
  rcases isSome_cases sib.children with hsc | ⟨sc, hsc⟩ <;>
  simp only [borrow_left, hv, hpv, hsv, hc, hsc, Option.map_some', Option.map_none',
    Option.some.injEq, Prod.mk.injEq] at h
  all_goals first
    | (cases h; done)
    | (obtain ⟨h1, h2, h3⟩ := h
       subst h1; subst h2; subst h3
       refine ⟨?_, ?_, ?_⟩ <;>
       (intro j hj
        simp only [values_slot, children_slot, hv, hpv, hsv, hc, hsc, aset, memmove_dbg]
        refine ⟨?_, ?_, ?_⟩ <;>
          first | trivial | rfl | (split_ifs <;> first | trivial | rfl | omega)))

/-- A borrow from the right sibling writes within the capacity of the three
nodes. -/
theorem borrow_right_beyond (m : Nat) (node parent sib n1 p1 s1 : rl_btree_node) (ppos : Nat)
    (hn : node.size < m) (hpp : ppos < m) (hs : sib.size ≤ m)
    (h : borrow_right node parent sib ppos = some (n1, p1, s1)) :
    beyond_kept m node n1 ∧ beyond_kept m parent p1 ∧ beyond_kept m sib s1 := by
  rcases isSome_cases node.values with hv | ⟨nv, hv⟩ <;>
  rcases isSome_cases parent.values with hpv | ⟨pv, hpv⟩ <;>
  rcases isSome_cases sib.values with hsv | ⟨sv, hsv⟩ <;>
  rcases isSome_cases node.children with hc | ⟨nc, hc⟩ <;>
  rcases isSome_cases sib.children with hsc | ⟨sc, hsc⟩ <;>
  simp only [borrow_right, hv, hpv, hsv, hc, hsc, Option.map_some', Option.map_none',
    Option.some.injEq, Prod.mk.injEq] at h
  all_goals first
    | (cases h; done)
    | (obtain ⟨h1, h2, h3⟩ := h
       subst h1; subst h2; subst h3
       refine ⟨?_, ?_, ?_⟩ <;>
       (intro j hj
        simp only [values_slot, children_slot, hv, hpv, hsv, hc, hsc, aset, memmove_dbg]
        refine ⟨?_, ?_, ?_⟩ <;>
          first | trivial | rfl | (split_ifs <;> first | trivial | rfl | omega)))

/-- A merge into the left sibling writes within the capacity of the sibling and
of the parent. -/
theorem merge_left_beyond (m : Nat) (node parent sib p1 s1 : rl_btree_node)
    (pch : Nat → Nat) (ppos : Nat) (hpc : parent.children = some pch)
    (hsum : sib.size + 1 + node.size ≤ m) (hps : parent.size ≤ m)
    (h : merge_left node parent sib pch ppos = some (p1, s1)) :
    beyond_kept m parent p1 ∧ beyond_kept m sib s1 := by
  rcases isSome_cases node.values with hv | ⟨nv, hv⟩ <;>
  rcases isSome_cases parent.values with hpv | ⟨pv, hpv⟩ <;>
  rcases isSome_cases sib.values with hsv | ⟨sv, hsv⟩ <;>
  rcases isSome_cases node.children with hc | ⟨nc, hc⟩ <;>
  rcases isSome_cases sib.children with hsc | ⟨sc, hsc⟩ <;>
  simp only [merge_left, hv, hpv, hsv, hc, hsc, Option.map_some', Option.map_none',
    Option.some.injEq, Prod.mk.injEq] at h
  all_goals first
    | (cases h; done)
    | (obtain ⟨h1, h2⟩ := h
       subst h1; subst h2
       refine ⟨?_, ?_⟩ <;>
       (intro j hj
        simp only [values_slot, children_slot, hv, hpv, hsv, hc, hsc, hpc]
        refine ⟨?_, ?_, ?_⟩ <;>
          first
            | trivial
            | rfl
            | (simp only [aset, memmove_dbg]
               split_ifs <;> first | trivial | rfl | omega)
            | (split_ifs <;>
                simp only [values_slot, children_slot, hv, hpv, hsv, hc, hsc, hpc, aset,
                  memmove_dbg, Option.map_some', Option.map_none'] <;>
                first | trivial | rfl | (split_ifs <;> first | trivial | rfl | omega))))

/-- A merge of the right sibling into the node writes within the capacity of the
node and of the parent. -/
theorem merge_right_beyond (m : Nat) (node parent sib n1 p1 : rl_btree_node)
    (pch : Nat → Nat) (ppos : Nat) (hpc : parent.children = some pch)
    (hsum : node.size + 1 + sib.size ≤ m) (hps : parent.size ≤ m)
    (h : merge_right node parent sib pch ppos = some (n1, p1)) :
    beyond_kept m node n1 ∧ beyond_kept m parent p1 := by
  rcases isSome_cases node.values with hv | ⟨nv, hv⟩ <;>
  rcases isSome_cases parent.values with hpv | ⟨pv, hpv⟩ <;>
  rcases isSome_cases sib.values with hsv | ⟨sv, hsv⟩ <;>
  rcases isSome_cases node.children with hc | ⟨nc, hc⟩ <;>
  rcases isSome_cases sib.children with hsc | ⟨sc, hsc⟩ <;>
  simp only [merge_right, hv, hpv, hsv, hc, hsc, Option.map_some', Option.map_none',
    Option.some.injEq, Prod.mk.injEq] at h
  all_goals first
    | (cases h; done)
    | (obtain ⟨h1, h2⟩ := h
       subst h1; subst h2
       refine ⟨?_, ?_⟩ <;>
       (intro j hj
        simp only [values_slot, children_slot, hv, hpv, hsv, hc, hsc, hpc, aset, memmove_dbg,
          Option.map_some', Option.map_none']
        refine ⟨?_, ?_, ?_⟩ <;>
          first | trivial | rfl | (split_ifs <;> first | trivial | rfl | omega)))

/-! ## The capacity relation along the steps of a call -/

theorem grow_refl (m : Nat) (a : rl_btree) : grow_kept m a a := by
  refine ⟨fun x nd h => ⟨nd, h, beyond_refl m nd⟩, ?_⟩
  intro x nd1 h0 h1
  rw [h0] at h1; cases h1

theorem grow_trans {m : Nat} {a b c : rl_btree} (h1 : grow_kept m a b) (h2 : grow_kept m b c) :
    grow_kept m a c := by
  refine ⟨?_, ?_⟩
  · intro x nd hs
    obtain ⟨nd1, e1, f1⟩ := h1.1 x nd hs
    obtain ⟨nd2, e2, f2⟩ := h2.1 x nd1 e1
    exact ⟨nd2, e2, beyond_trans f1 f2⟩
  · intro x nd2 hs hc
    rcases isSome_cases (select b x) with hb | ⟨nd1, hb⟩
    · exact h2.2 x nd2 hb hc
    · obtain ⟨nd3, e2, f2⟩ := h2.1 x nd1 hb
      rw [hc] at e2; cases e2
      exact beyond_trans (h1.2 x nd1 hs hb) f2

theorem grow_congr {m : Nat} {a b c : rl_btree} (h : grow_kept m a b)
    (hc : c.accessor = b.accessor) : grow_kept m a c := by
  refine ⟨?_, ?_⟩
  · intro x nd hs
    obtain ⟨nd1, e1, f1⟩ := h.1 x nd hs
    exact ⟨nd1, by rw [select_congr b c hc]; exact e1, f1⟩
  · intro x nd1 hs h1
    rw [select_congr b c hc] at h1
    exact h.2 x nd1 hs h1

theorem grow_store (m : Nat) (a : rl_btree) (id : Nat) (nd nd1 : rl_btree_node)
    (hs : select a id = some nd) (hb : beyond_kept m nd nd1) :
    grow_kept m a (store a id nd1) := by
  refine ⟨?_, ?_⟩
  · intro x nd0 hx
    by_cases e : x = id
    · subst e
      rw [hs] at hx; cases hx
      exact ⟨nd1, select_store_same hs nd1, hb⟩
    · exact ⟨nd0, by rw [select_store_ne _ _ _ _ e]; exact hx, beyond_refl m nd0⟩
  · intro x nd0 hx h1
    by_cases e : x = id
    · subst e
      rw [hs] at hx; cases hx
    · rw [select_store_ne _ _ _ _ e, hx] at h1; cases h1

theorem grow_insert (m : Nat) (a : rl_btree) (nd1 : rl_btree_node)
    (hb : beyond_kept m blank_node nd1) : grow_kept m a (insert a nd1).2 := by
  refine ⟨?_, ?_⟩
  · intro x nd0 hx
    have hlt := select_lt hx
    exact ⟨nd0, by rw [select_insert, if_neg (by omega)]; exact hx, beyond_refl m nd0⟩
  · intro x nd0 hx h1
    rw [select_insert] at h1
    split_ifs at h1 with e
    · cases h1; exact hb
    · rw [hx] at h1; cases h1

theorem grow_capacity {m : Nat} {a b : rl_btree} (h : grow_kept m a b) :
    capacity_kept m a b := by
  intro x nd1 hx
  rcases isSome_cases (select a x) with ha | ⟨nd, ha⟩
  · rw [ha]
    exact h.2 x nd1 ha hx
  · obtain ⟨nd2, e, f⟩ := h.1 x nd ha
    rw [hx] at e; cases e
    rw [ha]
    exact f

theorem shrink_refl (m : Nat) (a : rl_btree) : shrink_kept m a a :=
  fun _ nd1 h => ⟨nd1, h, beyond_refl m nd1⟩

theorem shrink_trans {m : Nat} {a b c : rl_btree} (h1 : shrink_kept m a b)
    (h2 : shrink_kept m b c) : shrink_kept m a c := by
  intro x nd2 hx
  obtain ⟨nd1, e1, f1⟩ := h2 x nd2 hx
  obtain ⟨nd, e0, f0⟩ := h1 x nd1 e1
  exact ⟨nd, e0, beyond_trans f0 f1⟩

theorem shrink_congr {m : Nat} {a b c : rl_btree} (h : shrink_kept m a b)
    (hc : c.accessor = b.accessor) : shrink_kept m a c := by
  intro x nd1 hx
  rw [select_congr b c hc] at hx
  exact h x nd1 hx

theorem shrink_capacity {m : Nat} {a b : rl_btree} (h : shrink_kept m a b) :
    capacity_kept m a b := by
  intro x nd1 hx
  obtain ⟨nd, e, f⟩ := h x nd1 hx
  rw [e]
  exact f

theorem shrink_store (m : Nat) (a : rl_btree) (id : Nat) (nd nd1 : rl_btree_node)
    (hs : select a id = some nd) (hb : beyond_kept m nd nd1) :
    shrink_kept m a (store a id nd1) := by
  intro x nd0 hx
  by_cases e : x = id
  · subst e
    rw [select_store_same hs nd1] at hx
    cases hx
    exact ⟨nd, hs, hb⟩
  · rw [select_store_ne _ _ _ _ e] at hx
    exact ⟨nd0, hx, beyond_refl m nd0⟩

theorem shrink_remove (m : Nat) (a : rl_btree) (id : Nat) : shrink_kept m a (remove a id) := by
  intro x nd0 hx
  rw [select_remove] at hx
  split_ifs at hx with e
  exact ⟨nd0, hx, beyond_refl m nd0⟩

/-- A node just created reads as a blank node past every capacity. -/
theorem beyond_create (m : Nat) (bt : rl_btree) (c : Option (Nat → Nat))
    (hc : c = some (fun _ => 0) ∨ c = none) :
    beyond_kept m blank_node { rl_btree_node_create bt with children := c } := by
  intro j _
  refine ⟨rfl, ?_, ?_⟩
  · simp only [values_slot, rl_btree_node_create, blank_node]
    split_ifs <;> rfl
  · rcases hc with rfl | rfl <;> rfl

/-- One iteration of the main loop of the insertion writes within the capacity
of the nodes. -/
theorem add_level_capacity (nodes : Nat → Option Nat) (positions : Nat → Nat) (i : Nat)
    (st st1 : add_state) (id : Nat) (nd : rl_btree_node) (hn : nodes i = some id)
    (hs : select st.bt id = some nd) (hp : positions i ≤ nd.size)
    (hsz : nd.size ≤ st.bt.max_node_size)
    (h : add_level nodes positions i st = some st1) :
    grow_kept st.bt.max_node_size st.bt st1.bt := by
  simp only [add_level, hn, hs] at h
  by_cases hfull : nd.size < st.bt.max_node_size
  · simp only [hfull, if_true] at h
    cases ha : add_into_node nd (positions i) st.score st.value st.child with
    | none => rw [ha] at h; cases h
    | some node1 =>
      rw [ha] at h
      simp only [Option.some.injEq] at h
      subst h
      exact grow_store _ _ _ _ _ hs (add_into_node_beyond _ nd node1 _ _ _ _ hfull hp ha)
  · simp only [hfull, if_false] at h
    generalize hr : ({ rl_btree_node_create st.bt with
      children := if st.child.isSome then some (fun _ => 0) else none } : rl_btree_node) =
      right at h
    cases ha : add_split st.bt.max_node_size nd right (positions i) st.score st.value
        st.child with
    | none => rw [ha] at h; cases h
    | some res =>
      obtain ⟨left, right1, s1, v1⟩ := res
      rw [ha] at h
      simp only [Option.some.injEq] at h
      subst h
      obtain ⟨b1, b2⟩ := add_split_beyond _ nd right left right1 _ _ _ _ _ _ (by omega) ha
      have hblank : beyond_kept st.bt.max_node_size blank_node right := by
        rw [← hr]
        apply beyond_create
        split_ifs
        · exact Or.inl rfl
        · exact Or.inr rfl
      exact grow_trans (grow_store _ _ _ _ _ hs b1)
        (grow_insert _ _ _ (beyond_trans hblank b2))

/-- The main loop of the insertion on a subtree, for an absent key, writes within
the capacity of the nodes. -/
theorem add_levels_capacity (nodes : Nat → Option Nat) (positions : Nat → Nat) (k : Int)
    (h : Nat) (hh : 1 ≤ h) : ∀ (lv d id lo : Nat) (bt : rl_btree) (v : Int) (nd0 : Option Nat),
    bt.max_node_size = 2 * h → shape bt lv lo id = true →
    (keys bt lv id).Pairwise (fun x y => x < y) → (ids bt lv id).Nodup →
    miss_path bt nodes positions k lv d id →
    ∀ st, add_levels nodes positions d lv
        { bt := bt, placed := false, score := k, value := v, child := none, node := nd0 } =
          some st → grow_kept bt.max_node_size bt st.bt := by
  intro lv
  induction lv with
  | zero => intro d id lo bt v nd0 _ hsh; simp [shape_zero] at hsh
  | succ lv ih =>
    intro d id lo bt v nd0 hm hsh hpw hnd hpath st hst
    have hsh0 := hsh
    rw [shape_succ] at hsh
    obtain ⟨nd, hs, hlo, hhi, hval, hch⟩ := hsh
    obtain ⟨hn, nd', hs', hins, hsub⟩ := hpath
    rw [hs] at hs'; cases hs'
    by_cases hlv : lv = 0
    · subst hlv
      simp only [add_levels, Nat.add_zero] at hst
      cases ha : add_level nodes positions d
          { bt := bt, placed := false, score := k, value := v, child := none, node := nd0 } with
      | none => rw [ha] at hst; cases hst
      | some st1 =>
        rw [ha] at hst
        have e : st = st1 := by
          simp only at hst
          split_ifs at hst <;> cases hst <;> rfl
        subst e
        exact add_level_capacity nodes positions d _ st id nd hn hs hins.1 hhi ha
    · obtain ⟨ch, hc, hch⟩ : ∃ ch, nd.children = some ch ∧
          ∀ j, j ≤ nd.size → shape bt lv (bt.max_node_size / 2) (ch j) = true := by
        rcases hch with ⟨_, h0⟩ | ⟨ch, hc, _, hch⟩
        · exact absurd h0 hlv
        · exact ⟨ch, hc, hch⟩
      have hh2 : bt.max_node_size / 2 = h := by omega
      obtain ⟨D1, D2, _⟩ := nodup_ids_internal hs hc hnd
      have hshc : shape bt lv h (ch (positions d)) = true := by
        rw [← hh2]; exact hch _ hins.1
      obtain ⟨st1, hst1, hpost⟩ := add_levels_spec nodes positions k h hh lv (d + 1)
        (ch (positions d)) h bt v nd0 hm hshc (child_ascending hs hc hpw _ hins.1)
        (D2 _ hins.1) (hsub ch hc)
      have g1 := ih (d + 1) (ch (positions d)) h bt v nd0 hm hshc
        (child_ascending hs hc hpw _ hins.1) (D2 _ hins.1) (hsub ch hc) st1 hst1
      rw [add_levels_succ nodes positions d lv _ rfl, hst1] at hst
      simp only at hst
      by_cases hpl : st1.placed = true
      · simp only [hpl, if_true, Option.some.injEq] at hst
        subst hst
        exact g1
      · simp only [hpl, if_false] at hst
        obtain ⟨hmax, _, _, _, _, hframe, _⟩ := hpost
        have Eid : select st1.bt id = some nd := by
          rw [hframe id (select_lt hs) (D1 _ hins.1)]; exact hs
        have g2 := add_level_capacity nodes positions d st1 st id nd hn Eid hins.1
          (by rw [hmax]; exact hhi) hst
        rw [hmax] at g2
        exact grow_trans g1 g2

/-- A call of `rl_btree_add_element` with an absent key on a well-formed tree
writes within the capacity of the nodes. -/
theorem add_element_capacity (bt : rl_btree) (k v : Int) (hwf : well_formed bt = true)
    (hk : k ∉ keys bt bt.height bt.root) :
    capacity_kept bt.max_node_size bt (after_add bt k v) := by
  rw [well_formed_iff] at hwf
  obtain ⟨hev, h4, hht, hsh, hpw⟩ := hwf
  obtain ⟨r, hr, hrv, hpath⟩ := find_levels_spec bt k false bt.height 0 bt.root
    (some (fun _ => none)) (some (fun _ => 0)) (shape_linked bt _ _ _ hsh) hpw rfl
  obtain ⟨nodes1, positions1, hn1, hp1, _, _, hmiss⟩ := hpath _ _ rfl rfl
  simp only [hk, if_false] at hrv
  have hnodup := ids_nodup bt (by omega) _ _ _ hsh hpw
  obtain ⟨st, hst, hmax, hty, hhe, hro, hlen, hframe, hcase⟩ :=
    add_levels_spec nodes1 positions1 k (bt.max_node_size / 2) (by omega) bt.height 0 bt.root 0
      bt v none (by omega) hsh hpw hnodup (hmiss hk)
  have g1 := add_levels_capacity nodes1 positions1 k (bt.max_node_size / 2) (by omega)
    bt.height 0 bt.root 0 bt v none (by omega) hsh hpw hnodup (hmiss hk) st hst
  have hfind : rl_btree_find_score bt k false (some (fun _ => none)) (some (fun _ => 0)) =
      some r := by
    simp only [rl_btree_find_score, Option.isNone_some, Option.isSome_some, Bool.false_eq_true,
      and_true, and_false, or_self, if_false]
    exact hr
  apply grow_capacity
  simp only [after_add, rl_btree_add_element, hfind, hrv, ne_eq, not_true_eq_false, if_false,
    hn1, hp1, hst]
  by_cases hpl : st.placed = true
  · simp only [hpl, if_true]
    exact g1
  · simp only [hpl, if_false]
    refine grow_trans g1 ?_
    rw [← hmax]
    unfold add_new_root
    refine grow_congr (grow_insert _ _ _ ?_) rfl
    intro j hj
    have hj0 : j ≠ 0 := by omega
    refine ⟨?_, ?_, ?_⟩
    · simp only [aset, rl_btree_node_create, blank_node, if_neg hj0]
    · simp only [values_slot, rl_btree_node_create, blank_node]
      split_ifs <;> simp only [Option.map_some', Option.map_none', aset, if_neg hj0]
    · simp only [children_slot, blank_node, aset]
      rw [if_neg (by omega), if_neg (by omega)]

/-! ## The removal writes within the capacity of the arrays -/

theorem beyond_symm {m : Nat} {a b : rl_btree_node} (h : beyond_kept m a b) :
    beyond_kept m b a := by
  intro j hj
  obtain ⟨a1, a2, a3⟩ := h j hj
  exact ⟨a1.symm, a2.symm, a3.symm⟩

theorem shrink_store3 (m : Nat) (b : rl_btree) (a p c : Nat) (A0 P0 C0 A P C : rl_btree_node)
    (ha : select b a = some A0) (hp : select b p = some P0) (hc : select b c = some C0)
    (hA : beyond_kept m A0 A) (hP : beyond_kept m P0 P) (hC : beyond_kept m C0 C) :
    shrink_kept m b (store (store (store b a A) p P) c C) := by
  intro x nd1 hx
  rw [select_store3 b a p c A P C (select_lt ha) (select_lt hp) (select_lt hc)] at hx
  split_ifs at hx with h1 h2 h3
  · cases hx; subst h1; exact ⟨C0, hc, hC⟩
  · cases hx; subst h2; exact ⟨P0, hp, hP⟩
  · cases hx; subst h3; exact ⟨A0, ha, hA⟩
  · exact ⟨nd1, hx, beyond_refl m nd1⟩

theorem shrink_store2_remove (m : Nat) (b : rl_btree) (a p c : Nat)
    (A0 P0 A P : rl_btree_node)
    (ha : select b a = some A0) (hp : select b p = some P0)
    (hA : beyond_kept m A0 A) (hP : beyond_kept m P0 P) :
    shrink_kept m b (remove (store (store b a A) p P) c) := by
  intro x nd1 hx
  rw [select_store2_remove b a p c A P (select_lt ha) (select_lt hp)] at hx
  split_ifs at hx with h1 h2 h3
  · cases hx; subst h2; exact ⟨P0, hp, hP⟩
  · cases hx; subst h3; exact ⟨A0, ha, hA⟩
  · exact ⟨nd1, hx, beyond_refl m nd1⟩

/-- The first loop of the removal writes within the capacity of the nodes. -/
theorem delete_key_capacity (bt bt1 : rl_btree) (nodes nodes1 : Nat → Option Nat)
    (positions positions1 : Nat → Nat) (i i1 id : Nat) (nd : rl_btree_node)
    (hs : select bt id = some nd) (hsz : nd.size ≤ bt.max_node_size)
    (hp : positions i < nd.size)
    (h : delete_key bt nodes positions i id =
      some (delete_result.done bt1 nodes1 positions1 i1)) :
    shrink_kept bt.max_node_size bt bt1 := by
  unfold delete_key at h
  rw [hs] at h
  simp only at h
  cases hc : nd.children with
  | none =>
    rw [hc] at h
    simp only [Option.some.injEq, delete_result.done.injEq] at h
    obtain ⟨h1, _, _, _⟩ := h
    subst h1
    exact shrink_store _ _ _ _ _ hs (remove_from_leaf_beyond _ nd _ hsz)
  | some ch =>
    rw [hc] at h
    simp only at h
    cases hd : descend bt (bt.height - 1 - i) i id nodes positions with
    | none => rw [hd] at h; cases h
    | some r =>
      obtain ⟨cid, n1, p1⟩ := r
      rw [hd] at h
      simp only at h
      have hpe : p1 i = positions i :=
        (descend_keeps bt _ _ _ _ _ _ _ _ hd i (le_refl i)).2
      cases hsc : select bt cid with
      | none => rw [hsc] at h; cases h
      | some child_node =>
        rw [hsc] at h
        simp only at h
        by_cases k1 : child_node.children.isSome = true
        · rw [if_pos k1] at h
          cases h
        rw [if_neg k1] at h
        by_cases k2 : child_node.size = 0
        · rw [if_pos k2] at h
          cases h
        rw [if_neg k2] at h
        cases hs1 : select (store bt cid { child_node with size := child_node.size - 1 }) id with
        | none => rw [hs1] at h; cases h
        | some node1 =>
          rw [hs1] at h
          simp only at h
          have harr : node1.scores = nd.scores ∧ node1.values = nd.values ∧
              node1.children = nd.children := by
            rw [select_store] at hs1
            split_ifs at hs1 with e1 e2
            · cases hs1
              subst e1
              rw [hs] at hsc
              cases hsc
              exact ⟨rfl, rfl, rfl⟩
            · rw [hs] at hs1
              cases hs1
              exact ⟨rfl, rfl, rfl⟩
          have g1 : shrink_kept bt.max_node_size bt
              (store bt cid { child_node with size := child_node.size - 1 }) :=
            shrink_store _ _ _ _ _ hsc (beyond_size _ _ _)
          have key : ∀ v1 : Option (Nat → Int),
              (node1.values = none → v1 = none) →
              (∀ v, node1.values = some v → ∃ x, v1 = some (aset v (p1 i) x)) →
              beyond_kept bt.max_node_size node1
                { node1 with
                  scores := aset node1.scores (p1 i)
                    (child_node.scores (child_node.size - 1))
                  values := v1 } := by
            intro v1 hv0 hv1 j hj
            have hne : j ≠ p1 i := by omega
            refine ⟨by simp only [aset, if_neg hne], ?_, rfl⟩
            rcases isSome_cases node1.values with hv | ⟨v, hv⟩
            · simp only [values_slot, hv0 hv, hv]
            · obtain ⟨x, hx⟩ := hv1 v hv
              simp only [values_slot, hx, hv, aset, if_neg hne]
          rcases isSome_cases node1.values with hv | ⟨v, hv⟩
          · rw [hv] at h
            simp only [Option.some.injEq, delete_result.done.injEq] at h
            obtain ⟨h1, _, _, _⟩ := h
            subst h1
            refine shrink_trans g1 (shrink_store _ _ _ _ _ hs1 ?_)
            rw [← hv]
            exact key _ (fun _ => hv) (fun w hw => by rw [hv] at hw; cases hw)
          · rw [hv] at h
            simp only at h
            rcases isSome_cases child_node.values with hcv | ⟨cv, hcv⟩
            · rw [hcv] at h
              cases h
            · rw [hcv] at h
              simp only [hcv] at g1 hs1
              simp only [Option.some.injEq, delete_result.done.injEq] at h
              obtain ⟨h1, _, _, _⟩ := h
              subst h1
              refine shrink_trans g1 (shrink_store _ _ _ _ _ hs1 ?_)
              exact key _ (fun h0 => by rw [hv] at h0; cases h0)
                (fun w hw => by rw [hv] at hw; cases hw; exact ⟨_, rfl⟩)

/-- One iteration of the rebalance loop below the root writes within the
capacity of the nodes. -/
theorem rebalance_level_capacity (nodes : Nat → Option Nat) (positions : Nat → Nat)
    (i : Nat) (b : rl_btree) (res : rebalance_result) (id pid : Nat)
    (node parent : rl_btree_node) (pch : Nat → Nat)
    (hn : nodes (i + 1) = some id) (hs : select b id = some node)
    (hpn : nodes i = some pid) (hps : select b pid = some parent)
    (hpc : parent.children = some pch) (hpsz : parent.size ≤ b.max_node_size)
    (hpp : positions i ≤ parent.size)
    (hsib : ∀ j s, j ≤ parent.size → select b (pch j) = some s → s.size ≤ b.max_node_size)
    (h : rebalance_level nodes positions (i + 1) b = some res) :
    shrink_kept b.max_node_size b (result_tree res) := by
  simp only [rebalance_level, hn, hs, Nat.add_one_ne_zero, if_false, or_false,
    Nat.add_sub_cancel, hpn, hps, hpc] at h
  by_cases hbig : node.size ≥ b.max_node_size / 2
  · simp only [hbig, if_true, Option.some.injEq] at h
    subst h
    exact shrink_refl _ _
  simp only [hbig, if_false] at h
  by_cases hz : parent.size = 0
  · simp only [hz, if_true, Option.some.injEq] at h
    subst h
    exact shrink_refl _ _
  simp only [hz, if_false] at h
  have hbl : ∀ (sib : rl_btree_node) (r : rebalance_result),
      0 < positions i → select b (pch (positions i - 1)) = some sib →
      (match borrow_left node parent sib (positions i) with
        | none => none
        | some (node1, parent1, sibling1) =>
          some (rebalance_result.stop RL_OK
            (store (store (store b (pch (positions i - 1)) sibling1) pid parent1) id node1))) =
        some r → shrink_kept b.max_node_size b (result_tree r) := by
    intro sib r h0 hl hr
    cases hb : borrow_left node parent sib (positions i) with
    | none => rw [hb] at hr; cases hr
    | some t =>
      obtain ⟨n1, p1, s1⟩ := t
      rw [hb] at hr
      simp only [Option.some.injEq] at hr
      subst hr
      obtain ⟨f1, f2, f3⟩ := borrow_left_beyond b.max_node_size node parent sib n1 p1 s1 _
        (by omega) (by omega) hb
      exact shrink_store3 _ _ _ _ _ _ _ _ _ _ _ hl hps hs f3 f2 f1
  have hbr : ∀ (sib : rl_btree_node) (r : rebalance_result),
      positions i < parent.size → select b (pch (positions i + 1)) = some sib →
      (match borrow_right node parent sib (positions i) with
        | none => none
        | some (node1, parent1, sibling1) =>
          some (rebalance_result.stop RL_OK
            (store (store (store b (pch (positions i + 1)) sibling1) pid parent1) id node1))) =
        some r → shrink_kept b.max_node_size b (result_tree r) := by
    intro sib r h0 hl hr
    cases hb : borrow_right node parent sib (positions i) with
    | none => rw [hb] at hr; cases hr
    | some t =>
      obtain ⟨n1, p1, s1⟩ := t
      rw [hb] at hr
      simp only [Option.some.injEq] at hr
      subst hr
      obtain ⟨f1, f2, f3⟩ := borrow_right_beyond b.max_node_size node parent sib n1 p1 s1 _
        (by omega) (by omega) (hsib _ sib (by omega) hl) hb
      exact shrink_store3 _ _ _ _ _ _ _ _ _ _ _ hl hps hs f3 f2 f1
  have hml : ∀ (sib : rl_btree_node) (r : rebalance_result),
      select b (pch (positions i - 1)) = some sib → ¬ sib.size > b.max_node_size / 2 →
      (match merge_left node parent sib pch (positions i) with
        | none => none
        | some (parent1, sibling1) =>
          some (rebalance_result.next
            (rl_btree_node_destroy
              (remove (store (store b (pch (positions i - 1)) sibling1) pid parent1) id)
              node.size none node.values))) =
        some r → shrink_kept b.max_node_size b (result_tree r) := by
    intro sib r hl hsm hr
    cases hb : merge_left node parent sib pch (positions i) with
    | none => rw [hb] at hr; cases hr
    | some t =>
      obtain ⟨p1, s1⟩ := t
      rw [hb] at hr
      simp only [Option.some.injEq] at hr
      subst hr
      obtain ⟨f1, f2⟩ := merge_left_beyond b.max_node_size node parent sib p1 s1 pch _ hpc
        (by omega) hpsz hb
      exact shrink_congr (shrink_store2_remove _ _ _ _ _ _ _ _ _ hl hps f2 f1) rfl
  have hmr : ∀ (sib : rl_btree_node) (r : rebalance_result),
      select b (pch (positions i + 1)) = some sib → ¬ sib.size > b.max_node_size / 2 →
      (match merge_right node parent sib pch (positions i) with
        | none => none
        | some (node1, parent1) =>
          some (rebalance_result.next
            (rl_btree_node_destroy
              (remove (store (store b id node1) pid parent1) (pch (positions i + 1)))
              sib.size none sib.values))) =
        some r → shrink_kept b.max_node_size b (result_tree r) := by
    intro sib r hl hsm hr
    cases hb : merge_right node parent sib pch (positions i) with
    | none => rw [hb] at hr; cases hr
    | some t =>
      obtain ⟨n1, p1⟩ := t
      rw [hb] at hr
      simp only [Option.some.injEq] at hr
      subst hr
      obtain ⟨f1, f2⟩ := merge_right_beyond b.max_node_size node parent sib n1 p1 pch _ hpc
        (by omega) hpsz hb
      exact shrink_congr (shrink_store2_remove _ _ _ _ _ _ _ _ _ hs hps f1 f2) rfl
  by_cases h0 : positions i > 0
  · simp only [h0, if_true] at h
    cases hl : select b (pch (positions i - 1)) with
    | none =>
      rw [hl] at h
      simp only [Option.map_none'] at h
      cases h
    | some sib =>
      rw [hl] at h
      simp only [Option.map_some'] at h
      by_cases hls : sib.size > b.max_node_size / 2
      · simp only [hls, if_true] at h
        exact hbl sib res h0 hl h
      · simp only [hls, if_false] at h
        by_cases hlt : positions i < parent.size
        · simp only [hlt, if_true] at h
          cases hr : select b (pch (positions i + 1)) with
          | none =>
            rw [hr] at h
            simp only [Option.map_none'] at h
            cases h
          | some rs =>
            rw [hr] at h
            simp only [Option.map_some'] at h
            by_cases hrs : rs.size > b.max_node_size / 2
            · simp only [hrs, if_true] at h
              exact hbr rs res hlt hr h
            · simp only [hrs, if_false] at h
              exact hml sib res hl hls h
        · simp only [hlt, if_false] at h
          exact hml sib res hl hls h
  · simp only [h0, if_false] at h
    by_cases hlt : positions i < parent.size
    · simp only [hlt, if_true] at h
      cases hr : select b (pch (positions i + 1)) with
      | none =>
        rw [hr] at h
        simp only [Option.map_none'] at h
        cases h
      | some rs =>
        rw [hr] at h
        simp only [Option.map_some'] at h
        by_cases hrs : rs.size > b.max_node_size / 2
        · simp only [hrs, if_true] at h
          exact hbr rs res hlt hr h
        · simp only [hrs, if_false] at h
          exact hmr rs res hr hrs h
    · simp only [hlt, if_false, Option.some.injEq] at h
      subst h
      exact shrink_refl _ _

/-- The rebalance loop over the levels below the top of a subtree writes within
the capacity of the nodes. -/
theorem rebalance_capacity (nodes : Nat → Option Nat) (positions : Nat → Nat) (h : Nat)
    (hh : 1 ≤ h) : ∀ (lv d lo id : Nat) (bt : rl_btree), bt.max_node_size = 2 * h →
      slack_path bt nodes positions lv d lo id → (ids bt lv id).Nodup →
      ∀ res, rebalance nodes positions (d + 1) (lv - 1) bt = some res →
        shrink_kept bt.max_node_size bt (result_tree res) := by
  intro lv
  induction lv with
  | zero => intro d lo id bt _ hsl _; exact hsl.elim
  | succ lv ih =>
    intro d lo id bt hm hsl hn res hres
    have hsl0 := hsl
    obtain ⟨hnd, nd, hs, hhi, hval, hcase⟩ := hsl
    have hh2 : bt.max_node_size / 2 = h := by omega
    rcases hcase with ⟨hlv, hc, hlo⟩ | ⟨hlv, hlo, hp, ch, hc, hchild, hothers⟩
    · subst hlv
      simp only [Nat.zero_add, Nat.sub_self, rebalance, Option.some.injEq] at hres
      subst hres
      exact shrink_refl _ _
    · obtain ⟨lv, rfl⟩ : ∃ l, lv = l + 1 := ⟨lv - 1, by omega⟩
      obtain ⟨n1, n2, n3⟩ := nodup_ids_internal hs hc hn
      rw [hh2] at hchild
      obtain ⟨res1, hres1, hpost1⟩ := rebalance_spec nodes positions h hh (lv + 1) (d + 1) h
        (ch (positions d)) bt hm hchild (n2 _ hp)
      have g1 := ih (d + 1) h (ch (positions d)) bt hm hchild (n2 _ hp) res1 hres1
      simp only [Nat.add_sub_cancel] at hres1 hres
      rw [rebalance_succ, hres1] at hres
      cases res1 with
      | stop rv b =>
        simp only [Option.some.injEq] at hres
        subst hres
        exact g1
      | next b =>
        simp only at hres
        obtain ⟨hshape, hsame⟩ := hpost1
        obtain ⟨c1, c2, c3, c4, c5⟩ := ctx_lift bt b lv id nd ch (positions d) hs hc hp hn hsame
        obtain ⟨hsh, _⟩ := pair_ctx_of bt b lv id nd ch (positions d) hs hc hp hn hsame hhi
          hval hothers
        obtain ⟨cn, hsc⟩ := shape_select hshape
        have hmb : b.max_node_size = bt.max_node_size := hsame.1
        have hsib : ∀ j s, j ≤ nd.size → select b (ch j) = some s →
            s.size ≤ b.max_node_size := by
          intro j s hj hsj
          by_cases hjp : j = positions d
          · subst hjp
            exact (shape_kids hshape hsj).2.1
          · exact (shape_kids (hsh j hj hjp) hsj).2.1
        have g2 := rebalance_level_capacity nodes positions d b res (ch (positions d)) id cn nd
          ch hchild.1 hsc hnd c1 hc (by rw [hmb]; exact hhi) hp hsib hres
        rw [hmb] at g2
        exact shrink_trans g1 g2

/-- A call of `rl_btree_remove_element` with a key of a well-formed tree writes
within the capacity of the nodes. -/
theorem remove_element_capacity (bt : rl_btree) (k : Int) (hwf : well_formed bt = true)
    (hk : k ∈ keys bt bt.height bt.root) :
    capacity_kept bt.max_node_size bt (after_remove bt k) := by
  rw [well_formed_iff] at hwf
  obtain ⟨hev, h4, hht, hsh, hpw⟩ := hwf
  have hm : bt.max_node_size = 2 * (bt.max_node_size / 2) := by omega
  have hh : 1 ≤ bt.max_node_size / 2 := by omega
  obtain ⟨r, hr, hrv, hpath⟩ := find_levels_spec bt k false bt.height 0 bt.root
    (some (fun _ => none)) (some (fun _ => 0)) (shape_linked bt _ _ _ hsh) hpw rfl
  obtain ⟨nodes1, positions1, hn1, hp1, _, hhit, _⟩ := hpath _ _ rfl rfl
  simp only [hk, if_true] at hrv
  have hfind : rl_btree_find_score bt k false (some (fun _ => none)) (some (fun _ => 0)) =
      some r := by
    simp only [rl_btree_find_score, Option.isNone_some, Option.isSome_some, Bool.false_eq_true,
      and_true, and_false, or_self, if_false]
    exact hr
  have hnodup := ids_nodup bt hh _ _ _ hsh hpw
  obtain ⟨i, nid, bt1, nodes2, positions2, hl, hdk, hBm, hBt, hBh, hBr, hpre, hfr, hkB,
    hslack, hdel⟩ := delete_spec bt _ hh hm k nodes1 positions1 bt.height 0 0 bt.root
      (by omega) (hhit hk (by omega)) hsh hnodup
  obtain ⟨d0, id0, nd0, lv1, lo1, _, hl0, _, hs0, hp0, _, hsh0, _, _⟩ :=
    hit_end bt k nodes1 positions1 bt.height 0 0 bt.root (by omega) (hhit hk (by omega)) hsh
      hpw hnodup
  rw [hl] at hl0
  simp only [Option.some.injEq, Prod.mk.injEq] at hl0
  obtain ⟨e1, e2⟩ := hl0
  subst e1; subst e2
  have g1 := delete_key_capacity bt bt1 nodes1 nodes2 positions1 positions2 i _ nid nd0 hs0
    (shape_kids hsh0 hs0).2.1 hp0 hdk
  have hnodup1 : (ids bt1 bt.height bt.root).Nodup := by
    rw [ids_congr bt bt1 _ _ (fun x _ => hkB x)]; exact hnodup
  obtain ⟨res, hres, hpost⟩ := rebalance_spec nodes2 positions2 _ hh bt.height 0 0 bt.root
    bt1 (by rw [hBm]; exact hm) hslack hnodup1
  have g2 := rebalance_capacity nodes2 positions2 _ hh bt.height 0 0 bt.root bt1
    (by rw [hBm]; exact hm) hslack hnodup1 res hres
  rw [hBm] at g2
  have g12 := shrink_trans g1 g2
  obtain ⟨H, hH⟩ : ∃ H, bt.height = H + 1 := ⟨bt.height - 1, by omega⟩
  rw [hH] at hslack hpost hres hdk
  simp only [Nat.add_sub_cancel, Nat.zero_add] at hres hdk
  apply shrink_capacity
  simp only [after_remove, rl_btree_remove_element, hfind, hrv, ne_eq, not_true_eq_false,
    if_false, hn1, hp1, hl, hdk]
  rw [rebalance_succ, Nat.zero_add, hres]
  cases res with
  | stop rv b => exact g12
  | next b =>
    obtain ⟨hshape, s1, s2, s3, s4, s5, s6, s7, s8⟩ := hpost
    obtain ⟨nd, hsn⟩ := shape_select hshape
    have hnr : nodes2 0 = some bt.root := hslack.1
    simp only [rebalance_level, hnr, hsn, if_true]
    by_cases hz : nd.size = 0
    · simp only [hz, if_true]
      exact shrink_congr g12 rfl
    · simp only [hz, if_false]
      exact g12

theorem add_into_node_size (node node1 : rl_btree_node) (pos : Nat) (s v : Int)
    (child : Option Nat) (h : add_into_node node pos s v child = some node1) :
    node1.size = node.size + 1 := by
  rcases isSome_cases node.children with hc | ⟨nc, hc⟩ <;>
  rcases isSome_cases child with hd | ⟨c, hd⟩ <;>
  simp only [add_into_node, hc, hd, Option.map_some', Option.map_none',
    Option.some.injEq] at h
  all_goals first
    | (cases h; done)
    | (subst h; rfl)

theorem add_split_size (m : Nat) (node right left right1 : rl_btree_node) (pos : Nat)
    (s v s1 v1 : Int) (child : Option Nat)
    (h : add_split m node right pos s v child = some (left, right1, s1, v1)) :
    left.size = m / 2 ∧ right1.size = m / 2 := by
  rcases isSome_cases node.values with hv | ⟨nv, hv⟩ <;>
  rcases isSome_cases right.values with hrv | ⟨rv, hrv⟩ <;>
  rcases isSome_cases node.children with hc | ⟨nc, hc⟩ <;>
  rcases isSome_cases right.children with hrc | ⟨rc, hrc⟩ <;>
  rcases isSome_cases child with hd | ⟨c, hd⟩ <;>
  simp only [add_split, hv, hrv, hc, hrc, hd, Option.some.injEq, Prod.mk.injEq] at h
  all_goals first
    | (cases h; done)
    | (obtain ⟨h1, h2, _, _⟩ := h
       subst h1; subst h2
       exact ⟨rfl, rfl⟩)

theorem merge_left_size (node parent sib p1 s1 : rl_btree_node) (pch : Nat → Nat)
    (ppos : Nat) (h : merge_left node parent sib pch ppos = some (p1, s1)) :
    s1.size = sib.size + (1 + node.size) := by
  rcases isSome_cases node.values with hv | ⟨nv, hv⟩ <;>
  rcases isSome_cases parent.values with hpv | ⟨pv, hpv⟩ <;>
  rcases isSome_cases sib.values with hsv | ⟨sv, hsv⟩ <;>
  rcases isSome_cases node.children with hc | ⟨nc, hc⟩ <;>
  rcases isSome_cases sib.children with hsc | ⟨sc, hsc⟩ <;>
  simp only [merge_left, hv, hpv, hsv, hc, hsc, Option.map_some', Option.map_none',
    Option.some.injEq, Prod.mk.injEq] at h
  all_goals first
    | (cases h; done)
    | (obtain ⟨_, h2⟩ := h
       subst h2
       rfl)

theorem merge_right_size (node parent sib n1 p1 : rl_btree_node) (pch : Nat → Nat)
    (ppos : Nat) (h : merge_right node parent sib pch ppos = some (n1, p1)) :
    n1.size = node.size + (1 + sib.size) := by
  rcases isSome_cases node.values with hv | ⟨nv, hv⟩ <;>
  rcases isSome_cases parent.values with hpv | ⟨pv, hpv⟩ <;>
  rcases isSome_cases sib.values with hsv | ⟨sv, hsv⟩ <;>
  rcases isSome_cases node.children with hc | ⟨nc, hc⟩ <;>
  rcases isSome_cases sib.children with hsc | ⟨sc, hsc⟩ <;>
  simp only [merge_right, hv, hpv, hsv, hc, hsc, Option.map_some', Option.map_none',
    Option.some.injEq, Prod.mk.injEq] at h
  all_goals first
    | (cases h; done)
    | (obtain ⟨h1, _⟩ := h
       subst h1
       rfl)

/-- C34: after a call of `rl_btree_add_element` or of `rl_btree_remove_element`
that returns `RL_OK` on a well-formed tree (even `m >= 4`, every node with at
most `m` keys), every node of the resulting tree holds at most `m` keys, and no
node differs from its state before the call in a slot of `scores` or `values` at
an index from `m` on or in a slot of `children` at an index from `m + 1` on: what
was written lies at key and value indices below `m` and child indices up to `m`.
A node with room reaches at most `m` keys, both halves of a split hold `m / 2`
keys, and a node merged from a short node and a sibling with at most `m / 2`
keys holds at most `m` keys. -/
theorem capacity_never_exceeded (bt : rl_btree) (k v : Int) (hwf : well_formed bt = true) :
    ((rl_btree_add_element bt k v).map Prod.fst = some RL_OK →
      max_fill (after_add bt k v) bt.max_node_size = true ∧
      capacity_kept bt.max_node_size bt (after_add bt k v)) ∧
    ((rl_btree_remove_element bt k).map Prod.fst = some RL_OK →
      max_fill (after_remove bt k) bt.max_node_size = true ∧
      capacity_kept bt.max_node_size bt (after_remove bt k)) ∧
    (∀ (node node1 : rl_btree_node) (pos : Nat) (s w : Int) (c : Option Nat),
      node.size < bt.max_node_size → add_into_node node pos s w c = some node1 →
      node1.size ≤ bt.max_node_size) ∧
    (∀ (node right left right1 : rl_btree_node) (pos : Nat) (s w s1 w1 : Int)
      (c : Option Nat),
      add_split bt.max_node_size node right pos s w c = some (left, right1, s1, w1) →
      left.size = bt.max_node_size / 2 ∧ right1.size = bt.max_node_size / 2) ∧
    (∀ (node parent sib p1 s1 : rl_btree_node) (pch : Nat → Nat) (ppos : Nat),
      node.size < bt.max_node_size / 2 → sib.size ≤ bt.max_node_size / 2 →
      merge_left node parent sib pch ppos = some (p1, s1) → s1.size ≤ bt.max_node_size) ∧
    (∀ (node parent sib n1 p1 : rl_btree_node) (pch : Nat → Nat) (ppos : Nat),
      node.size < bt.max_node_size / 2 → sib.size ≤ bt.max_node_size / 2 →
      merge_right node parent sib pch ppos = some (n1, p1) → n1.size ≤ bt.max_node_size) := by
  have hwf0 := hwf
  rw [well_formed_iff] at hwf0
  obtain ⟨hev, h4, hht, hsh, hpw⟩ := hwf0
  refine ⟨?_, ?_, ?_, ?_, ?_, ?_⟩
  · intro hok
    by_cases hk : k ∈ keys bt bt.height bt.root
    · rw [add_present bt k v (shape_linked bt _ _ _ hsh) hpw hk] at hok
      cases hok
    · obtain ⟨b, hb, hmax, _, _, hsh1, _⟩ :=
        add_element_core bt k v 0 hwf (Nat.zero_le _) hsh hk
      have ha : after_add bt k v = b := by simp [after_add, hb]
      refine ⟨?_, add_element_capacity bt k v hwf hk⟩
      rw [ha, ← hmax]
      exact shape_max_fill b 0 hsh1
  · intro hok
    by_cases hk : k ∈ keys bt bt.height bt.root
    · obtain ⟨rv, b, hb, hmax, _, _, hcase⟩ :=
        remove_element_core bt k 0 hwf (Nat.zero_le _) hsh hk
      have ha : after_remove bt k = b := by simp [after_remove, hb]
      refine ⟨?_, remove_element_capacity bt k hwf hk⟩
      rw [hb] at hok
      rw [ha, ← hmax]
      rcases hcase with ⟨e0, _⟩ | ⟨_, hsub⟩
      · subst e0; cases hok
      · rcases hsub with ⟨e1, e2, e3⟩ | ⟨e1, e2, e3⟩ | ⟨e1, e2, nd, e3, e4, e5⟩
        · exact shape_max_fill b 0 e3
        · exact shape_max_fill b _ e3
        · unfold max_fill
          rw [e2]
          simp [ids, e3, e4]
    · rw [remove_absent bt k (shape_linked bt _ _ _ hsh) hpw hk] at hok
      cases hok
  · intro node node1 pos s w c hlt h
    rw [add_into_node_size node node1 pos s w c h]
    omega
  · intro node right left right1 pos s w s1 w1 c h
    exact add_split_size _ node right left right1 pos s w s1 w1 c h
  · intro node parent sib p1 s1 pch ppos h1 h2 h
    rw [merge_left_size node parent sib p1 s1 pch ppos h]
    omega
  · intro node parent sib n1 p1 pch ppos h1 h2 h
    rw [merge_right_size node parent sib n1 p1 pch ppos h]
    omega

/-- The key 5 splits the full root leaf 1, 2, 3, 4 and a new root is made; the
removal of 3 from the tree 1 to 5 merges the two leaves. -/
theorem capacity_never_exceeded_witness :
    (well_formed set_1234 = true ∧
      (rl_btree_add_element set_1234 5 0).map Prod.fst = some RL_OK ∧
      well_formed set_12345 = true ∧
      (rl_btree_remove_element set_12345 3).map Prod.fst = some RL_OK) ∧
    (max_fill (after_add set_1234 5 0) set_1234.max_node_size = true ∧
      capacity_kept set_1234.max_node_size set_1234 (after_add set_1234 5 0)) ∧
    (max_fill (after_remove set_12345 3) set_12345.max_node_size = true ∧
      capacity_kept set_12345.max_node_size set_12345 (after_remove set_12345 3)) :=
  ⟨⟨by decide, by decide, by decide, by decide⟩,
    (capacity_never_exceeded set_1234 5 0 (by decide)).1 (by decide),
    (capacity_never_exceeded set_12345 3 0 (by decide)).2.1 (by decide)⟩

/-! ## The number of keys of the registered nodes

No call of `rl_btree_add_element` or `rl_btree_remove_element` that returns
leaves a registered node with more than `max_node_size` keys, whatever the shape
of the tree it starts from. -/

theorem sizes_congr {a b : rl_btree} {n : Nat} (h : sizes_within a n)
    (hc : b.accessor = a.accessor) : sizes_within b n := by
  intro x nd hx
  rw [select_congr a b hc] at hx
  exact h x nd hx

theorem sizes_store {bt : rl_btree} {n : Nat} (h : sizes_within bt n) (id : Nat)
    (nd : rl_btree_node) (hn : nd.size ≤ n) : sizes_within (store bt id nd) n := by
  intro x nd1 hx
  rw [select_store] at hx
  split_ifs at hx with h1 h2
  · cases hx
    exact hn
  · exact h x nd1 hx

theorem sizes_insert {bt : rl_btree} {n : Nat} (h : sizes_within bt n)
    (nd : rl_btree_node) (hn : nd.size ≤ n) : sizes_within (insert bt nd).2 n := by
  intro x nd1 hx
  rw [select_insert] at hx
  split_ifs at hx with h1
  · cases hx
    exact hn
  · exact h x nd1 hx

theorem sizes_remove {bt : rl_btree} {n : Nat} (h : sizes_within bt n) (id : Nat) :
    sizes_within (remove bt id) n := by
  intro x nd1 hx
  rw [select_remove] at hx
  split_ifs at hx with h1
  exact h x nd1 hx

theorem borrow_left_size (node parent sib n1 p1 s1 : rl_btree_node) (ppos : Nat)
    (h : borrow_left node parent sib ppos = some (n1, p1, s1)) :
    n1.size = node.size + 1 ∧ p1.size = parent.size ∧ s1.size = sib.size - 1 := by
  rcases isSome_cases node.values with hv | ⟨nv, hv⟩ <;>
  rcases isSome_cases parent.values with hpv | ⟨pv, hpv⟩ <;>
  rcases isSome_cases sib.values with hsv | ⟨sv, hsv⟩ <;>
  rcases isSome_cases node.children with hc | ⟨nc, hc⟩ <;>
  rcases isSome_cases sib.children with hsc | ⟨sc, hsc⟩ <;>
  simp only [borrow_left, hv, hpv, hsv, hc, hsc, Option.map_some', Option.map_none',
    Option.some.injEq, Prod.mk.injEq] at h
  all_goals first
    | (cases h; done)
    | (obtain ⟨h1, h2, h3⟩ := h
       subst h1; subst h2; subst h3
       exact ⟨rfl, rfl, rfl⟩)

theorem borrow_right_size (node parent sib n1 p1 s1 : rl_btree_node) (ppos : Nat)
    (h : borrow_right node parent sib ppos = some (n1, p1, s1)) :
    n1.size = node.size + 1 ∧ p1.size = parent.size ∧ s1.size = sib.size - 1 := by
  rcases isSome_cases node.values with hv | ⟨nv, hv⟩ <;>
  rcases isSome_cases parent.values with hpv | ⟨pv, hpv⟩ <;>
  rcases isSome_cases sib.values with hsv | ⟨sv, hsv⟩ <;>
  rcases isSome_cases node.children with hc | ⟨nc, hc⟩ <;>
  rcases isSome_cases sib.children with hsc | ⟨sc, hsc⟩ <;>
  simp only [borrow_right, hv, hpv, hsv, hc, hsc, Option.map_some', Option.map_none',
    Option.some.injEq, Prod.mk.injEq] at h
  all_goals first
    | (cases h; done)
    | (obtain ⟨h1, h2, h3⟩ := h
       subst h1; subst h2; subst h3
       exact ⟨rfl, rfl, rfl⟩)

theorem merge_left_parent_size (node parent sib p1 s1 : rl_btree_node) (pch : Nat → Nat)
    (ppos : Nat) (h : merge_left node parent sib pch ppos = some (p1, s1)) :
    p1.size = parent.size - 1 := by
  rcases isSome_cases node.values with hv | ⟨nv, hv⟩ <;>
  rcases isSome_cases parent.values with hpv | ⟨pv, hpv⟩ <;>
  rcases isSome_cases sib.values with hsv | ⟨sv, hsv⟩ <;>
  rcases isSome_cases node.children with hc | ⟨nc, hc⟩ <;>
  rcases isSome_cases sib.children with hsc | ⟨sc, hsc⟩ <;>
  simp only [merge_left, hv, hpv, hsv, hc, hsc, Option.map_some', Option.map_none',
    Option.some.injEq, Prod.mk.injEq] at h
  all_goals first
    | (cases h; done)
    | (obtain ⟨h1, _⟩ := h
       subst h1
       split_ifs <;> rfl)

theorem merge_right_parent_size (node parent sib n1 p1 : rl_btree_node) (pch : Nat → Nat)
    (ppos : Nat) (h : merge_right node parent sib pch ppos = some (n1, p1)) :
    p1.size = parent.size - 1 := by
  rcases isSome_cases node.values with hv | ⟨nv, hv⟩ <;>
  rcases isSome_cases parent.values with hpv | ⟨pv, hpv⟩ <;>
  rcases isSome_cases sib.values with hsv | ⟨sv, hsv⟩ <;>
  rcases isSome_cases node.children with hc | ⟨nc, hc⟩ <;>
  rcases isSome_cases sib.children with hsc | ⟨sc, hsc⟩ <;>
  simp only [merge_right, hv, hpv, hsv, hc, hsc, Option.map_some', Option.map_none',
    Option.some.injEq, Prod.mk.injEq] at h
  all_goals first
    | (cases h; done)
    | (obtain ⟨_, h2⟩ := h
       subst h2
       rfl)

/-- One iteration of the main loop of the insertion leaves every registered node
with at most `max_node_size` keys. -/
theorem add_level_sizes (nodes : Nat → Option Nat) (positions : Nat → Nat) (i m : Nat)
    (st st1 : add_state) (hm : st.bt.max_node_size = m) (hb : sizes_within st.bt m)
    (h : add_level nodes positions i st = some st1) :
    st1.bt.max_node_size = m ∧ sizes_within st1.bt m := by
  unfold add_level at h
  cases hn : nodes i with
  | none => simp only [hn] at h; cases h
  | some id =>
    simp only [hn] at h
    cases hs : select st.bt id with
    | none => simp only [hs] at h; cases h
    | some nd =>
      simp only [hs] at h
      by_cases hfull : nd.size < st.bt.max_node_size
      · simp only [hfull, if_true] at h
        cases ha : add_into_node nd (positions i) st.score st.value st.child with
        | none => rw [ha] at h; cases h
        | some node1 =>
          rw [ha] at h
          simp only [Option.some.injEq] at h
          subst h
          have e := add_into_node_size _ _ _ _ _ _ ha
          exact ⟨hm, sizes_store hb _ _ (by omega)⟩
      · simp only [hfull, if_false] at h
        generalize hr : ({ rl_btree_node_create st.bt with
          children := if st.child.isSome then some (fun _ => 0) else none } : rl_btree_node) =
          right at h
        cases ha : add_split st.bt.max_node_size nd right (positions i) st.score st.value
            st.child with
        | none => rw [ha] at h; cases h
        | some res =>
          obtain ⟨left, right1, s1, v1⟩ := res
          rw [ha] at h
          simp only [Option.some.injEq] at h
          subst h
          obtain ⟨e1, e2⟩ := add_split_size _ _ _ _ _ _ _ _ _ _ _ ha
          have hle : st.bt.max_node_size / 2 ≤ m := by
            rw [hm]; exact Nat.div_le_self _ _
          exact ⟨hm, sizes_insert (sizes_store hb _ _ (by omega)) _ (by omega)⟩

/-- The main loop of the insertion leaves every registered node with at most
`max_node_size` keys. -/
theorem add_levels_sizes (nodes : Nat → Option Nat) (positions : Nat → Nat) (lo m : Nat) :
    ∀ (n : Nat) (st st1 : add_state), st.bt.max_node_size = m → sizes_within st.bt m →
      add_levels nodes positions lo n st = some st1 →
      st1.bt.max_node_size = m ∧ sizes_within st1.bt m := by
  intro n
  induction n with
  | zero =>
    intro st st1 hm hb h
    simp only [add_levels, Option.some.injEq] at h
    subst h
    exact ⟨hm, hb⟩
  | succ n ih =>
    intro st st1 hm hb h
    simp only [add_levels] at h
    cases ha : add_level nodes positions (lo + n) st with
    | none => rw [ha] at h; cases h
    | some st2 =>
      rw [ha] at h
      simp only at h
      obtain ⟨g1, g2⟩ := add_level_sizes nodes positions _ m st st2 hm hb ha
      by_cases hpl : st2.placed = true
      · simp only [hpl, if_true, Option.some.injEq] at h
        subst h
        exact ⟨g1, g2⟩
      · simp only [hpl, if_false] at h
        exact ih st2 st1 g1 g2 h

/-- A call of `rl_btree_add_element` that returns leaves every registered node
with at most `max_node_size` keys. -/
theorem add_element_sizes (bt b : rl_btree) (k v : Int) (rv : rl_retval) (m : Nat)
    (h1 : 1 ≤ m) (hm : bt.max_node_size = m) (hb : sizes_within bt m)
    (h : rl_btree_add_element bt k v = some (rv, b)) :
    b.max_node_size = m ∧ sizes_within b m := by
  unfold rl_btree_add_element at h
  cases hf : rl_btree_find_score bt k false (some (fun _ => none)) (some (fun _ => 0)) with
  | none => simp only [hf] at h; cases h
  | some r =>
    simp only [hf] at h
    by_cases hrv : r.retval ≠ RL_NOT_FOUND
    · rw [if_pos hrv] at h
      simp only [Option.some.injEq, Prod.mk.injEq] at h
      obtain ⟨_, e⟩ := h
      subst e
      exact ⟨hm, hb⟩
    · rw [if_neg hrv] at h
      cases hn : r.nodes with
      | none => simp only [hn] at h; cases h
      | some nodes =>
        cases hp : r.positions with
        | none => simp only [hn, hp] at h; cases h
        | some positions =>
          simp only [hn, hp] at h
          cases hl : add_levels nodes positions 0 bt.height
              { bt := bt, placed := false, score := k, value := v, child := none,
                node := none } with
          | none => rw [hl] at h; cases h
          | some st =>
            rw [hl] at h
            simp only at h
            obtain ⟨g1, g2⟩ := add_levels_sizes nodes positions 0 m bt.height _ st hm hb hl
            by_cases hpl : st.placed = true
            · simp only [hpl, if_true, Option.some.injEq, Prod.mk.injEq] at h
              obtain ⟨_, e⟩ := h
              subst e
              exact ⟨g1, g2⟩
            · simp only [hpl, Bool.false_eq_true, if_false, Option.some.injEq,
                Prod.mk.injEq] at h
              obtain ⟨_, e⟩ := h
              subst e
              exact ⟨g1, sizes_congr (sizes_insert g2 _ h1) rfl⟩

/-- The first loop of the removal leaves every registered node with at most
`max_node_size` keys when it hands over to the rebalance loop. -/
theorem delete_key_sizes (bt bt1 : rl_btree) (nodes nodes1 : Nat → Option Nat)
    (positions positions1 : Nat → Nat) (i i1 id m : Nat) (hm : bt.max_node_size = m)
    (hb : sizes_within bt m)
    (h : delete_key bt nodes positions i id =
      some (delete_result.done bt1 nodes1 positions1 i1)) :
    bt1.max_node_size = m ∧ sizes_within bt1 m := by
  unfold delete_key at h
  cases hs : select bt id with
  | none => simp only [hs] at h; cases h
  | some nd =>
    simp only [hs] at h
    cases hc : nd.children with
    | none =>
      simp only [hc, Option.some.injEq, delete_result.done.injEq] at h
      obtain ⟨e, _, _, _⟩ := h
      subst e
      have hsz := hb id nd hs
      exact ⟨hm, sizes_store hb _ _ (by simp only [remove_from_leaf]; omega)⟩
    | some ch =>
      simp only [hc] at h
      cases hd : descend bt (bt.height - 1 - i) i id nodes positions with
      | none => rw [hd] at h; cases h
      | some r =>
        obtain ⟨cid, n1, p1⟩ := r
        rw [hd] at h
        simp only at h
        cases hsc : select bt cid with
        | none => rw [hsc] at h; cases h
        | some child_node =>
          rw [hsc] at h
          simp only at h
          by_cases k1 : child_node.children.isSome = true
          · rw [if_pos k1] at h
            cases h
          rw [if_neg k1] at h
          by_cases k2 : child_node.size = 0
          · rw [if_pos k2] at h
            cases h
          rw [if_neg k2] at h
          have hcs := hb cid child_node hsc
          have g1 : sizes_within (store bt cid { child_node with size := child_node.size - 1 })
              m := sizes_store hb _ _ (by simp only; omega)
          cases hs1 : select (store bt cid { child_node with size := child_node.size - 1 })
              id with
          | none => rw [hs1] at h; cases h
          | some node1 =>
            rw [hs1] at h
            simp only at h
            have hn1 := g1 id node1 hs1
            rcases isSome_cases node1.values with hv | ⟨w, hv⟩
            · rw [hv] at h
              simp only [Option.some.injEq, delete_result.done.injEq] at h
              obtain ⟨e, _, _, _⟩ := h
              subst e
              exact ⟨hm, sizes_store g1 _ _ hn1⟩
            · rw [hv] at h
              simp only at h
              rcases isSome_cases child_node.values with hcv | ⟨cv, hcv⟩
              · rw [hcv] at h
                cases h
              · rw [hcv] at h
                simp only [hcv] at g1 hs1
                simp only [Option.some.injEq, delete_result.done.injEq] at h
                obtain ⟨e, _, _, _⟩ := h
                subst e
                exact ⟨hm, sizes_store g1 _ _ hn1⟩

/-- The first loop of the removal leaves the tree as it is when it ends with a
return code. -/
theorem delete_key_exit (bt bt1 : rl_btree) (nodes : Nat → Option Nat)
    (positions : Nat → Nat) (i id : Nat) (rv : rl_retval)
    (h : delete_key bt nodes positions i id = some (delete_result.exit rv bt1)) :
    bt1 = bt := by
  unfold delete_key at h
  cases hs : select bt id with
  | none => simp only [hs] at h; cases h
  | some nd =>
    simp only [hs] at h
    cases hc : nd.children with
    | none =>
      simp only [hc, Option.some.injEq] at h
      cases h
    | some ch =>
      simp only [hc] at h
      cases hd : descend bt (bt.height - 1 - i) i id nodes positions with
      | none => rw [hd] at h; cases h
      | some r =>
        obtain ⟨cid, n1, p1⟩ := r
        rw [hd] at h
        simp only at h
        cases hsc : select bt cid with
        | none => rw [hsc] at h; cases h
        | some child_node =>
          rw [hsc] at h
          simp only at h
          by_cases k1 : child_node.children.isSome = true
          · rw [if_pos k1] at h
            simp only [Option.some.injEq, delete_result.exit.injEq] at h
            exact h.2.symm
          rw [if_neg k1] at h
          by_cases k2 : child_node.size = 0
          · rw [if_pos k2] at h
            cases h
          rw [if_neg k2] at h
          cases hs1 : select (store bt cid { child_node with size := child_node.size - 1 })
              id with
          | none => rw [hs1] at h; cases h
          | some node1 =>
            rw [hs1] at h
            simp only at h
            rcases isSome_cases node1.values with hv | ⟨w, hv⟩
            · rw [hv] at h
              simp only [Option.some.injEq] at h
              cases h
            · rw [hv] at h
              simp only at h
              rcases isSome_cases child_node.values with hcv | ⟨cv, hcv⟩
              · rw [hcv] at h
                cases h
              · rw [hcv] at h
                simp only [Option.some.injEq] at h
                cases h

/-- One iteration of the rebalance loop leaves every registered node with at
most `max_node_size` keys. -/
theorem rebalance_level_sizes (nodes : Nat → Option Nat) (positions : Nat → Nat)
    (i m : Nat) (b : rl_btree) (res : rebalance_result) (hm : b.max_node_size = m)
    (hb : sizes_within b m) (h : rebalance_level nodes positions i b = some res) :
    (result_tree res).max_node_size = m ∧ sizes_within (result_tree res) m := by
  unfold rebalance_level at h
  cases hn : nodes i with
  | none => simp only [hn] at h; cases h
  | some id =>
  simp only [hn] at h
  cases hs : select b id with
  | none => simp only [hs] at h; cases h
  | some node =>
  simp only [hs] at h
  by_cases hi : i = 0
  · simp only [hi, if_true] at h
    by_cases hz : node.size = 0
    · simp only [hz, if_true, Option.some.injEq] at h
      subst h
      exact ⟨hm, sizes_congr hb rfl⟩
    · simp only [hz, if_false, Option.some.injEq] at h
      subst h
      exact ⟨hm, hb⟩
  simp only [hi, if_false, or_false] at h
  by_cases hbig : node.size ≥ b.max_node_size / 2
  · simp only [hbig, if_true, Option.some.injEq] at h
    subst h
    exact ⟨hm, hb⟩
  simp only [hbig, if_false] at h
  cases hpn : nodes (i - 1) with
  | none => simp only [hpn] at h; cases h
  | some pid =>
  simp only [hpn] at h
  cases hps : select b pid with
  | none => simp only [hps] at h; cases h
  | some parent =>
  simp only [hps] at h
  by_cases hz : parent.size = 0
  · simp only [hz, if_true, Option.some.injEq] at h
    subst h
    exact ⟨hm, hb⟩
  simp only [hz, if_false] at h
  cases hpc : parent.children with
  | none => simp only [hpc] at h; cases h
  | some pch =>
  simp only [hpc] at h
  have hnode := hb id node hs
  have hparent := hb pid parent hps
  have hhalf : b.max_node_size / 2 + b.max_node_size / 2 ≤ m := by omega
  have hbl : ∀ (sib : rl_btree_node) (r : rebalance_result), sib.size ≤ m →
      (match borrow_left node parent sib (positions (i - 1)) with
        | none => none
        | some (node1, parent1, sibling1) =>
          some (rebalance_result.stop RL_OK
            (store (store (store b (pch (positions (i - 1) - 1)) sibling1) pid parent1)
              id node1))) =
        some r → (result_tree r).max_node_size = m ∧ sizes_within (result_tree r) m := by
    intro sib r hsm hr
    cases hbo : borrow_left node parent sib (positions (i - 1)) with
    | none => rw [hbo] at hr; cases hr
    | some t =>
      obtain ⟨n1, p1, s1⟩ := t
      rw [hbo] at hr
      simp only [Option.some.injEq] at hr
      subst hr
      obtain ⟨f1, f2, f3⟩ := borrow_left_size _ _ _ _ _ _ _ hbo
      exact ⟨hm, sizes_store (sizes_store (sizes_store hb _ _ (by omega)) _ _ (by omega)) _ _
        (by omega)⟩
  have hbr : ∀ (sib : rl_btree_node) (r : rebalance_result), sib.size ≤ m →
      (match borrow_right node parent sib (positions (i - 1)) with
        | none => none
        | some (node1, parent1, sibling1) =>
          some (rebalance_result.stop RL_OK
            (store (store (store b (pch (positions (i - 1) + 1)) sibling1) pid parent1)
              id node1))) =
        some r → (result_tree r).max_node_size = m ∧ sizes_within (result_tree r) m := by
    intro sib r hsm hr
    cases hbo : borrow_right node parent sib (positions (i - 1)) with
    | none => rw [hbo] at hr; cases hr
    | some t =>
      obtain ⟨n1, p1, s1⟩ := t
      rw [hbo] at hr
      simp only [Option.some.injEq] at hr
      subst hr
      obtain ⟨f1, f2, f3⟩ := borrow_right_size _ _ _ _ _ _ _ hbo
      exact ⟨hm, sizes_store (sizes_store (sizes_store hb _ _ (by omega)) _ _ (by omega)) _ _
        (by omega)⟩
  have hml : ∀ (sib : rl_btree_node) (r : rebalance_result),
      ¬ sib.size > b.max_node_size / 2 →
      (match merge_left node parent sib pch (positions (i - 1)) with
        | none => none
        | some (parent1, sibling1) =>
          some (rebalance_result.next
            (rl_btree_node_destroy
              (remove (store (store b (pch (positions (i - 1) - 1)) sibling1) pid parent1) id)
              node.size none node.values))) =
        some r → (result_tree r).max_node_size = m ∧ sizes_within (result_tree r) m := by
    intro sib r hsm hr
    cases hbo : merge_left node parent sib pch (positions (i - 1)) with
    | none => rw [hbo] at hr; cases hr
    | some t =>
      obtain ⟨p1, s1⟩ := t
      rw [hbo] at hr
      simp only [Option.some.injEq] at hr
      subst hr
      have f1 := merge_left_size _ _ _ _ _ _ _ hbo
      have f2 := merge_left_parent_size _ _ _ _ _ _ _ hbo
      exact ⟨hm, sizes_congr (sizes_remove (sizes_store (sizes_store hb _ _ (by omega)) _ _
        (by omega)) _) rfl⟩
  have hmr : ∀ (sib : rl_btree_node) (r : rebalance_result),
      ¬ sib.size > b.max_node_size / 2 →
      (match merge_right node parent sib pch (positions (i - 1)) with
        | none => none
        | some (node1, parent1) =>
          some (rebalance_result.next
            (rl_btree_node_destroy
              (remove (store (store b id node1) pid parent1) (pch (positions (i - 1) + 1)))
              sib.size none sib.values))) =
        some r → (result_tree r).max_node_size = m ∧ sizes_within (result_tree r) m := by
    intro sib r hsm hr
    cases hbo : merge_right node parent sib pch (positions (i - 1)) with
    | none => rw [hbo] at hr; cases hr
    | some t =>
      obtain ⟨n1, p1⟩ := t
      rw [hbo] at hr
      simp only [Option.some.injEq] at hr
      subst hr
      have f1 := merge_right_size _ _ _ _ _ _ _ hbo
      have f2 := merge_right_parent_size _ _ _ _ _ _ _ hbo
      exact ⟨hm, sizes_congr (sizes_remove (sizes_store (sizes_store hb _ _ (by omega)) _ _
        (by omega)) _) rfl⟩
  by_cases h0 : positions (i - 1) > 0
  · simp only [h0, if_true] at h
    cases hl : select b (pch (positions (i - 1) - 1)) with
    | none =>
      rw [hl] at h
      simp only [Option.map_none'] at h
      cases h
    | some sib =>
      rw [hl] at h
      simp only [Option.map_some'] at h
      have hsib := hb _ sib hl
      by_cases hls : sib.size > b.max_node_size / 2
      · simp only [hls, if_true] at h
        exact hbl sib res hsib h
      · simp only [hls, if_false] at h
        by_cases hlt : positions (i - 1) < parent.size
        · simp only [hlt, if_true] at h
          cases hr : select b (pch (positions (i - 1) + 1)) with
          | none =>
            rw [hr] at h
            simp only [Option.map_none'] at h
            cases h
          | some rs =>
            rw [hr] at h
            simp only [Option.map_some'] at h
            by_cases hrs : rs.size > b.max_node_size / 2
            · simp only [hrs, if_true] at h
              exact hbr rs res (hb _ rs hr) h
            · simp only [hrs, if_false] at h
              exact hml sib res hls h
        · simp only [hlt, if_false] at h
          exact hml sib res hls h
  · simp only [h0, if_false] at h
    by_cases hlt : positions (i - 1) < parent.size
    · simp only [hlt, if_true] at h
      cases hr : select b (pch (positions (i - 1) + 1)) with
      | none =>
        rw [hr] at h
        simp only [Option.map_none'] at h
        cases h
      | some rs =>
        rw [hr] at h
        simp only [Option.map_some'] at h
        by_cases hrs : rs.size > b.max_node_size / 2
        · simp only [hrs, if_true] at h
          exact hbr rs res (hb _ rs hr) h
        · simp only [hrs, if_false] at h
          exact hmr rs res hrs h
    · simp only [hlt, if_false, Option.some.injEq] at h
      subst h
      exact ⟨hm, hb⟩

/-- The rebalance loop leaves every registered node with at most `max_node_size`
keys. -/
theorem rebalance_sizes (nodes : Nat → Option Nat) (positions : Nat → Nat) (lo m : Nat) :
    ∀ (n : Nat) (b : rl_btree) (res : rebalance_result), b.max_node_size = m →
      sizes_within b m → rebalance nodes positions lo n b = some res →
      (result_tree res).max_node_size = m ∧ sizes_within (result_tree res) m := by
  intro n
  induction n with
  | zero =>
    intro b res hm hb h
    simp only [rebalance, Option.some.injEq] at h
    subst h
    exact ⟨hm, hb⟩
  | succ n ih =>
    intro b res hm hb h
    simp only [rebalance] at h
    cases hl : rebalance_level nodes positions (lo + n) b with
    | none => rw [hl] at h; cases h
    | some r1 =>
      rw [hl] at h
      obtain ⟨g1, g2⟩ := rebalance_level_sizes nodes positions _ m b r1 hm hb hl
      cases r1 with
      | stop rv b1 =>
        simp only [Option.some.injEq] at h
        subst h
        exact ⟨g1, g2⟩
      | next b1 =>
        simp only at h
        exact ih b1 res g1 g2 h

/-- A call of `rl_btree_remove_element` that returns leaves every registered node
with at most `max_node_size` keys. -/
theorem remove_element_sizes (bt b : rl_btree) (k : Int) (rv : rl_retval) (m : Nat)
    (hm : bt.max_node_size = m) (hb : sizes_within bt m)
    (h : rl_btree_remove_element bt k = some (rv, b)) :
    b.max_node_size = m ∧ sizes_within b m := by
  unfold rl_btree_remove_element at h
  cases hf : rl_btree_find_score bt k false (some (fun _ => none)) (some (fun _ => 0)) with
  | none => simp only [hf] at h; cases h
  | some r =>
    simp only [hf] at h
    by_cases hrv : r.retval ≠ RL_FOUND
    · rw [if_pos hrv] at h
      simp only [Option.some.injEq, Prod.mk.injEq] at h
      obtain ⟨_, e⟩ := h
      subst e
      exact ⟨hm, hb⟩
    · rw [if_neg hrv] at h
      cases hn : r.nodes with
      | none => simp only [hn] at h; cases h
      | some nodes =>
        cases hp : r.positions with
        | none => simp only [hn, hp] at h; cases h
        | some positions =>
          simp only [hn, hp] at h
          cases hl : last_node nodes bt.height with
          | none =>
            simp only [hl, Option.some.injEq, Prod.mk.injEq] at h
            obtain ⟨_, e⟩ := h
            subst e
            exact ⟨hm, hb⟩
          | some t =>
            obtain ⟨i, id⟩ := t
            simp only [hl] at h
            cases hd : delete_key bt nodes positions i id with
            | none => rw [hd] at h; cases h
            | some dr =>
              rw [hd] at h
              cases dr with
              | exit rv1 bt1 =>
                simp only [Option.some.injEq, Prod.mk.injEq] at h
                obtain ⟨_, e⟩ := h
                subst e
                rw [delete_key_exit bt bt1 nodes positions i id rv1 hd]
                exact ⟨hm, hb⟩
              | done bt1 nodes1 positions1 i1 =>
                simp only at h
                obtain ⟨g1, g2⟩ := delete_key_sizes bt bt1 nodes nodes1 positions positions1 i
                  i1 id m hm hb hd
                cases hr : rebalance nodes1 positions1 0 (i1 + 1) bt1 with
                | none => rw [hr] at h; cases h
                | some res =>
                  rw [hr] at h
                  have g := rebalance_sizes nodes1 positions1 0 m (i1 + 1) bt1 res g1 g2 hr
                  cases res with
                  | stop rv2 bt2 =>
                    simp only [Option.some.injEq, Prod.mk.injEq] at h
                    obtain ⟨_, e⟩ := h
                    subst e
                    exact g
                  | next bt2 =>
                    simp only [Option.some.injEq, Prod.mk.injEq] at h
                    obtain ⟨_, e⟩ := h
                    subst e
                    exact g

/-- The registered nodes of a reachable tree hold at most `max_node_size`
keys. -/
theorem reachable_sizes (type : rl_btree_type) (m : Nat) (h1 : 1 ≤ m) (bt : rl_btree)
    (hr : reachable type m bt) : bt.max_node_size = m ∧ sizes_within bt m := by
  induction hr with
  | create =>
    refine ⟨rfl, ?_⟩
    intro x nd hx
    have e : nd.size = 0 := by
      simp only [rl_btree_create, insert, memory_accessor, select] at hx
      match x, hx with
      | 0, hx => simp at hx
      | 1, hx =>
        simp at hx
        subst hx
        rfl
      | n + 2, hx => simp at hx
    omega
  | add b b1 k v rv _ hadd ih =>
    exact add_element_sizes b b1 k v rv m h1 ih.1 ih.2 hadd
  | remove b b1 k rv _ hrem ih =>
    exact remove_element_sizes b b1 k rv m ih.1 ih.2 hrem

/-! ## Reachable trees: the fill of the nodes, and the tree after a drain -/

theorem flatten_none_of_select (bt : rl_btree) (id : Nat) (h : select bt id = none) :
    ∀ fuel, rl_flatten_btree_node bt fuel id = none := by
  intro fuel
  cases fuel <;> simp [rl_flatten_btree_node, h]

theorem mapM_option_none {α β : Type} (f : α → Option β) :
    ∀ (l : List α) (a : α), a ∈ l → f a = none → l.mapM f = none := by
  intro l
  induction l with
  | nil => intro a ha; cases ha
  | cons b l ih =>
    intro a ha hf
    rw [List.mapM_cons]
    rcases List.mem_cons.mp ha with e | e
    · subst e
      rw [hf]
      rfl
    · rw [ih a e hf]
      cases f b <;> rfl

/-- The traversal of `rl_flatten_btree_node` returns no key sequence for a node
that has a `children` array with an id, among its `size + 1` first, that selects
no node. -/
theorem flatten_none_of_child (bt : rl_btree) (fuel id : Nat) (nd : rl_btree_node)
    (ch : Nat → Nat) (i : Nat) (hs : select bt id = some nd) (hc : nd.children = some ch)
    (hi : i ≤ nd.size) (hn : select bt (ch i) = none) :
    rl_flatten_btree_node bt fuel id = none := by
  cases fuel with
  | zero => simp [rl_flatten_btree_node, hs, hc]
  | succ n =>
    simp only [rl_flatten_btree_node, hs, hc]
    cases i with
    | zero => rw [flatten_none_of_select bt _ hn n]
    | succ j =>
      cases rl_flatten_btree_node bt n (ch 0) with
      | none => rfl
      | some first =>
        simp only
        rw [mapM_option_none _ _ j (List.mem_range.mpr (by omega))
          (by rw [flatten_none_of_select bt _ hn n]; rfl)]

/-- C10: in every tree reachable from a freshly created tree with
`max_node_size = m`, `m >= 1`, by calls of `rl_btree_add_element` and
`rl_btree_remove_element` that return, every node registered with the accessor
holds at most `m` keys; so does every node of the tree, the root included. -/
theorem reachable_max_fill (type : rl_btree_type) (m : Nat) (bt : rl_btree)
    (hr : reachable type m bt) (h1 : 1 ≤ m) :
    bt.max_node_size = m ∧
    (∀ x nd, select bt x = some nd → nd.size ≤ m) ∧
    (∀ x ∈ bt.root :: ids bt bt.height bt.root, ∀ nd, select bt x = some nd → nd.size ≤ m) := by
  obtain ⟨g1, g2⟩ := reachable_sizes type m h1 bt hr
  exact ⟨g1, g2, fun x _ nd hx => g2 x nd hx⟩

/-- The tree that the calls add 1, remove 1, add 2 leave from a fresh set tree
with `max_node_size = 4` is reachable. -/
theorem reachable_max_fill_witness :
    (reachable long_set 4 drained_add ∧ 1 ≤ 4) ∧
    (drained_add.max_node_size = 4 ∧
      (∀ x nd, select drained_add x = some nd → nd.size ≤ 4) ∧
      (∀ x ∈ drained_add.root :: ids drained_add drained_add.height drained_add.root,
        ∀ nd, select drained_add x = some nd → nd.size ≤ 4)) :=
  ⟨⟨reachable_after_add long_set 4 _ 2 0 (reachable_after_remove long_set 4 _ 1
      (reachable_after_add long_set 4 _ 1 0 reachable.create)), by decide⟩,
    reachable_max_fill long_set 4 drained_add
      (reachable_after_add long_set 4 _ 2 0 (reachable_after_remove long_set 4 _ 1
        (reachable_after_add long_set 4 _ 1 0 reachable.create))) (by decide)⟩

/-- C7: a reachable tree on which `rl_flatten_btree` returns no key sequence.
From a freshly created set tree with `max_node_size = 4` the calls add 1,
remove 1, add 2 all return `RL_OK`.  The removal of the last key leaves the
height 0, so in the last call the main loop does not run and the new root is
built over a NULL old root and the child -1: the tree has height 1 and its root
holds the key 2 over the child ids 0 and -1, neither of which selects a node.
`rl_flatten_btree_node` follows the `children` of every node that has them, so
it calls itself on the NULL that `select` yields and returns no sequence,
whatever the recursion depth allowed and whatever id stands in slot 0 of the
root's `children`; a removal of the key 2 returns the code 1 of the branch "last
child_node mustn't have children" and leaves the key in the tree. -/
theorem drained_tree_has_no_flatten :
    reachable long_set 4 drained_add ∧
    (rl_btree_add_element fresh_set 1 0).map Prod.fst = some RL_OK ∧
    (rl_btree_remove_element (after_add fresh_set 1 0) 1).map
      (fun r => (r.1, r.2.height)) = some (RL_OK, 0) ∧
    (rl_btree_add_element (after_remove (after_add fresh_set 1 0) 1) 2 0).map Prod.fst =
      some RL_OK ∧
    drained_add.height = 1 ∧
    (select drained_add drained_add.root).map node_fields =
      some (1, [2], none, some [0, minus_one]) ∧
    (select drained_add 0).isNone = true ∧ (select drained_add minus_one).isNone = true ∧
    (∀ fuel, rl_flatten_btree fuel drained_add = none) ∧
    (∀ u fuel, rl_flatten_btree fuel (drained_add_at u) = none) ∧
    (rl_btree_remove_element drained_add 2).map Prod.fst = some (literal 1) ∧
    (rl_btree_remove_element drained_add 2).bind
      (fun r => (select r.2 r.2.root).map node_fields) =
      some (1, [2], none, some [0, minus_one]) := by
  have f1 : (select drained_add drained_add.root).bind
      (fun nd => nd.children.map (fun c => c 1)) = some minus_one := by decide
  have f2 : (select drained_add drained_add.root).map (fun nd => nd.size) = some 1 := by
    decide
  have f3 : (select drained_add minus_one).isNone = true := by decide
  have f4 : drained_add.root ≠ minus_one := by decide
  have hm : select drained_add minus_one = none := Option.isNone_iff_eq_none.mp f3
  refine ⟨reachable_after_add long_set 4 _ 2 0 (reachable_after_remove long_set 4 _ 1
      (reachable_after_add long_set 4 _ 1 0 reachable.create)), by decide, by decide,
    by decide, by decide, by decide, by decide, f3, ?_, ?_, by decide, by decide⟩
  · intro fuel
    cases hs : select drained_add drained_add.root with
    | none => rw [hs] at f2; cases f2
    | some nd =>
      rw [hs] at f1 f2
      simp only [Option.map_some', Option.some.injEq] at f2
      simp only [Option.some_bind] at f1
      cases hc : nd.children with
      | none => rw [hc] at f1; cases f1
      | some ch =>
        rw [hc] at f1
        simp only [Option.map_some', Option.some.injEq] at f1
        exact flatten_none_of_child drained_add fuel _ nd ch 1 hs hc (by omega)
          (by rw [f1]; exact hm)
  · intro u fuel
    cases hs : select drained_add drained_add.root with
    | none => rw [hs] at f2; cases f2
    | some nd =>
      rw [hs] at f1 f2
      simp only [Option.map_some', Option.some.injEq] at f2
      simp only [Option.some_bind] at f1
      cases hc : nd.children with
      | none => rw [hc] at f1; cases f1
      | some ch =>
        rw [hc] at f1
        simp only [Option.map_some', Option.some.injEq] at f1
        have hd : drained_add_at u = store drained_add drained_add.root
            { nd with children := nd.children.map (fun c => aset c 0 u) } := by
          unfold drained_add_at
          rw [hs]
        rw [hd]
        refine flatten_none_of_child _ fuel _
          { nd with children := nd.children.map (fun c => aset c 0 u) } (aset ch 0 u) 1
          (select_store_same hs _) (by rw [hc]; rfl) (by simp only; omega) ?_
        have e : aset ch 0 u 1 = minus_one := by
          simp only [aset]
          rw [if_neg (by omega)]
          exact f1
        rw [e, select_store_ne _ _ _ _ (Ne.symm f4)]
        exact hm

end Rlite
